import Mathlib

/-!
# Ctrie (`trie/ctrie/ctrie.go`): shallow embedding and verification

The embedding follows the Go source function by function.  The sorted entry slices of the
y-fast trie (`trie/yfast/entries.go`) are embedded the same way in the namespace `yfast`.

* Machine integers are naturals; `uint32` / `uint64` results that can leave their range are
  reduced explicitly (`% 2 ^ 32`, `% 2 ^ 64`).
* The heap is a tree: every `iNode` is referenced from exactly one slot of one `cNode` array
  (or from `Ctrie.root`), so an `iNode` is represented by the main node its `main` pointer
  currently holds, and a successful compare-and-swap on `i.main` is the replacement of that
  main node.  Execution is sequential, hence every compare-and-swap succeeds and the `ok`
  result of `iinsert` / `ilookup` / `iremove` (constantly `true`) is left out.
* A Go run-time panic (index out of range) is the result `none`.
-/

namespace ctrie

/-! ## Data model -/

/-- The constant `w` of the source: number of hash bits consumed per level. -/
def w : Nat := 5

/-- The constant `exp2` of the source. -/
def exp2 : Nat := 32

/-- Keys are `[]byte`; a byte is a natural number. -/
abbrev Key := List Nat

/-- Values are `interface{}`: either `nil` or some object, identified by a number. -/
inductive Value where
  | nil
  | obj (id : Nat)
deriving DecidableEq, Repr

/-- The struct `entry`. -/
structure Entry where
  key : Key
  hash : Nat
  value : Value
deriving DecidableEq, Repr

mutual
/-- The struct `mainNode`: exactly one of `cNode`, `tNode`, `lNode` is set.  A `cNode` is its
bitmap and its branch array; a `tNode` wraps an `sNode`, that is an entry; an `lNode` is the
linked list of its `sn` fields. -/
inductive MainNode where
  | cNode (bmp : Nat) (array : List Branch)
  | tNode (sn : Entry)
  | lNode (sns : List Entry)
/-- The interface `branch`: an `iNode` (represented by its current main node) or an `sNode`
(a wrapped entry). -/
inductive Branch where
  | iNode (main : MainNode)
  | sNode (sn : Entry)
end

/-- The struct `cNode`. -/
structure CNode where
  bmp : Nat
  array : List Branch

/-- The main node `&mainNode{cNode: c}`. -/
def CNode.toMain (c : CNode) : MainNode := .cNode c.bmp c.array

/-- Whether `main.tNode != nil`. -/
def MainNode.isTNode : MainNode → Bool
  | .tNode _ => true
  | _ => false

mutual
/-- Height of a main node: the number of nested `cNode`s; the termination measure of the
recursive descents. -/
def MainNode.depth : MainNode → Nat
  | .cNode _ array => Branch.depthList array + 1
  | .tNode _ => 0
  | .lNode _ => 0
/-- Largest height among the branches of an array. -/
def Branch.depthList : List Branch → Nat
  | [] => 0
  | b :: bs => max (Branch.depth b) (Branch.depthList bs)
/-- Height of a branch. -/
def Branch.depth : Branch → Nat
  | .iNode main => MainNode.depth main
  | .sNode _ => 0
end

/-! ## Bit arithmetic -/

/-- The function `bitCount`, in `uint32` arithmetic. -/
def bitCount (x : Nat) : Nat :=
  let x := (((x >>> 1) &&& 0x55555555) + (x &&& 0x55555555)) % 2 ^ 32
  let x := (((x >>> 2) &&& 0x33333333) + (x &&& 0x33333333)) % 2 ^ 32
  let x := (((x >>> 4) &&& 0x0f0f0f0f) + (x &&& 0x0f0f0f0f)) % 2 ^ 32
  let x := (((x >>> 8) &&& 0x00ff00ff) + (x &&& 0x00ff00ff)) % 2 ^ 32
  (((x >>> 16) &&& 0x0000ffff) + (x &&& 0x0000ffff)) % 2 ^ 32

/-- The function `flagPos`: returns `(flag, pos)`. -/
def flagPos (hashcode : Nat) (lev : Nat) (bmp : Nat) : Nat × Nat :=
  let idx := (hashcode >>> lev) &&& 0x1f
  let flag := (1 <<< (idx % 2 ^ 32)) % 2 ^ 32
  let mask := (flag + 2 ^ 32 - 1) % 2 ^ 32
  let pos := bitCount (bmp &&& mask)
  (flag, pos)

/-! ## Copy-on-write operations on a `cNode` -/

/-- The `for` loops of `inserted` and `removed`: `n` iterations from index `i`, each doing
`array[i + d] = src[i + s]` and `i++` on a `uint32` index.  Slots of `array` not yet written
hold `none` (a nil interface). -/
def copyLoop (src : List Branch) (s d : Nat) :
    Nat → Nat → List (Option Branch) → Option (List (Option Branch))
  | 0, _, array => some array
  | n + 1, i, array =>
    match src[(i + s) % 2 ^ 32]? with
    | none => none
    | some b =>
      if (i + d) % 2 ^ 32 < array.length then
        copyLoop src s d n ((i + 1) % 2 ^ 32) (array.set ((i + d) % 2 ^ 32) (some b))
      else none

/-- Reading back a freshly built array: every slot has to hold a branch. -/
def unslot : List (Option Branch) → Option (List Branch)
  | [] => some []
  | none :: _ => none
  | some b :: rest => (unslot rest).map (b :: ·)

/-- The method `cNode.inserted`. -/
def CNode.inserted (c : CNode) (pos flag : Nat) (br : Branch) : Option CNode :=
  let length := c.array.length % 2 ^ 32
  let bmp := c.bmp
  let array : List (Option Branch) := List.replicate ((length + 1) % 2 ^ 32) none
  match copyLoop c.array 0 0 pos 0 array with
  | none => none
  | some array =>
    if pos < array.length then
      let array := array.set pos (some br)
      match copyLoop c.array 0 1 ((length + 2 ^ 32 - pos) % 2 ^ 32) pos array with
      | none => none
      | some array => (unslot array).map fun a => { bmp := bmp ||| flag, array := a }
    else none

/-- The method `cNode.updated`: the `range` loop copies the array, then slot `pos` is
overwritten. -/
def CNode.updated (c : CNode) (pos : Nat) (br : Branch) : Option CNode :=
  let array := c.array
  if pos < array.length then some { bmp := c.bmp, array := array.set pos br } else none

/-- The method `cNode.removed`. -/
def CNode.removed (c : CNode) (pos flag : Nat) : Option CNode :=
  let length := c.array.length % 2 ^ 32
  let bmp := c.bmp
  let array : List (Option Branch) := List.replicate ((length + 2 ^ 32 - 1) % 2 ^ 32) none
  match copyLoop c.array 0 0 pos 0 array with
  | none => none
  | some array =>
    match copyLoop c.array 1 0 ((length + 2 * 2 ^ 32 - pos - 1) % 2 ^ 32) pos array with
    | none => none
    | some array => (unslot array).map fun a => { bmp := bmp ^^^ flag, array := a }

/-- The method `tNode.untombed`: a fresh `sNode` with the same key, hash and value. -/
def untombed (t : Entry) : Entry :=
  { key := t.key, hash := t.hash, value := t.value }

/-- The function `newMainNode`. -/
@[semireducible] def newMainNode (x : Entry) (xhc : Nat) (y : Entry) (yhc : Nat) (lev : Nat) :
    MainNode :=
  if lev < 35 then
    let xidx := (xhc >>> lev) &&& 0x1f
    let yidx := (yhc >>> lev) &&& 0x1f
    let bmp := ((1 <<< xidx) ||| (1 <<< yidx)) % 2 ^ 32
    if xidx = yidx then
      let main := newMainNode x xhc y yhc (lev + w)
      .cNode bmp [.iNode main]
    else if xidx < yidx then
      .cNode bmp [.sNode x, .sNode y]
    else
      .cNode bmp [.sNode y, .sNode x]
  else
    .lNode [x, y]
termination_by 35 - lev
decreasing_by simp only [w]; omega

/-! ## The trie operations -/

/-- A branch read from an array is no higher than the array: the descents terminate. -/
theorem Branch.depth_le_of_getElem? {array : List Branch} {pos : Nat} {b : Branch}
    (h : array[pos]? = some b) : b.depth ≤ Branch.depthList array := by
  induction array generalizing pos with
  | nil => simp at h
  | cons a rest ih =>
    cases pos with
    | zero =>
      simp only [List.getElem?_cons_zero, Option.some.injEq] at h
      subst h
      simp [Branch.depthList]
    | succ p =>
      simp only [List.getElem?_cons_succ] at h
      have := ih h
      simp only [Branch.depthList]
      omega

/-- The function `toContracted`. -/
def toContracted (cn : CNode) (lev : Nat) : MainNode :=
  if lev > 0 ∧ cn.array.length = 1 then
    match cn.array[0]? with
    | some (Branch.sNode sn) => MainNode.tNode sn
    | _ => cn.toMain
  else cn.toMain

/-- The function `resurrect`: `iNode` is the branch, `main` the main node it holds. -/
def resurrect (iNode : Branch) (main : MainNode) : Branch :=
  match main with
  | .tNode t => .sNode (untombed t)
  | _ => iNode

/-- The function `cleanParent(p, i, hc, lev)`, as a function of the main node of `p`; the
result is the main node of `p` afterwards.  In sequential execution the branch of `p` at the
position of `hc` is the `iNode` the caller descended through, so the pointer test `sub == i`
is the test that this branch is an `iNode`, and `main` is the main node it holds. -/
def cleanParent (pMain : MainNode) (hc : Nat) (lev : Nat) : Option MainNode :=
  match pMain with
  | .cNode bmp array =>
    let (flag, pos) := flagPos hc lev bmp
    if bmp &&& flag ≠ 0 then
      match array[pos]? with
      | none => none
      | some (.iNode main) =>
        if main.isTNode then
          match CNode.updated ⟨bmp, array⟩ pos (resurrect (.iNode main) main) with
          | none => none
          | some ncn => some (toContracted ncn lev)
        else some pMain
      | some (.sNode _) => some pMain
    else some pMain
  | _ => some pMain

set_option linter.unusedVariables false in
/-- The function `ilookup(i, entry, lev, parent)` on the main node of `i`; the result is
`(value, exists)`. -/
@[semireducible] def ilookup (main : MainNode) (entry : Entry) (lev : Nat) :
    Option (Value × Bool) :=
  match main with
  | .cNode bmp array =>
    if bmp &&& (flagPos entry.hash lev bmp).1 = 0 then
      some (Value.nil, false)
    else
      match h : array[(flagPos entry.hash lev bmp).2]? with
      | none => none
      | some (.iNode im) => ilookup im entry (lev + w)
      | some (.sNode sn) =>
        if sn.key = entry.key then some (sn.value, true) else some (Value.nil, false)
  | .tNode _ => some (Value.nil, false)
  | .lNode _ => some (Value.nil, false)
termination_by main.depth
decreasing_by
  have := Branch.depth_le_of_getElem? h
  simp only [Branch.depth, MainNode.depth] at this ⊢
  omega

set_option linter.unusedVariables false in
/-- The function `iinsert(i, entry, lev, parent)` on the main node of `i`; the result is the
main node of `i` afterwards.  When the branch is an `iNode` the array of `i` is not written:
the slot still refers to the same `iNode`, which now holds the main node the recursive call
installed. -/
@[semireducible] def iinsert (main : MainNode) (entry : Entry) (lev : Nat) :
    Option MainNode :=
  match main with
  | .cNode bmp array =>
    if bmp &&& (flagPos entry.hash lev bmp).1 = 0 then
      (CNode.inserted ⟨bmp, array⟩ (flagPos entry.hash lev bmp).2 (flagPos entry.hash lev bmp).1
        (.sNode entry)).map CNode.toMain
    else
      match h : array[(flagPos entry.hash lev bmp).2]? with
      | none => none
      | some (.iNode im) =>
        match iinsert im entry (lev + w) with
        | none => none
        | some im2 => some (.cNode bmp (array.set (flagPos entry.hash lev bmp).2 (.iNode im2)))
      | some (.sNode sn) =>
        if sn.key ≠ entry.key then
          let nsn := entry
          let nin := Branch.iNode (newMainNode sn sn.hash nsn nsn.hash (lev + w))
          (CNode.updated ⟨bmp, array⟩ (flagPos entry.hash lev bmp).2 nin).map CNode.toMain
        else
          (CNode.updated ⟨bmp, array⟩ (flagPos entry.hash lev bmp).2 (.sNode entry)).map
            CNode.toMain
  | .tNode _ => some main
  | .lNode _ => some main
termination_by main.depth
decreasing_by
  have := Branch.depth_le_of_getElem? h
  simp only [Branch.depth, MainNode.depth] at this ⊢
  omega

/-- What a call `iremove(i, entry, lev, parent)` leaves behind: the main node of `i`, the
returned `(value, exists)`, and in `clean` the arguments `(hc, lev)` of the call
`cleanParent(parent, i, hc, lev)` it made, if it made one; that call writes the main node of
`parent`, which belongs to the caller. -/
structure Removal where
  main : MainNode
  value : Value
  found : Bool
  clean : Option (Nat × Nat)

set_option linter.unusedVariables false in
/-- The function `iremove(i, entry, lev, parent)` on the main node of `i`; `parent` says
whether `parent != nil`. -/
@[semireducible] def iremove (main : MainNode) (entry : Entry) (lev : Nat) (parent : Bool) :
    Option Removal :=
  match main with
  | .cNode bmp array =>
    if bmp &&& (flagPos entry.hash lev bmp).1 = 0 then
      some ⟨main, Value.nil, false, none⟩
    else
      match h : array[(flagPos entry.hash lev bmp).2]? with
      | none => none
      | some (.iNode im) =>
        match iremove im entry (lev + w) true with
        | none => none
        | some r =>
          let pMain := MainNode.cNode bmp (array.set (flagPos entry.hash lev bmp).2 (.iNode r.main))
          match r.clean with
          | none => some ⟨pMain, r.value, r.found, none⟩
          | some (hc, plev) =>
            match cleanParent pMain hc plev with
            | none => none
            | some pm => some ⟨pm, r.value, r.found, none⟩
      | some (.sNode sn) =>
        if sn.key ≠ entry.key then
          some ⟨main, Value.nil, false, none⟩
        else
          match CNode.removed ⟨bmp, array⟩ (flagPos entry.hash lev bmp).2
              (flagPos entry.hash lev bmp).1 with
          | none => none
          | some ncn =>
            let cntr := toContracted ncn lev
            if parent && cntr.isTNode then
              some ⟨cntr, sn.value, true, some (entry.hash, lev - w)⟩
            else
              some ⟨cntr, sn.value, true, none⟩
  | .tNode _ => some ⟨main, Value.nil, false, none⟩
  | .lNode _ => some ⟨main, Value.nil, false, none⟩
termination_by main.depth
decreasing_by
  have := Branch.depth_le_of_getElem? h
  simp only [Branch.depth, MainNode.depth] at this ⊢
  omega

/-! ## The public interface -/

/-- The hash `fnv.New64a()` of the Go standard library (FNV-1a, 64 bit), which `New` installs. -/
def fnv64a (k : Key) : Nat :=
  k.foldl (fun h b => ((h ^^^ (b % 256)) * 1099511628211) % 2 ^ 64) 14695981039346656037

/-- The struct `Ctrie`: `root` is the main node held by the root `iNode`, `h` the hash. -/
structure Ctrie where
  root : MainNode
  h : Key → Nat

/-- The function `New`. -/
def New : Ctrie := { root := .cNode 0 [], h := fnv64a }

/-- The method `SetHash`. -/
def Ctrie.SetHash (c : Ctrie) (hash : Key → Nat) : Ctrie := { c with h := hash }

/-- The method `hash`: the 64-bit sum of the key. -/
def Ctrie.hash (c : Ctrie) (k : Key) : Nat := c.h k % 2 ^ 64

/-- The method `insert`: `iinsert` from the root at level 0 without parent. -/
def Ctrie.insert (c : Ctrie) (entry : Entry) : Option Ctrie :=
  (iinsert c.root entry 0).map fun m => { c with root := m }

/-- The method `lookup`. -/
def Ctrie.lookup (c : Ctrie) (entry : Entry) : Option (Value × Bool) :=
  ilookup c.root entry 0

/-- The method `remove`: the trie afterwards and the returned `(value, exists)`. -/
def Ctrie.remove (c : Ctrie) (entry : Entry) : Option (Ctrie × (Value × Bool)) :=
  (iremove c.root entry 0 false).map fun r => ({ c with root := r.main }, (r.value, r.found))

/-- The method `Insert`. -/
def Ctrie.Insert (c : Ctrie) (key : Key) (value : Value) : Option Ctrie :=
  c.insert { key := key, hash := c.hash key, value := value }

/-- The method `Lookup`. -/
def Ctrie.Lookup (c : Ctrie) (key : Key) : Option (Value × Bool) :=
  c.lookup { key := key, hash := c.hash key, value := Value.nil }

/-- The method `Remove`. -/
def Ctrie.Remove (c : Ctrie) (key : Key) : Option (Ctrie × (Value × Bool)) :=
  c.remove { key := key, hash := c.hash key, value := Value.nil }
/-! ## Compression -/

/-- The loop of `toCompressed`: `n` iterations from index `i`, each storing into `tmpArray[i]`
the result of `resurrect` for an `iNode` and the branch itself for an `sNode`.  Slots of
`tmpArray` not yet written hold `none` (a nil interface); `none` as a result is an index out
of range. -/
def compressLoop (arr : List Branch) :
    Nat → Nat → List (Option Branch) → Option (List (Option Branch))
  | 0, _, tmpArray => some tmpArray
  | n + 1, i, tmpArray =>
    match arr[i]? with
    | none => none
    | some (.iNode main) =>
      if i < tmpArray.length then
        compressLoop arr n (i + 1) (tmpArray.set i (some (resurrect (.iNode main) main)))
      else none
    | some (.sNode sn) =>
      if i < tmpArray.length then
        compressLoop arr n (i + 1) (tmpArray.set i (some (.sNode sn)))
      else none

/-- The function `toCompressed`; `none` is an index out of range. -/
def toCompressed (cn : CNode) (lev : Nat) : Option MainNode :=
  let bmp := cn.bmp
  let arr := cn.array
  let tmpArray : List (Option Branch) := List.replicate arr.length none
  match compressLoop arr arr.length 0 tmpArray with
  | none => none
  | some tmpArray => (unslot tmpArray).map fun a => toContracted { bmp := bmp, array := a } lev

/-- The function `clean(i, lev)`, as a function of the main node of `i`; the result is the main
node of `i` afterwards. -/
def clean (main : MainNode) (lev : Nat) : Option MainNode :=
  match main with
  | .cNode bmp array => toCompressed ⟨bmp, array⟩ lev
  | _ => some main

/-- The function `newMainNode` with a budget of nested recursive calls: every recursive call
takes one unit of `fuel`, and `none` is a call that was needed with no unit left. -/
def newMainNodeFuel (fuel : Nat) (x : Entry) (xhc : Nat) (y : Entry) (yhc : Nat) (lev : Nat) :
    Option MainNode :=
  if lev < 35 then
    let xidx := (xhc >>> lev) &&& 0x1f
    let yidx := (yhc >>> lev) &&& 0x1f
    let bmp := ((1 <<< xidx) ||| (1 <<< yidx)) % 2 ^ 32
    if xidx = yidx then
      match fuel with
      | 0 => none
      | fuel + 1 =>
        match newMainNodeFuel fuel x xhc y yhc (lev + w) with
        | none => none
        | some main => some (.cNode bmp [.iNode main])
    else if xidx < yidx then
      some (.cNode bmp [.sNode x, .sNode y])
    else
      some (.cNode bmp [.sNode y, .sNode x])
  else
    some (.lNode [x, y])


/-! ## The data model with nil fields and untyped branches

The Go declarations allow more states than the ones `MainNode` and `Branch` describe: each of
the three fields of a `mainNode` may be nil or not, independently, and a `branch` is an empty
interface.  The definitions of this section embed the same functions over that wider state
space, with the `panic("Ctrie is in an invalid state")` branches of the source. -/

mutual
/-- The struct `mainNode` as declared: three pointer fields, each nil (`none`) or set. -/
inductive RawMain where
  | mk (cNode : Option RawCNode) (tNode : Option Entry) (lNode : Option (List Entry))
/-- The struct `cNode` over raw branches. -/
inductive RawCNode where
  | mk (bmp : Nat) (array : List RawBranch)
/-- A value of the interface `branch`: an `*iNode` (represented by its current main node), an
`*sNode`, or a value of any other dynamic type, nil included. -/
inductive RawBranch where
  | iNode (main : RawMain)
  | sNode (sn : Entry)
  | other
end

/-- The field `cNode` of a raw main node. -/
def RawMain.cNode : RawMain → Option RawCNode
  | .mk c _ _ => c

/-- The field `tNode` of a raw main node. -/
def RawMain.tNode : RawMain → Option Entry
  | .mk _ t _ => t

/-- The field `lNode` of a raw main node. -/
def RawMain.lNode : RawMain → Option (List Entry)
  | .mk _ _ l => l

/-- The field `bmp` of a raw `cNode`. -/
def RawCNode.bmp : RawCNode → Nat
  | .mk bmp _ => bmp

/-- The field `array` of a raw `cNode`. -/
def RawCNode.array : RawCNode → List RawBranch
  | .mk _ array => array

/-- The main node `&mainNode{cNode: c}`. -/
def RawCNode.toMain (c : RawCNode) : RawMain := .mk (some c) none none

/-- The two ways a call can stop with a panic: the explicit
`panic("Ctrie is in an invalid state")` and the run-time panic of an index out of range. -/
inductive Panic where
  | invalidState
  | indexOutOfRange
deriving DecidableEq, Repr

/-- A result of the typed embedding as a result of the raw one: `none` is the run-time panic
of an index out of range. -/
def liftRun {α : Type} : Option α → Except Panic α
  | none => .error .indexOutOfRange
  | some a => .ok a

mutual
/-- Height of a raw main node: the termination measure of the raw descents. -/
def RawMain.depth : RawMain → Nat
  | .mk c _ _ => RawCNode.depthOpt c
/-- Height below a `cNode` field. -/
def RawCNode.depthOpt : Option RawCNode → Nat
  | none => 0
  | some c => RawCNode.depth c
/-- Height of a raw `cNode`. -/
def RawCNode.depth : RawCNode → Nat
  | .mk _ array => RawBranch.depthList array + 1
/-- Largest height among the raw branches of an array. -/
def RawBranch.depthList : List RawBranch → Nat
  | [] => 0
  | b :: bs => max (RawBranch.depth b) (RawBranch.depthList bs)
/-- Height of a raw branch. -/
def RawBranch.depth : RawBranch → Nat
  | .iNode main => RawMain.depth main
  | .sNode _ => 0
  | .other => 0
end

mutual
/-- The raw main node that represents a main node: exactly one field is set. -/
def MainNode.raw : MainNode → RawMain
  | .cNode bmp array => .mk (some (.mk bmp (Branch.rawList array))) none none
  | .tNode sn => .mk none (some sn) none
  | .lNode sns => .mk none none (some sns)
/-- The raw branches that represent the branches of an array. -/
def Branch.rawList : List Branch → List RawBranch
  | [] => []
  | b :: bs => Branch.raw b :: Branch.rawList bs
/-- The raw branch that represents a branch. -/
def Branch.raw : Branch → RawBranch
  | .iNode main => .iNode (MainNode.raw main)
  | .sNode sn => .sNode sn
end

/-- The raw `cNode` that represents a `cNode`. -/
def CNode.raw (c : CNode) : RawCNode := .mk c.bmp (Branch.rawList c.array)

/-- The `for` loops of `inserted` and `removed` over raw branches. -/
def rawCopyLoop (src : List RawBranch) (s d : Nat) :
    Nat → Nat → List (Option RawBranch) → Option (List (Option RawBranch))
  | 0, _, array => some array
  | n + 1, i, array =>
    match src[(i + s) % 2 ^ 32]? with
    | none => none
    | some b =>
      if (i + d) % 2 ^ 32 < array.length then
        rawCopyLoop src s d n ((i + 1) % 2 ^ 32) (array.set ((i + d) % 2 ^ 32) (some b))
      else none

/-- Reading back a freshly built raw array: every slot has to hold a branch. -/
def rawUnslot : List (Option RawBranch) → Option (List RawBranch)
  | [] => some []
  | none :: _ => none
  | some b :: rest => (rawUnslot rest).map (b :: ·)

/-- The method `cNode.inserted` over raw branches; `none` is an index out of range. -/
def RawCNode.inserted (c : RawCNode) (pos flag : Nat) (br : RawBranch) : Option RawCNode :=
  let length := c.array.length % 2 ^ 32
  let bmp := c.bmp
  let array : List (Option RawBranch) := List.replicate ((length + 1) % 2 ^ 32) none
  match rawCopyLoop c.array 0 0 pos 0 array with
  | none => none
  | some array =>
    if pos < array.length then
      let array := array.set pos (some br)
      match rawCopyLoop c.array 0 1 ((length + 2 ^ 32 - pos) % 2 ^ 32) pos array with
      | none => none
      | some array => (rawUnslot array).map fun a => RawCNode.mk (bmp ||| flag) a
    else none

/-- The method `cNode.updated` over raw branches; `none` is an index out of range. -/
def RawCNode.updated (c : RawCNode) (pos : Nat) (br : RawBranch) : Option RawCNode :=
  let array := c.array
  if pos < array.length then some (RawCNode.mk c.bmp (array.set pos br)) else none

/-- The method `cNode.removed` over raw branches; `none` is an index out of range. -/
def RawCNode.removed (c : RawCNode) (pos flag : Nat) : Option RawCNode :=
  let length := c.array.length % 2 ^ 32
  let bmp := c.bmp
  let array : List (Option RawBranch) := List.replicate ((length + 2 ^ 32 - 1) % 2 ^ 32) none
  match rawCopyLoop c.array 0 0 pos 0 array with
  | none => none
  | some array =>
    match rawCopyLoop c.array 1 0 ((length + 2 * 2 ^ 32 - pos - 1) % 2 ^ 32) pos array with
    | none => none
    | some array => (rawUnslot array).map fun a => RawCNode.mk (bmp ^^^ flag) a

/-- The function `newMainNode` over raw main nodes. -/
@[semireducible] def rawNewMainNode (x : Entry) (xhc : Nat) (y : Entry) (yhc : Nat)
    (lev : Nat) : RawMain :=
  if lev < 35 then
    let xidx := (xhc >>> lev) &&& 0x1f
    let yidx := (yhc >>> lev) &&& 0x1f
    let bmp := ((1 <<< xidx) ||| (1 <<< yidx)) % 2 ^ 32
    if xidx = yidx then
      let main := rawNewMainNode x xhc y yhc (lev + w)
      .mk (some (.mk bmp [.iNode main])) none none
    else if xidx < yidx then
      .mk (some (.mk bmp [.sNode x, .sNode y])) none none
    else
      .mk (some (.mk bmp [.sNode y, .sNode x])) none none
  else
    .mk none none (some [x, y])
termination_by 35 - lev
decreasing_by simp only [w]; omega

/-- The function `toContracted` over raw main nodes: the type switch on the single branch has
a `default` case that keeps the `cNode`. -/
def rawToContracted (cn : RawCNode) (lev : Nat) : RawMain :=
  if lev > 0 ∧ cn.array.length = 1 then
    match cn.array[0]? with
    | some (RawBranch.sNode sn) => RawMain.mk none (some sn) none
    | _ => cn.toMain
  else cn.toMain

/-- The function `resurrect` over raw main nodes: the test is `main.tNode != nil`. -/
def rawResurrect (iNode : RawBranch) (main : RawMain) : RawBranch :=
  match main.tNode with
  | some t => .sNode (untombed t)
  | none => iNode

/-- The loop of `toCompressed`: every `iNode` is passed through `resurrect`, every `sNode` is
kept, and any other branch is the invalid state. -/
def rawCompressLoop : List RawBranch → Except Panic (List RawBranch)
  | [] => .ok []
  | .iNode main :: rest =>
    match rawCompressLoop rest with
    | .error p => .error p
    | .ok tmp => .ok (rawResurrect (.iNode main) main :: tmp)
  | .sNode sn :: rest =>
    match rawCompressLoop rest with
    | .error p => .error p
    | .ok tmp => .ok (.sNode sn :: tmp)
  | .other :: _ => .error .invalidState

/-- The function `toCompressed` over raw main nodes. -/
def rawToCompressed (cn : RawCNode) (lev : Nat) : Except Panic RawMain :=
  match rawCompressLoop cn.array with
  | .error p => .error p
  | .ok tmpArray => .ok (rawToContracted (RawCNode.mk cn.bmp tmpArray) lev)

/-- The function `cleanParent` over raw main nodes, as a function of the main node of `p`;
`none` is an index out of range.  As in `cleanParent`, the pointer test `sub == i` is the test
that the branch is an `iNode`. -/
def rawCleanParent (pMain : RawMain) (hc : Nat) (lev : Nat) : Option RawMain :=
  match pMain.cNode with
  | some (.mk bmp array) =>
    let (flag, pos) := flagPos hc lev bmp
    if bmp &&& flag ≠ 0 then
      match array[pos]? with
      | none => none
      | some (.iNode main) =>
        if main.tNode.isSome then
          match RawCNode.updated (.mk bmp array) pos (rawResurrect (.iNode main) main) with
          | none => none
          | some ncn => some (rawToContracted ncn lev)
        else some pMain
      | some _ => some pMain
    else some pMain
  | none => some pMain

/-- A raw branch read from an array is no higher than the array. -/
theorem RawBranch.rawDepth_le_of_getElem? {array : List RawBranch} {pos : Nat} {b : RawBranch}
    (h : array[pos]? = some b) : b.depth ≤ RawBranch.depthList array := by
  induction array generalizing pos with
  | nil => simp at h
  | cons a rest ih =>
    cases pos with
    | zero =>
      simp only [List.getElem?_cons_zero, Option.some.injEq] at h
      subst h
      simp [RawBranch.depthList]
    | succ p =>
      simp only [List.getElem?_cons_succ] at h
      have := ih h
      simp only [RawBranch.depthList]
      omega

set_option linter.unusedVariables false in
/-- The function `ilookup` over raw main nodes, with its two `panic` branches. -/
@[semireducible] def rawIlookup (main : RawMain) (entry : Entry) (lev : Nat) :
    Except Panic (Value × Bool) :=
  match main with
  | .mk (some (.mk bmp array)) _ _ =>
    if bmp &&& (flagPos entry.hash lev bmp).1 = 0 then
      .ok (Value.nil, false)
    else
      match h : array[(flagPos entry.hash lev bmp).2]? with
      | none => .error .indexOutOfRange
      | some (.iNode im) => rawIlookup im entry (lev + w)
      | some (.sNode sn) =>
        if sn.key = entry.key then .ok (sn.value, true) else .ok (Value.nil, false)
      | some .other => .error .invalidState
  | .mk none (some _) _ => .ok (Value.nil, false)
  | .mk none none (some _) => .ok (Value.nil, false)
  | .mk none none none => .error .invalidState
termination_by main.depth
decreasing_by
  have := RawBranch.rawDepth_le_of_getElem? h
  simp only [RawBranch.depth, RawMain.depth, RawCNode.depthOpt, RawCNode.depth] at this ⊢
  omega

set_option linter.unusedVariables false in
/-- The function `iinsert` over raw main nodes, with its two `panic` branches. -/
@[semireducible] def rawIinsert (main : RawMain) (entry : Entry) (lev : Nat) :
    Except Panic RawMain :=
  match main with
  | .mk (some (.mk bmp array)) _ _ =>
    if bmp &&& (flagPos entry.hash lev bmp).1 = 0 then
      liftRun ((RawCNode.inserted (.mk bmp array) (flagPos entry.hash lev bmp).2
        (flagPos entry.hash lev bmp).1 (.sNode entry)).map RawCNode.toMain)
    else
      match h : array[(flagPos entry.hash lev bmp).2]? with
      | none => .error .indexOutOfRange
      | some (.iNode im) =>
        match rawIinsert im entry (lev + w) with
        | .error p => .error p
        | .ok im2 =>
          .ok (.mk (some (.mk bmp (array.set (flagPos entry.hash lev bmp).2 (.iNode im2))))
            main.tNode main.lNode)
      | some (.sNode sn) =>
        if sn.key ≠ entry.key then
          let nsn := entry
          let nin := RawBranch.iNode (rawNewMainNode sn sn.hash nsn nsn.hash (lev + w))
          liftRun ((RawCNode.updated (.mk bmp array) (flagPos entry.hash lev bmp).2 nin).map
            RawCNode.toMain)
        else
          liftRun ((RawCNode.updated (.mk bmp array) (flagPos entry.hash lev bmp).2
            (.sNode entry)).map RawCNode.toMain)
      | some .other => .error .invalidState
  | .mk none (some _) _ => .ok main
  | .mk none none (some _) => .ok main
  | .mk none none none => .error .invalidState
termination_by main.depth
decreasing_by
  have := RawBranch.rawDepth_le_of_getElem? h
  simp only [RawBranch.depth, RawMain.depth, RawCNode.depthOpt, RawCNode.depth] at this ⊢
  omega

/-- What a call of the raw `iremove` leaves behind; see `Removal`. -/
structure RawRemoval where
  main : RawMain
  value : Value
  found : Bool
  clean : Option (Nat × Nat)

set_option linter.unusedVariables false in
/-- The function `iremove` over raw main nodes, with its two `panic` branches. -/
@[semireducible] def rawIremove (main : RawMain) (entry : Entry) (lev : Nat)
    (parent : Bool) : Except Panic RawRemoval :=
  match main with
  | .mk (some (.mk bmp array)) _ _ =>
    if bmp &&& (flagPos entry.hash lev bmp).1 = 0 then
      .ok ⟨main, Value.nil, false, none⟩
    else
      match h : array[(flagPos entry.hash lev bmp).2]? with
      | none => .error .indexOutOfRange
      | some (.iNode im) =>
        match rawIremove im entry (lev + w) true with
        | .error p => .error p
        | .ok r =>
          let pMain := RawMain.mk
            (some (.mk bmp (array.set (flagPos entry.hash lev bmp).2 (.iNode r.main))))
            main.tNode main.lNode
          match r.clean with
          | none => .ok ⟨pMain, r.value, r.found, none⟩
          | some (hc, plev) =>
            match rawCleanParent pMain hc plev with
            | none => .error .indexOutOfRange
            | some pm => .ok ⟨pm, r.value, r.found, none⟩
      | some (.sNode sn) =>
        if sn.key ≠ entry.key then
          .ok ⟨main, Value.nil, false, none⟩
        else
          match RawCNode.removed (.mk bmp array) (flagPos entry.hash lev bmp).2
              (flagPos entry.hash lev bmp).1 with
          | none => .error .indexOutOfRange
          | some ncn =>
            let cntr := rawToContracted ncn lev
            if parent && cntr.tNode.isSome then
              .ok ⟨cntr, sn.value, true, some (entry.hash, lev - w)⟩
            else
              .ok ⟨cntr, sn.value, true, none⟩
      | some .other => .error .invalidState
  | .mk none (some _) _ => .ok ⟨main, Value.nil, false, none⟩
  | .mk none none (some _) => .ok ⟨main, Value.nil, false, none⟩
  | .mk none none none => .error .invalidState
termination_by main.depth
decreasing_by
  have := RawBranch.rawDepth_le_of_getElem? h
  simp only [RawBranch.depth, RawMain.depth, RawCNode.depthOpt, RawCNode.depth] at this ⊢
  omega

/-- The struct `Ctrie` over raw main nodes. -/
structure RawCtrie where
  root : RawMain
  h : Key → Nat

/-- The function `New` over raw main nodes: `&mainNode{cNode: &cNode{}}`. -/
def rawNew : RawCtrie := { root := .mk (some (.mk 0 [])) none none, h := fnv64a }

/-- The method `SetHash` over raw main nodes. -/
def RawCtrie.SetHash (c : RawCtrie) (hash : Key → Nat) : RawCtrie := { c with h := hash }

/-- The method `hash` over raw main nodes. -/
def RawCtrie.hash (c : RawCtrie) (k : Key) : Nat := c.h k % 2 ^ 64

/-- The method `Insert` over raw main nodes. -/
def RawCtrie.Insert (c : RawCtrie) (key : Key) (value : Value) : Except Panic RawCtrie :=
  match rawIinsert c.root { key := key, hash := c.hash key, value := value } 0 with
  | .error p => .error p
  | .ok m => .ok { c with root := m }

/-- The method `Lookup` over raw main nodes. -/
def RawCtrie.Lookup (c : RawCtrie) (key : Key) : Except Panic (Value × Bool) :=
  rawIlookup c.root { key := key, hash := c.hash key, value := Value.nil } 0

/-- The method `Remove` over raw main nodes. -/
def RawCtrie.Remove (c : RawCtrie) (key : Key) : Except Panic (RawCtrie × (Value × Bool)) :=
  match rawIremove c.root { key := key, hash := c.hash key, value := Value.nil } 0 false with
  | .error p => .error p
  | .ok r => .ok ({ c with root := r.main }, (r.value, r.found))

/-- The raw trie that represents a trie. -/
def Ctrie.raw (c : Ctrie) : RawCtrie := { root := c.root.raw, h := c.h }

/-- The raw removal result that represents a removal result. -/
def Removal.raw (r : Removal) : RawRemoval :=
  { main := r.main.raw, value := r.value, found := r.found, clean := r.clean }

/-! ## Specification-level definitions -/

/-- Number of set bits of `x` at the positions below `n`. -/
def popBelow (x : Nat) : Nat → Nat
  | 0 => 0
  | n + 1 => popBelow x n + (if x.testBit n then 1 else 0)

/-- One folding step of `bitCount`. -/
def foldStep (s m x : Nat) : Nat := ((x >>> s) &&& m) + (x &&& m)

/-- The 5-bit index of a hash at a level: `(hashcode >> lev) & 0x1f`. -/
def hashIdx (hashcode lev : Nat) : Nat := (hashcode >>> lev) &&& 0x1f

/-- The branch a `cNode` holds for index `i`: the array element at the rank of bit `i` when
that bit is set in the bitmap. -/
def slot (bmp : Nat) (array : List Branch) (i : Nat) : Option Branch :=
  if bmp.testBit i then array[popBelow bmp i]? else none

/-- The bitmap of a `cNode` is a 32-bit word whose population count is the array length. -/
def CInv (bmp : Nat) (array : List Branch) : Prop :=
  bmp < 2 ^ 32 ∧ popBelow bmp 32 = array.length

/-- The stored hash of an entry is the 64-bit hash of its key. -/
def hashOK (H : Key → Nat) (e : Entry) : Prop := e.hash = H e.key % 2 ^ 64

/-- Structural invariant of the main node of an `iNode` at level `lev` that has `n` levels
below it.  `P` collects what is known about every hash stored below this node.  At a `cNode`
the bitmap matches the array, every leaf carries the hash of its key and sits in the slot of
its index, and every `iNode` satisfies the invariant one level down.  The bottom (`n = 0`)
only holds collision lists. -/
def Inv (H : Key → Nat) : Nat → Nat → (Nat → Prop) → MainNode → Prop
  | 0, _, P, .lNode sns => ∀ sn, sn ∈ sns → hashOK H sn ∧ P sn.hash
  | 0, _, _, .cNode _ _ => False
  | 0, _, _, .tNode _ => False
  | n + 1, lev, P, .cNode bmp array =>
    CInv bmp array ∧ ∀ j b, slot bmp array j = some b →
      match b with
      | .sNode sn => hashOK H sn ∧ P sn.hash ∧ hashIdx sn.hash lev = j
      | .iNode im => Inv H n (lev + w) (fun h => P h ∧ hashIdx h lev = j) im
  | _ + 1, _, P, .tNode sn => hashOK H sn ∧ P sn.hash
  | _ + 1, _, _, .lNode _ => False

/-- The invariant of one branch stored in slot `j` of a `cNode` at level `lev`. -/
def BInv (H : Key → Nat) (n lev : Nat) (P : Nat → Prop) (j : Nat) : Branch → Prop
  | .sNode sn => hashOK H sn ∧ P sn.hash ∧ hashIdx sn.hash lev = j
  | .iNode im => Inv H n (lev + w) (fun h => P h ∧ hashIdx h lev = j) im

/-- What `ilookup` does with the branch found in the slot of the entry. -/
def lookupBranch (b : Option Branch) (e : Entry) (lev : Nat) : Option (Value × Bool) :=
  match b with
  | none => some (Value.nil, false)
  | some (.iNode im) => ilookup im e (lev + w)
  | some (.sNode sn) =>
    if sn.key = e.key then some (sn.value, true) else some (Value.nil, false)

/-- Every main node reachable from `m` within `n` levels is a `cNode`: there is no tombed
leaf and no collision list. -/
def AllC : Nat → MainNode → Prop
  | 0, _ => False
  | n + 1, .cNode bmp array => ∀ j im, slot bmp array j = some (.iNode im) → AllC n im
  | _ + 1, .tNode _ => False
  | _ + 1, .lNode _ => False

/-- Two hashes differ at one of the `n` levels `lev`, `lev + 5`, ... . -/
def Differ (xhc yhc lev n : Nat) : Prop :=
  ∃ L, L < n ∧ hashIdx xhc (lev + 5 * L) ≠ hashIdx yhc (lev + 5 * L)

/-- All hashes allowed by `P` have the same indices at the levels above `lev`. -/
def PAgree (P : Nat → Prop) (lev : Nat) : Prop :=
  ∀ h1 h2, P h1 → P h2 → ∀ L, 5 * L < lev → hashIdx h1 (5 * L) = hashIdx h2 (5 * L)

/-- No key found below `m` other than the key of `e` has a hash that agrees with the hash of
`e` on the low 35 bits. -/
def NoColl (H : Key → Nat) (m : MainNode) (e : Entry) (lev : Nat) : Prop :=
  ∀ e2 : Entry, hashOK H e2 → e2.key ≠ e.key → (∃ v, ilookup m e2 lev = some (v, true)) →
    e2.hash % 2 ^ 35 ≠ e.hash % 2 ^ 35

/-- A public mutation of the trie. -/
inductive Op where
  | insert (key : Key) (value : Value)
  | remove (key : Key)
deriving DecidableEq, Repr

/-- The trie after one public mutation. -/
def Ctrie.apply (c : Ctrie) : Op → Option Ctrie
  | .insert key value => c.Insert key value
  | .remove key => (c.Remove key).map fun r => r.1

/-- The trie after a sequence of public mutations, executed one after the other. -/
def Ctrie.run (c : Ctrie) : List Op → Option Ctrie
  | [] => some c
  | op :: ops => (c.apply op).bind fun c2 => c2.run ops

/-- The tries reachable from `New()` with hash `H` installed by `Insert` and `Remove` calls. -/
inductive Reachable (H : Key → Nat) : Ctrie → Prop where
  | init : Reachable H (New.SetHash H)
  | insert {c c2 : Ctrie} {key : Key} {value : Value} :
      Reachable H c → c.Insert key value = some c2 → Reachable H c2
  | remove {c c2 : Ctrie} {key : Key} {r : Value × Bool} :
      Reachable H c → c.Remove key = some (c2, r) → Reachable H c2

/-- The invariant of a whole trie: the installed hash is `H` and the root main node, at level
0 with seven levels below it, satisfies `Inv`. -/
def CtrieInv (H : Key → Nat) (c : Ctrie) : Prop :=
  c.h = H ∧ Inv H 7 0 (fun _ => True) c.root

/-- One mutation on the abstract map from keys to values. -/
def absStep (M : Key → Option Value) : Op → Key → Option Value
  | .insert key value => fun k => if k = key then some value else M k
  | .remove key => fun k => if k = key then none else M k

/-- The abstract map after a sequence of mutations. -/
def absRun (M : Key → Option Value) (ops : List Op) : Key → Option Value :=
  ops.foldl absStep M

/-- The mutation sequence that inserts the given pairs in order. -/
def insertOps (kvs : List (Key × Value)) : List Op :=
  kvs.map fun kv => Op.insert kv.1 kv.2

/-- The key `"key477"`. -/
def key477 : Key := [107, 101, 121, 52, 55, 55]

/-- The key `"key110310"`; its FNV-1a hash agrees with that of `"key477"` on the low 40 bits. -/
def key110310 : Key := [107, 101, 121, 49, 49, 48, 51, 49, 48]

/-- The key `"key109"`. -/
def key109 : Key := [107, 101, 121, 49, 48, 57]

/-- The key `"key202"`; its FNV-1a hash has the indices of `"key109"` at levels 0 and 5 and
another index at level 10. -/
def key202 : Key := [107, 101, 121, 50, 48, 50]

/-- A hash that sends every key to 0. -/
def zeroHash : Key → Nat := fun _ => 0

/-- A hash with index 3 at levels 0 and 5 and the first byte of the key as index at level 10. -/
def stressHash : Key → Nat := fun k => 3 + 32 * 3 + 1024 * (k.headD 0 % 32)

/-- A hash that reads the first byte of the key. -/
def byteHash : Key → Nat := fun k => k.headD 0

/-- The trie `New()` with `stressHash` after `Insert([1], 1)`. -/
def stressTrie1 : Ctrie :=
  ⟨.cNode 8 [.sNode ⟨[1], 1123, .obj 1⟩], stressHash⟩

/-- The trie `New()` with `stressHash` after `Insert([1], 1)` and `Insert([2], 2)`: the two
leaves sit two `iNode`s below the root. -/
def stressTrie2 : Ctrie :=
  ⟨.cNode 8 [.iNode (.cNode 8 [.iNode (.cNode 6
    [.sNode ⟨[1], 1123, .obj 1⟩, .sNode ⟨[2], 2147, .obj 2⟩])])], stressHash⟩


/-- `Sub m lev m2 lev2`: the main node `m2` is held by an `iNode` at level `lev2` that is the
`iNode` at level `lev` holding `m` or lies below it. -/
inductive Sub : MainNode → Nat → MainNode → Nat → Prop where
  | here (m : MainNode) (lev : Nat) : Sub m lev m lev
  | step {bmp : Nat} {array : List Branch} {im : MainNode} {lev : Nat} {m2 : MainNode}
      {lev2 : Nat} : Branch.iNode im ∈ array → Sub im (lev + w) m2 lev2 →
      Sub (.cNode bmp array) lev m2 lev2

/-- `Leaf m sn`: the entry `sn` is stored at or below the main node `m`, as a leaf branch of a
`cNode`, as a tombed leaf or in a collision list. -/
inductive Leaf : MainNode → Entry → Prop where
  | leaf {bmp : Nat} {array : List Branch} {sn : Entry} :
      Branch.sNode sn ∈ array → Leaf (.cNode bmp array) sn
  | inner {bmp : Nat} {array : List Branch} {im : MainNode} {sn : Entry} :
      Branch.iNode im ∈ array → Leaf im sn → Leaf (.cNode bmp array) sn
  | tomb (sn : Entry) : Leaf (.tNode sn) sn
  | coll {sns : List Entry} {sn : Entry} : sn ∈ sns → Leaf (.lNode sns) sn

/-- Contraction invariant of the main node at level `lev` with `n` levels below it: a `cNode`
below the root is neither empty nor a single leaf branch, and the same holds below it. -/
def Contr : Nat → Nat → MainNode → Prop
  | n + 1, lev, .cNode bmp array =>
    (0 < lev → array ≠ [] ∧ ∀ sn, array ≠ [.sNode sn]) ∧
      ∀ j im, slot bmp array j = some (.iNode im) → Contr n (lev + w) im
  | _, _, _ => True

/-- The subtree described for two leaves whose hashes agree at the `k` levels `lev`,
`lev + 5`, ... and differ at level `lev + 5 * k`: `k` single-branch `cNode`s, one `iNode`
each, above a `cNode` that holds the two leaves in ascending index order under the bitmap of
their two indices. -/
def specChain (x : Entry) (xhc : Nat) (y : Entry) (yhc : Nat) : Nat → Nat → MainNode
  | 0, lev =>
    .cNode (2 ^ hashIdx xhc lev ||| 2 ^ hashIdx yhc lev)
      (if hashIdx xhc lev < hashIdx yhc lev then [.sNode x, .sNode y] else [.sNode y, .sNode x])
  | k + 1, lev => .cNode (2 ^ hashIdx xhc lev) [.iNode (specChain x xhc y yhc k (lev + 5))]

/-- The subtree described for two leaves whose hashes agree at all of the `k` levels `lev`,
`lev + 5`, ...: `k` single-branch `cNode`s above the collision list of the two leaves. -/
def specCollision (x : Entry) (xhc : Nat) (y : Entry) : Nat → Nat → MainNode
  | 0, _ => .lNode [x, y]
  | k + 1, lev => .cNode (2 ^ hashIdx xhc lev) [.iNode (specCollision x xhc y k (lev + 5))]

/-- What `iinsert` stores in the slot of the entry's index at a `cNode` of level `lev`, given
the branch found there. -/
def insBranch (old : Option Branch) (e : Entry) (lev : Nat) : Option Branch :=
  match old with
  | none => some (.sNode e)
  | some (.iNode im) => (iinsert im e (lev + w)).map Branch.iNode
  | some (.sNode sn) =>
    if sn.key ≠ e.key then some (.iNode (newMainNode sn sn.hash e e.hash (lev + w)))
    else some (.sNode e)

/-- The main node reached from `m` at level `lev` by following the hash `hc` down through `d`
`iNode`s, reading the bitmap and the array as the descents do. -/
def nodeAt (m : MainNode) (hc lev : Nat) : Nat → Option MainNode
  | 0 => some m
  | d + 1 =>
    match m with
    | .cNode bmp array =>
      if bmp &&& (flagPos hc lev bmp).1 = 0 then none
      else
        match array[(flagPos hc lev bmp).2]? with
        | some (.iNode im) => nodeAt im hc (lev + w) d
        | _ => none
    | _ => none

/-- Exactly one of the three fields `cNode`, `tNode`, `lNode` of a raw main node is set. -/
def RawMain.exactlyOne : RawMain → Prop
  | .mk (some _) none none => True
  | .mk none (some _) none => True
  | .mk none none (some _) => True
  | _ => False

/-- Every branch in the array of the `cNode` of a raw main node, when that field is set, is
an `iNode` or an `sNode`. -/
def RawMain.branchesTyped (m : RawMain) : Prop :=
  ∀ c, m.cNode = some c → ∀ b, b ∈ c.array → b ≠ RawBranch.other

/-- `RawSub m m2`: the raw main node `m2` is `m`, or it is held by an `iNode` in the array of
the `cNode` of a raw main node that is itself reached from `m` in this way. -/
inductive RawSub : RawMain → RawMain → Prop where
  | here (m : RawMain) : RawSub m m
  | step {m m1 : RawMain} {c : RawCNode} {im : RawMain} :
      RawSub m m1 → m1.cNode = some c → RawBranch.iNode im ∈ c.array → RawSub m im

/-- The raw tries reachable from `New()` with hash `H` installed by `Insert` and `Remove`
calls that return. -/
inductive RawReachable (H : Key → Nat) : RawCtrie → Prop where
  | init : RawReachable H (rawNew.SetHash H)
  | insert {c c2 : RawCtrie} {key : Key} {value : Value} :
      RawReachable H c → c.Insert key value = .ok c2 → RawReachable H c2
  | remove {c c2 : RawCtrie} {key : Key} {r : Value × Bool} :
      RawReachable H c → c.Remove key = .ok (c2, r) → RawReachable H c2
/-- The branch that the description of `toCompressed` puts in the place of a branch: an
indirection node whose main node is a tombed leaf becomes a leaf with the same key, hash and
value; every other branch is kept. -/
def specResurrected : Branch → Branch
  | .iNode (.tNode sn) => .sNode { key := sn.key, hash := sn.hash, value := sn.value }
  | b => b

mutual
/-- The leaves reachable from a main node, one list entry for every place that holds one, in
array order: the leaf branches of the `cNode`s, a tombed leaf, the entries of a collision
list. -/
def MainNode.leaves : MainNode → List Entry
  | .cNode _ array => Branch.leavesList array
  | .tNode sn => [sn]
  | .lNode sns => sns
/-- The leaves reachable from the branches of an array. -/
def Branch.leavesList : List Branch → List Entry
  | [] => []
  | b :: bs => Branch.leaves b ++ Branch.leavesList bs
/-- The leaves reachable from a branch. -/
def Branch.leaves : Branch → List Entry
  | .iNode main => MainNode.leaves main
  | .sNode sn => [sn]
end

/-- Every collision list within `n` levels below the main node holds pairwise different
keys. -/
def LOK : Nat → MainNode → Prop
  | _, .lNode sns => (sns.map Entry.key).Nodup
  | n + 1, .cNode bmp array => ∀ j im, slot bmp array j = some (.iNode im) → LOK n im
  | _, _ => True


end ctrie

/-! # The sorted entry slices of the y-fast trie (`trie/yfast/entries.go`)

The interface `Entry` is declared outside these sources; the functions below use only its method
`Key() uint64`.  The type `E` of the non-nil entries and the function `key : E → Nat` are
therefore parameters, and an element of a slice is an `Option E`, `none` being the nil
interface.  A result `none` of a function is a panic: an index or slice bound out of range, or
`Key()` called on nil. -/

namespace yfast

/-- The type `entries`: a slice of `Entry` values. -/
@[reducible] def entries (E : Type) : Type := List (Option E)

/-- The loop of `sort.Search` of the Go standard library, entered with `i, j := 0, n`: while
`i < j` it probes `h := int(uint(i+j) >> 1)` and continues with `i = h + 1` when `f(h)` is
false and with `j = h` otherwise; it returns `i`. -/
@[semireducible] def searchLoop (f : Nat → Option Bool) (i j : Nat) : Option Nat :=
  if i < j then
    let h := (i + j) / 2
    match f h with
    | none => none
    | some false => searchLoop f (h + 1) j
    | some true => searchLoop f i h
  else some i
termination_by j - i
decreasing_by
  all_goals simp_wf
  all_goals omega

/-- The function `sort.Search(n, f)` of the Go standard library. -/
def sortSearch (n : Nat) (f : Nat → Option Bool) : Option Nat := searchLoop f 0 n

/-- The expression `entries[i].Key()`. -/
def keyAt {E : Type} (key : E → Nat) (es : entries E) (i : Nat) : Option Nat :=
  match es[i]? with
  | some (some e) => some (key e)
  | _ => none

/-- The method `entries.search`. -/
def entries.search {E : Type} (key : E → Nat) (es : entries E) (k : Nat) : Option Nat :=
  sortSearch es.length fun i => (keyAt key es i).map fun ki => decide (ki ≥ k)

/-- The built-in `copy(s[d:], s[r:])` on one slice `s`: the first
`min(len(s) - d, len(s) - r)` elements of `s[r:]` overwrite the elements of `s` from index
`d` on, as if copied through a buffer. -/
def sliceCopy {α : Type} (s : List α) (d r : Nat) : Option (List α) :=
  if d ≤ s.length ∧ r ≤ s.length then
    let n := min (s.length - d) (s.length - r)
    some (s.take d ++ (s.drop r).take n ++ s.drop (d + n))
  else none

/-- The method `entries.insert`; the result is the slice afterwards and the returned entry. -/
def entries.insert {E : Type} (key : E → Nat) (es : entries E) (entry : E) :
    Option (entries E × Option E) :=
  match entries.search key es (key entry) with
  | none => none
  | some i =>
    if i = es.length then some (es ++ [some entry], none)
    else
      match keyAt key es i with
      | none => none
      | some ki =>
        if ki = key entry then
          match es[i]? with
          | none => none
          | some oldEntry => some (es.set i (some entry), oldEntry)
        else
          match sliceCopy (es ++ [none]) (i + 1) i with
          | none => none
          | some es2 => if i < es2.length then some (es2.set i (some entry), none) else none

/-- The method `entries.delete`; the result is the slice afterwards and the returned entry. -/
def entries.delete {E : Type} (key : E → Nat) (es : entries E) (k : Nat) :
    Option (entries E × Option E) :=
  match entries.search key es k with
  | none => none
  | some i =>
    if i = es.length then some (es, none)
    else
      match keyAt key es i with
      | none => none
      | some ki =>
        if ki ≠ k then some (es, none)
        else
          match es[i]? with
          | none => none
          | some oldEntry =>
            match sliceCopy es i (i + 1) with
            | none => none
            | some es2 =>
              if 0 < es2.length then
                some ((es2.set (es2.length - 1) none).take (es2.length - 1), oldEntry)
              else none

/-- The method `entries.max`. -/
def entries.max {E : Type} (key : E → Nat) (es : entries E) : Option (Nat × Bool) :=
  if es.length = 0 then some (0, false)
  else (keyAt key es (es.length - 1)).map fun k => (k, true)

/-- The method `entries.get`. -/
def entries.get {E : Type} (key : E → Nat) (es : entries E) (k : Nat) : Option (Option E) :=
  match entries.search key es k with
  | none => none
  | some i =>
    if i = es.length then some none
    else
      match keyAt key es i with
      | none => none
      | some ki => if ki = k then es[i]? else some none

/-- The method `entries.successor`. -/
def entries.successor {E : Type} (key : E → Nat) (es : entries E) (k : Nat) :
    Option (Option E × Int) :=
  match entries.search key es k with
  | none => none
  | some i =>
    if i = es.length then some (none, -1)
    else (es[i]?).map fun e => (e, (i : Int))

/-- The method `entries.predecessor`. -/
def entries.predecessor {E : Type} (key : E → Nat) (es : entries E) (k : Nat) :
    Option (Option E × Int) :=
  if es.length = 0 then some (none, -1)
  else
    match entries.search key es k with
    | none => none
    | some i =>
      if i = es.length then
        if (i : Int) - 1 < 0 then none
        else (es[i - 1]?).map fun e => (e, (i : Int) - 1)
      else
        match keyAt key es i with
        | none => none
        | some ki =>
          if ki = k then (es[i]?).map fun e => (e, (i : Int))
          else
            let i2 : Int := (i : Int) - 1
            if i2 < 0 then some (none, -1)
            else (es[i2.toNat]?).map fun e => (e, i2)

/-- An entries list is strictly ascending by key. -/
def Ascending {E : Type} (key : E → Nat) (es : List E) : Prop :=
  es.Pairwise fun a b => key a < key b

/-- The slice that holds the entries of a list, none of them nil. -/
def ofList {E : Type} (es : List E) : entries E := es.map some

end yfast

namespace ctrie


/-! ## `bitCount` is the population count -/

theorem land_split (k a b m m2 : Nat) (ha : a < 2 ^ k) (hm : m < 2 ^ k) :
    (a + 2 ^ k * b) &&& (m + 2 ^ k * m2) = (a &&& m) + 2 ^ k * (b &&& m2) := by
  have hx : a &&& m < 2 ^ k := Nat.and_lt_two_pow _ hm
  apply Nat.eq_of_testBit_eq
  intro j
  rw [Nat.testBit_and, Nat.add_comm a, Nat.add_comm m, Nat.add_comm (a &&& m),
    Nat.testBit_mul_pow_two_add _ ha, Nat.testBit_mul_pow_two_add _ hm,
    Nat.testBit_mul_pow_two_add _ hx]
  by_cases hj : j < k <;> simp [hj]

theorem shift_land_split (k s a b m m2 : Nat) (hs : s ≤ k) (ha : a < 2 ^ k)
    (hm : m < 2 ^ (k - s)) :
    ((a + 2 ^ k * b) >>> s) &&& (m + 2 ^ k * m2) = ((a >>> s) &&& m) + 2 ^ k * ((b >>> s) &&& m2) := by
  have hm2 : m < 2 ^ k := lt_of_lt_of_le hm (Nat.pow_le_pow_right (by norm_num) (Nat.sub_le k s))
  have hx : (a >>> s) &&& m < 2 ^ k := Nat.and_lt_two_pow _ hm2
  apply Nat.eq_of_testBit_eq
  intro j
  rw [Nat.testBit_and, Nat.testBit_shiftRight, Nat.add_comm a, Nat.add_comm m,
    Nat.add_comm (a >>> s &&& m),
    Nat.testBit_mul_pow_two_add _ ha, Nat.testBit_mul_pow_two_add _ hm2,
    Nat.testBit_mul_pow_two_add _ hx, Nat.testBit_and, Nat.testBit_shiftRight,
    Nat.testBit_and, Nat.testBit_shiftRight]
  by_cases hj : j < k
  · by_cases hsj : s + j < k
    · simp [hj, hsj]
    · have : m.testBit j = false :=
        Nat.testBit_lt_two_pow (lt_of_lt_of_le hm (Nat.pow_le_pow_right (by norm_num) (by omega)))
      simp [hj, this]
  · have h1 : ¬ s + j < k := by omega
    have h2 : s + j - k = s + (j - k) := by omega
    simp [hj, h1, h2]

theorem foldStep_split (k s a b m m2 : Nat) (hs : s ≤ k) (ha : a < 2 ^ k)
    (hm : m < 2 ^ (k - s)) :
    foldStep s (m + 2 ^ k * m2) (a + 2 ^ k * b) = foldStep s m a + 2 ^ k * foldStep s m2 b := by
  have hm2 : m < 2 ^ k := lt_of_lt_of_le hm (Nat.pow_le_pow_right (by norm_num) (Nat.sub_le k s))
  unfold foldStep
  rw [shift_land_split k s a b m m2 hs ha hm, land_split k a b m m2 ha hm2]
  ring

theorem foldStep_bytes (s m : Nat) (hs : s ≤ 8) (hm : m < 2 ^ (8 - s))
    (a0 a1 a2 a3 : Nat) (h0 : a0 < 256) (h1 : a1 < 256) (h2 : a2 < 256) :
    foldStep s (m + 2 ^ 8 * (m + 2 ^ 8 * (m + 2 ^ 8 * m))) (a0 + 2 ^ 8 * (a1 + 2 ^ 8 * (a2 + 2 ^ 8 * a3)))
      = foldStep s m a0 + 2 ^ 8 * (foldStep s m a1 + 2 ^ 8 * (foldStep s m a2 + 2 ^ 8 * foldStep s m a3)) := by
  rw [foldStep_split 8 s a0 _ m _ hs (by simpa using h0) hm,
    foldStep_split 8 s a1 _ m _ hs (by simpa using h1) hm,
    foldStep_split 8 s a2 _ m _ hs (by simpa using h2) hm]

theorem popBelow_congr (x y : Nat) (n : Nat) (h : ∀ j, j < n → x.testBit j = y.testBit j) :
    popBelow x n = popBelow y n := by
  induction n with
  | zero => rfl
  | succ n ih =>
    simp only [popBelow]
    rw [ih (fun j hj => h j (by omega)), h n (by omega)]

theorem popBelow_split (k a b n : Nat) (ha : a < 2 ^ k) :
    popBelow (a + 2 ^ k * b) (k + n) = popBelow a k + popBelow b n := by
  induction n with
  | zero =>
    simp only [popBelow, Nat.add_zero]
    apply popBelow_congr
    intro j hj
    rw [Nat.add_comm a, Nat.testBit_mul_pow_two_add _ ha]
    simp [hj]
  | succ n ih =>
    rw [← Nat.add_assoc]
    simp only [popBelow]
    rw [ih, Nat.add_comm a, Nat.testBit_mul_pow_two_add _ ha]
    simp [Nat.add_assoc]

set_option maxRecDepth 100000 in
theorem byte_fold1 : ∀ a, a < 256 → foldStep 1 0x55 a < 256 := by decide

set_option maxRecDepth 100000 in
theorem byte_fold2 : ∀ a, a < 256 → foldStep 2 0x33 a < 256 := by decide

set_option maxRecDepth 100000 in
theorem byte_fold4 : ∀ a, a < 256 → foldStep 4 0x0f a < 256 := by decide

set_option maxRecDepth 100000 in
theorem byte_pop : ∀ a, a < 256 →
    foldStep 4 0x0f (foldStep 2 0x33 (foldStep 1 0x55 a)) = popBelow a 8 := by decide

theorem popBelow_le (x n : Nat) : popBelow x n ≤ n := by
  induction n with
  | zero => simp [popBelow]
  | succ n ih => simp only [popBelow]; split <;> omega

set_option maxRecDepth 100000 in
theorem pair_fold8 : ∀ p, p < 9 → ∀ q, q < 9 → foldStep 8 0xff (p + 2 ^ 8 * q) = p + q := by
  decide

set_option maxRecDepth 100000 in
theorem pair_fold16 : ∀ p, p < 17 → ∀ q, q < 17 → foldStep 16 0xffff (p + 2 ^ 16 * q) = p + q := by
  decide

theorem bitCount_eq_folds (x : Nat) : bitCount x =
    foldStep 16 0xffff (foldStep 8 0x00ff00ff (foldStep 4 0x0f0f0f0f (foldStep 2 0x33333333
      (foldStep 1 0x55555555 x % 2 ^ 32) % 2 ^ 32) % 2 ^ 32) % 2 ^ 32) % 2 ^ 32 := rfl

theorem bytes_mod (b0 b1 b2 b3 : Nat) (h0 : b0 < 256) (h1 : b1 < 256) (h2 : b2 < 256)
    (h3 : b3 < 256) :
    (b0 + 2 ^ 8 * (b1 + 2 ^ 8 * (b2 + 2 ^ 8 * b3))) % 2 ^ 32 =
      b0 + 2 ^ 8 * (b1 + 2 ^ 8 * (b2 + 2 ^ 8 * b3)) := by
  apply Nat.mod_eq_of_lt
  omega

theorem bitCount_bytes (a0 a1 a2 a3 : Nat) (h0 : a0 < 256) (h1 : a1 < 256) (h2 : a2 < 256)
    (h3 : a3 < 256) :
    bitCount (a0 + 2 ^ 8 * (a1 + 2 ^ 8 * (a2 + 2 ^ 8 * a3))) =
      popBelow a0 8 + popBelow a1 8 + popBelow a2 8 + popBelow a3 8 := by
  have m1 : (0x55555555 : Nat) = 0x55 + 2 ^ 8 * (0x55 + 2 ^ 8 * (0x55 + 2 ^ 8 * 0x55)) := by
    norm_num
  have m2 : (0x33333333 : Nat) = 0x33 + 2 ^ 8 * (0x33 + 2 ^ 8 * (0x33 + 2 ^ 8 * 0x33)) := by
    norm_num
  have m4 : (0x0f0f0f0f : Nat) = 0x0f + 2 ^ 8 * (0x0f + 2 ^ 8 * (0x0f + 2 ^ 8 * 0x0f)) := by
    norm_num
  have m8 : (0x00ff00ff : Nat) = 0xff + 2 ^ 16 * 0xff := by norm_num
  rw [bitCount_eq_folds, m1, foldStep_bytes 1 0x55 (by norm_num) (by norm_num) _ _ _ _ h0 h1 h2]
  have b0 := byte_fold1 a0 h0
  have b1 := byte_fold1 a1 h1
  have b2 := byte_fold1 a2 h2
  have b3 := byte_fold1 a3 h3
  rw [bytes_mod _ _ _ _ b0 b1 b2 b3, m2,
    foldStep_bytes 2 0x33 (by norm_num) (by norm_num) _ _ _ _ b0 b1 b2]
  have c0 := byte_fold2 _ b0
  have c1 := byte_fold2 _ b1
  have c2 := byte_fold2 _ b2
  have c3 := byte_fold2 _ b3
  rw [bytes_mod _ _ _ _ c0 c1 c2 c3, m4,
    foldStep_bytes 4 0x0f (by norm_num) (by norm_num) _ _ _ _ c0 c1 c2]
  rw [byte_pop a0 h0, byte_pop a1 h1, byte_pop a2 h2, byte_pop a3 h3]
  have p0 := popBelow_le a0 8
  have p1 := popBelow_le a1 8
  have p2 := popBelow_le a2 8
  have p3 := popBelow_le a3 8
  generalize popBelow a0 8 = q0 at *
  generalize popBelow a1 8 = q1 at *
  generalize popBelow a2 8 = q2 at *
  generalize popBelow a3 8 = q3 at *
  rw [bytes_mod _ _ _ _ (by omega) (by omega) (by omega) (by omega)]
  have e : q0 + 2 ^ 8 * (q1 + 2 ^ 8 * (q2 + 2 ^ 8 * q3)) =
      (q0 + 2 ^ 8 * q1) + 2 ^ 16 * (q2 + 2 ^ 8 * q3) := by ring
  rw [e, m8, foldStep_split 16 8 _ _ 0xff 0xff (by norm_num) (by omega) (by norm_num),
    pair_fold8 q0 (by omega) q1 (by omega), pair_fold8 q2 (by omega) q3 (by omega),
    @Nat.mod_eq_of_lt (q0 + q1 + 2 ^ 16 * (q2 + q3)) (2 ^ 32) (by omega),
    pair_fold16 _ (by omega) _ (by omega),
    Nat.mod_eq_of_lt (by omega)]
  omega

/-- The result of `bitCount` is the population count of a 32-bit word. -/
theorem bitCount_eq_popBelow (x : Nat) (hx : x < 2 ^ 32) : bitCount x = popBelow x 32 := by
  have e : x = x % 256 + 2 ^ 8 * (x / 256 % 256 + 2 ^ 8 * (x / 65536 % 256 + 2 ^ 8 * (x / 16777216))) := by
    omega
  have h3 : x / 16777216 < 256 := by omega
  rw [e, bitCount_bytes _ _ _ _ (Nat.mod_lt _ (by norm_num)) (Nat.mod_lt _ (by norm_num))
    (Nat.mod_lt _ (by norm_num)) h3]
  rw [show 32 = 8 + 24 from rfl, popBelow_split 8 _ _ 24 (by simpa using Nat.mod_lt x (by norm_num : 256 > 0)),
    show 24 = 8 + 16 from rfl, popBelow_split 8 _ _ 16 (by simpa using Nat.mod_lt _ (by norm_num : 256 > 0)),
    show 16 = 8 + 8 from rfl, popBelow_split 8 _ _ 8 (by simpa using Nat.mod_lt _ (by norm_num : 256 > 0))]
  omega


/-! ## `flagPos` and ranks -/

theorem hashIdx_lt (hc lev : Nat) : hashIdx hc lev < 32 := by
  unfold hashIdx
  exact Nat.and_lt_two_pow _ (by norm_num : 0x1f < 2 ^ 5)

theorem popBelow_mono (x : Nat) {m n : Nat} (h : m ≤ n) : popBelow x m ≤ popBelow x n := by
  induction n with
  | zero => simp_all
  | succ n ih =>
    rcases Nat.lt_or_ge m (n + 1) with h1 | h1
    · have := ih (by omega)
      simp only [popBelow]
      omega
    · have : m = n + 1 := by omega
      subst this
      exact le_refl _

theorem popBelow_lt_of_testBit (x : Nat) {i n : Nat} (hb : x.testBit i = true) (hi : i < n) :
    popBelow x i < popBelow x n := by
  have h1 : popBelow x (i + 1) = popBelow x i + 1 := by simp [popBelow, hb]
  have h2 := popBelow_mono x (show i + 1 ≤ n by omega)
  omega

theorem popBelow_mod (x i n : Nat) (h : i ≤ n) : popBelow (x % 2 ^ i) n = popBelow x i := by
  induction n with
  | zero =>
    have : i = 0 := by omega
    subst this
    rfl
  | succ n ih =>
    rcases Nat.lt_or_ge i (n + 1) with h1 | h1
    · simp only [popBelow]
      rw [ih (by omega), Nat.testBit_mod_two_pow]
      have : ¬ n < i := by omega
      simp [this]
    · have : i = n + 1 := by omega
      subst this
      apply popBelow_congr
      intro j hj
      rw [Nat.testBit_mod_two_pow]
      simp [hj]

theorem popBelow_or_pow (x i n : Nat) (h : x.testBit i = false) :
    popBelow (x ||| 2 ^ i) n = popBelow x n + (if i < n then 1 else 0) := by
  induction n with
  | zero => simp [popBelow]
  | succ n ih =>
    simp only [popBelow, ih, Nat.testBit_or, Nat.testBit_two_pow]
    by_cases h1 : i = n
    · subst h1
      simp [h]
    · by_cases h2 : i < n
      · have : i < n + 1 := by omega
        simp [h1, h2, this]
        omega
      · have : ¬ i < n + 1 := by omega
        simp [h1, h2, this]

theorem popBelow_xor_pow (x i n : Nat) (h : x.testBit i = true) :
    popBelow (x ^^^ 2 ^ i) n + (if i < n then 1 else 0) = popBelow x n := by
  induction n with
  | zero => simp [popBelow]
  | succ n ih =>
    simp only [popBelow, Nat.testBit_xor, Nat.testBit_two_pow]
    by_cases h1 : i = n
    · subst h1
      simp [h] at ih ⊢
      omega
    · by_cases h2 : i < n
      · have : i < n + 1 := by omega
        simp [h1, h2, this] at ih ⊢
        omega
      · have : ¬ i < n + 1 := by omega
        simp [h1, h2, this] at ih ⊢
        omega

theorem land_pow_eq_zero (x i : Nat) : x &&& 2 ^ i = 0 ↔ x.testBit i = false := by
  constructor
  · intro h
    have := congrArg (fun y => Nat.testBit y i) h
    simpa [Nat.testBit_two_pow] using this
  · intro h
    apply Nat.eq_of_testBit_eq
    intro j
    rw [Nat.testBit_and, Nat.testBit_two_pow]
    by_cases hj : i = j
    · subst hj
      simp [h]
    · simp [hj]

theorem flagPos_fst (hc lev bmp : Nat) : (flagPos hc lev bmp).1 = 2 ^ hashIdx hc lev := by
  have h := hashIdx_lt hc lev
  have h32 : hashIdx hc lev < 2 ^ 32 := by omega
  have hp : 2 ^ hashIdx hc lev < 2 ^ 32 := Nat.pow_lt_pow_right (by norm_num) h
  show (1 <<< (hashIdx hc lev % 2 ^ 32)) % 2 ^ 32 = _
  rw [Nat.mod_eq_of_lt h32, Nat.one_shiftLeft, Nat.mod_eq_of_lt hp]

theorem flagPos_snd (hc lev bmp : Nat) (hb : bmp < 2 ^ 32) :
    (flagPos hc lev bmp).2 = popBelow bmp (hashIdx hc lev) := by
  have h := hashIdx_lt hc lev
  have hp : 2 ^ hashIdx hc lev < 2 ^ 32 := Nat.pow_lt_pow_right (by norm_num) h
  have hpos : 0 < 2 ^ hashIdx hc lev := Nat.two_pow_pos _
  show bitCount (bmp &&& ((flagPos hc lev bmp).1 + 2 ^ 32 - 1) % 2 ^ 32) = _
  rw [flagPos_fst]
  have e : (2 ^ hashIdx hc lev + 2 ^ 32 - 1) % 2 ^ 32 = 2 ^ hashIdx hc lev - 1 := by
    omega
  rw [e, Nat.and_pow_two_sub_one_eq_mod,
    bitCount_eq_popBelow _ (lt_of_le_of_lt (Nat.mod_le _ _) hb), popBelow_mod _ _ _ (by omega)]

theorem flag_unset_iff (hc lev bmp : Nat) :
    bmp &&& (flagPos hc lev bmp).1 = 0 ↔ bmp.testBit (hashIdx hc lev) = false := by
  rw [flagPos_fst, land_pow_eq_zero]


/-! ## The copy loops of `inserted` and `removed` -/

theorem getElem?_insertAt (l : List Branch) (p : Nat) (b : Branch) (hp : p ≤ l.length)
    (q : Nat) :
    (l.take p ++ b :: l.drop p)[q]? =
      if q < p then l[q]? else if q = p then some b else l[q - 1]? := by
  have hlen : (l.take p).length = p := by simp [List.length_take, Nat.min_eq_left hp]
  by_cases h1 : q < p
  · rw [List.getElem?_append_left (by omega), List.getElem?_take_of_lt h1]
    simp [h1]
  · rw [List.getElem?_append_right (by omega), hlen]
    by_cases h2 : q = p
    · subst h2
      simp
    · have e : q - p = (q - 1 - p) + 1 := by omega
      have e2 : p + (q - 1 - p) = q - 1 := by omega
      rw [e, List.getElem?_cons_succ, List.getElem?_drop, e2]
      simp [h1, h2]

theorem copyLoop_spec (src : List Branch) (s d : Nat) (hsrc : src.length < 2 ^ 32) :
    ∀ (n i : Nat) (array : List (Option Branch)), array.length ≤ 2 ^ 32 →
      i + s + n ≤ src.length → i + d + n ≤ array.length →
      ∃ r, copyLoop src s d n i array = some r ∧ r.length = array.length ∧
        ∀ q, r[q]? = if i + d ≤ q ∧ q < i + d + n then (src[q - d + s]?).map some
          else array[q]? := by
  intro n
  induction n with
  | zero =>
    intro i array _ _ _
    refine ⟨array, rfl, rfl, ?_⟩
    intro q
    have : ¬ (i + d ≤ q ∧ q < i + d + 0) := by omega
    rw [if_neg this]
  | succ n ih =>
    intro i array harr h1 h2
    have e1 : (i + s) % 2 ^ 32 = i + s := Nat.mod_eq_of_lt (by omega)
    have e2 : (i + d) % 2 ^ 32 = i + d := Nat.mod_eq_of_lt (by omega)
    have e3 : (i + 1) % 2 ^ 32 = i + 1 := Nat.mod_eq_of_lt (by omega)
    have hlt : i + s < src.length := by omega
    have hget : src[i + s]? = some src[i + s] := List.getElem?_eq_getElem hlt
    have hd : i + d < array.length := by omega
    obtain ⟨r, hr, hlen, hq⟩ := ih (i + 1) (array.set (i + d) (some src[i + s]))
      (by simpa using harr) (by omega) (by simp; omega)
    refine ⟨r, ?_, by simpa using hlen, ?_⟩
    · simp only [copyLoop, e1, e2, e3, hget, hd, if_true]
      exact hr
    · intro q
      rw [hq q]
      by_cases hc : i + 1 + d ≤ q ∧ q < i + 1 + d + n
      · have : i + d ≤ q ∧ q < i + d + (n + 1) := by omega
        rw [if_pos hc, if_pos this]
      · rw [if_neg hc]
        by_cases hq2 : q = i + d
        · subst hq2
          have : i + d ≤ i + d ∧ i + d < i + d + (n + 1) := by omega
          rw [if_pos this, List.getElem?_set_eq_of_lt _ hd, Nat.add_sub_cancel, hget]
          rfl
        · have : ¬ (i + d ≤ q ∧ q < i + d + (n + 1)) := by omega
          rw [if_neg this, List.getElem?_set_ne (by omega)]

theorem unslot_map_some (l : List Branch) : unslot (l.map some) = some l := by
  induction l with
  | nil => rfl
  | cons a rest ih => simp [unslot, ih]

/-- Value of `cNode.inserted` for a position inside the array. -/
theorem CNode.inserted_eq (c : CNode) (pos flag : Nat) (br : Branch)
    (hpos : pos ≤ c.array.length) (hlen : c.array.length + 1 < 2 ^ 32) :
    c.inserted pos flag br =
      some { bmp := c.bmp ||| flag, array := c.array.take pos ++ br :: c.array.drop pos } := by
  have hl : c.array.length < 2 ^ 32 := by omega
  have e0 : c.array.length % 2 ^ 32 = c.array.length := Nat.mod_eq_of_lt hl
  have e1 : (c.array.length + 1) % 2 ^ 32 = c.array.length + 1 := Nat.mod_eq_of_lt hlen
  have e2 : (c.array.length + 2 ^ 32 - pos) % 2 ^ 32 = c.array.length - pos := by omega
  obtain ⟨r1, h1, l1, q1⟩ := copyLoop_spec c.array 0 0 hl pos 0
    (List.replicate (c.array.length + 1) none) (by simp; omega) (by omega) (by simp; omega)
  have hr1 : pos < r1.length := by rw [l1]; simp; omega
  obtain ⟨r2, h2, l2, q2⟩ := copyLoop_spec c.array 0 1 hl (c.array.length - pos) pos
    (r1.set pos (some br)) (by simp [l1]; omega) (by omega) (by simp [l1]; omega)
  have hr2 : r2 = (c.array.take pos ++ br :: c.array.drop pos).map some := by
    apply List.ext_getElem?
    intro q
    rw [q2 q, List.getElem?_map, getElem?_insertAt _ _ _ hpos]
    by_cases hc : pos + 1 ≤ q ∧ q < pos + 1 + (c.array.length - pos)
    · rw [if_pos hc, if_neg (by omega), if_neg (by omega)]
      simp
    · rw [if_neg hc]
      by_cases hq : q = pos
      · subst hq
        rw [List.getElem?_set_eq_of_lt _ hr1, if_neg (by omega), if_pos rfl]
        rfl
      · rw [List.getElem?_set_ne (by omega), q1 q]
        by_cases hq2 : q < pos
        · have : 0 + 0 ≤ q ∧ q < 0 + 0 + pos := by omega
          rw [if_pos this, if_pos hq2]
          simp
        · have : ¬ (0 + 0 ≤ q ∧ q < 0 + 0 + pos) := by omega
          have h6 : c.array.length ≤ q - 1 := by omega
          rw [if_neg this, if_neg hq2, if_neg hq, List.getElem?_eq_none h6,
            List.getElem?_eq_none (by simp; omega)]
          rfl
  simp only [CNode.inserted, e0, e1, e2, h1, hr1, if_true, h2, hr2, unslot_map_some, Option.map]

/-- Value of `cNode.removed` for a position inside the array. -/
theorem CNode.removed_eq (c : CNode) (pos flag : Nat)
    (hpos : pos < c.array.length) (hlen : c.array.length < 2 ^ 32) :
    c.removed pos flag = some { bmp := c.bmp ^^^ flag, array := c.array.eraseIdx pos } := by
  have e0 : c.array.length % 2 ^ 32 = c.array.length := Nat.mod_eq_of_lt hlen
  have e1 : (c.array.length + 2 ^ 32 - 1) % 2 ^ 32 = c.array.length - 1 := by omega
  have e2 : (c.array.length + 2 * 2 ^ 32 - pos - 1) % 2 ^ 32 = c.array.length - pos - 1 := by
    omega
  obtain ⟨r1, h1, l1, q1⟩ := copyLoop_spec c.array 0 0 hlen pos 0
    (List.replicate (c.array.length - 1) none) (by simp; omega) (by omega) (by simp; omega)
  obtain ⟨r2, h2, l2, q2⟩ := copyLoop_spec c.array 1 0 hlen (c.array.length - pos - 1) pos
    r1 (by simp [l1]; omega) (by omega) (by simp [l1]; omega)
  have hr2 : r2 = (c.array.eraseIdx pos).map some := by
    apply List.ext_getElem?
    intro q
    rw [q2 q, List.getElem?_map, List.getElem?_eraseIdx]
    by_cases hc : pos + 0 ≤ q ∧ q < pos + 0 + (c.array.length - pos - 1)
    · rw [if_pos hc, if_neg (by omega)]
      simp
    · rw [if_neg hc, q1 q]
      by_cases hq2 : q < pos
      · have : 0 + 0 ≤ q ∧ q < 0 + 0 + pos := by omega
        rw [if_pos this, if_pos hq2]
        simp
      · have : ¬ (0 + 0 ≤ q ∧ q < 0 + 0 + pos) := by omega
        have h6 : c.array.length ≤ q + 1 := by omega
        rw [if_neg this, if_neg hq2, List.getElem?_eq_none h6,
          List.getElem?_eq_none (by simp; omega)]
        rfl
  simp only [CNode.removed, e0, e1, e2, h1, h2, hr2, unslot_map_some, Option.map]


/-! ## Slots of a `cNode` under the copy-on-write operations -/

theorem popBelow_lt_length {bmp : Nat} {array : List Branch} (h : CInv bmp array) {i : Nat}
    (hi : i < 32) (hb : bmp.testBit i = true) : popBelow bmp i < array.length := by
  rw [← h.2]
  exact popBelow_lt_of_testBit bmp hb hi

theorem popBelow_le_length {bmp : Nat} {array : List Branch} (h : CInv bmp array) {i : Nat}
    (hi : i < 32) : popBelow bmp i ≤ array.length := by
  rw [← h.2]
  exact popBelow_mono bmp (by omega)

theorem testBit_false_of_ge {bmp : Nat} (h : bmp < 2 ^ 32) {j : Nat} (hj : 32 ≤ j) :
    bmp.testBit j = false :=
  Nat.testBit_lt_two_pow (lt_of_lt_of_le h (Nat.pow_le_pow_right (by norm_num) hj))

theorem slot_some_lt {bmp : Nat} {array : List Branch} (h : CInv bmp array) {j : Nat}
    {b : Branch} (hs : slot bmp array j = some b) : j < 32 ∧ bmp.testBit j = true := by
  unfold slot at hs
  by_cases hb : bmp.testBit j = true
  · refine ⟨?_, hb⟩
    by_contra hj
    rw [testBit_false_of_ge h.1 (by omega)] at hb
    exact absurd hb (by simp)
  · simp [hb] at hs

theorem CInv_inserted {bmp : Nat} {array : List Branch} (h : CInv bmp array) {i : Nat}
    (hi : i < 32) (hb : bmp.testBit i = false) (br : Branch) :
    CInv (bmp ||| 2 ^ i)
      (array.take (popBelow bmp i) ++ br :: array.drop (popBelow bmp i)) := by
  refine ⟨Nat.or_lt_two_pow h.1 (Nat.pow_lt_pow_right (by norm_num) hi), ?_⟩
  have hp := popBelow_le_length h hi
  rw [popBelow_or_pow _ _ _ hb, h.2]
  simp [List.length_take, Nat.min_eq_left hp, hi]
  omega

theorem slot_inserted {bmp : Nat} {array : List Branch} (h : CInv bmp array) {i : Nat}
    (hi : i < 32) (hb : bmp.testBit i = false) (br : Branch) (j : Nat) :
    slot (bmp ||| 2 ^ i) (array.take (popBelow bmp i) ++ br :: array.drop (popBelow bmp i)) j =
      if j = i then some br else slot bmp array j := by
  have hp := popBelow_le_length h hi
  unfold slot
  rw [Nat.testBit_or, Nat.testBit_two_pow, popBelow_or_pow _ _ _ hb, getElem?_insertAt _ _ _ hp]
  by_cases hji : j = i
  · subst hji
    simp [hb]
  · have hne : ¬ i = j := fun e => hji e.symm
    simp only [hne, decide_False, Bool.or_false, hji, if_false]
    by_cases hbj : bmp.testBit j = true
    · simp only [hbj, if_true]
      rcases Nat.lt_or_gt_of_ne hji with hlt | hgt
      · have := popBelow_mono bmp (show j ≤ i by omega)
        have h2 : popBelow bmp j < popBelow bmp i := popBelow_lt_of_testBit bmp hbj hlt
        have h3 : ¬ i < j := by omega
        simp [h3, h2]
      · have h2 := popBelow_mono bmp (show i ≤ j by omega)
        have h3 : ¬ popBelow bmp j + 1 < popBelow bmp i := by omega
        have h4 : ¬ popBelow bmp j + 1 = popBelow bmp i := by omega
        simp [hgt, h3, h4]
    · simp [hbj]

theorem slot_updated {bmp : Nat} {array : List Branch} (h : CInv bmp array) {i : Nat}
    (hi : i < 32) (hb : bmp.testBit i = true) (br : Branch) (j : Nat) :
    slot bmp (array.set (popBelow bmp i) br) j = if j = i then some br else slot bmp array j := by
  have hp := popBelow_lt_length h hi hb
  unfold slot
  by_cases hji : j = i
  · subst hji
    simp [hb, hp]
  · simp only [hji, if_false]
    by_cases hbj : bmp.testBit j = true
    · simp only [hbj, if_true]
      have hne : popBelow bmp i ≠ popBelow bmp j := by
        rcases Nat.lt_or_gt_of_ne hji with hlt | hgt
        · have := popBelow_lt_of_testBit bmp hbj hlt
          omega
        · have := popBelow_lt_of_testBit bmp hb hgt
          omega
      rw [List.getElem?_set_ne hne]
    · simp [hbj]

theorem CInv_updated {bmp : Nat} {array : List Branch} (h : CInv bmp array) (p : Nat)
    (br : Branch) : CInv bmp (array.set p br) := by
  refine ⟨h.1, ?_⟩
  rw [h.2]
  simp

theorem CInv_removed {bmp : Nat} {array : List Branch} (h : CInv bmp array) {i : Nat}
    (hi : i < 32) (hb : bmp.testBit i = true) :
    CInv (bmp ^^^ 2 ^ i) (array.eraseIdx (popBelow bmp i)) := by
  refine ⟨Nat.xor_lt_two_pow h.1 (Nat.pow_lt_pow_right (by norm_num) hi), ?_⟩
  have hp := popBelow_lt_length h hi hb
  have := popBelow_xor_pow bmp i 32 hb
  rw [List.length_eraseIdx, if_pos hp]
  simp only [hi, if_true] at this
  have h2 := h.2
  omega

theorem slot_removed {bmp : Nat} {array : List Branch} (h : CInv bmp array) {i : Nat}
    (hi : i < 32) (hb : bmp.testBit i = true) (j : Nat) :
    slot (bmp ^^^ 2 ^ i) (array.eraseIdx (popBelow bmp i)) j =
      if j = i then none else slot bmp array j := by
  have hp := popBelow_lt_length h hi hb
  unfold slot
  rw [Nat.testBit_xor, Nat.testBit_two_pow, List.getElem?_eraseIdx]
  by_cases hji : j = i
  · subst hji
    simp [hb]
  · have hne : ¬ i = j := fun e => hji e.symm
    simp only [hne, decide_False, Bool.xor_false, hji, if_false]
    by_cases hbj : bmp.testBit j = true
    · simp only [hbj, if_true]
      have hx := popBelow_xor_pow bmp i j hb
      rcases Nat.lt_or_gt_of_ne hji with hlt | hgt
      · have h2 : popBelow bmp j < popBelow bmp i := popBelow_lt_of_testBit bmp hbj hlt
        have h3 : ¬ i < j := by omega
        simp only [h3, if_false, Nat.add_zero] at hx
        rw [hx, if_pos h2]
      · have h2 : popBelow bmp i < popBelow bmp j := popBelow_lt_of_testBit bmp hb hgt
        simp only [hgt, if_true] at hx
        have h3 : ¬ popBelow (bmp ^^^ 2 ^ i) j < popBelow bmp i := by omega
        rw [if_neg h3, hx]
    · simp [hbj]


/-! ## The `cNode` cases of the three descents -/

theorem slot_eq_none_iff {bmp : Nat} {array : List Branch} (h : CInv bmp array) {i : Nat}
    (hi : i < 32) : slot bmp array i = none ↔ bmp.testBit i = false := by
  unfold slot
  constructor
  · intro hs
    by_contra hb
    have hb2 : bmp.testBit i = true := by simpa using hb
    have hp := popBelow_lt_length h hi hb2
    rw [if_pos hb2, List.getElem?_eq_getElem hp] at hs
    exact absurd hs (by simp)
  · intro hb
    simp [hb]

theorem slot_of_set {bmp : Nat} {array : List Branch} {i : Nat}
    (hb : bmp.testBit i = true) : array[popBelow bmp i]? = slot bmp array i := by
  simp [slot, hb]

/-- The `cNode` case of `ilookup`, read through the slot of the entry's index. -/
theorem ilookup_cNode {bmp : Nat} {array : List Branch} (h : CInv bmp array) (e : Entry)
    (lev : Nat) :
    ilookup (.cNode bmp array) e lev =
      match slot bmp array (hashIdx e.hash lev) with
      | none => some (Value.nil, false)
      | some (.iNode im) => ilookup im e (lev + w)
      | some (.sNode sn) =>
        if sn.key = e.key then some (sn.value, true) else some (Value.nil, false) := by
  have hi := hashIdx_lt e.hash lev
  rw [ilookup]
  by_cases hb : bmp.testBit (hashIdx e.hash lev) = true
  · have hz : ¬ bmp &&& (flagPos e.hash lev bmp).1 = 0 := by
      rw [flag_unset_iff]; simp [hb]
    have hp := popBelow_lt_length h hi hb
    rw [if_neg hz, ← slot_of_set hb, ← flagPos_snd e.hash lev bmp h.1]
    rw [← flagPos_snd e.hash lev bmp h.1] at hp
    split
    · rename_i heq
      rw [List.getElem?_eq_none_iff] at heq
      omega
    · rename_i im heq
      rw [heq]
    · rename_i sn heq
      rw [heq]
  · have hb2 : bmp.testBit (hashIdx e.hash lev) = false := by simpa using hb
    have hz : bmp &&& (flagPos e.hash lev bmp).1 = 0 := by
      rw [flag_unset_iff]; exact hb2
    rw [if_pos hz, (slot_eq_none_iff h hi).2 hb2]

theorem length_le_of_CInv {bmp : Nat} {array : List Branch} (h : CInv bmp array) :
    array.length ≤ 32 := by
  rw [← h.2]
  exact popBelow_le bmp 32

/-- The `cNode` case of `iinsert`, read through the slot of the entry's index. -/
theorem iinsert_cNode {bmp : Nat} {array : List Branch} (h : CInv bmp array) (e : Entry)
    (lev : Nat) :
    iinsert (.cNode bmp array) e lev =
      match slot bmp array (hashIdx e.hash lev) with
      | none =>
        some (.cNode (bmp ||| 2 ^ hashIdx e.hash lev)
          (array.take (popBelow bmp (hashIdx e.hash lev)) ++
            .sNode e :: array.drop (popBelow bmp (hashIdx e.hash lev))))
      | some (.iNode im) =>
        (iinsert im e (lev + w)).map fun im2 =>
          .cNode bmp (array.set (popBelow bmp (hashIdx e.hash lev)) (.iNode im2))
      | some (.sNode sn) =>
        if sn.key ≠ e.key then
          some (.cNode bmp (array.set (popBelow bmp (hashIdx e.hash lev))
            (.iNode (newMainNode sn sn.hash e e.hash (lev + w)))))
        else
          some (.cNode bmp (array.set (popBelow bmp (hashIdx e.hash lev)) (.sNode e))) := by
  have hi := hashIdx_lt e.hash lev
  have hl := length_le_of_CInv h
  rw [iinsert]
  by_cases hb : bmp.testBit (hashIdx e.hash lev) = true
  · have hz : ¬ bmp &&& (flagPos e.hash lev bmp).1 = 0 := by
      rw [flag_unset_iff]; simp [hb]
    have hp := popBelow_lt_length h hi hb
    rw [if_neg hz, ← slot_of_set hb, flagPos_snd e.hash lev bmp h.1]
    split
    · rename_i heq
      rw [List.getElem?_eq_none_iff] at heq
      omega
    · rename_i im heq
      rw [heq]
      dsimp only
      generalize iinsert im e (lev + w) = o
      cases o <;> rfl
    · rename_i sn heq
      rw [heq]
      simp only [CNode.updated, hp, if_true, Option.map, CNode.toMain]
  · have hb2 : bmp.testBit (hashIdx e.hash lev) = false := by simpa using hb
    have hz : bmp &&& (flagPos e.hash lev bmp).1 = 0 := by
      rw [flag_unset_iff]; exact hb2
    rw [if_pos hz, (slot_eq_none_iff h hi).2 hb2, flagPos_snd e.hash lev bmp h.1, flagPos_fst,
      CNode.inserted_eq _ _ _ _ (popBelow_le_length h hi) (by simp; omega)]
    rfl

/-- The `cNode` case of `iremove`, read through the slot of the entry's index. -/
theorem iremove_cNode {bmp : Nat} {array : List Branch} (h : CInv bmp array) (e : Entry)
    (lev : Nat) (parent : Bool) :
    iremove (.cNode bmp array) e lev parent =
      match slot bmp array (hashIdx e.hash lev) with
      | none => some ⟨.cNode bmp array, Value.nil, false, none⟩
      | some (.iNode im) =>
        match iremove im e (lev + w) true with
        | none => none
        | some r =>
          match r.clean with
          | none =>
            some ⟨.cNode bmp (array.set (popBelow bmp (hashIdx e.hash lev)) (.iNode r.main)),
              r.value, r.found, none⟩
          | some (hc, plev) =>
            match cleanParent
              (.cNode bmp (array.set (popBelow bmp (hashIdx e.hash lev)) (.iNode r.main)))
              hc plev with
            | none => none
            | some pm => some ⟨pm, r.value, r.found, none⟩
      | some (.sNode sn) =>
        if sn.key ≠ e.key then some ⟨.cNode bmp array, Value.nil, false, none⟩
        else
          if parent && (toContracted ⟨bmp ^^^ 2 ^ hashIdx e.hash lev,
              array.eraseIdx (popBelow bmp (hashIdx e.hash lev))⟩ lev).isTNode then
            some ⟨toContracted ⟨bmp ^^^ 2 ^ hashIdx e.hash lev,
              array.eraseIdx (popBelow bmp (hashIdx e.hash lev))⟩ lev, sn.value, true,
              some (e.hash, lev - w)⟩
          else
            some ⟨toContracted ⟨bmp ^^^ 2 ^ hashIdx e.hash lev,
              array.eraseIdx (popBelow bmp (hashIdx e.hash lev))⟩ lev, sn.value, true, none⟩ := by
  have hi := hashIdx_lt e.hash lev
  have hl := length_le_of_CInv h
  rw [iremove]
  by_cases hb : bmp.testBit (hashIdx e.hash lev) = true
  · have hz : ¬ bmp &&& (flagPos e.hash lev bmp).1 = 0 := by
      rw [flag_unset_iff]; simp [hb]
    have hp := popBelow_lt_length h hi hb
    rw [if_neg hz, ← slot_of_set hb, flagPos_snd e.hash lev bmp h.1]
    split
    · rename_i heq
      rw [List.getElem?_eq_none_iff] at heq
      omega
    · rename_i im heq
      rw [heq]
    · rename_i sn heq
      rw [heq, flagPos_fst, CNode.removed_eq _ _ _ hp (by simp; omega)]
  · have hb2 : bmp.testBit (hashIdx e.hash lev) = false := by simpa using hb
    have hz : bmp &&& (flagPos e.hash lev bmp).1 = 0 := by
      rw [flag_unset_iff]; exact hb2
    rw [if_pos hz, (slot_eq_none_iff h hi).2 hb2]

/-- The call `cleanParent` made after a contraction: the parent's slot of the hash holds the
`iNode` that now has a tombed main node, and the wrapped leaf takes its place. -/
theorem cleanParent_tomb {bmp : Nat} {array : List Branch} (h : CInv bmp array) (hc lev : Nat)
    (hb : bmp.testBit (hashIdx hc lev) = true) (s : Entry) :
    cleanParent (.cNode bmp (array.set (popBelow bmp (hashIdx hc lev)) (.iNode (.tNode s))))
        hc lev =
      some (toContracted ⟨bmp, array.set (popBelow bmp (hashIdx hc lev)) (.sNode s)⟩ lev) := by
  have hi := hashIdx_lt hc lev
  have hp := popBelow_lt_length h hi hb
  have hz : bmp &&& (flagPos hc lev bmp).1 ≠ 0 := by
    rw [Ne, flag_unset_iff]; simp [hb]
  simp only [cleanParent, hz, ne_eq, not_false_eq_true, if_true, flagPos_snd hc lev bmp h.1,
    List.getElem?_set_eq_of_lt _ hp, MainNode.isTNode, CNode.updated, List.length_set, hp,
    resurrect, untombed, List.set_set]


/-! ## The structural invariant and lookups -/

theorem Inv_cNode_iff (H : Key → Nat) (n lev : Nat) (P : Nat → Prop) (bmp : Nat)
    (array : List Branch) :
    Inv H (n + 1) lev P (.cNode bmp array) ↔
      CInv bmp array ∧ ∀ j b, slot bmp array j = some b → BInv H n lev P j b := by
  unfold Inv
  constructor
  · rintro ⟨h1, h2⟩
    refine ⟨h1, ?_⟩
    intro j b hs
    have := h2 j b hs
    cases b <;> exact this
  · rintro ⟨h1, h2⟩
    refine ⟨h1, ?_⟩
    intro j b hs
    have := h2 j b hs
    cases b <;> exact this

theorem ilookup_cNode_branch {bmp : Nat} {array : List Branch} (h : CInv bmp array) (e : Entry)
    (lev : Nat) :
    ilookup (.cNode bmp array) e lev = lookupBranch (slot bmp array (hashIdx e.hash lev)) e lev :=
  ilookup_cNode h e lev

theorem ilookup_tNode (sn : Entry) (e : Entry) (lev : Nat) :
    ilookup (.tNode sn) e lev = some (Value.nil, false) := by
  rw [ilookup]

theorem ilookup_lNode (sns : List Entry) (e : Entry) (lev : Nat) :
    ilookup (.lNode sns) e lev = some (Value.nil, false) := by
  rw [ilookup]

theorem iinsert_tNode (sn : Entry) (e : Entry) (lev : Nat) :
    iinsert (.tNode sn) e lev = some (.tNode sn) := by
  rw [iinsert]

theorem iinsert_lNode (sns : List Entry) (e : Entry) (lev : Nat) :
    iinsert (.lNode sns) e lev = some (.lNode sns) := by
  rw [iinsert]

theorem iremove_tNode (sn : Entry) (e : Entry) (lev : Nat) (parent : Bool) :
    iremove (.tNode sn) e lev parent = some ⟨.tNode sn, Value.nil, false, none⟩ := by
  rw [iremove]

theorem iremove_lNode (sns : List Entry) (e : Entry) (lev : Nat) (parent : Bool) :
    iremove (.lNode sns) e lev parent = some ⟨.lNode sns, Value.nil, false, none⟩ := by
  rw [iremove]

theorem Inv_mono (H : Key → Nat) (n : Nat) : ∀ (lev : Nat) (P Q : Nat → Prop) (m : MainNode),
    (∀ h, P h → Q h) → Inv H n lev P m → Inv H n lev Q m := by
  induction n with
  | zero =>
    intro lev P Q m hPQ hm
    cases m with
    | cNode bmp array => exact hm
    | tNode sn => exact hm
    | lNode sns =>
      intro sn hsn
      exact ⟨(hm sn hsn).1, hPQ _ (hm sn hsn).2⟩
  | succ n ih =>
    intro lev P Q m hPQ hm
    cases m with
    | cNode bmp array =>
      rw [Inv_cNode_iff] at hm ⊢
      refine ⟨hm.1, ?_⟩
      intro j b hs
      have hb := hm.2 j b hs
      cases b with
      | sNode sn => exact ⟨hb.1, hPQ _ hb.2.1, hb.2.2⟩
      | iNode im =>
        exact ih _ _ _ im (fun h hh => ⟨hPQ _ hh.1, hh.2⟩) hb
    | tNode sn => exact ⟨hm.1, hPQ _ hm.2⟩
    | lNode sns => exact hm

/-- Under the invariant a lookup never panics; a hit returns the value of a stored leaf with
the entry's key, a miss returns `nil`. -/
theorem ilookup_spec (H : Key → Nat) (n : Nat) : ∀ (lev : Nat) (P : Nat → Prop) (m : MainNode),
    Inv H n lev P m → ∀ e : Entry, ∃ r, ilookup m e lev = some r ∧
      (r.2 = true → ∃ sn : Entry, sn.key = e.key ∧ r.1 = sn.value ∧ hashOK H sn ∧ P sn.hash) ∧
      (r.2 = false → r.1 = Value.nil) := by
  induction n with
  | zero =>
    intro lev P m hm e
    cases m with
    | cNode bmp array => exact absurd hm (by simp [Inv])
    | tNode sn => exact absurd hm (by simp [Inv])
    | lNode sns => exact ⟨_, ilookup_lNode _ _ _, by simp, by simp⟩
  | succ n ih =>
    intro lev P m hm e
    cases m with
    | cNode bmp array =>
      rw [Inv_cNode_iff] at hm
      rw [ilookup_cNode_branch hm.1]
      cases hs : slot bmp array (hashIdx e.hash lev) with
      | none => exact ⟨_, rfl, by simp, by simp⟩
      | some b =>
        have hb := hm.2 _ b hs
        cases b with
        | sNode sn =>
          simp only [lookupBranch]
          by_cases hk : sn.key = e.key
          · rw [if_pos hk]
            exact ⟨_, rfl, fun _ => ⟨sn, hk, rfl, hb.1, hb.2.1⟩, by simp⟩
          · rw [if_neg hk]
            exact ⟨_, rfl, by simp, by simp⟩
        | iNode im =>
          simp only [lookupBranch]
          obtain ⟨r, h1, h2, h3⟩ := ih _ _ im hb e
          refine ⟨r, h1, ?_, h3⟩
          intro hr
          obtain ⟨sn, a, b, c, d⟩ := h2 hr
          exact ⟨sn, a, b, c, d.1⟩
    | tNode sn => exact ⟨_, ilookup_tNode _ _ _, by simp, by simp⟩
    | lNode sns => exact absurd hm (by simp [Inv])


/-! ## `newMainNode` -/

theorem popBelow_zero (n : Nat) : popBelow 0 n = 0 := by
  induction n with
  | zero => rfl
  | succ n ih => simp [popBelow, ih]

theorem CInv_empty : CInv 0 [] := ⟨by norm_num, by simp [popBelow_zero]⟩

theorem slot_empty (j : Nat) : slot 0 [] j = none := by
  simp [slot]

/-- A `cNode` built with one branch at index `i`. -/
theorem oneBranch (i : Nat) (hi : i < 32) (b : Branch) :
    CInv (2 ^ i) [b] ∧ ∀ j, slot (2 ^ i) [b] j = if j = i then some b else none := by
  have h0 : (0 : Nat).testBit i = false := by simp
  have h1 := CInv_inserted CInv_empty hi h0 b
  have h2 := slot_inserted CInv_empty hi h0 b
  simp only [popBelow_zero, List.take_nil, List.drop_nil, List.nil_append, Nat.zero_or,
    slot_empty] at h1 h2
  exact ⟨h1, h2⟩

/-- A `cNode` built with two branches at distinct indices, in ascending index order. -/
theorem twoBranch (xi yi : Nat) (hx : xi < 32) (hy : yi < 32) (hne : xi ≠ yi) (bx bz : Branch) :
    CInv (2 ^ xi ||| 2 ^ yi) (if xi < yi then [bx, bz] else [bz, bx]) ∧
    ∀ j, slot (2 ^ xi ||| 2 ^ yi) (if xi < yi then [bx, bz] else [bz, bx]) j =
      if j = yi then some bz else if j = xi then some bx else none := by
  obtain ⟨c1, s1⟩ := oneBranch xi hx bx
  have hb : (2 ^ xi).testBit yi = false := by
    rw [Nat.testBit_two_pow]; simp [hne]
  have h1 := CInv_inserted c1 hy hb bz
  have h2 := slot_inserted c1 hy hb bz
  have hp : popBelow (2 ^ xi) yi = if xi < yi then 1 else 0 := by
    have := popBelow_or_pow 0 xi yi (by simp)
    simpa [popBelow_zero] using this
  rw [hp] at h1 h2
  by_cases hlt : xi < yi
  · simp only [hlt, if_true] at h1 h2 ⊢
    refine ⟨by simpa using h1, ?_⟩
    intro j
    have := h2 j
    simp only [s1] at this
    simpa using this
  · simp only [hlt, if_false] at h1 h2 ⊢
    refine ⟨by simpa using h1, ?_⟩
    intro j
    have := h2 j
    simp only [s1] at this
    simpa using this

theorem newMainNode_bottom (x : Entry) (xhc : Nat) (y : Entry) (yhc lev : Nat) (h : ¬ lev < 35) :
    newMainNode x xhc y yhc lev = .lNode [x, y] := by
  rw [newMainNode, if_neg h]

theorem newMainNode_same (x : Entry) (xhc : Nat) (y : Entry) (yhc lev : Nat) (h : lev < 35)
    (he : hashIdx xhc lev = hashIdx yhc lev) :
    newMainNode x xhc y yhc lev =
      .cNode (2 ^ hashIdx xhc lev) [.iNode (newMainNode x xhc y yhc (lev + w))] := by
  have hi := hashIdx_lt xhc lev
  have hp : 2 ^ hashIdx xhc lev < 2 ^ 32 := Nat.pow_lt_pow_right (by norm_num) hi
  rw [newMainNode, if_pos h]
  have he2 : xhc >>> lev &&& 31 = yhc >>> lev &&& 31 := he
  simp only [he2, if_true, Nat.or_self, Nat.one_shiftLeft]
  have : yhc >>> lev &&& 31 = hashIdx xhc lev := he2.symm
  rw [this, Nat.mod_eq_of_lt hp]

theorem newMainNode_split (x : Entry) (xhc : Nat) (y : Entry) (yhc lev : Nat) (h : lev < 35)
    (he : hashIdx xhc lev ≠ hashIdx yhc lev) :
    newMainNode x xhc y yhc lev =
      .cNode (2 ^ hashIdx xhc lev ||| 2 ^ hashIdx yhc lev)
        (if hashIdx xhc lev < hashIdx yhc lev then [.sNode x, .sNode y]
          else [.sNode y, .sNode x]) := by
  have hi := hashIdx_lt xhc lev
  have hj := hashIdx_lt yhc lev
  have hp : 2 ^ hashIdx xhc lev ||| 2 ^ hashIdx yhc lev < 2 ^ 32 :=
    Nat.or_lt_two_pow (Nat.pow_lt_pow_right (by norm_num) hi)
      (Nat.pow_lt_pow_right (by norm_num) hj)
  rw [newMainNode, if_pos h]
  have he2 : ¬ xhc >>> lev &&& 31 = yhc >>> lev &&& 31 := he
  simp only [he2, if_false, Nat.one_shiftLeft]
  show (if hashIdx xhc lev < hashIdx yhc lev then
      MainNode.cNode ((2 ^ hashIdx xhc lev ||| 2 ^ hashIdx yhc lev) % 2 ^ 32) _
    else MainNode.cNode ((2 ^ hashIdx xhc lev ||| 2 ^ hashIdx yhc lev) % 2 ^ 32) _) = _
  rw [Nat.mod_eq_of_lt hp]
  split <;> rfl

/-- The subtree built by `newMainNode` satisfies the invariant. -/
theorem Inv_newMainNode (H : Key → Nat) (x y : Entry) (hx : hashOK H x) (hy : hashOK H y)
    (n : Nat) : ∀ (lev : Nat) (P : Nat → Prop), lev + 5 * n = 35 → P x.hash → P y.hash →
      Inv H n lev P (newMainNode x x.hash y y.hash lev) := by
  induction n with
  | zero =>
    intro lev P hl px py
    rw [newMainNode_bottom _ _ _ _ _ (by omega)]
    intro sn hsn
    simp only [List.mem_cons, List.mem_singleton, List.not_mem_nil, or_false] at hsn
    rcases hsn with rfl | rfl
    · exact ⟨hx, px⟩
    · exact ⟨hy, py⟩
  | succ n ih =>
    intro lev P hl px py
    have hlt : lev < 35 := by omega
    by_cases he : hashIdx x.hash lev = hashIdx y.hash lev
    · rw [newMainNode_same _ _ _ _ _ hlt he, Inv_cNode_iff]
      obtain ⟨c1, s1⟩ := oneBranch (hashIdx x.hash lev) (hashIdx_lt _ _)
        (.iNode (newMainNode x x.hash y y.hash (lev + w)))
      refine ⟨c1, ?_⟩
      intro j b hs
      rw [s1] at hs
      by_cases hj : j = hashIdx x.hash lev
      · rw [if_pos hj] at hs
        cases hs
        exact ih (lev + w) _ (by simp only [w]; omega) ⟨px, hj.symm⟩ ⟨py, by rw [hj, he]⟩
      · rw [if_neg hj] at hs
        cases hs
    · rw [newMainNode_split _ _ _ _ _ hlt he, Inv_cNode_iff]
      obtain ⟨c1, s1⟩ := twoBranch (hashIdx x.hash lev) (hashIdx y.hash lev) (hashIdx_lt _ _)
        (hashIdx_lt _ _) he (.sNode x) (.sNode y)
      refine ⟨c1, ?_⟩
      intro j b hs
      rw [s1] at hs
      by_cases hj : j = hashIdx y.hash lev
      · rw [if_pos hj] at hs
        cases hs
        exact ⟨hy, py, hj.symm⟩
      · rw [if_neg hj] at hs
        by_cases hj2 : j = hashIdx x.hash lev
        · rw [if_pos hj2] at hs
          cases hs
          exact ⟨hx, px, hj2.symm⟩
        · rw [if_neg hj2] at hs
          cases hs

/-- A lookup in the subtree built by `newMainNode` misses or returns one of the two leaves. -/
theorem ilookup_newMainNode (x y : Entry) (e : Entry) (n : Nat) : ∀ (lev : Nat),
    lev + 5 * n = 35 →
      ilookup (newMainNode x x.hash y y.hash lev) e lev = some (Value.nil, false) ∨
      (x.key = e.key ∧
        ilookup (newMainNode x x.hash y y.hash lev) e lev = some (x.value, true)) ∨
      (y.key = e.key ∧
        ilookup (newMainNode x x.hash y y.hash lev) e lev = some (y.value, true)) := by
  induction n with
  | zero =>
    intro lev hl
    rw [newMainNode_bottom _ _ _ _ _ (by omega), ilookup_lNode]
    exact Or.inl rfl
  | succ n ih =>
    intro lev hl
    have hlt : lev < 35 := by omega
    by_cases he : hashIdx x.hash lev = hashIdx y.hash lev
    · rw [newMainNode_same _ _ _ _ _ hlt he]
      obtain ⟨c1, s1⟩ := oneBranch (hashIdx x.hash lev) (hashIdx_lt _ _)
        (.iNode (newMainNode x x.hash y y.hash (lev + w)))
      rw [ilookup_cNode_branch c1, s1]
      by_cases hj : hashIdx e.hash lev = hashIdx x.hash lev
      · rw [if_pos hj]
        exact ih (lev + w) (by simp only [w]; omega)
      · rw [if_neg hj]
        exact Or.inl rfl
    · rw [newMainNode_split _ _ _ _ _ hlt he]
      obtain ⟨c1, s1⟩ := twoBranch (hashIdx x.hash lev) (hashIdx y.hash lev) (hashIdx_lt _ _)
        (hashIdx_lt _ _) he (.sNode x) (.sNode y)
      rw [ilookup_cNode_branch c1, s1]
      by_cases hj : hashIdx e.hash lev = hashIdx y.hash lev
      · rw [if_pos hj]
        simp only [lookupBranch]
        by_cases hk : y.key = e.key
        · rw [if_pos hk]; exact Or.inr (Or.inr ⟨hk, rfl⟩)
        · rw [if_neg hk]; exact Or.inl rfl
      · rw [if_neg hj]
        by_cases hj2 : hashIdx e.hash lev = hashIdx x.hash lev
        · rw [if_pos hj2]
          simp only [lookupBranch]
          by_cases hk : x.key = e.key
          · rw [if_pos hk]; exact Or.inr (Or.inl ⟨hk, rfl⟩)
          · rw [if_neg hk]; exact Or.inl rfl
        · rw [if_neg hj2]
          exact Or.inl rfl

/-- When the two hashes differ at one of the remaining levels, `newMainNode` builds `cNode`s
only and both leaves are found. -/
theorem newMainNode_differ (x y : Entry) (n : Nat) : ∀ (lev : Nat),
    lev + 5 * n = 35 → Differ x.hash y.hash lev n →
      AllC n (newMainNode x x.hash y y.hash lev) ∧
      (∀ e : Entry, e.key = x.key → e.hash = x.hash →
        ilookup (newMainNode x x.hash y y.hash lev) e lev = some (x.value, true)) ∧
      (∀ e : Entry, e.key = y.key → e.hash = y.hash →
        ilookup (newMainNode x x.hash y y.hash lev) e lev = some (y.value, true)) := by
  induction n with
  | zero =>
    intro lev _ hd
    obtain ⟨L, hL, _⟩ := hd
    omega
  | succ n ih =>
    intro lev hl hd
    have hlt : lev < 35 := by omega
    by_cases he : hashIdx x.hash lev = hashIdx y.hash lev
    · have hd2 : Differ x.hash y.hash (lev + w) n := by
        obtain ⟨L, hL, hne⟩ := hd
        cases L with
        | zero => exact absurd he (by simpa using hne)
        | succ L =>
          refine ⟨L, by omega, ?_⟩
          have e1 : lev + w + 5 * L = lev + 5 * (L + 1) := by simp only [w]; omega
          rw [e1]
          exact hne
      obtain ⟨a1, a2, a3⟩ := ih (lev + w) (by simp only [w]; omega) hd2
      rw [newMainNode_same _ _ _ _ _ hlt he]
      obtain ⟨c1, s1⟩ := oneBranch (hashIdx x.hash lev) (hashIdx_lt _ _)
        (.iNode (newMainNode x x.hash y y.hash (lev + w)))
      refine ⟨?_, ?_, ?_⟩
      · intro j im hs
        rw [s1] at hs
        by_cases hj : j = hashIdx x.hash lev
        · rw [if_pos hj] at hs
          cases hs
          exact a1
        · rw [if_neg hj] at hs
          cases hs
      · intro e h1 h2
        rw [ilookup_cNode_branch c1, s1, h2, if_pos rfl]
        exact a2 e h1 h2
      · intro e h1 h2
        rw [ilookup_cNode_branch c1, s1, h2, if_pos he.symm]
        exact a3 e h1 h2
    · rw [newMainNode_split _ _ _ _ _ hlt he]
      obtain ⟨c1, s1⟩ := twoBranch (hashIdx x.hash lev) (hashIdx y.hash lev) (hashIdx_lt _ _)
        (hashIdx_lt _ _) he (.sNode x) (.sNode y)
      refine ⟨?_, ?_, ?_⟩
      · intro j im hs
        rw [s1] at hs
        by_cases hj : j = hashIdx y.hash lev
        · rw [if_pos hj] at hs
          cases hs
        · rw [if_neg hj] at hs
          by_cases hj2 : j = hashIdx x.hash lev
          · rw [if_pos hj2] at hs
            cases hs
          · rw [if_neg hj2] at hs
            cases hs
      · intro e h1 h2
        rw [ilookup_cNode_branch c1, s1, h2, if_neg he, if_pos rfl]
        simp [lookupBranch, h1]
      · intro e h1 h2
        rw [ilookup_cNode_branch c1, s1, h2, if_pos rfl]
        simp [lookupBranch, h1]


/-! ## Replacing one slot of a `cNode` -/

theorem ilookup_set {bmp : Nat} {array : List Branch} (h : CInv bmp array) {i : Nat}
    (hi : i < 32) (hb : bmp.testBit i = true) (b2 : Branch) (e : Entry) (lev : Nat) :
    ilookup (.cNode bmp (array.set (popBelow bmp i) b2)) e lev =
      if hashIdx e.hash lev = i then lookupBranch (some b2) e lev
      else ilookup (.cNode bmp array) e lev := by
  rw [ilookup_cNode_branch (CInv_updated h _ _), slot_updated h hi hb, ilookup_cNode_branch h]
  by_cases hj : hashIdx e.hash lev = i
  · rw [if_pos hj, if_pos hj]
  · rw [if_neg hj, if_neg hj]

theorem ilookup_ins {bmp : Nat} {array : List Branch} (h : CInv bmp array) {i : Nat}
    (hi : i < 32) (hb : bmp.testBit i = false) (b2 : Branch) (e : Entry) (lev : Nat) :
    ilookup (.cNode (bmp ||| 2 ^ i)
        (array.take (popBelow bmp i) ++ b2 :: array.drop (popBelow bmp i))) e lev =
      if hashIdx e.hash lev = i then lookupBranch (some b2) e lev
      else ilookup (.cNode bmp array) e lev := by
  rw [ilookup_cNode_branch (CInv_inserted h hi hb _), slot_inserted h hi hb,
    ilookup_cNode_branch h]
  by_cases hj : hashIdx e.hash lev = i
  · rw [if_pos hj, if_pos hj]
  · rw [if_neg hj, if_neg hj]

theorem ilookup_erase {bmp : Nat} {array : List Branch} (h : CInv bmp array) {i : Nat}
    (hi : i < 32) (hb : bmp.testBit i = true) (e : Entry) (lev : Nat) :
    ilookup (.cNode (bmp ^^^ 2 ^ i) (array.eraseIdx (popBelow bmp i))) e lev =
      if hashIdx e.hash lev = i then some (Value.nil, false)
      else ilookup (.cNode bmp array) e lev := by
  rw [ilookup_cNode_branch (CInv_removed h hi hb), slot_removed h hi hb,
    ilookup_cNode_branch h]
  by_cases hj : hashIdx e.hash lev = i
  · rw [if_pos hj, if_pos hj]
    rfl
  · rw [if_neg hj, if_neg hj]

theorem Inv_set {H : Key → Nat} {n lev : Nat} {P : Nat → Prop} {bmp : Nat}
    {array : List Branch} (h : Inv H (n + 1) lev P (.cNode bmp array)) {i : Nat} (hi : i < 32)
    (hb : bmp.testBit i = true) {b2 : Branch} (h2 : BInv H n lev P i b2) :
    Inv H (n + 1) lev P (.cNode bmp (array.set (popBelow bmp i) b2)) := by
  rw [Inv_cNode_iff] at h ⊢
  refine ⟨CInv_updated h.1 _ _, ?_⟩
  intro j b hs
  rw [slot_updated h.1 hi hb] at hs
  by_cases hj : j = i
  · rw [if_pos hj] at hs
    cases hs
    rw [hj]
    exact h2
  · rw [if_neg hj] at hs
    exact h.2 j b hs

theorem Inv_ins {H : Key → Nat} {n lev : Nat} {P : Nat → Prop} {bmp : Nat}
    {array : List Branch} (h : Inv H (n + 1) lev P (.cNode bmp array)) {i : Nat} (hi : i < 32)
    (hb : bmp.testBit i = false) {b2 : Branch} (h2 : BInv H n lev P i b2) :
    Inv H (n + 1) lev P (.cNode (bmp ||| 2 ^ i)
      (array.take (popBelow bmp i) ++ b2 :: array.drop (popBelow bmp i))) := by
  rw [Inv_cNode_iff] at h ⊢
  refine ⟨CInv_inserted h.1 hi hb _, ?_⟩
  intro j b hs
  rw [slot_inserted h.1 hi hb] at hs
  by_cases hj : j = i
  · rw [if_pos hj] at hs
    cases hs
    rw [hj]
    exact h2
  · rw [if_neg hj] at hs
    exact h.2 j b hs

theorem Inv_erase {H : Key → Nat} {n lev : Nat} {P : Nat → Prop} {bmp : Nat}
    {array : List Branch} (h : Inv H (n + 1) lev P (.cNode bmp array)) {i : Nat} (hi : i < 32)
    (hb : bmp.testBit i = true) :
    Inv H (n + 1) lev P (.cNode (bmp ^^^ 2 ^ i) (array.eraseIdx (popBelow bmp i))) := by
  rw [Inv_cNode_iff] at h ⊢
  refine ⟨CInv_removed h.1 hi hb, ?_⟩
  intro j b hs
  rw [slot_removed h.1 hi hb] at hs
  by_cases hj : j = i
  · rw [if_pos hj] at hs
    cases hs
  · rw [if_neg hj] at hs
    exact h.2 j b hs

theorem AllC_cNode_iff (n : Nat) (bmp : Nat) (array : List Branch) :
    AllC (n + 1) (.cNode bmp array) ↔
      ∀ j im, slot bmp array j = some (.iNode im) → AllC n im := by
  rw [AllC]

theorem hashOK_hash_eq {H : Key → Nat} {a b : Entry} (ha : hashOK H a) (hb : hashOK H b)
    (hk : a.key = b.key) : a.hash = b.hash := by
  rw [ha, hb, hk]

/-- Hashes that differ on the low 35 bits differ at one of the seven levels. -/
theorem differ_of_mod_ne (x y : Nat) (h : x % 2 ^ 35 ≠ y % 2 ^ 35) : Differ x y 0 7 := by
  by_contra hd
  apply h
  apply Nat.eq_of_testBit_eq
  intro j
  rw [Nat.testBit_mod_two_pow, Nat.testBit_mod_two_pow]
  by_cases hj : j < 35
  · simp only [hj, decide_True, Bool.true_and]
    have hL : hashIdx x (0 + 5 * (j / 5)) = hashIdx y (0 + 5 * (j / 5)) := by
      by_contra hne
      exact hd ⟨j / 5, by omega, hne⟩
    have := congrArg (fun z => Nat.testBit z (j % 5)) hL
    simp only [hashIdx, Nat.testBit_and, Nat.testBit_shiftRight] at this
    have e1 : 0 + 5 * (j / 5) + j % 5 = j := by omega
    have e2 : Nat.testBit 31 (j % 5) = true := by
      have : j % 5 < 5 := Nat.mod_lt _ (by norm_num)
      interval_cases (j % 5) <;> decide
    rw [e1, e2] at this
    simpa using this
  · simp [hj]


/-! ## `iinsert` -/

theorem lookupBranch_sNode (sn e : Entry) (lev : Nat) :
    lookupBranch (some (.sNode sn)) e lev =
      if sn.key = e.key then some (sn.value, true) else some (Value.nil, false) := rfl

theorem lookupBranch_iNode (im : MainNode) (e : Entry) (lev : Nat) :
    lookupBranch (some (.iNode im)) e lev = ilookup im e (lev + w) := rfl

theorem differ_shift {x y lev n : Nat} (hl : lev + 5 * n = 35) (hd : Differ x y 0 7)
    (hag : ∀ L, 5 * L < lev → hashIdx x (5 * L) = hashIdx y (5 * L)) : Differ x y lev n := by
  obtain ⟨L, hL, hne⟩ := hd
  have h1 : lev ≤ 5 * L := by
    by_contra hlt
    apply hne
    rw [Nat.zero_add]
    exact hag L (by omega)
  refine ⟨L - (7 - n), by omega, ?_⟩
  have e1 : lev + 5 * (L - (7 - n)) = 0 + 5 * L := by omega
  rw [e1]
  exact hne

/-- The effect of `iinsert` below a main node that satisfies the invariant. -/
theorem iinsert_spec (H : Key → Nat) (e : Entry) (he : hashOK H e) (n : Nat) :
    ∀ (lev : Nat) (P : Nat → Prop) (m : MainNode), lev + 5 * n = 35 → Inv H n lev P m →
      P e.hash →
      ∃ m2, iinsert m e lev = some m2 ∧ Inv H n lev P m2 ∧
        (∀ e2 : Entry, e2.key = e.key → e2.hash = e.hash →
          ilookup m2 e2 lev = some (e.value, true) ∨
            ilookup m2 e2 lev = some (Value.nil, false)) ∧
        (∀ e2 : Entry, e2.key ≠ e.key →
          ilookup m2 e2 lev = ilookup m e2 lev ∨ ilookup m2 e2 lev = some (Value.nil, false)) ∧
        (AllC n m → PAgree P lev → NoColl H m e lev →
          AllC n m2 ∧
          (∀ e2 : Entry, e2.key = e.key → e2.hash = e.hash →
            ilookup m2 e2 lev = some (e.value, true)) ∧
          (∀ e2 : Entry, hashOK H e2 → e2.key ≠ e.key →
            ilookup m2 e2 lev = ilookup m e2 lev)) := by
  induction n with
  | zero =>
    intro lev P m hl hm pe
    cases m with
    | cNode bmp array => exact absurd hm (by simp [Inv])
    | tNode sn => exact absurd hm (by simp [Inv])
    | lNode sns =>
      refine ⟨_, iinsert_lNode _ _ _, hm, ?_, ?_, ?_⟩
      · intro e2 _ _
        exact Or.inr (ilookup_lNode _ _ _)
      · intro e2 _
        exact Or.inl rfl
      · intro hA
        exact absurd hA (by simp [AllC])
  | succ n ih =>
    intro lev P m hl hm pe
    cases m with
    | lNode sns => exact absurd hm (by simp [Inv])
    | tNode sn =>
      refine ⟨_, iinsert_tNode _ _ _, hm, ?_, ?_, ?_⟩
      · intro e2 _ _
        exact Or.inr (ilookup_tNode _ _ _)
      · intro e2 _
        exact Or.inl rfl
      · intro hA
        exact absurd hA (by simp [AllC])
    | cNode bmp array =>
      have hm2 := hm
      rw [Inv_cNode_iff] at hm2
      obtain ⟨hc, hslots⟩ := hm2
      have hi := hashIdx_lt e.hash lev
      rw [iinsert_cNode hc]
      cases hs : slot bmp array (hashIdx e.hash lev) with
      | none =>
        have hb := (slot_eq_none_iff hc hi).1 hs
        have hidx : ∀ e2 : Entry, e2.hash = e.hash → hashIdx e2.hash lev = hashIdx e.hash lev :=
          fun e2 h => by rw [h]
        refine ⟨_, rfl, Inv_ins hm hi hb ⟨he, pe, rfl⟩, ?_, ?_, ?_⟩
        · intro e2 h1 h2
          rw [ilookup_ins hc hi hb, if_pos (hidx e2 h2), lookupBranch_sNode, if_pos h1.symm]
          exact Or.inl rfl
        · intro e2 h1
          rw [ilookup_ins hc hi hb]
          by_cases hj : hashIdx e2.hash lev = hashIdx e.hash lev
          · rw [if_pos hj, lookupBranch_sNode, if_neg (fun h => h1 h.symm)]
            exact Or.inr rfl
          · rw [if_neg hj]
            exact Or.inl rfl
        · intro hA _ _
          refine ⟨?_, ?_, ?_⟩
          · rw [AllC_cNode_iff] at hA ⊢
            intro j im hsj
            rw [slot_inserted hc hi hb] at hsj
            by_cases hj : j = hashIdx e.hash lev
            · rw [if_pos hj] at hsj
              cases hsj
            · rw [if_neg hj] at hsj
              exact hA j im hsj
          · intro e2 h1 h2
            rw [ilookup_ins hc hi hb, if_pos (hidx e2 h2), lookupBranch_sNode, if_pos h1.symm]
          · intro e2 _ h1
            rw [ilookup_ins hc hi hb]
            by_cases hj : hashIdx e2.hash lev = hashIdx e.hash lev
            · rw [if_pos hj, lookupBranch_sNode, if_neg (fun h => h1 h.symm),
                ilookup_cNode_branch hc, hj, hs]
              rfl
            · rw [if_neg hj]
      | some b =>
        have hb := (slot_some_lt hc hs).2
        have hbinv := hslots _ b hs
        have hidx : ∀ e2 : Entry, e2.hash = e.hash → hashIdx e2.hash lev = hashIdx e.hash lev :=
          fun e2 h => by rw [h]
        have hold : ∀ e2 : Entry, hashIdx e2.hash lev = hashIdx e.hash lev →
            ilookup (.cNode bmp array) e2 lev = lookupBranch (some b) e2 lev := by
          intro e2 hj
          rw [ilookup_cNode_branch hc, hj, hs]
        cases b with
        | iNode im =>
          obtain ⟨im2, hi2, hinv2, w1, w2, st⟩ :=
            ih (lev + w) _ im (by simp only [w]; omega) hbinv ⟨pe, rfl⟩
          simp only [hi2, Option.map]
          refine ⟨_, rfl, Inv_set hm hi hb hinv2, ?_, ?_, ?_⟩
          · intro e2 h1 h2
            rw [ilookup_set hc hi hb, if_pos (hidx e2 h2), lookupBranch_iNode]
            exact w1 e2 h1 h2
          · intro e2 h1
            rw [ilookup_set hc hi hb]
            by_cases hj : hashIdx e2.hash lev = hashIdx e.hash lev
            · rw [if_pos hj, hold e2 hj, lookupBranch_iNode, lookupBranch_iNode]
              exact w2 e2 h1
            · rw [if_neg hj]
              exact Or.inl rfl
          · intro hA hP hN
            have hA2 : AllC n im := (AllC_cNode_iff _ _ _).1 hA _ im hs
            have hP2 : PAgree (fun h => P h ∧ hashIdx h lev = hashIdx e.hash lev) (lev + w) := by
              intro h1 h2 p1 p2 L hL
              simp only [w] at hL
              by_cases hlt : 5 * L < lev
              · exact hP h1 h2 p1.1 p2.1 L hlt
              · have e1 : 5 * L = lev := by omega
                rw [e1, p1.2, p2.2]
            have hN2 : NoColl H im e (lev + w) := by
              intro e2 ho hk hhit
              apply hN e2 ho hk
              obtain ⟨v, hv⟩ := hhit
              obtain ⟨r, hr1, hr2, _⟩ := ilookup_spec H n _ _ im hbinv e2
              rw [hv] at hr1
              cases hr1
              obtain ⟨sn, k1, _, k3, k4⟩ := hr2 rfl
              have : sn.hash = e2.hash := hashOK_hash_eq k3 ho k1
              have hj : hashIdx e2.hash lev = hashIdx e.hash lev := by
                rw [← this]; exact k4.2
              exact ⟨v, by rw [hold e2 hj, lookupBranch_iNode]; exact hv⟩
            obtain ⟨s1, s2, s3⟩ := st hA2 hP2 hN2
            refine ⟨?_, ?_, ?_⟩
            · rw [AllC_cNode_iff] at hA ⊢
              intro j jm hsj
              rw [slot_updated hc hi hb] at hsj
              by_cases hj : j = hashIdx e.hash lev
              · rw [if_pos hj] at hsj
                cases hsj
                exact s1
              · rw [if_neg hj] at hsj
                exact hA j jm hsj
            · intro e2 h1 h2
              rw [ilookup_set hc hi hb, if_pos (hidx e2 h2), lookupBranch_iNode]
              exact s2 e2 h1 h2
            · intro e2 ho h1
              rw [ilookup_set hc hi hb]
              by_cases hj : hashIdx e2.hash lev = hashIdx e.hash lev
              · rw [if_pos hj, hold e2 hj, lookupBranch_iNode, lookupBranch_iNode]
                exact s3 e2 ho h1
              · rw [if_neg hj]
        | sNode sn =>
          obtain ⟨so, sp, sidx⟩ := hbinv
          dsimp only
          by_cases hk : sn.key = e.key
          · rw [if_neg (not_not.2 hk)]
            refine ⟨_, rfl, Inv_set hm hi hb ⟨he, pe, rfl⟩, ?_, ?_, ?_⟩
            · intro e2 h1 h2
              rw [ilookup_set hc hi hb, if_pos (hidx e2 h2), lookupBranch_sNode,
                if_pos h1.symm]
              exact Or.inl rfl
            · intro e2 h1
              rw [ilookup_set hc hi hb]
              by_cases hj : hashIdx e2.hash lev = hashIdx e.hash lev
              · rw [if_pos hj, lookupBranch_sNode, if_neg (fun h => h1 h.symm)]
                exact Or.inr rfl
              · rw [if_neg hj]
                exact Or.inl rfl
            · intro hA _ _
              refine ⟨?_, ?_, ?_⟩
              · rw [AllC_cNode_iff] at hA ⊢
                intro j jm hsj
                rw [slot_updated hc hi hb] at hsj
                by_cases hj : j = hashIdx e.hash lev
                · rw [if_pos hj] at hsj
                  cases hsj
                · rw [if_neg hj] at hsj
                  exact hA j jm hsj
              · intro e2 h1 h2
                rw [ilookup_set hc hi hb, if_pos (hidx e2 h2), lookupBranch_sNode,
                  if_pos h1.symm]
              · intro e2 _ h1
                rw [ilookup_set hc hi hb]
                by_cases hj : hashIdx e2.hash lev = hashIdx e.hash lev
                · rw [if_pos hj, lookupBranch_sNode, if_neg (fun h => h1 h.symm), hold e2 hj,
                    lookupBranch_sNode, if_neg (fun h => h1 (h.symm.trans hk))]
                · rw [if_neg hj]
          · rw [if_pos hk]
            have hl2 : lev + w + 5 * n = 35 := by simp only [w]; omega
            have hnm := ilookup_newMainNode sn e
            refine ⟨_, rfl, Inv_set hm hi hb
              (Inv_newMainNode H sn e so he n (lev + w) _ hl2 ⟨sp, sidx⟩ ⟨pe, rfl⟩), ?_, ?_, ?_⟩
            · intro e2 h1 h2
              rw [ilookup_set hc hi hb, if_pos (hidx e2 h2), lookupBranch_iNode]
              rcases hnm e2 n (lev + w) hl2 with h | ⟨k1, _⟩ | ⟨_, h⟩
              · exact Or.inr h
              · exact absurd (k1.trans h1) hk
              · exact Or.inl h
            · intro e2 h1
              rw [ilookup_set hc hi hb]
              by_cases hj : hashIdx e2.hash lev = hashIdx e.hash lev
              · rw [if_pos hj, lookupBranch_iNode, hold e2 hj, lookupBranch_sNode]
                rcases hnm e2 n (lev + w) hl2 with h | ⟨k1, h⟩ | ⟨k1, _⟩
                · exact Or.inr h
                · rw [if_pos k1]
                  exact Or.inl h
                · exact absurd k1.symm h1
              · rw [if_neg hj]
                exact Or.inl rfl
            · intro hA hP hN
              have hhit : ∃ v, ilookup (.cNode bmp array) sn lev = some (v, true) := by
                refine ⟨sn.value, ?_⟩
                rw [hold sn sidx, lookupBranch_sNode, if_pos rfl]
              have hne := hN sn so hk hhit
              have hd : Differ sn.hash e.hash (lev + w) n := by
                apply differ_shift hl2 (differ_of_mod_ne _ _ hne)
                intro L hL
                simp only [w] at hL
                by_cases hlt : 5 * L < lev
                · exact hP _ _ sp pe L hlt
                · have e1 : 5 * L = lev := by omega
                  rw [e1, sidx]
              obtain ⟨d1, d2, d3⟩ := newMainNode_differ sn e n (lev + w) hl2 hd
              refine ⟨?_, ?_, ?_⟩
              · rw [AllC_cNode_iff] at hA ⊢
                intro j jm hsj
                rw [slot_updated hc hi hb] at hsj
                by_cases hj : j = hashIdx e.hash lev
                · rw [if_pos hj] at hsj
                  cases hsj
                  exact d1
                · rw [if_neg hj] at hsj
                  exact hA j jm hsj
              · intro e2 h1 h2
                rw [ilookup_set hc hi hb, if_pos (hidx e2 h2), lookupBranch_iNode]
                exact d3 e2 h1 h2
              · intro e2 ho h1
                rw [ilookup_set hc hi hb]
                by_cases hj : hashIdx e2.hash lev = hashIdx e.hash lev
                · rw [if_pos hj, lookupBranch_iNode, hold e2 hj, lookupBranch_sNode]
                  by_cases hk2 : sn.key = e2.key
                  · rw [if_pos hk2]
                    exact d2 e2 hk2.symm (hashOK_hash_eq ho so hk2.symm)
                  · rw [if_neg hk2]
                    rcases hnm e2 n (lev + w) hl2 with h | ⟨k1, _⟩ | ⟨k1, _⟩
                    · exact h
                    · exact absurd k1 hk2
                    · exact absurd k1.symm h1
                · rw [if_neg hj]


/-! ## `toContracted`, `cleanParent` and `iremove` -/

theorem toContracted_cases (cn : CNode) (lev : Nat) :
    toContracted cn lev = cn.toMain ∨
      (0 < lev ∧ ∃ s, cn.array = [.sNode s] ∧ toContracted cn lev = .tNode s) := by
  unfold toContracted
  by_cases h : lev > 0 ∧ cn.array.length = 1
  · rw [if_pos h]
    obtain ⟨h1, h2⟩ := h
    match hq : cn.array with
    | [] => simp [hq] at h2
    | [b] =>
      cases b with
      | iNode im => simp
      | sNode s => exact Or.inr ⟨h1, s, rfl, by simp⟩
    | _ :: _ :: _ => simp [hq] at h2
  · rw [if_neg h]
    exact Or.inl rfl

theorem exists_testBit_of_popBelow_pos (x : Nat) : ∀ n, 0 < popBelow x n →
    ∃ j, j < n ∧ x.testBit j = true := by
  intro n
  induction n with
  | zero => intro h; simp [popBelow] at h
  | succ n ih =>
    intro h
    by_cases hb : x.testBit n = true
    · exact ⟨n, by omega, hb⟩
    · simp only [popBelow, hb, if_false, Nat.add_zero] at h
      obtain ⟨j, hj, hbj⟩ := ih h
      exact ⟨j, by omega, hbj⟩

theorem exists_slot_singleton {bmp : Nat} {b : Branch} (h : CInv bmp [b]) :
    ∃ j, slot bmp [b] j = some b := by
  have h1 : popBelow bmp 32 = 1 := by simpa using h.2
  obtain ⟨j, hj, hb⟩ := exists_testBit_of_popBelow_pos bmp 32 (by omega)
  have h2 := popBelow_lt_of_testBit bmp hb hj
  refine ⟨j, ?_⟩
  have h3 : popBelow bmp j = 0 := by omega
  simp [slot, hb, h3]

theorem ilookup_toContracted (bmp : Nat) (array : List Branch) (lev : Nat) (e : Entry) :
    ilookup (toContracted ⟨bmp, array⟩ lev) e lev = ilookup (.cNode bmp array) e lev ∨
      ilookup (toContracted ⟨bmp, array⟩ lev) e lev = some (Value.nil, false) := by
  rcases toContracted_cases ⟨bmp, array⟩ lev with h | ⟨_, s, _, h⟩
  · rw [h]
    exact Or.inl rfl
  · rw [h, ilookup_tNode]
    exact Or.inr rfl

theorem Inv_toContracted {H : Key → Nat} {n lev : Nat} {P : Nat → Prop} {bmp : Nat}
    {array : List Branch} (h : Inv H (n + 1) lev P (.cNode bmp array)) :
    Inv H (n + 1) lev P (toContracted ⟨bmp, array⟩ lev) := by
  rcases toContracted_cases ⟨bmp, array⟩ lev with h1 | ⟨_, s, h2, h3⟩
  · rw [h1]
    exact h
  · rw [h3]
    rw [Inv_cNode_iff] at h
    have h2b : array = [.sNode s] := h2
    subst h2b
    obtain ⟨j, hj⟩ := exists_slot_singleton h.1
    have := h.2 j _ hj
    exact ⟨this.1, this.2.1⟩

/-- The effect of `iremove` below a main node that satisfies the invariant. -/
theorem iremove_spec (H : Key → Nat) (e : Entry) (he : hashOK H e) (n : Nat) :
    ∀ (lev : Nat) (P : Nat → Prop) (m : MainNode) (parent : Bool), lev + 5 * n = 35 →
      Inv H n lev P m →
      ∃ r, iremove m e lev parent = some r ∧ ilookup m e lev = some (r.value, r.found) ∧
        Inv H n lev P r.main ∧
        (parent = false → r.clean = none) ∧
        (r.clean = none →
          (∀ e2 : Entry, e2.key = e.key → e2.hash = e.hash →
            ilookup r.main e2 lev = some (Value.nil, false)) ∧
          (∀ e2 : Entry, hashOK H e2 → e2.key ≠ e.key →
            ilookup r.main e2 lev = ilookup m e2 lev ∨
              ilookup r.main e2 lev = some (Value.nil, false))) ∧
        (∀ c, r.clean = some c → c = (e.hash, lev - w) ∧ ∃ s, r.main = .tNode s ∧
          s.key ≠ e.key ∧
          ∀ e2 : Entry, e2.key = s.key → e2.hash = s.hash →
            ilookup m e2 lev = some (s.value, true)) := by
  induction n with
  | zero =>
    intro lev P m parent hl hm
    cases m with
    | cNode bmp array => exact absurd hm (by simp [Inv])
    | tNode sn => exact absurd hm (by simp [Inv])
    | lNode sns =>
      refine ⟨_, iremove_lNode _ _ _ _, ilookup_lNode _ _ _, hm, fun _ => rfl, fun _ => ⟨?_, ?_⟩,
        ?_⟩
      · intro e2 _ _
        exact ilookup_lNode _ _ _
      · intro e2 _ _
        exact Or.inl rfl
      · intro c hc
        cases hc
  | succ n ih =>
    intro lev P m parent hl hm
    cases m with
    | lNode sns => exact absurd hm (by simp [Inv])
    | tNode sn =>
      refine ⟨_, iremove_tNode _ _ _ _, ilookup_tNode _ _ _, hm, fun _ => rfl, fun _ => ⟨?_, ?_⟩,
        ?_⟩
      · intro e2 _ _
        exact ilookup_tNode _ _ _
      · intro e2 _ _
        exact Or.inl rfl
      · intro c hc
        cases hc
    | cNode bmp array =>
      have hm2 := hm
      rw [Inv_cNode_iff] at hm2
      obtain ⟨hc, hslots⟩ := hm2
      have hi := hashIdx_lt e.hash lev
      have hidx : ∀ e2 : Entry, e2.hash = e.hash → hashIdx e2.hash lev = hashIdx e.hash lev :=
        fun e2 h => by rw [h]
      rw [iremove_cNode hc]
      cases hs : slot bmp array (hashIdx e.hash lev) with
      | none =>
        have hold : ∀ e2 : Entry, hashIdx e2.hash lev = hashIdx e.hash lev →
            ilookup (.cNode bmp array) e2 lev = some (Value.nil, false) := by
          intro e2 hj
          rw [ilookup_cNode_branch hc, hj, hs]
          rfl
        refine ⟨_, rfl, hold e rfl, hm, fun _ => rfl, fun _ => ⟨?_, ?_⟩, ?_⟩
        · intro e2 _ h2
          exact hold e2 (hidx e2 h2)
        · intro e2 _ _
          exact Or.inl rfl
        · intro c hcl
          cases hcl
      | some b =>
        have hb := (slot_some_lt hc hs).2
        have hbinv := hslots _ b hs
        have hold : ∀ e2 : Entry, hashIdx e2.hash lev = hashIdx e.hash lev →
            ilookup (.cNode bmp array) e2 lev = lookupBranch (some b) e2 lev := by
          intro e2 hj
          rw [ilookup_cNode_branch hc, hj, hs]
        cases b with
        | iNode im =>
          obtain ⟨r, hr, hlook, hinv, _, hnone, hsome⟩ :=
            ih (lev + w) _ im true (by simp only [w]; omega) hbinv
          dsimp only
          rw [hr]
          dsimp only
          cases hcl : r.clean with
          | none =>
            obtain ⟨n1, n2⟩ := hnone hcl
            dsimp only
            refine ⟨_, rfl, ?_, Inv_set hm hi hb hinv, fun _ => rfl, fun _ => ⟨?_, ?_⟩, ?_⟩
            · rw [hold e rfl, lookupBranch_iNode]
              exact hlook
            · intro e2 h1 h2
              dsimp only
              rw [ilookup_set hc hi hb, if_pos (hidx e2 h2), lookupBranch_iNode]
              exact n1 e2 h1 h2
            · intro e2 ho h1
              dsimp only
              rw [ilookup_set hc hi hb]
              by_cases hj : hashIdx e2.hash lev = hashIdx e.hash lev
              · rw [if_pos hj, hold e2 hj, lookupBranch_iNode, lookupBranch_iNode]
                exact n2 e2 ho h1
              · rw [if_neg hj]
                exact Or.inl rfl
            · intro c hc2
              cases hc2
          | some c =>
            obtain ⟨hceq, s, hmain, hsk, hfound⟩ := hsome c hcl
            have hceq2 : c = (e.hash, lev) := by
              rw [hceq]
              simp
            subst hceq2
            dsimp only
            rw [hmain, cleanParent_tomb hc e.hash lev hb s]
            dsimp only
            rw [hmain] at hinv
            have hsinv : hashOK H s ∧ P s.hash ∧ hashIdx s.hash lev = hashIdx e.hash lev := by
              cases n with
              | zero => exact absurd hinv (by simp [Inv])
              | succ n2 => exact ⟨hinv.1, hinv.2.1, hinv.2.2⟩
            have hinv2 : Inv H (n + 1) lev P
                (.cNode bmp (array.set (popBelow bmp (hashIdx e.hash lev)) (.sNode s))) :=
              Inv_set hm hi hb hsinv
            refine ⟨_, rfl, ?_, Inv_toContracted hinv2, fun _ => rfl, fun _ => ⟨?_, ?_⟩, ?_⟩
            · rw [hold e rfl, lookupBranch_iNode]
              exact hlook
            · intro e2 h1 h2
              dsimp only
              rcases ilookup_toContracted bmp
                (array.set (popBelow bmp (hashIdx e.hash lev)) (.sNode s)) lev e2 with h | h
              · rw [h, ilookup_set hc hi hb, if_pos (hidx e2 h2), lookupBranch_sNode,
                  if_neg (fun hh => hsk (hh.trans h1))]
              · exact h
            · intro e2 ho h1
              dsimp only
              rcases ilookup_toContracted bmp
                (array.set (popBelow bmp (hashIdx e.hash lev)) (.sNode s)) lev e2 with h | h
              · rw [h, ilookup_set hc hi hb]
                by_cases hj : hashIdx e2.hash lev = hashIdx e.hash lev
                · rw [if_pos hj, lookupBranch_sNode, hold e2 hj, lookupBranch_iNode]
                  by_cases hk2 : s.key = e2.key
                  · rw [if_pos hk2, hfound e2 hk2.symm (hashOK_hash_eq ho hsinv.1 hk2.symm)]
                    exact Or.inl rfl
                  · rw [if_neg hk2]
                    exact Or.inr rfl
                · rw [if_neg hj]
                  exact Or.inl rfl
              · exact Or.inr h
            · intro c hc2
              cases hc2
        | sNode sn =>
          obtain ⟨so, sp, sidx⟩ := hbinv
          dsimp only
          by_cases hk : sn.key = e.key
          · rw [if_neg (not_not.2 hk)]
            have hlk : ilookup (.cNode bmp array) e lev = some (sn.value, true) := by
              rw [hold e rfl, lookupBranch_sNode, if_pos hk]
            have hinv2 := Inv_toContracted (Inv_erase hm hi hb)
            have hafter : ∀ e2 : Entry,
                (hashIdx e2.hash lev = hashIdx e.hash lev →
                  ilookup (toContracted ⟨bmp ^^^ 2 ^ hashIdx e.hash lev,
                    array.eraseIdx (popBelow bmp (hashIdx e.hash lev))⟩ lev) e2 lev =
                    some (Value.nil, false)) ∧
                (ilookup (toContracted ⟨bmp ^^^ 2 ^ hashIdx e.hash lev,
                    array.eraseIdx (popBelow bmp (hashIdx e.hash lev))⟩ lev) e2 lev =
                    ilookup (.cNode bmp array) e2 lev ∨
                  ilookup (toContracted ⟨bmp ^^^ 2 ^ hashIdx e.hash lev,
                    array.eraseIdx (popBelow bmp (hashIdx e.hash lev))⟩ lev) e2 lev =
                    some (Value.nil, false)) := by
              intro e2
              rcases ilookup_toContracted (bmp ^^^ 2 ^ hashIdx e.hash lev)
                (array.eraseIdx (popBelow bmp (hashIdx e.hash lev))) lev e2 with h | h
              · rw [h, ilookup_erase hc hi hb]
                by_cases hj : hashIdx e2.hash lev = hashIdx e.hash lev
                · rw [if_pos hj]
                  exact ⟨fun _ => rfl, Or.inr rfl⟩
                · rw [if_neg hj]
                  exact ⟨fun hh => absurd hh hj, Or.inl rfl⟩
              · exact ⟨fun _ => h, Or.inr h⟩
            by_cases hp : (parent && (toContracted ⟨bmp ^^^ 2 ^ hashIdx e.hash lev,
                array.eraseIdx (popBelow bmp (hashIdx e.hash lev))⟩ lev).isTNode) = true
            · rw [if_pos hp]
              refine ⟨_, rfl, hlk, hinv2, ?_, ?_, ?_⟩
              · intro hpar
                rw [hpar] at hp
                simp at hp
              · intro hcl
                cases hcl
              · intro c hcl
                dsimp only at hcl
                refine ⟨by cases hcl; rfl, ?_⟩
                dsimp only
                rcases toContracted_cases ⟨bmp ^^^ 2 ^ hashIdx e.hash lev,
                  array.eraseIdx (popBelow bmp (hashIdx e.hash lev))⟩ lev with h | ⟨_, s, h1, h2⟩
                · rw [h] at hp
                  simp [CNode.toMain, MainNode.isTNode] at hp
                · refine ⟨s, h2, ?_⟩
                  have hce := CInv_removed hc hi hb
                  have h1b : array.eraseIdx (popBelow bmp (hashIdx e.hash lev)) = [.sNode s] := h1
                  rw [h1b] at hce
                  obtain ⟨j, hj⟩ := exists_slot_singleton hce
                  rw [← h1b, slot_removed hc hi hb] at hj
                  by_cases hji : j = hashIdx e.hash lev
                  · rw [if_pos hji] at hj
                    cases hj
                  · rw [if_neg hji] at hj
                    obtain ⟨t1, _, t3⟩ := hslots j _ hj
                    refine ⟨?_, ?_⟩
                    · intro hke
                      apply hji
                      rw [← t3, hashOK_hash_eq t1 he hke]
                    · intro e2 k1 k2
                      rw [ilookup_cNode_branch hc, k2, t3, hj, lookupBranch_sNode,
                        if_pos k1.symm]
            · rw [if_neg hp]
              refine ⟨_, rfl, hlk, hinv2, fun _ => rfl, fun _ => ⟨?_, ?_⟩, ?_⟩
              · intro e2 _ h2
                exact (hafter e2).1 (hidx e2 h2)
              · intro e2 _ _
                exact (hafter e2).2
              · intro c hcl
                cases hcl
          · rw [if_pos hk]
            refine ⟨_, rfl, ?_, hm, fun _ => rfl, fun _ => ⟨?_, ?_⟩, ?_⟩
            · rw [hold e rfl, lookupBranch_sNode, if_neg hk]
            · intro e2 h1 h2
              dsimp only
              rw [hold e2 (hidx e2 h2), lookupBranch_sNode, if_neg (fun hh => hk (hh.trans h1))]
            · intro e2 _ _
              exact Or.inl rfl
            · intro c hcl
              cases hcl


/-! ## The public operations -/

theorem CtrieInv_init (H : Key → Nat) : CtrieInv H (New.SetHash H) := by
  refine ⟨rfl, ?_⟩
  show Inv H (6 + 1) 0 _ (.cNode 0 [])
  rw [Inv_cNode_iff]
  refine ⟨CInv_empty, ?_⟩
  intro j b hs
  rw [slot_empty] at hs
  cases hs

theorem hashOK_entry {H : Key → Nat} {c : Ctrie} (hc : c.h = H) (k : Key) (v : Value) :
    hashOK H { key := k, hash := c.hash k, value := v } := by
  simp [hashOK, Ctrie.hash, hc]

/-- A lookup only reads the key and the hash of the entry it is given. -/
theorem ilookup_congr (H : Key → Nat) (n : Nat) : ∀ (lev : Nat) (P : Nat → Prop)
    (m : MainNode), Inv H n lev P m → ∀ e e2 : Entry, e.key = e2.key → e.hash = e2.hash →
      ilookup m e lev = ilookup m e2 lev := by
  induction n with
  | zero =>
    intro lev P m hm e e2 _ _
    cases m with
    | cNode bmp array => exact absurd hm (by simp [Inv])
    | tNode sn => exact absurd hm (by simp [Inv])
    | lNode sns => rw [ilookup_lNode, ilookup_lNode]
  | succ n ih =>
    intro lev P m hm e e2 hk hh
    cases m with
    | lNode sns => rw [ilookup_lNode, ilookup_lNode]
    | tNode sn => rw [ilookup_tNode, ilookup_tNode]
    | cNode bmp array =>
      rw [Inv_cNode_iff] at hm
      rw [ilookup_cNode_branch hm.1, ilookup_cNode_branch hm.1, hh]
      cases hs : slot bmp array (hashIdx e2.hash lev) with
      | none => rfl
      | some b =>
        cases b with
        | sNode sn => rw [lookupBranch_sNode, lookupBranch_sNode, hk]
        | iNode im =>
          rw [lookupBranch_iNode, lookupBranch_iNode]
          exact ih _ _ im (hm.2 _ _ hs) e e2 hk hh

/-- The effect of `Insert` on a trie that satisfies the invariant. -/
theorem Insert_spec {H : Key → Nat} {c : Ctrie} (hc : CtrieInv H c) (k : Key) (v : Value) :
    ∃ c2, c.Insert k v = some c2 ∧ CtrieInv H c2 ∧
      (c2.Lookup k = some (v, true) ∨ c2.Lookup k = some (Value.nil, false)) ∧
      (∀ k2, k2 ≠ k → c2.Lookup k2 = c.Lookup k2 ∨ c2.Lookup k2 = some (Value.nil, false)) ∧
      (AllC 7 c.root →
        (∀ k2, k2 ≠ k → (∃ v2, c.Lookup k2 = some (v2, true)) →
          c.hash k2 % 2 ^ 35 ≠ c.hash k % 2 ^ 35) →
        AllC 7 c2.root ∧ c2.Lookup k = some (v, true) ∧
          ∀ k2, k2 ≠ k → c2.Lookup k2 = c.Lookup k2) := by
  obtain ⟨hh, hinv⟩ := hc
  obtain ⟨m2, h1, h2, h3, h4, h5⟩ := iinsert_spec H ⟨k, c.hash k, v⟩ (hashOK_entry hh k v) 7 0
    (fun _ => True) c.root (by norm_num) hinv trivial
  refine ⟨{ c with root := m2 }, ?_, ⟨hh, h2⟩, ?_, ?_, ?_⟩
  · simp only [Ctrie.Insert, Ctrie.insert, h1, Option.map]
  · exact h3 ⟨k, c.hash k, Value.nil⟩ rfl rfl
  · intro k2 hk
    exact h4 ⟨k2, c.hash k2, Value.nil⟩ hk
  · intro hA hN
    have hP : PAgree (fun _ => True) 0 := by
      intro h1 h2 _ _ L hL
      omega
    have hN2 : NoColl H c.root ⟨k, c.hash k, v⟩ 0 := by
      intro e2 ho hk hhit
      have hh2 : e2.hash = c.hash e2.key := by
        rw [ho]; simp [Ctrie.hash, hh]
      rw [hh2]
      apply hN e2.key hk
      obtain ⟨v2, hv2⟩ := hhit
      refine ⟨v2, ?_⟩
      rw [← hv2]
      exact ilookup_congr H 7 0 _ c.root hinv _ _ rfl hh2.symm
    obtain ⟨s1, s2, s3⟩ := h5 hA hP hN2
    refine ⟨s1, s2 ⟨k, c.hash k, Value.nil⟩ rfl rfl, ?_⟩
    intro k2 hk
    exact s3 ⟨k2, c.hash k2, Value.nil⟩ (hashOK_entry hh k2 _) hk

/-- The effect of `Remove` on a trie that satisfies the invariant. -/
theorem Remove_spec {H : Key → Nat} {c : Ctrie} (hc : CtrieInv H c) (k : Key) :
    ∃ c2 r, c.Remove k = some (c2, r) ∧ c.Lookup k = some r ∧ CtrieInv H c2 ∧
      c2.Lookup k = some (Value.nil, false) ∧
      (∀ k2, k2 ≠ k → c2.Lookup k2 = c.Lookup k2 ∨ c2.Lookup k2 = some (Value.nil, false)) := by
  obtain ⟨hh, hinv⟩ := hc
  obtain ⟨r, h1, h2, h3, h4, h5, _⟩ := iremove_spec H ⟨k, c.hash k, Value.nil⟩
    (hashOK_entry hh k _) 7 0 (fun _ => True) c.root false (by norm_num) hinv
  obtain ⟨h6, h7⟩ := h5 (h4 rfl)
  refine ⟨{ c with root := r.main }, (r.value, r.found), ?_, h2, ⟨hh, h3⟩, ?_, ?_⟩
  · simp only [Ctrie.Remove, Ctrie.remove, h1, Option.map]
  · exact h6 ⟨k, c.hash k, Value.nil⟩ rfl rfl
  · intro k2 hk
    exact h7 ⟨k2, c.hash k2, Value.nil⟩ (hashOK_entry hh k2 _) hk

theorem Reachable.inv {H : Key → Nat} {c : Ctrie} (h : Reachable H c) : CtrieInv H c := by
  induction h with
  | init => exact CtrieInv_init H
  | insert _ hi ih =>
    obtain ⟨c2, h1, h2, _⟩ := Insert_spec ih _ _
    rw [h1] at hi
    cases hi
    exact h2
  | remove _ hr ih =>
    obtain ⟨c2, r, h1, _, h2, _⟩ := Remove_spec ih _
    rw [h1] at hr
    cases hr
    exact h2

/-- A lookup on a trie that satisfies the invariant returns without panic. -/
theorem Lookup_total {H : Key → Nat} {c : Ctrie} (hc : CtrieInv H c) (k : Key) :
    ∃ r, c.Lookup k = some r ∧ (r.2 = false → r.1 = Value.nil) := by
  obtain ⟨r, h1, _, h3⟩ := ilookup_spec H 7 0 _ c.root hc.2 ⟨k, c.hash k, Value.nil⟩
  exact ⟨r, h1, h3⟩


/-! ## Sequences of mutations -/

theorem run_sound (H : Key → Nat) : ∀ (ops : List Op) (c : Ctrie) (M : Key → Option Value),
    CtrieInv H c → (∀ k v, c.Lookup k = some (v, true) → M k = some v) →
      ∃ c2, c.run ops = some c2 ∧ CtrieInv H c2 ∧
        ∀ k v, c2.Lookup k = some (v, true) → absRun M ops k = some v := by
  intro ops
  induction ops with
  | nil =>
    intro c M hc hs
    exact ⟨c, rfl, hc, hs⟩
  | cons op ops ih =>
    intro c M hc hs
    cases op with
    | insert key value =>
      obtain ⟨c1, h1, h2, h3, h4, _⟩ := Insert_spec hc key value
      have hs1 : ∀ k v, c1.Lookup k = some (v, true) → absStep M (.insert key value) k = some v := by
        intro k v hl
        simp only [absStep]
        by_cases hk : k = key
        · subst hk
          rw [if_pos rfl]
          rcases h3 with h | h
          · rw [h] at hl
            cases hl
            rfl
          · rw [h] at hl
            cases hl
        · rw [if_neg hk]
          rcases h4 k hk with h | h
          · rw [h] at hl
            exact hs k v hl
          · rw [h] at hl
            cases hl
      obtain ⟨c2, g1, g2, g3⟩ := ih c1 _ h2 hs1
      refine ⟨c2, ?_, g2, g3⟩
      simp only [Ctrie.run, Ctrie.apply, h1, Option.bind]
      exact g1
    | remove key =>
      obtain ⟨c1, r, h1, _, h2, h3, h4⟩ := Remove_spec hc key
      have hs1 : ∀ k v, c1.Lookup k = some (v, true) → absStep M (.remove key) k = some v := by
        intro k v hl
        simp only [absStep]
        by_cases hk : k = key
        · subst hk
          rw [h3] at hl
          cases hl
        · rw [if_neg hk]
          rcases h4 k hk with h | h
          · rw [h] at hl
            exact hs k v hl
          · rw [h] at hl
            cases hl
      obtain ⟨c2, g1, g2, g3⟩ := ih c1 _ h2 hs1
      refine ⟨c2, ?_, g2, g3⟩
      simp only [Ctrie.run, Ctrie.apply, h1, Option.map, Option.bind]
      exact g1

theorem absRun_decomp (k : Key) (v : Value) : ∀ (ops : List Op) (M : Key → Option Value),
    absRun M ops k = some v →
      (∃ pre post, ops = pre ++ Op.insert k v :: post ∧
        ∀ op, op ∈ post → op ≠ Op.remove k ∧ ∀ v2, op ≠ Op.insert k v2) ∨
      (M k = some v ∧ ∀ op, op ∈ ops → op ≠ Op.remove k ∧ ∀ v2, op ≠ Op.insert k v2) := by
  intro ops
  induction ops with
  | nil =>
    intro M h
    exact Or.inr ⟨h, by simp⟩
  | cons op ops ih =>
    intro M h
    rcases ih (absStep M op) h with ⟨pre, post, h1, h2⟩ | ⟨h1, h2⟩
    · exact Or.inl ⟨op :: pre, post, by rw [h1]; rfl, h2⟩
    · cases op with
      | insert key value =>
        simp only [absStep] at h1
        by_cases hk : k = key
        · subst hk
          rw [if_pos rfl] at h1
          cases h1
          exact Or.inl ⟨[], ops, rfl, h2⟩
        · rw [if_neg hk] at h1
          refine Or.inr ⟨h1, ?_⟩
          intro op hop
          simp only [List.mem_cons] at hop
          rcases hop with rfl | hop
          · refine ⟨by simp, ?_⟩
            intro v2 heq
            cases heq
            exact hk rfl
          · exact h2 op hop
      | remove key =>
        simp only [absStep] at h1
        by_cases hk : k = key
        · rw [if_pos hk] at h1
          cases h1
        · rw [if_neg hk] at h1
          refine Or.inr ⟨h1, ?_⟩
          intro op hop
          simp only [List.mem_cons] at hop
          rcases hop with rfl | hop
          · refine ⟨?_, by simp⟩
            intro heq
            cases heq
            exact hk rfl
          · exact h2 op hop

theorem run_insertOps (H : Key → Nat) (S : Key → Prop)
    (hS : ∀ a b, S a → S b → a ≠ b → H a % 2 ^ 64 % 2 ^ 35 ≠ H b % 2 ^ 64 % 2 ^ 35) :
    ∀ (kvs : List (Key × Value)) (c : Ctrie) (M : Key → Option Value),
      CtrieInv H c → AllC 7 c.root → (∀ kv, kv ∈ kvs → S kv.1) →
      (∀ k, c.Lookup k = match M k with
        | some v => some (v, true)
        | none => some (Value.nil, false)) →
      (∀ k, M k ≠ none → S k) →
      ∃ c2, c.run (insertOps kvs) = some c2 ∧
        ∀ k, c2.Lookup k = match absRun M (insertOps kvs) k with
          | some v => some (v, true)
          | none => some (Value.nil, false) := by
  intro kvs
  induction kvs with
  | nil =>
    intro c M _ _ _ hl _
    exact ⟨c, rfl, hl⟩
  | cons kv kvs ih =>
    intro c M hc hA hkv hl hM
    obtain ⟨c1, h1, h2, _, _, h5⟩ := Insert_spec hc kv.1 kv.2
    have hN : ∀ k2, k2 ≠ kv.1 → (∃ v2, c.Lookup k2 = some (v2, true)) →
        c.hash k2 % 2 ^ 35 ≠ c.hash kv.1 % 2 ^ 35 := by
      intro k2 hk hhit
      simp only [Ctrie.hash, hc.1]
      apply hS k2 kv.1 _ (hkv kv (by simp)) hk
      apply hM
      obtain ⟨v2, hv2⟩ := hhit
      intro hnone
      have := hl k2
      rw [hnone, hv2] at this
      cases this
    obtain ⟨s1, s2, s3⟩ := h5 hA hN
    have hl1 : ∀ k, c1.Lookup k = match absStep M (.insert kv.1 kv.2) k with
        | some v => some (v, true)
        | none => some (Value.nil, false) := by
      intro k
      simp only [absStep]
      by_cases hk : k = kv.1
      · rw [if_pos hk, hk]
        exact s2
      · rw [if_neg hk, s3 k hk]
        exact hl k
    have hM1 : ∀ k, absStep M (.insert kv.1 kv.2) k ≠ none → S k := by
      intro k
      simp only [absStep]
      by_cases hk : k = kv.1
      · intro _
        rw [hk]
        exact hkv kv (by simp)
      · rw [if_neg hk]
        exact hM k
    obtain ⟨c2, g1, g2⟩ := ih c1 _ h2 s1 (fun p hp => hkv p (by simp [hp])) hl1 hM1
    refine ⟨c2, ?_, g2⟩
    simp only [insertOps, List.map_cons, Ctrie.run, Ctrie.apply, h1, Option.bind]
    exact g1

theorem absRun_untouched (k : Key) : ∀ (kvs : List (Key × Value)) (M : Key → Option Value),
    (∀ p, p ∈ kvs → p.1 ≠ k) → absRun M (insertOps kvs) k = M k := by
  intro kvs
  induction kvs with
  | nil => intro M _; rfl
  | cons kv kvs ih =>
    intro M h
    have h1 := ih (absStep M (.insert kv.1 kv.2)) (fun p hp => h p (by simp [hp]))
    have h2 : kv.1 ≠ k := h kv (by simp)
    simp only [insertOps, List.map_cons, absRun, List.foldl_cons] at h1 ⊢
    rw [h1]
    simp only [absStep]
    rw [if_neg (fun hh => h2 hh.symm)]

theorem absRun_last (k : Key) (v : Value) (pre post : List (Key × Value))
    (M : Key → Option Value) (h : ∀ p, p ∈ post → p.1 ≠ k) :
    absRun M (insertOps (pre ++ (k, v) :: post)) k = some v := by
  have h1 := absRun_untouched k post
    (absStep (absRun M (insertOps pre)) (.insert k v)) h
  simp only [insertOps, absRun, List.map_append, List.map_cons, List.foldl_append,
    List.foldl_cons] at h1 ⊢
  rw [h1]
  simp [absStep]


/-! ## Removing an absent key -/

theorem set_same {α : Type} : ∀ (l : List α) (p : Nat) (b : α), l[p]? = some b → l.set p b = l := by
  intro l
  induction l with
  | nil => intro p b h; simp at h
  | cons a rest ih =>
    intro p b h
    cases p with
    | zero =>
      simp only [List.getElem?_cons_zero, Option.some.injEq] at h
      subst h
      rfl
    | succ q =>
      simp only [List.getElem?_cons_succ] at h
      simp only [List.set_cons_succ, ih q b h]

/-- A removal that does not find its key leaves the main node as it was and does not call
`cleanParent`. -/
theorem iremove_absent (H : Key → Nat) (e : Entry) (n : Nat) :
    ∀ (lev : Nat) (P : Nat → Prop) (m : MainNode) (parent : Bool), Inv H n lev P m →
      ∀ v, ilookup m e lev = some (v, false) →
        iremove m e lev parent = some ⟨m, Value.nil, false, none⟩ := by
  induction n with
  | zero =>
    intro lev P m parent hm v _
    cases m with
    | cNode bmp array => exact absurd hm (by simp [Inv])
    | tNode sn => exact absurd hm (by simp [Inv])
    | lNode sns => exact iremove_lNode _ _ _ _
  | succ n ih =>
    intro lev P m parent hm v hl
    cases m with
    | lNode sns => exact iremove_lNode _ _ _ _
    | tNode sn => exact iremove_tNode _ _ _ _
    | cNode bmp array =>
      rw [Inv_cNode_iff] at hm
      obtain ⟨hc, hslots⟩ := hm
      rw [ilookup_cNode_branch hc] at hl
      rw [iremove_cNode hc]
      cases hs : slot bmp array (hashIdx e.hash lev) with
      | none => rfl
      | some b =>
        rw [hs] at hl
        have hb := (slot_some_lt hc hs).2
        cases b with
        | sNode sn =>
          rw [lookupBranch_sNode] at hl
          by_cases hk : sn.key = e.key
          · rw [if_pos hk] at hl
            cases hl
          · simp only [ne_eq, hk, not_false_eq_true, if_true]
        | iNode im =>
          rw [lookupBranch_iNode] at hl
          have h1 := ih (lev + w) _ im true (hslots _ _ hs) v hl
          simp only [h1]
          rw [set_same array _ _ (by rw [slot_of_set hb]; exact hs)]


/-! ## Inserting into small roots -/

/-- Inserting into an empty `cNode` puts one leaf under the bit of its index. -/
theorem iinsert_empty (e : Entry) (lev : Nat) :
    iinsert (.cNode 0 []) e lev = some (.cNode (2 ^ hashIdx e.hash lev) [.sNode e]) := by
  rw [iinsert_cNode CInv_empty, slot_empty]
  simp only [popBelow_zero, Nat.zero_or, List.take_nil, List.drop_nil, List.nil_append]

/-- Inserting a second key under the single leaf of a root. -/
theorem iinsert_one_leaf (i : Nat) (hi : i < 32) (sn e : Entry) (lev : Nat)
    (he : hashIdx e.hash lev = i) (hk : sn.key ≠ e.key) :
    iinsert (.cNode (2 ^ i) [.sNode sn]) e lev =
      some (.cNode (2 ^ i) [.iNode (newMainNode sn sn.hash e e.hash (lev + w))]) := by
  obtain ⟨c1, s1⟩ := oneBranch i hi (.sNode sn)
  rw [iinsert_cNode c1, s1, he]
  have hp : popBelow (2 ^ i) i = 0 := by
    have := popBelow_lt_length c1 hi (by rw [Nat.testBit_two_pow]; simp)
    simpa using this
  simp only [if_true, hp, ne_eq, hk, not_false_eq_true, List.set_cons_zero]

/-- Inserting a leaf under an index whose bit is not set in the bitmap. -/
theorem iinsert_fresh {bmp : Nat} {array : List Branch} (h : CInv bmp array) (e : Entry)
    (lev i p : Nat) (hi : hashIdx e.hash lev = i) (hb : bmp.testBit i = false)
    (hp : popBelow bmp i = p) :
    iinsert (.cNode bmp array) e lev =
      some (.cNode (bmp ||| 2 ^ i) (array.take p ++ .sNode e :: array.drop p)) := by
  have hlt := hashIdx_lt e.hash lev
  rw [iinsert_cNode h, (slot_eq_none_iff h hlt).2 (by rw [hi]; exact hb), hi, hp]

/-- The method `Insert` on a trie with hash `H`, read through `iinsert`. -/
theorem Insert_eq (m : MainNode) (H : Key → Nat) (k : Key) (v : Value) :
    (⟨m, H⟩ : Ctrie).Insert k v =
      (iinsert m ⟨k, (New.SetHash H).hash k, v⟩ 0).map fun m2 => ⟨m2, H⟩ := rfl

/-- Three public mutations that succeed one after the other. -/
theorem run_three {c0 c1 c2 c3 : Ctrie} {o1 o2 o3 : Op} (h1 : c0.apply o1 = some c1)
    (h2 : c1.apply o2 = some c2) (h3 : c2.apply o3 = some c3) :
    c0.run [o1, o2, o3] = some c3 := by
  simp only [Ctrie.run, h1, h2, h3, Option.bind]


/-! ## Main nodes and leaves below a main node -/

/-- Below a bitmap whose low `n` bits have more than `p` set bits, some set bit has rank `p`. -/
theorem exists_rank (x p : Nat) : ∀ n, p < popBelow x n →
    ∃ j, j < n ∧ x.testBit j = true ∧ popBelow x j = p := by
  intro n
  induction n with
  | zero => intro h; simp [popBelow] at h
  | succ n ih =>
    intro h
    by_cases hp : p < popBelow x n
    · obtain ⟨j, hj, hb, hr⟩ := ih hp
      exact ⟨j, by omega, hb, hr⟩
    · by_cases hb : x.testBit n = true
      · simp only [popBelow, hb, if_true] at h
        exact ⟨n, by omega, hb, by omega⟩
      · have hb2 : x.testBit n = false := by simpa using hb
        simp only [popBelow, hb2, Bool.false_eq_true, if_false, Nat.add_zero] at h
        omega

/-- Every element of the array of a `cNode` sits in the slot of some index. -/
theorem mem_slot {bmp : Nat} {array : List Branch} (h : CInv bmp array) {b : Branch}
    (hb : b ∈ array) : ∃ j, j < 32 ∧ slot bmp array j = some b := by
  obtain ⟨p, hp, hpb⟩ := List.getElem_of_mem hb
  obtain ⟨j, hj, hbit, hr⟩ := exists_rank bmp p 32 (by rw [h.2]; exact hp)
  refine ⟨j, hj, ?_⟩
  simp only [slot, hbit, if_true, hr]
  rw [List.getElem?_eq_getElem hp, hpb]

/-- A branch in a slot is an element of the array. -/
theorem slot_mem {bmp : Nat} {array : List Branch} {j : Nat} {b : Branch}
    (h : slot bmp array j = some b) : b ∈ array := by
  unfold slot at h
  by_cases hb : bmp.testBit j = true
  · rw [if_pos hb] at h
    obtain ⟨hp, he⟩ := List.getElem?_eq_some.1 h
    exact he ▸ List.getElem_mem hp
  · rw [if_neg hb] at h
    exact absurd h (by simp)

/-- Levels only grow on the way down. -/
theorem Sub.le {m : MainNode} {lev : Nat} {m2 : MainNode} {lev2 : Nat}
    (h : Sub m lev m2 lev2) : lev ≤ lev2 := by
  induction h with
  | here m lev => exact Nat.le_refl _
  | step _ _ ih => exact Nat.le_of_add_right_le ih

/-- The invariant of a main node passes to every main node below it, at its own level. -/
theorem Inv_sub {H : Key → Nat} {m : MainNode} {lev : Nat} {m2 : MainNode} {lev2 : Nat}
    (hs : Sub m lev m2 lev2) : ∀ (n : Nat) (P : Nat → Prop), Inv H n lev P m →
      ∃ n2 P2, Inv H n2 lev2 P2 m2 ∧ lev2 + 5 * n2 = lev + 5 * n ∧ ∀ h, P2 h → P h := by
  induction hs with
  | here m lev => exact fun n P h => ⟨n, P, h, rfl, fun _ hp => hp⟩
  | step hmem _ ih =>
    intro n P h
    cases n with
    | zero => exact absurd h (by simp [Inv])
    | succ n =>
      rw [Inv_cNode_iff] at h
      obtain ⟨j, _, hj⟩ := mem_slot h.1 hmem
      obtain ⟨n2, P2, h2, hl, hp⟩ := ih n _ (h.2 j _ hj)
      exact ⟨n2, P2, h2, by simp only [w] at hl; omega, fun x hx => (hp x hx).1⟩

/-- Every `cNode` below a main node that satisfies the invariant has a bitmap that matches
its array. -/
theorem CInv_sub {H : Key → Nat} {m : MainNode} {lev n : Nat} {P : Nat → Prop}
    (h : Inv H n lev P m) {bmp : Nat} {array : List Branch} {lev2 : Nat}
    (hs : Sub m lev (.cNode bmp array) lev2) : CInv bmp array := by
  obtain ⟨n2, P2, h2, _, _⟩ := Inv_sub hs n P h
  cases n2 with
  | zero => exact absurd h2 (by simp [Inv])
  | succ n2 => exact ((Inv_cNode_iff ..).1 h2).1

/-- Every entry stored below a main node that satisfies the invariant has a hash allowed by
the invariant. -/
theorem Inv_leaf {H : Key → Nat} {m : MainNode} {sn : Entry} (hl : Leaf m sn) :
    ∀ (n lev : Nat) (P : Nat → Prop), Inv H n lev P m → hashOK H sn ∧ P sn.hash := by
  induction hl with
  | leaf hmem =>
    intro n lev P h
    cases n with
    | zero => exact absurd h (by simp [Inv])
    | succ n =>
      rw [Inv_cNode_iff] at h
      obtain ⟨j, _, hj⟩ := mem_slot h.1 hmem
      have := h.2 j _ hj
      exact ⟨this.1, this.2.1⟩
  | inner hmem _ ih =>
    intro n lev P h
    cases n with
    | zero => exact absurd h (by simp [Inv])
    | succ n =>
      rw [Inv_cNode_iff] at h
      obtain ⟨j, _, hj⟩ := mem_slot h.1 hmem
      have := ih n _ _ (h.2 j _ hj)
      exact ⟨this.1, this.2.1⟩
  | tomb sn =>
    intro n lev P h
    cases n with
    | zero => exact absurd h (by simp [Inv])
    | succ n => exact h
  | coll hmem =>
    intro n lev P h
    cases n with
    | zero => exact h _ hmem
    | succ n => exact absurd h (by simp [Inv])

/-! ## The shape of `newMainNode` -/

/-- Below level 35 `newMainNode` builds the chain down to the first level at which the two
hashes differ. -/
theorem newMainNode_specChain (x : Entry) (xhc : Nat) (y : Entry) (yhc : Nat) :
    ∀ (k lev : Nat), lev + 5 * k < 35 →
      (∀ j, j < k → hashIdx xhc (lev + 5 * j) = hashIdx yhc (lev + 5 * j)) →
      hashIdx xhc (lev + 5 * k) ≠ hashIdx yhc (lev + 5 * k) →
      newMainNode x xhc y yhc lev = specChain x xhc y yhc k lev := by
  intro k
  induction k with
  | zero =>
    intro lev hl _ hd
    rw [Nat.mul_zero, Nat.add_zero] at hd
    rw [newMainNode_split _ _ _ _ _ (by omega) hd]
    rfl
  | succ k ih =>
    intro lev hl ha hd
    have h0 := ha 0 (by omega)
    rw [Nat.mul_zero, Nat.add_zero] at h0
    rw [newMainNode_same _ _ _ _ _ (by omega) h0]
    have hw : lev + w = lev + 5 := rfl
    rw [hw, ih (lev + 5) (by omega)
      (fun j hj => by
        have := ha (j + 1) (by omega)
        rwa [show lev + 5 * (j + 1) = lev + 5 + 5 * j by ring] at this)
      (by rwa [show lev + 5 * (k + 1) = lev + 5 + 5 * k by ring] at hd)]
    rfl

/-- When the two hashes agree at every level below 35, `newMainNode` builds single-branch
`cNode`s down to level 35 and a collision list there. -/
theorem newMainNode_specCollision (x : Entry) (xhc : Nat) (y : Entry) (yhc : Nat) :
    ∀ (k lev : Nat), 35 ≤ lev + 5 * k → lev + 5 * k < 40 →
      (∀ j, j < k → hashIdx xhc (lev + 5 * j) = hashIdx yhc (lev + 5 * j)) →
      newMainNode x xhc y yhc lev = specCollision x xhc y k lev := by
  intro k
  induction k with
  | zero =>
    intro lev hl _ _
    rw [newMainNode_bottom _ _ _ _ _ (by omega)]
    rfl
  | succ k ih =>
    intro lev hl hu ha
    have h0 := ha 0 (by omega)
    rw [Nat.mul_zero, Nat.add_zero] at h0
    rw [newMainNode_same _ _ _ _ _ (by omega) h0]
    have hw : lev + w = lev + 5 := rfl
    rw [hw, ih (lev + 5) (by omega) (by omega)
      (fun j hj => by
        have := ha (j + 1) (by omega)
        rwa [show lev + 5 * (j + 1) = lev + 5 + 5 * j by ring] at this)]
    rfl

/-- Every `cNode` of the subtree built by `newMainNode` has a bitmap that matches its array. -/
theorem CInv_newMainNode (x : Entry) (xhc : Nat) (y : Entry) (yhc : Nat) :
    ∀ (k lev : Nat), 35 ≤ lev + 5 * k → ∀ (l0 bmp : Nat) (array : List Branch) (l2 : Nat),
      Sub (newMainNode x xhc y yhc lev) l0 (.cNode bmp array) l2 → CInv bmp array := by
  intro k
  induction k with
  | zero =>
    intro lev hl l0 bmp array l2 hs
    rw [newMainNode_bottom _ _ _ _ _ (by omega)] at hs
    cases hs
  | succ k ih =>
    intro lev hl l0 bmp array l2 hs
    by_cases h35 : lev < 35
    · by_cases he : hashIdx xhc lev = hashIdx yhc lev
      · rw [newMainNode_same _ _ _ _ _ h35 he] at hs
        cases hs with
        | here => exact (oneBranch _ (hashIdx_lt _ _) _).1
        | step hmem hs2 =>
          simp only [List.mem_singleton, Branch.iNode.injEq] at hmem
          subst hmem
          exact ih (lev + w) (by simp only [w]; omega) _ _ _ _ hs2
      · rw [newMainNode_split _ _ _ _ _ h35 he] at hs
        cases hs with
        | here => exact (twoBranch _ _ (hashIdx_lt _ _) (hashIdx_lt _ _) he _ _).1
        | step hmem hs2 =>
          split at hmem <;> simp at hmem
    · rw [newMainNode_bottom _ _ _ _ _ h35] at hs
      cases hs

/-! ## Bitmaps and positions -/

/-- The position computed from a bitmap and an index: the number of set bits below the
index. -/
theorem bitCount_mask {bmp : Nat} (hb : bmp < 2 ^ 32) (idx : Nat) :
    bitCount (bmp &&& ((1 <<< idx) - 1)) = popBelow bmp (min idx 32) := by
  rw [Nat.one_shiftLeft, Nat.and_pow_two_sub_one_eq_mod,
    bitCount_eq_popBelow _ (lt_of_le_of_lt (Nat.mod_le _ _) hb)]
  by_cases hi : idx ≤ 32
  · rw [Nat.min_eq_left hi]
    exact popBelow_mod _ _ _ (by omega)
  · have h32 : (2 : Nat) ^ 32 ≤ 2 ^ idx := Nat.pow_le_pow_right (by norm_num) (by omega)
    rw [Nat.min_eq_right (by omega), Nat.mod_eq_of_lt (by omega)]

/-- The code's population count of a bitmap that matches its array is the array length. -/
theorem bitCount_of_CInv {bmp : Nat} {array : List Branch} (h : CInv bmp array) :
    bitCount bmp = array.length := by
  rw [bitCount_eq_popBelow _ h.1, h.2]

/-! ## The contraction invariant -/

theorem Contr_cNode_iff (n lev bmp : Nat) (array : List Branch) :
    Contr (n + 1) lev (.cNode bmp array) ↔
      (0 < lev → array ≠ [] ∧ ∀ sn, array ≠ [.sNode sn]) ∧
        ∀ j im, slot bmp array j = some (.iNode im) → Contr n (lev + w) im := by
  rw [Contr]

theorem Contr_zero (lev : Nat) (m : MainNode) : Contr 0 lev m := by
  simp [Contr]

theorem Contr_tNode (n lev : Nat) (s : Entry) : Contr n lev (.tNode s) := by
  cases n <;> simp [Contr]

theorem Contr_lNode (n lev : Nat) (sns : List Entry) : Contr n lev (.lNode sns) := by
  cases n <;> simp [Contr]

theorem set_ne_lone_of_iNode {array : List Branch} {p : Nat} (hp : p < array.length)
    (im : MainNode) (sn : Entry) : array.set p (.iNode im) ≠ [.sNode sn] := by
  intro h
  have h1 : (array.set p (.iNode im))[p]? = some (.iNode im) := by
    rw [List.getElem?_set_eq_of_lt _ hp]
  rw [h] at h1
  cases p with
  | zero => simp at h1
  | succ p => simp at h1

theorem set_ne_lone_of_sNode {array : List Branch} {p : Nat} {s0 : Entry}
    (ha : array[p]? = some (.sNode s0)) (hn : ∀ sn, array ≠ [.sNode sn]) (e sn : Entry) :
    array.set p (.sNode e) ≠ [.sNode sn] := by
  intro h
  match array, p with
  | [], _ => simp at ha
  | [a], 0 =>
    simp only [List.getElem?_cons_zero, Option.some.injEq] at ha
    exact hn s0 (by rw [ha])
  | [a], p + 1 => simp at ha
  | a :: b :: rest, 0 => simp at h
  | a :: b :: rest, p + 1 => simp at h

theorem eraseIdx_ne_nil_of_sNode {array : List Branch} {p : Nat} {s0 : Entry}
    (ha : array[p]? = some (.sNode s0)) (hn : ∀ sn, array ≠ [.sNode sn]) :
    array.eraseIdx p ≠ [] := by
  intro h
  match array, p with
  | [], _ => simp at ha
  | [a], 0 =>
    simp only [List.getElem?_cons_zero, Option.some.injEq] at ha
    exact hn s0 (by rw [ha])
  | [a], p + 1 => simp at ha
  | a :: b :: rest, 0 => simp at h
  | a :: b :: rest, p + 1 => simp at h

/-- Below the root a single leaf is contracted to a tombed leaf. -/
theorem toContracted_lone (bmp : Nat) (s : Entry) {lev : Nat} (h : 0 < lev) :
    toContracted ⟨bmp, [.sNode s]⟩ lev = .tNode s := by
  simp [toContracted, h]

/-- The result of `toContracted` satisfies the contraction invariant when the array is not
empty below the root. -/
theorem Contr_toContracted {n lev bmp : Nat} {array : List Branch}
    (hne : 0 < lev → array ≠ [])
    (hsub : ∀ j im, slot bmp array j = some (.iNode im) → Contr n (lev + w) im) :
    Contr (n + 1) lev (toContracted ⟨bmp, array⟩ lev) := by
  rcases toContracted_cases ⟨bmp, array⟩ lev with h | ⟨_, s, _, h⟩
  · rw [h]
    show Contr (n + 1) lev (.cNode bmp array)
    rw [Contr_cNode_iff]
    refine ⟨fun hl => ⟨hne hl, fun sn hs => ?_⟩, hsub⟩
    subst hs
    rw [toContracted_lone bmp sn hl] at h
    cases h
  · rw [h]
    exact Contr_tNode _ _ _

/-- The subtree built by `newMainNode` below the root satisfies the contraction invariant. -/
theorem Contr_newMainNode (x : Entry) (xhc : Nat) (y : Entry) (yhc : Nat) :
    ∀ (n lev : Nat), 0 < lev → Contr n lev (newMainNode x xhc y yhc lev) := by
  intro n
  induction n with
  | zero => exact fun _ _ => Contr_zero _ _
  | succ n ih =>
    intro lev hl
    by_cases h35 : lev < 35
    · by_cases he : hashIdx xhc lev = hashIdx yhc lev
      · rw [newMainNode_same _ _ _ _ _ h35 he, Contr_cNode_iff]
        refine ⟨fun _ => ⟨by simp, fun sn => by simp⟩, ?_⟩
        intro j im hj
        rw [(oneBranch _ (hashIdx_lt _ _) _).2] at hj
        split at hj
        · cases hj
          exact ih _ (by simp only [w]; omega)
        · cases hj
      · rw [newMainNode_split _ _ _ _ _ h35 he, Contr_cNode_iff]
        refine ⟨fun _ => ⟨by split <;> simp, fun sn => by split <;> simp⟩, ?_⟩
        intro j im hj
        rw [(twoBranch _ _ (hashIdx_lt _ _) (hashIdx_lt _ _) he _ _).2] at hj
        split at hj
        · cases hj
        · split at hj
          · cases hj
          · cases hj
    · rw [newMainNode_bottom _ _ _ _ _ h35]
      exact Contr_lNode _ _ _

/-- The contraction invariant is preserved by `iinsert`. -/
theorem Contr_iinsert (H : Key → Nat) (e : Entry) (n : Nat) :
    ∀ (lev : Nat) (P : Nat → Prop) (m : MainNode), Inv H n lev P m → Contr n lev m →
      ∀ m2, iinsert m e lev = some m2 → Contr n lev m2 := by
  induction n with
  | zero => exact fun _ _ _ _ _ _ _ => Contr_zero _ _
  | succ n ih =>
    intro lev P m hm hct m2 h2
    cases m with
    | lNode sns => exact absurd hm (by simp [Inv])
    | tNode sn =>
      rw [iinsert_tNode] at h2
      cases h2
      exact hct
    | cNode bmp array =>
      rw [Inv_cNode_iff] at hm
      obtain ⟨hc, hslots⟩ := hm
      rw [Contr_cNode_iff] at hct
      obtain ⟨hroot, hsub⟩ := hct
      have hi := hashIdx_lt e.hash lev
      rw [iinsert_cNode hc] at h2
      cases hs : slot bmp array (hashIdx e.hash lev) with
      | none =>
        rw [hs] at h2
        cases h2
        have hb := (slot_eq_none_iff hc hi).1 hs
        have hp := popBelow_le_length hc hi
        rw [Contr_cNode_iff]
        refine ⟨fun hl => ⟨by simp, fun sn h => ?_⟩, ?_⟩
        · have hpos : 0 < array.length := List.length_pos.2 (hroot hl).1
          have := congrArg List.length h
          simp at this
          omega
        · intro j im hj
          rw [slot_inserted hc hi hb] at hj
          split at hj
          · cases hj
          · exact hsub j im hj
      | some b =>
        rw [hs] at h2
        have hb := (slot_some_lt hc hs).2
        have hp := popBelow_lt_length hc hi hb
        have harr : array[popBelow bmp (hashIdx e.hash lev)]? = some b := by
          unfold slot at hs
          rwa [if_pos hb] at hs
        have hset : ∀ (br : Branch) (j : Nat) (im : MainNode),
            slot bmp (array.set (popBelow bmp (hashIdx e.hash lev)) br) j = some (.iNode im) →
            (∀ im2, br = .iNode im2 → Contr n (lev + w) im2) → Contr n (lev + w) im := by
          intro br j im hj hbr
          rw [slot_updated hc hi hb] at hj
          split at hj
          · cases hj
            exact hbr _ rfl
          · exact hsub j im hj
        cases b with
        | iNode im =>
          dsimp only at h2
          cases h3 : iinsert im e (lev + w) with
          | none =>
            rw [h3] at h2
            cases h2
          | some im2 =>
            rw [h3] at h2
            cases h2
            have c2 := ih (lev + w) _ im (hslots _ _ hs) (hsub _ _ hs) im2 h3
            rw [Contr_cNode_iff]
            refine ⟨fun hl => ⟨by simpa using (hroot hl).1, set_ne_lone_of_iNode hp _⟩, ?_⟩
            intro j im3 hj
            exact hset _ j im3 hj (fun _ h => by cases h; exact c2)
        | sNode sn =>
          dsimp only at h2
          by_cases hk : sn.key = e.key
          · rw [if_neg (not_not.2 hk)] at h2
            cases h2
            rw [Contr_cNode_iff]
            refine ⟨fun hl => ⟨by simpa using (hroot hl).1,
              set_ne_lone_of_sNode harr (hroot hl).2 e⟩, ?_⟩
            intro j im3 hj
            exact hset _ j im3 hj (fun _ h => by cases h)
          · rw [if_pos hk] at h2
            cases h2
            rw [Contr_cNode_iff]
            refine ⟨fun hl => ⟨by simpa using (hroot hl).1, set_ne_lone_of_iNode hp _⟩, ?_⟩
            intro j im3 hj
            exact hset _ j im3 hj (fun _ h => by
              cases h
              exact Contr_newMainNode _ _ _ _ _ _ (by simp only [w]; omega))

/-- The contraction invariant is preserved by `iremove`. -/
theorem Contr_iremove (H : Key → Nat) (e : Entry) (he : hashOK H e) (n : Nat) :
    ∀ (lev : Nat) (P : Nat → Prop) (m : MainNode) (parent : Bool), lev + 5 * n = 35 →
      Inv H n lev P m → Contr n lev m →
      ∀ r, iremove m e lev parent = some r → Contr n lev r.main := by
  induction n with
  | zero => exact fun _ _ _ _ _ _ _ _ _ => Contr_zero _ _
  | succ n ih =>
    intro lev P m parent hl hm hct r hr
    cases m with
    | lNode sns => exact absurd hm (by simp [Inv])
    | tNode sn =>
      rw [iremove_tNode] at hr
      cases hr
      exact hct
    | cNode bmp array =>
      have hm0 := hm
      rw [Inv_cNode_iff] at hm
      obtain ⟨hc, hslots⟩ := hm
      have hct0 := hct
      rw [Contr_cNode_iff] at hct
      obtain ⟨hroot, hsub⟩ := hct
      have hi := hashIdx_lt e.hash lev
      rw [iremove_cNode hc] at hr
      cases hs : slot bmp array (hashIdx e.hash lev) with
      | none =>
        rw [hs] at hr
        cases hr
        exact hct0
      | some b =>
        rw [hs] at hr
        have hb := (slot_some_lt hc hs).2
        have hp := popBelow_lt_length hc hi hb
        have harr : array[popBelow bmp (hashIdx e.hash lev)]? = some b := by
          unfold slot at hs
          rwa [if_pos hb] at hs
        have hset : ∀ (br : Branch) (j : Nat) (im : MainNode),
            slot bmp (array.set (popBelow bmp (hashIdx e.hash lev)) br) j = some (.iNode im) →
            (∀ im2, br = .iNode im2 → Contr n (lev + w) im2) → Contr n (lev + w) im := by
          intro br j im hj hbr
          rw [slot_updated hc hi hb] at hj
          split at hj
          · cases hj
            exact hbr _ rfl
          · exact hsub j im hj
        cases b with
        | iNode im =>
          obtain ⟨r1, hr1, _, _, _, _, hsome⟩ :=
            iremove_spec H e he n (lev + w) _ im true (by simp only [w]; omega) (hslots _ _ hs)
          have c2 := ih (lev + w) _ im true (by simp only [w]; omega) (hslots _ _ hs)
            (hsub _ _ hs) r1 hr1
          dsimp only at hr
          rw [hr1] at hr
          dsimp only at hr
          cases hcl : r1.clean with
          | none =>
            rw [hcl] at hr
            cases hr
            dsimp only
            rw [Contr_cNode_iff]
            refine ⟨fun hl => ⟨by simpa using (hroot hl).1, set_ne_lone_of_iNode hp _⟩, ?_⟩
            intro j im3 hj
            exact hset _ j im3 hj (fun _ h => by cases h; exact c2)
          | some c =>
            obtain ⟨hceq, s, hmain, _, _⟩ := hsome c hcl
            have hceq2 : c = (e.hash, lev) := by
              rw [hceq]
              simp
            subst hceq2
            rw [hcl] at hr
            dsimp only at hr
            rw [hmain, cleanParent_tomb hc e.hash lev hb s] at hr
            cases hr
            dsimp only
            refine Contr_toContracted (fun hl => by simpa using (hroot hl).1) ?_
            intro j im3 hj
            exact hset _ j im3 hj (fun _ h => by cases h)
        | sNode sn =>
          dsimp only at hr
          by_cases hk : sn.key = e.key
          · rw [if_neg (not_not.2 hk)] at hr
            have hres : Contr (n + 1) lev (toContracted ⟨bmp ^^^ 2 ^ hashIdx e.hash lev,
                array.eraseIdx (popBelow bmp (hashIdx e.hash lev))⟩ lev) := by
              refine Contr_toContracted
                (fun hl => eraseIdx_ne_nil_of_sNode harr (hroot hl).2) ?_
              intro j im3 hj
              rw [slot_removed hc hi hb] at hj
              split at hj
              · cases hj
              · exact hsub j im3 hj
            split at hr <;> cases hr <;> exact hres
          · rw [if_pos hk] at hr
            cases hr
            exact hct0

/-- Every reachable trie satisfies the contraction invariant from its root. -/
theorem Reachable.contr {H : Key → Nat} {c : Ctrie} (h : Reachable H c) : Contr 7 0 c.root := by
  induction h with
  | init =>
    show Contr (6 + 1) 0 (.cNode 0 [])
    rw [Contr_cNode_iff]
    refine ⟨fun h => absurd h (by decide), ?_⟩
    intro j im hj
    rw [slot_empty] at hj
    cases hj
  | @insert c c2 key value hr hi ih =>
    simp only [Ctrie.Insert, Ctrie.insert] at hi
    cases h2 : iinsert c.root ⟨key, c.hash key, value⟩ 0 with
    | none =>
      rw [h2] at hi
      cases hi
    | some m2 =>
      rw [h2] at hi
      cases hi
      exact Contr_iinsert H _ 7 0 _ c.root hr.inv.2 ih m2 h2
  | @remove c c2 key r hr hi ih =>
    simp only [Ctrie.Remove, Ctrie.remove] at hi
    cases h2 : iremove c.root ⟨key, c.hash key, Value.nil⟩ 0 false with
    | none =>
      rw [h2] at hi
      cases hi
    | some r2 =>
      rw [h2] at hi
      cases hi
      exact Contr_iremove H _ (hashOK_entry hr.inv.1 key _) 7 0 _ c.root false (by norm_num)
        hr.inv.2 ih r2 h2

/-- Under the contraction invariant no `cNode` below the root is empty or a single leaf. -/
theorem Contr_sub {H : Key → Nat} {m : MainNode} {lev : Nat} {m2 : MainNode} {lev2 : Nat}
    (hs : Sub m lev m2 lev2) : ∀ (n : Nat) (P : Nat → Prop), Inv H n lev P m → Contr n lev m →
      0 < lev2 → ∀ bmp array, m2 = .cNode bmp array → array ≠ [] ∧ ∀ sn, array ≠ [.sNode sn] := by
  induction hs with
  | here m lev =>
    intro n P hm hct hl bmp array he
    subst he
    cases n with
    | zero => exact absurd hm (by simp [Inv])
    | succ n => exact ((Contr_cNode_iff ..).1 hct).1 hl
  | step hmem _ ih =>
    intro n P hm hct hl bmp array he
    cases n with
    | zero => exact absurd hm (by simp [Inv])
    | succ n =>
      rw [Inv_cNode_iff] at hm
      obtain ⟨j, _, hj⟩ := mem_slot hm.1 hmem
      exact ih n _ (hm.2 j _ hj) (((Contr_cNode_iff ..).1 hct).2 j _ hj) hl bmp array he

/-! ## Two inserts in either order -/

/-- The result of `iinsert` at a `cNode`, slot by slot: the slot of the entry's index holds
what `insBranch` computes from its old content, all other slots are unchanged. -/
theorem iinsert_view {bmp : Nat} {array : List Branch} (h : CInv bmp array) (e : Entry)
    (lev : Nat) (m2 : MainNode) (h2 : iinsert (.cNode bmp array) e lev = some m2) :
    ∃ bmp2 array2 nb, m2 = .cNode bmp2 array2 ∧ CInv bmp2 array2 ∧
      insBranch (slot bmp array (hashIdx e.hash lev)) e lev = some nb ∧
      ∀ j, slot bmp2 array2 j = if j = hashIdx e.hash lev then some nb else slot bmp array j := by
  have hi := hashIdx_lt e.hash lev
  rw [iinsert_cNode h] at h2
  cases hs : slot bmp array (hashIdx e.hash lev) with
  | none =>
    rw [hs] at h2
    cases h2
    have hb := (slot_eq_none_iff h hi).1 hs
    exact ⟨_, _, _, rfl, CInv_inserted h hi hb _, rfl, slot_inserted h hi hb _⟩
  | some b =>
    rw [hs] at h2
    have hb := (slot_some_lt h hs).2
    cases b with
    | iNode im =>
      dsimp only at h2
      cases h3 : iinsert im e (lev + w) with
      | none =>
        rw [h3] at h2
        cases h2
      | some im2 =>
        rw [h3] at h2
        cases h2
        exact ⟨_, _, .iNode im2, rfl, CInv_updated h _ _, by simp [insBranch, h3],
          slot_updated h hi hb _⟩
    | sNode sn =>
      dsimp only at h2
      by_cases hk : sn.key = e.key
      · rw [if_neg (not_not.2 hk)] at h2
        cases h2
        exact ⟨_, _, .sNode e, rfl, CInv_updated h _ _, by simp [insBranch, hk],
          slot_updated h hi hb _⟩
      · rw [if_pos hk] at h2
        cases h2
        exact ⟨_, _, _, rfl, CInv_updated h _ _, by simp [insBranch, hk],
          slot_updated h hi hb _⟩

/-- Inserting another key under a single leaf builds the subtree of `newMainNode` at the
same level. -/
theorem iinsert_single_other (sn e : Entry) (lev : Nat) (hl : lev < 35)
    (hk : sn.key ≠ e.key) :
    iinsert (.cNode (2 ^ hashIdx sn.hash lev) [.sNode sn]) e lev =
      some (newMainNode sn sn.hash e e.hash lev) := by
  have hs := hashIdx_lt sn.hash lev
  have hi := hashIdx_lt e.hash lev
  obtain ⟨c1, s1⟩ := oneBranch _ hs (.sNode sn)
  by_cases he : hashIdx sn.hash lev = hashIdx e.hash lev
  · rw [iinsert_one_leaf _ hs sn e lev he.symm hk, newMainNode_same _ _ _ _ _ hl he]
  · have hb : (2 ^ hashIdx sn.hash lev).testBit (hashIdx e.hash lev) = false := by
      rw [Nat.testBit_two_pow]
      simp [he]
    have hp : popBelow (2 ^ hashIdx sn.hash lev) (hashIdx e.hash lev) =
        if hashIdx sn.hash lev < hashIdx e.hash lev then 1 else 0 := by
      have := popBelow_or_pow 0 (hashIdx sn.hash lev) (hashIdx e.hash lev) (by simp)
      simpa [popBelow_zero] using this
    rw [iinsert_fresh c1 e lev _ _ rfl hb hp, newMainNode_split _ _ _ _ _ hl he]
    by_cases hlt : hashIdx sn.hash lev < hashIdx e.hash lev
    · simp [hlt]
    · simp [hlt]

/-- Inserting the key of a single leaf replaces the leaf. -/
theorem iinsert_single_same (sn e : Entry) (lev : Nat)
    (he : hashIdx e.hash lev = hashIdx sn.hash lev) (hk : sn.key = e.key) :
    iinsert (.cNode (2 ^ hashIdx sn.hash lev) [.sNode sn]) e lev =
      some (.cNode (2 ^ hashIdx sn.hash lev) [.sNode e]) := by
  have hs := hashIdx_lt sn.hash lev
  obtain ⟨c1, s1⟩ := oneBranch _ hs (.sNode sn)
  have hp : popBelow (2 ^ hashIdx sn.hash lev) (hashIdx sn.hash lev) = 0 := by
    have := popBelow_lt_length c1 hs (by rw [Nat.testBit_two_pow]; simp)
    simpa using this
  rw [iinsert_cNode c1, s1, he]
  simp only [if_true, hp, ne_eq, hk, not_true_eq_false, if_false, List.set_cons_zero]

theorem Inv_empty (H : Key → Nat) (n lev : Nat) (P : Nat → Prop) :
    Inv H (n + 1) lev P (.cNode 0 []) := by
  rw [Inv_cNode_iff]
  refine ⟨CInv_empty, ?_⟩
  intro j b hs
  rw [slot_empty] at hs
  cases hs

theorem Inv_single (H : Key → Nat) (n lev : Nat) (sn : Entry) (h : hashOK H sn) :
    Inv H (n + 1) lev (fun _ => True) (.cNode (2 ^ hashIdx sn.hash lev) [.sNode sn]) := by
  obtain ⟨c1, s1⟩ := oneBranch _ (hashIdx_lt sn.hash lev) (.sNode sn)
  rw [Inv_cNode_iff]
  refine ⟨c1, ?_⟩
  intro j b hs
  rw [s1] at hs
  split at hs
  · cases hs
    rename_i hj
    exact ⟨h, trivial, hj.symm⟩
  · cases hs

/-- Two inserts of distinct keys below a main node that satisfies the invariant give the
same lookups in either order. -/
theorem iinsert_comm (H : Key → Nat) (e1 e2 : Entry) (h1 : hashOK H e1) (h2 : hashOK H e2)
    (hk : e1.key ≠ e2.key) (n : Nat) :
    ∀ (lev : Nat) (P : Nat → Prop) (m : MainNode), lev + 5 * n = 35 → Inv H n lev P m →
      ∀ a ab b ba, iinsert m e1 lev = some a → iinsert a e2 lev = some ab →
        iinsert m e2 lev = some b → iinsert b e1 lev = some ba →
        ∀ q, ilookup ab q lev = ilookup ba q lev := by
  have hk2 : e2.key ≠ e1.key := fun h => hk h.symm
  induction n with
  | zero =>
    intro lev P m hl hm a ab b ba ha hab hb hba q
    cases m with
    | cNode bmp array => exact absurd hm (by simp [Inv])
    | tNode sn => exact absurd hm (by simp [Inv])
    | lNode sns =>
      rw [iinsert_lNode] at ha hb
      cases ha
      cases hb
      rw [iinsert_lNode] at hab hba
      cases hab
      cases hba
      rfl
  | succ n ih =>
    intro lev P m hl hm a ab b ba ha hab hb hba q
    have hL : lev + w + 5 * n = 35 := by simp only [w]; omega
    -- the branch-level statement
    have B : ∀ (j : Nat) (ob : Option Branch), (∀ b, ob = some b → BInv H n lev P j b) →
        ∀ b1 b12 b2 b21, insBranch ob e1 lev = some b1 → insBranch (some b1) e2 lev = some b12 →
          insBranch ob e2 lev = some b2 → insBranch (some b2) e1 lev = some b21 →
          lookupBranch (some b12) q lev = lookupBranch (some b21) q lev := by
      intro j ob hv b1 b12 b2 b21 g1 g12 g2 g21
      cases ob with
      | none =>
        simp only [insBranch, Option.some.injEq] at g1 g2
        subst g1
        subst g2
        simp only [insBranch, ne_eq, hk, hk2, not_false_eq_true, if_true,
          Option.some.injEq] at g12 g21
        subst g12
        subst g21
        rw [lookupBranch_iNode, lookupBranch_iNode]
        cases n with
        | zero =>
          rw [newMainNode_bottom _ _ _ _ _ (by omega), newMainNode_bottom _ _ _ _ _ (by omega),
            ilookup_lNode, ilookup_lNode]
        | succ n =>
          have h35 : lev + w < 35 := by omega
          exact ih (lev + w) (fun _ => True) (.cNode 0 []) hL (Inv_empty H n _ _) _ _ _ _
            (iinsert_empty e1 _) (iinsert_single_other e1 e2 _ h35 hk)
            (iinsert_empty e2 _) (iinsert_single_other e2 e1 _ h35 hk2) q
      | some br =>
        cases br with
        | iNode im =>
          have hinv := hv _ rfl
          simp only [insBranch, Option.map_eq_some'] at g1 g2
          obtain ⟨a1, ga1, rfl⟩ := g1
          obtain ⟨a2, ga2, rfl⟩ := g2
          simp only [insBranch, Option.map_eq_some'] at g12 g21
          obtain ⟨a12, ga12, rfl⟩ := g12
          obtain ⟨a21, ga21, rfl⟩ := g21
          rw [lookupBranch_iNode, lookupBranch_iNode]
          exact ih (lev + w) _ im hL hinv _ _ _ _ ga1 ga12 ga2 ga21 q
        | sNode sn =>
          obtain ⟨hsn, _, _⟩ := hv _ rfl
          by_cases k1 : sn.key = e1.key
          · have k2 : sn.key ≠ e2.key := fun h => hk (k1.symm.trans h)
            have hh : sn.hash = e1.hash := hashOK_hash_eq hsn h1 k1
            simp only [insBranch, ne_eq, k1, not_true_eq_false, if_false,
              Option.some.injEq] at g1
            subst g1
            simp only [insBranch, ne_eq, hk, not_false_eq_true, if_true,
              Option.some.injEq] at g12
            subst g12
            simp only [insBranch, ne_eq, k2, not_false_eq_true, if_true,
              Option.some.injEq] at g2
            subst g2
            simp only [insBranch, Option.map_eq_some'] at g21
            obtain ⟨r, gr, rfl⟩ := g21
            rw [lookupBranch_iNode, lookupBranch_iNode]
            cases n with
            | zero =>
              rw [newMainNode_bottom _ _ _ _ _ (by omega), iinsert_lNode] at gr
              cases gr
              rw [newMainNode_bottom _ _ _ _ _ (by omega), ilookup_lNode, ilookup_lNode]
            | succ n =>
              have h35 : lev + w < 35 := by omega
              have hidx : hashIdx sn.hash (lev + w) = hashIdx e1.hash (lev + w) := by rw [hh]
              have s3 := iinsert_single_same sn e1 (lev + w) (by rw [hh]) k1
              have s4 := iinsert_single_other sn e2 _ h35 k2
              have hinv := Inv_single H n (lev + w) sn hsn
              rw [hidx] at s3 s4 hinv
              exact ih (lev + w) (fun _ => True) _ hL hinv _ _ _ _
                s3 (iinsert_single_other e1 e2 (lev + w) h35 hk) s4 gr q
          · by_cases k2 : sn.key = e2.key
            · have hh : sn.hash = e2.hash := hashOK_hash_eq hsn h2 k2
              simp only [insBranch, ne_eq, k2, not_true_eq_false, if_false,
                Option.some.injEq] at g2
              subst g2
              simp only [insBranch, ne_eq, hk2, not_false_eq_true, if_true,
                Option.some.injEq] at g21
              subst g21
              simp only [insBranch, ne_eq, k1, not_false_eq_true, if_true,
                Option.some.injEq] at g1
              subst g1
              simp only [insBranch, Option.map_eq_some'] at g12
              obtain ⟨r, gr, rfl⟩ := g12
              rw [lookupBranch_iNode, lookupBranch_iNode]
              cases n with
              | zero =>
                rw [newMainNode_bottom _ _ _ _ _ (by omega), iinsert_lNode] at gr
                cases gr
                rw [newMainNode_bottom _ _ _ _ _ (by omega), ilookup_lNode, ilookup_lNode]
              | succ n =>
                have h35 : lev + w < 35 := by omega
                have hidx : hashIdx sn.hash (lev + w) = hashIdx e2.hash (lev + w) := by rw [hh]
                have s3 := iinsert_single_same sn e2 (lev + w) (by rw [hh]) k2
                have s4 := iinsert_single_other sn e1 _ h35 k1
                have hinv := Inv_single H n (lev + w) sn hsn
                rw [hidx] at s3 s4 hinv
                exact ih (lev + w) (fun _ => True) _ hL hinv _ _ _ _
                  s4 gr s3 (iinsert_single_other e2 e1 (lev + w) h35 hk2) q
            · simp only [insBranch, ne_eq, k1, k2, not_false_eq_true, if_true,
                Option.some.injEq] at g1 g2
              subst g1
              subst g2
              simp only [insBranch, Option.map_eq_some'] at g12 g21
              obtain ⟨r1, gr1, rfl⟩ := g12
              obtain ⟨r2, gr2, rfl⟩ := g21
              rw [lookupBranch_iNode, lookupBranch_iNode]
              cases n with
              | zero =>
                rw [newMainNode_bottom _ _ _ _ _ (by omega), iinsert_lNode] at gr1 gr2
                cases gr1
                cases gr2
                rfl
              | succ n =>
                have h35 : lev + w < 35 := by omega
                exact ih (lev + w) (fun _ => True) _ hL (Inv_single H n _ sn hsn) _ _ _ _
                  (iinsert_single_other sn e1 _ h35 k1) gr1
                  (iinsert_single_other sn e2 _ h35 k2) gr2 q
    cases m with
    | lNode sns => exact absurd hm (by simp [Inv])
    | tNode sn =>
      rw [iinsert_tNode] at ha hb
      cases ha
      cases hb
      rw [iinsert_tNode] at hab hba
      cases hab
      cases hba
      rfl
    | cNode bmp array =>
      rw [Inv_cNode_iff] at hm
      obtain ⟨hc, hslots⟩ := hm
      obtain ⟨ba1, aa1, nb1, rfl, ca1, g1, sa1⟩ := iinsert_view hc e1 lev a ha
      obtain ⟨ba12, aa12, nb12, rfl, ca12, g12, sa12⟩ := iinsert_view ca1 e2 lev ab hab
      obtain ⟨ba2, aa2, nb2, rfl, ca2, g2, sa2⟩ := iinsert_view hc e2 lev b hb
      obtain ⟨ba21, aa21, nb21, rfl, ca21, g21, sa21⟩ := iinsert_view ca2 e1 lev ba hba
      rw [ilookup_cNode_branch ca12, ilookup_cNode_branch ca21, sa12, sa21, sa1, sa2]
      rw [sa1] at g12
      rw [sa2] at g21
      by_cases hi : hashIdx e1.hash lev = hashIdx e2.hash lev
      · rw [hi] at g1 g12 g21 ⊢
        rw [if_pos rfl] at g12 g21
        by_cases hq : hashIdx q.hash lev = hashIdx e2.hash lev
        · rw [if_pos hq, if_pos hq]
          exact B _ _ (fun b hb => hslots _ b hb) _ _ _ _ g1 g12 g2 g21
        · rw [if_neg hq, if_neg hq, if_neg hq, if_neg hq]
      · have hi2 : ¬ hashIdx e2.hash lev = hashIdx e1.hash lev := fun h => hi h.symm
        rw [if_neg hi2] at g12
        rw [if_neg hi] at g21
        rw [g2] at g12
        rw [g1] at g21
        cases g12
        cases g21
        by_cases hq2 : hashIdx q.hash lev = hashIdx e2.hash lev
        · rw [if_pos hq2, if_neg (fun h => hi2 (hq2.symm.trans h)), if_pos hq2]
        · rw [if_neg hq2]
          by_cases hq1 : hashIdx q.hash lev = hashIdx e1.hash lev
          · rw [if_pos hq1, if_pos hq1]
          · rw [if_neg hq1, if_neg hq1, if_neg hq2]


/-! ## The claims -/

/-- Claim C1, evaluated on the code: with the default hash, `"key477"` and `"key110310"`
have hashes that agree on the low 35 bits, so the second `Insert` moves both leaves into a
collision list and the following `Lookup` of the inserted key takes the unfinished `lNode`
branch of `ilookup`: it returns `(nil, false)`, not `(2, true)`. -/
theorem insert_then_lookup_misses :
    ((New.Insert key477 (.obj 1)).bind fun c1 =>
      (c1.Insert key110310 (.obj 2)).bind fun c2 => c2.Lookup key110310) =
      some (Value.nil, false) := by
  decide

/-- Claim C2, evaluated on the code: in the trie that already holds `"key477"`, two
`Insert`s of `"key110310"` followed by `Lookup("key110310")` return `(nil, false)`, not
`(3, true)`; the first insert builds a collision list, the second one stops at it. -/
theorem overwrite_then_lookup_misses :
    ((New.Insert key477 (.obj 1)).bind fun c0 =>
      (c0.Insert key110310 (.obj 2)).bind fun c1 =>
        (c1.Insert key110310 (.obj 3)).bind fun c2 => c2.Lookup key110310) =
      some (Value.nil, false) := by
  decide

/-- Claim C5, evaluated on the code: `"key109"` and `"key202"` share their indices at
levels 0 and 5 and differ at level 10.  Before `Remove("key109")` the key `"key202"` is found;
afterwards the `iNode` at level 5 is left with a tombed main node and `Lookup("key202")`
returns `(nil, false)`. -/
theorem remove_hides_other_key :
    (((New.Insert key109 (.obj 1)).bind fun c0 => c0.Insert key202 (.obj 2)).bind fun c =>
        c.Lookup key202) = some (Value.obj 2, true) ∧
    (((New.Insert key109 (.obj 1)).bind fun c0 => c0.Insert key202 (.obj 2)).bind fun c =>
        (c.Remove key109).bind fun r => r.1.Lookup key202) = some (Value.nil, false) := by
  decide

/-- Claim C6, evaluated on the code: `Lookup("key477")` returns `(1, true)` before
`Insert("key110310", 2)` and `(nil, false)` after it. -/
theorem insert_hides_other_key :
    ((New.Insert key477 (.obj 1)).bind fun c => c.Lookup key477) = some (Value.obj 1, true) ∧
    ((New.Insert key477 (.obj 1)).bind fun c =>
        (c.Insert key110310 (.obj 2)).bind fun c2 => c2.Lookup key477) =
      some (Value.nil, false) := by
  decide

/-- Claim C9, evaluated on the code: two distinct keys with the same 64-bit hash are
inserted into an empty trie.  `Lookup` of either key returns `(nil, false)`, also after a
further `Insert` of the first key, although both leaves are held in a collision list below
seven single-branch `cNode`s. -/
theorem full_collision_not_retrievable :
    zeroHash [1] = zeroHash [2] ∧
    ((((New.SetHash zeroHash).Insert [1] (.obj 1)).bind fun c1 =>
        (c1.Insert [2] (.obj 2)).bind fun c2 => c2.Lookup [1]) = some (Value.nil, false)) ∧
    ((((New.SetHash zeroHash).Insert [1] (.obj 1)).bind fun c1 =>
        (c1.Insert [2] (.obj 2)).bind fun c2 => c2.Lookup [2]) = some (Value.nil, false)) ∧
    ((((New.SetHash zeroHash).Insert [1] (.obj 1)).bind fun c1 =>
        (c1.Insert [2] (.obj 2)).bind fun c2 =>
          (c2.Insert [1] (.obj 3)).bind fun c3 => c3.Lookup [1]) = some (Value.nil, false)) ∧
    ((((New.SetHash zeroHash).Insert [1] (.obj 1)).bind fun c1 =>
        (c1.Insert [2] (.obj 2)).map fun c2 => c2.root) =
      some (.cNode 1 [.iNode (.cNode 1 [.iNode (.cNode 1 [.iNode (.cNode 1 [.iNode (.cNode 1
        [.iNode (.cNode 1 [.iNode (.cNode 1 [.iNode
          (.lNode [⟨[1], 0, .obj 1⟩, ⟨[2], 0, .obj 2⟩])])])])])])])])) :=
  ⟨by decide, by decide, by decide, by decide, rfl⟩

theorem stressTrie2_reachable : Reachable stressHash stressTrie2 :=
  @Reachable.insert stressHash stressTrie1 stressTrie2 [2] (.obj 2)
    (@Reachable.insert stressHash (New.SetHash stressHash) stressTrie1 [1] (.obj 1)
      Reachable.init rfl) rfl

/-- Claim C3: in every trie reachable from `New()` by `Insert` / `Remove`, after
`Insert(k, v)` and `Remove(k)` the call `Lookup(k)` returns `(nil, false)` and a second
`Remove(k)` returns `(nil, false)`; none of the calls panics. -/
theorem insert_remove_lookup (H : Key → Nat) (c : Ctrie) (hc : Reachable H c) (k : Key)
    (v : Value) :
    ∃ c1 c2 r c3, c.Insert k v = some c1 ∧ c1.Remove k = some (c2, r) ∧
      c2.Lookup k = some (Value.nil, false) ∧ c2.Remove k = some (c3, (Value.nil, false)) := by
  obtain ⟨c1, h1, i1, _⟩ := Insert_spec hc.inv k v
  obtain ⟨c2, r, h2, _, i2, h3, _⟩ := Remove_spec i1 k
  obtain ⟨c3, r3, h4, h5, _⟩ := Remove_spec i2 k
  rw [h3] at h5
  cases h5
  exact ⟨c1, c2, r, c3, h1, h2, h3, h4⟩

theorem insert_remove_lookup_witness :
    Reachable stressHash stressTrie2 ∧
    ∃ c1 c2 r c3, stressTrie2.Insert [1] (.obj 3) = some c1 ∧
      c1.Remove [1] = some (c2, r) ∧
      c2.Lookup [1] = some (Value.nil, false) ∧ c2.Remove [1] = some (c3, (Value.nil, false)) :=
  ⟨stressTrie2_reachable, insert_remove_lookup stressHash _ stressTrie2_reachable [1] (.obj 3)⟩

/-- Claim C4: in every trie reachable from `New()` by `Insert` / `Remove`, `Remove(k)`
returns the pair `(value, found)` that `Lookup(k)` returns on the trie before the removal: it
is `(v, true)` when `Lookup(k)` finds `v` and `(nil, false)` when `Lookup(k)` finds nothing. -/
theorem remove_returns_lookup (H : Key → Nat) (c : Ctrie) (hc : Reachable H c) (k : Key) :
    ∃ c2 r, c.Remove k = some (c2, r) ∧ c.Lookup k = some r ∧
      (∀ v, c.Lookup k = some (v, true) → r = (v, true)) ∧
      (c.Lookup k = some (Value.nil, false) → r = (Value.nil, false)) := by
  obtain ⟨c2, r, h1, h2, _⟩ := Remove_spec hc.inv k
  refine ⟨c2, r, h1, h2, ?_, ?_⟩
  · intro v hv
    rw [h2] at hv
    cases hv
    rfl
  · intro hv
    rw [h2] at hv
    cases hv
    rfl

theorem remove_returns_lookup_witness :
    Reachable stressHash stressTrie2 ∧
    ∃ c2 r, stressTrie2.Remove [1] = some (c2, r) ∧
      stressTrie2.Lookup [1] = some r ∧
      (∀ v, stressTrie2.Lookup [1] = some (v, true) → r = (v, true)) ∧
      (stressTrie2.Lookup [1] = some (Value.nil, false) → r = (Value.nil, false)) :=
  ⟨stressTrie2_reachable, remove_returns_lookup stressHash _ stressTrie2_reachable [1]⟩

/-- Claim C7: if `Lookup(k)` returns `(v, true)` on the trie produced from `New()` by a
sequence of `Insert` / `Remove` calls, then the sequence contains an `Insert(k, v)` after which
there is neither a `Remove(k)` nor another `Insert` of `k`. -/
theorem lookup_sound (H : Key → Nat) (ops : List Op) (c : Ctrie)
    (hrun : (New.SetHash H).run ops = some c) (k : Key) (v : Value)
    (hl : c.Lookup k = some (v, true)) :
    ∃ pre post, ops = pre ++ Op.insert k v :: post ∧
      ∀ op, op ∈ post → op ≠ Op.remove k ∧ ∀ v2, op ≠ Op.insert k v2 := by
  obtain ⟨c2, h1, _, h3⟩ := run_sound H ops (New.SetHash H) (fun _ => none) (CtrieInv_init H)
    (by
      intro k2 v2 h
      obtain ⟨r, hr, _⟩ := Lookup_total (CtrieInv_init H) k2
      have : (New.SetHash H).Lookup k2 = some (Value.nil, false) := by
        simp only [Ctrie.Lookup, Ctrie.lookup, New, Ctrie.SetHash]
        rw [ilookup_cNode_branch CInv_empty, slot_empty]
        rfl
      rw [this] at h
      cases h)
  rw [hrun] at h1
  cases h1
  rcases absRun_decomp k v ops _ (h3 k v hl) with h | ⟨h, _⟩
  · exact h
  · cases h

theorem lookup_sound_witness :
    (New.SetHash byteHash).run [Op.insert [1] (.obj 1), Op.insert [2] (.obj 2),
        Op.remove [1], Op.insert [1] (.obj 3)] =
      some ⟨.cNode 6 [.sNode ⟨[1], 1, .obj 3⟩, .sNode ⟨[2], 2, .obj 2⟩], byteHash⟩ ∧
    (⟨.cNode 6 [.sNode ⟨[1], 1, .obj 3⟩, .sNode ⟨[2], 2, .obj 2⟩], byteHash⟩ : Ctrie).Lookup [1] =
      some (.obj 3, true) ∧
    ∃ pre post, [Op.insert [1] (.obj 1), Op.insert [2] (.obj 2),
        Op.remove [1], Op.insert [1] (.obj 3)] = pre ++ Op.insert [1] (.obj 3) :: post ∧
      ∀ op, op ∈ post → op ≠ Op.remove [1] ∧ ∀ v2, op ≠ Op.insert [1] v2 :=
  ⟨rfl, by decide,
    lookup_sound byteHash
      [Op.insert [1] (.obj 1), Op.insert [2] (.obj 2), Op.remove [1], Op.insert [1] (.obj 3)]
      ⟨.cNode 6 [.sNode ⟨[1], 1, .obj 3⟩, .sNode ⟨[2], 2, .obj 2⟩], byteHash⟩ rfl [1] (.obj 3)
      (by decide)⟩

/-- Claim C8: for a sequence of `Insert` calls applied to `New()` in which no two distinct
keys have hashes that agree on the low 35 bits, every call returns, `Lookup(k)` returns
`(v, true)` for the value `v` of the last `Insert` of `k`, and `Lookup(k)` returns
`(nil, false)` for every key that was not inserted. -/
theorem insert_only_correct (H : Key → Nat) (kvs : List (Key × Value))
    (hno : ∀ a, a ∈ kvs → ∀ b, b ∈ kvs → a.1 ≠ b.1 →
      (New.SetHash H).hash a.1 % 2 ^ 35 ≠ (New.SetHash H).hash b.1 % 2 ^ 35) :
    ∃ c, (New.SetHash H).run (insertOps kvs) = some c ∧
      (∀ k v pre post, kvs = pre ++ (k, v) :: post → (∀ p, p ∈ post → p.1 ≠ k) →
        c.Lookup k = some (v, true)) ∧
      (∀ k, (∀ p, p ∈ kvs → p.1 ≠ k) → c.Lookup k = some (Value.nil, false)) := by
  have hempty : ∀ k, (New.SetHash H).Lookup k = some (Value.nil, false) := by
    intro k
    simp only [Ctrie.Lookup, Ctrie.lookup, New, Ctrie.SetHash]
    rw [ilookup_cNode_branch CInv_empty, slot_empty]
    rfl
  have hA : AllC 7 (New.SetHash H).root := by
    show AllC (6 + 1) (.cNode 0 [])
    rw [AllC_cNode_iff]
    intro j im hs
    rw [slot_empty] at hs
    cases hs
  obtain ⟨c, h1, h2⟩ := run_insertOps H (fun k => ∃ p, p ∈ kvs ∧ p.1 = k)
    (by
      rintro a b ⟨p, hp, rfl⟩ ⟨q, hq, rfl⟩ hne
      exact hno p hp q hq hne)
    kvs (New.SetHash H) (fun _ => none) (CtrieInv_init H) hA (fun kv hkv => ⟨kv, hkv, rfl⟩)
    (by intro k; rw [hempty k])
    (by intro k hk; exact absurd rfl hk)
  refine ⟨c, h1, ?_, ?_⟩
  · intro k v pre post hkvs hpost
    rw [h2 k, hkvs, absRun_last k v pre post _ hpost]
  · intro k hk
    rw [h2 k, absRun_untouched k kvs _ hk]

theorem insert_only_correct_witness :
    (∀ a, a ∈ [(key109, Value.obj 1), (key202, Value.obj 2), (key109, Value.obj 3)] →
      ∀ b, b ∈ [(key109, Value.obj 1), (key202, Value.obj 2), (key109, Value.obj 3)] →
      a.1 ≠ b.1 →
      (New.SetHash fnv64a).hash a.1 % 2 ^ 35 ≠ (New.SetHash fnv64a).hash b.1 % 2 ^ 35) ∧
    ∃ c, (New.SetHash fnv64a).run
        (insertOps [(key109, Value.obj 1), (key202, Value.obj 2), (key109, Value.obj 3)]) =
          some c ∧
      (∀ k v pre post,
        [(key109, Value.obj 1), (key202, Value.obj 2), (key109, Value.obj 3)] =
          pre ++ (k, v) :: post → (∀ p, p ∈ post → p.1 ≠ k) → c.Lookup k = some (v, true)) ∧
      (∀ k, (∀ p, p ∈ [(key109, Value.obj 1), (key202, Value.obj 2), (key109, Value.obj 3)] →
        p.1 ≠ k) → c.Lookup k = some (Value.nil, false)) :=
  ⟨by decide, insert_only_correct fnv64a _ (by decide)⟩


/-- The trie built from `New()` by inserting two keys whose hashes share the index 3 at
levels 0 and 5 and differ at level 10. -/
theorem stress_root (H : Key → Nat) (k1 k2 : Key) (v1 v2 : Value) (hk : k1 ≠ k2)
    (a0 : hashIdx ((New.SetHash H).hash k1) 0 = 3) (a5 : hashIdx ((New.SetHash H).hash k1) 5 = 3)
    (b0 : hashIdx ((New.SetHash H).hash k2) 0 = 3) (b5 : hashIdx ((New.SetHash H).hash k2) 5 = 3)
    (hd : hashIdx ((New.SetHash H).hash k1) 10 ≠ hashIdx ((New.SetHash H).hash k2) 10) :
    ((New.SetHash H).Insert k1 v1).bind (fun c1 => c1.Insert k2 v2) =
      some ⟨.cNode (2 ^ 3) [.iNode (.cNode (2 ^ 3) [.iNode
        (.cNode (2 ^ hashIdx ((New.SetHash H).hash k1) 10 |||
            2 ^ hashIdx ((New.SetHash H).hash k2) 10)
          (if hashIdx ((New.SetHash H).hash k1) 10 < hashIdx ((New.SetHash H).hash k2) 10 then
            [.sNode ⟨k1, (New.SetHash H).hash k1, v1⟩, .sNode ⟨k2, (New.SetHash H).hash k2, v2⟩]
          else
            [.sNode ⟨k2, (New.SetHash H).hash k2, v2⟩,
              .sNode ⟨k1, (New.SetHash H).hash k1, v1⟩]))])], H⟩ := by
  have e1 : (New.SetHash H).Insert k1 v1 =
      some ⟨.cNode (2 ^ 3) [.sNode ⟨k1, (New.SetHash H).hash k1, v1⟩], H⟩ := by
    simp only [Ctrie.Insert, Ctrie.insert]
    show Option.map _ (iinsert (.cNode 0 []) _ 0) = _
    rw [iinsert_cNode CInv_empty, slot_empty]
    simp only [a0, popBelow_zero, Nat.zero_or, List.take_nil, List.drop_nil, List.nil_append,
      Option.map]
    rfl
  rw [e1]
  simp only [Option.bind, Ctrie.Insert, Ctrie.insert]
  obtain ⟨c1, s1⟩ := oneBranch 3 (by norm_num) (.sNode ⟨k1, (New.SetHash H).hash k1, v1⟩)
  have hh : ∀ k, (⟨.cNode (2 ^ 3) [.sNode ⟨k1, (New.SetHash H).hash k1, v1⟩], H⟩ : Ctrie).hash k =
      (New.SetHash H).hash k := fun _ => rfl
  rw [hh, iinsert_cNode c1]
  simp only [b0, s1, if_true]
  have hp : popBelow (2 ^ 3) 3 = 0 := by decide
  have hne : ¬ k1 = k2 := hk
  simp only [ne_eq, hne, not_false_eq_true, if_true, hp, List.set_cons_zero, Option.map]
  have hw5 : 0 + w = 5 := rfl
  have hw10 : 5 + w = 10 := rfl
  rw [hw5, newMainNode_same _ _ _ _ _ (by norm_num) (a5.trans b5.symm), hw10,
    newMainNode_split _ _ _ _ _ (by norm_num) hd, a5]

/-- Claim C10: two distinct keys whose hashes have index 3 at levels 0 and 5 and different
indices at level 10 are inserted into an empty trie.  Both are found with their own values,
and the root `cNode` has the single branch of index 3, an `iNode` whose `cNode` again has the
single branch of index 3, an `iNode` whose `cNode` holds the two leaves in ascending index
order under the bitmap of their two indices: exactly two `iNode`s below the root. -/
theorem collision_stress (H : Key → Nat) (k1 k2 : Key) (v1 v2 : Value) (hk : k1 ≠ k2)
    (a0 : hashIdx ((New.SetHash H).hash k1) 0 = 3) (a5 : hashIdx ((New.SetHash H).hash k1) 5 = 3)
    (b0 : hashIdx ((New.SetHash H).hash k2) 0 = 3) (b5 : hashIdx ((New.SetHash H).hash k2) 5 = 3)
    (hd : hashIdx ((New.SetHash H).hash k1) 10 ≠ hashIdx ((New.SetHash H).hash k2) 10) :
    ∃ c1 c2 x y, (New.SetHash H).Insert k1 v1 = some c1 ∧ c1.Insert k2 v2 = some c2 ∧
      c2.Lookup k1 = some (v1, true) ∧ c2.Lookup k2 = some (v2, true) ∧
      c2.root = .cNode (2 ^ 3) [.iNode (.cNode (2 ^ 3) [.iNode
        (.cNode (2 ^ hashIdx x.hash 10 ||| 2 ^ hashIdx y.hash 10) [.sNode x, .sNode y])])] ∧
      hashIdx x.hash 10 < hashIdx y.hash 10 ∧
      ((x = ⟨k1, (New.SetHash H).hash k1, v1⟩ ∧ y = ⟨k2, (New.SetHash H).hash k2, v2⟩) ∨
        (x = ⟨k2, (New.SetHash H).hash k2, v2⟩ ∧ y = ⟨k1, (New.SetHash H).hash k1, v1⟩)) := by
  have hroot := stress_root H k1 k2 v1 v2 hk a0 a5 b0 b5 hd
  obtain ⟨c1, hc1, hc2⟩ := Option.bind_eq_some.1 hroot
  have i1 := hashIdx_lt ((New.SetHash H).hash k1) 10
  have i2 := hashIdx_lt ((New.SetHash H).hash k2) 10
  obtain ⟨t1, t2⟩ := twoBranch _ _ i1 i2 hd
    (.sNode ⟨k1, (New.SetHash H).hash k1, v1⟩) (.sNode ⟨k2, (New.SetHash H).hash k2, v2⟩)
  have look : ∀ (k : Key) (im : MainNode), hashIdx ((New.SetHash H).hash k) 0 = 3 →
      hashIdx ((New.SetHash H).hash k) 5 = 3 →
      (⟨.cNode (2 ^ 3) [.iNode (.cNode (2 ^ 3) [.iNode im])], H⟩ : Ctrie).Lookup k =
        ilookup im ⟨k, (New.SetHash H).hash k, Value.nil⟩ 10 := by
    intro k im h0 h5
    obtain ⟨p1, q1⟩ := oneBranch 3 (by norm_num) (.iNode (.cNode (2 ^ 3) [.iNode im]))
    obtain ⟨p2, q2⟩ := oneBranch 3 (by norm_num) (.iNode im)
    have hh : (⟨.cNode (2 ^ 3) [.iNode (.cNode (2 ^ 3) [.iNode im])], H⟩ : Ctrie).hash k =
        (New.SetHash H).hash k := rfl
    simp only [Ctrie.Lookup, Ctrie.lookup]
    rw [hh, ilookup_cNode_branch p1, q1]
    simp only [h0, if_true, lookupBranch_iNode]
    have hw5 : 0 + w = 5 := rfl
    have hw10 : 5 + w = 10 := rfl
    rw [hw5, ilookup_cNode_branch p2, q2]
    simp only [h5, if_true, lookupBranch_iNode]
    rw [hw10]
  have l1 := look k1
    (.cNode (2 ^ hashIdx ((New.SetHash H).hash k1) 10 ||| 2 ^ hashIdx ((New.SetHash H).hash k2) 10)
      (if hashIdx ((New.SetHash H).hash k1) 10 < hashIdx ((New.SetHash H).hash k2) 10 then
        [.sNode ⟨k1, (New.SetHash H).hash k1, v1⟩, .sNode ⟨k2, (New.SetHash H).hash k2, v2⟩]
      else
        [.sNode ⟨k2, (New.SetHash H).hash k2, v2⟩, .sNode ⟨k1, (New.SetHash H).hash k1, v1⟩])) a0 a5
  have l2 := look k2
    (.cNode (2 ^ hashIdx ((New.SetHash H).hash k1) 10 ||| 2 ^ hashIdx ((New.SetHash H).hash k2) 10)
      (if hashIdx ((New.SetHash H).hash k1) 10 < hashIdx ((New.SetHash H).hash k2) 10 then
        [.sNode ⟨k1, (New.SetHash H).hash k1, v1⟩, .sNode ⟨k2, (New.SetHash H).hash k2, v2⟩]
      else
        [.sNode ⟨k2, (New.SetHash H).hash k2, v2⟩, .sNode ⟨k1, (New.SetHash H).hash k1, v1⟩])) b0 b5
  rw [ilookup_cNode_branch t1, t2, if_neg hd, if_pos rfl, lookupBranch_sNode, if_pos rfl] at l1
  rw [ilookup_cNode_branch t1, t2, if_pos rfl, lookupBranch_sNode, if_pos rfl] at l2
  by_cases hlt : hashIdx ((New.SetHash H).hash k1) 10 < hashIdx ((New.SetHash H).hash k2) 10
  · simp only [hlt, if_true] at hc2 l1 l2
    exact ⟨c1, _, ⟨k1, (New.SetHash H).hash k1, v1⟩, ⟨k2, (New.SetHash H).hash k2, v2⟩, hc1, hc2,
      l1, l2, rfl, hlt, Or.inl ⟨rfl, rfl⟩⟩
  · simp only [hlt, if_false] at hc2 l1 l2
    rw [Nat.lor_comm] at hc2 l1 l2
    exact ⟨c1, _, ⟨k2, (New.SetHash H).hash k2, v2⟩, ⟨k1, (New.SetHash H).hash k1, v1⟩, hc1, hc2,
      l1, l2, rfl, Nat.lt_of_le_of_ne (Nat.le_of_not_lt hlt) (fun h => hd h.symm),
      Or.inr ⟨rfl, rfl⟩⟩

theorem collision_stress_witness :
    ([1] : Key) ≠ [2] ∧
    hashIdx ((New.SetHash stressHash).hash [1]) 0 = 3 ∧
    hashIdx ((New.SetHash stressHash).hash [1]) 5 = 3 ∧
    hashIdx ((New.SetHash stressHash).hash [2]) 0 = 3 ∧
    hashIdx ((New.SetHash stressHash).hash [2]) 5 = 3 ∧
    hashIdx ((New.SetHash stressHash).hash [1]) 10 ≠
      hashIdx ((New.SetHash stressHash).hash [2]) 10 ∧
    ∃ c1 c2 x y, (New.SetHash stressHash).Insert [1] (.obj 1) = some c1 ∧
      c1.Insert [2] (.obj 2) = some c2 ∧
      c2.Lookup [1] = some (.obj 1, true) ∧ c2.Lookup [2] = some (.obj 2, true) ∧
      c2.root = .cNode (2 ^ 3) [.iNode (.cNode (2 ^ 3) [.iNode
        (.cNode (2 ^ hashIdx x.hash 10 ||| 2 ^ hashIdx y.hash 10) [.sNode x, .sNode y])])] ∧
      hashIdx x.hash 10 < hashIdx y.hash 10 ∧
      ((x = ⟨[1], (New.SetHash stressHash).hash [1], .obj 1⟩ ∧
          y = ⟨[2], (New.SetHash stressHash).hash [2], .obj 2⟩) ∨
        (x = ⟨[2], (New.SetHash stressHash).hash [2], .obj 2⟩ ∧
          y = ⟨[1], (New.SetHash stressHash).hash [1], .obj 1⟩)) :=
  ⟨by decide, by decide, by decide, by decide, by decide, by decide,
    collision_stress stressHash [1] [2] (.obj 1) (.obj 2) (by decide) (by decide) (by decide)
      (by decide) (by decide) (by decide)⟩


/-! ## Scenarios, algebraic laws and structural invariants -/

/-- Claim C11: two distinct keys with hashes 5 and 37 are inserted into an empty trie, in
either order.  The root `cNode` then has bitmap `1 << 5` and a single branch, an `iNode`
whose `cNode` has bitmap `0b11` and exactly two leaves: the leaf of hash 5 (index 0 at level
5) first and the leaf of hash 37 (index 1 at level 5) second. -/
theorem scenario_5_37 (H : Key → Nat) (k1 k2 : Key) (v1 v2 : Value) (hk : k1 ≠ k2)
    (h1 : (New.SetHash H).hash k1 = 5) (h2 : (New.SetHash H).hash k2 = 37) :
    (((New.SetHash H).Insert k1 v1).bind fun c => c.Insert k2 v2) =
      some ⟨.cNode (1 <<< 5) [.iNode (.cNode 0b11 [.sNode ⟨k1, 5, v1⟩, .sNode ⟨k2, 37, v2⟩])], H⟩ ∧
    (((New.SetHash H).Insert k2 v2).bind fun c => c.Insert k1 v1) =
      some ⟨.cNode (1 <<< 5) [.iNode (.cNode 0b11 [.sNode ⟨k1, 5, v1⟩, .sNode ⟨k2, 37, v2⟩])], H⟩ := by
  have hh : ∀ (m : MainNode) (k : Key), (⟨m, H⟩ : Ctrie).hash k = (New.SetHash H).hash k :=
    fun _ _ => rfl
  have a0 : hashIdx 5 0 = 5 := by decide
  have b0 : hashIdx 37 0 = 5 := by decide
  have a5 : hashIdx 5 5 = 0 := by decide
  have b5 : hashIdx 37 5 = 1 := by decide
  have e1 : (New.SetHash H).Insert k1 v1 = some ⟨.cNode (2 ^ 5) [.sNode ⟨k1, 5, v1⟩], H⟩ := by
    simp only [Ctrie.Insert, Ctrie.insert, h1]
    show Option.map _ (iinsert (.cNode 0 []) _ 0) = _
    rw [iinsert_empty]
    simp only [a0]
    rfl
  have e2 : (New.SetHash H).Insert k2 v2 = some ⟨.cNode (2 ^ 5) [.sNode ⟨k2, 37, v2⟩], H⟩ := by
    simp only [Ctrie.Insert, Ctrie.insert, h2]
    show Option.map _ (iinsert (.cNode 0 []) _ 0) = _
    rw [iinsert_empty]
    simp only [b0]
    rfl
  have hk2 : ¬ k2 = k1 := fun h => hk h.symm
  have hw : 0 + w = 5 := rfl
  constructor
  · rw [e1]
    simp only [Option.bind, Ctrie.Insert, Ctrie.insert, hh, h2]
    rw [iinsert_one_leaf 5 (by norm_num) ⟨k1, 5, v1⟩ ⟨k2, 37, v2⟩ 0 b0 hk, hw,
      newMainNode_split _ _ _ _ _ (by norm_num) (by simp only [a5, b5]; decide)]
    simp only [a5, b5]
    rfl
  · rw [e2]
    simp only [Option.bind, Ctrie.Insert, Ctrie.insert, hh, h1]
    rw [iinsert_one_leaf 5 (by norm_num) ⟨k2, 37, v2⟩ ⟨k1, 5, v1⟩ 0 a0 hk2, hw,
      newMainNode_split _ _ _ _ _ (by norm_num) (by simp only [a5, b5]; decide)]
    simp only [a5, b5]
    rfl

theorem scenario_5_37_witness :
    [5] ≠ [37] ∧ (New.SetHash byteHash).hash [5] = 5 ∧ (New.SetHash byteHash).hash [37] = 37 ∧
    ((((New.SetHash byteHash).Insert [5] (.obj 1)).bind fun c => c.Insert [37] (.obj 2)) =
      some ⟨.cNode (1 <<< 5) [.iNode (.cNode 0b11 [.sNode ⟨[5], 5, .obj 1⟩,
        .sNode ⟨[37], 37, .obj 2⟩])], byteHash⟩ ∧
    (((New.SetHash byteHash).Insert [37] (.obj 2)).bind fun c => c.Insert [5] (.obj 1)) =
      some ⟨.cNode (1 <<< 5) [.iNode (.cNode 0b11 [.sNode ⟨[5], 5, .obj 1⟩,
        .sNode ⟨[37], 37, .obj 2⟩])], byteHash⟩) :=
  ⟨by decide, by decide, by decide,
    scenario_5_37 byteHash [5] [37] (.obj 1) (.obj 2) (by decide) (by decide) (by decide)⟩

/-- Claim C12: three keys with hashes `0b00001`, `0b00010` and `0b00011` are inserted into
an empty trie in any of the six orders.  The root `cNode` then has bitmap `0b1110` and exactly
three branches, all leaves, in ascending index order: hash 1, hash 2, hash 3. -/
theorem scenario_1_2_3 (H : Key → Nat) (k1 k2 k3 : Key) (v1 v2 v3 : Value)
    (h1 : (New.SetHash H).hash k1 = 0b00001) (h2 : (New.SetHash H).hash k2 = 0b00010)
    (h3 : (New.SetHash H).hash k3 = 0b00011) :
    ∀ ops, ops ∈ [[Op.insert k1 v1, Op.insert k2 v2, Op.insert k3 v3],
        [Op.insert k1 v1, Op.insert k3 v3, Op.insert k2 v2],
        [Op.insert k2 v2, Op.insert k1 v1, Op.insert k3 v3],
        [Op.insert k2 v2, Op.insert k3 v3, Op.insert k1 v1],
        [Op.insert k3 v3, Op.insert k1 v1, Op.insert k2 v2],
        [Op.insert k3 v3, Op.insert k2 v2, Op.insert k1 v1]] →
      (New.SetHash H).run ops =
        some ⟨.cNode 0b1110 [.sNode ⟨k1, 1, v1⟩, .sNode ⟨k2, 2, v2⟩, .sNode ⟨k3, 3, v3⟩], H⟩ := by
  have s1 : ∀ (m m2 : MainNode), iinsert m ⟨k1, 1, v1⟩ 0 = some m2 →
      (⟨m, H⟩ : Ctrie).apply (.insert k1 v1) = some ⟨m2, H⟩ := by
    intro m m2 h
    show (⟨m, H⟩ : Ctrie).Insert k1 v1 = _
    rw [Insert_eq, h1, h]
    rfl
  have s2 : ∀ (m m2 : MainNode), iinsert m ⟨k2, 2, v2⟩ 0 = some m2 →
      (⟨m, H⟩ : Ctrie).apply (.insert k2 v2) = some ⟨m2, H⟩ := by
    intro m m2 h
    show (⟨m, H⟩ : Ctrie).Insert k2 v2 = _
    rw [Insert_eq, h2, h]
    rfl
  have s3 : ∀ (m m2 : MainNode), iinsert m ⟨k3, 3, v3⟩ 0 = some m2 →
      (⟨m, H⟩ : Ctrie).apply (.insert k3 v3) = some ⟨m2, H⟩ := by
    intro m m2 h
    show (⟨m, H⟩ : Ctrie).Insert k3 v3 = _
    rw [Insert_eq, h3, h]
    rfl
  have t_1 : iinsert (.cNode 0 []) ⟨k1, 1, v1⟩ 0 =
      some (.cNode 2 [.sNode ⟨k1, 1, v1⟩]) :=
    @iinsert_fresh 0 [] ⟨by norm_num, show popBelow 0 32 = 0 by decide⟩
      ⟨k1, 1, v1⟩ 0 1 0 (show hashIdx 1 0 = 1 by decide) (by decide) (by decide)
  have t_2 : iinsert (.cNode 0 []) ⟨k2, 2, v2⟩ 0 =
      some (.cNode 4 [.sNode ⟨k2, 2, v2⟩]) :=
    @iinsert_fresh 0 [] ⟨by norm_num, show popBelow 0 32 = 0 by decide⟩
      ⟨k2, 2, v2⟩ 0 2 0 (show hashIdx 2 0 = 2 by decide) (by decide) (by decide)
  have t_3 : iinsert (.cNode 0 []) ⟨k3, 3, v3⟩ 0 =
      some (.cNode 8 [.sNode ⟨k3, 3, v3⟩]) :=
    @iinsert_fresh 0 [] ⟨by norm_num, show popBelow 0 32 = 0 by decide⟩
      ⟨k3, 3, v3⟩ 0 3 0 (show hashIdx 3 0 = 3 by decide) (by decide) (by decide)
  have t1_2 : iinsert (.cNode 2 [.sNode ⟨k1, 1, v1⟩]) ⟨k2, 2, v2⟩ 0 =
      some (.cNode 6 [.sNode ⟨k1, 1, v1⟩, .sNode ⟨k2, 2, v2⟩]) :=
    @iinsert_fresh 2 [.sNode ⟨k1, 1, v1⟩] ⟨by norm_num, show popBelow 2 32 = 1 by decide⟩
      ⟨k2, 2, v2⟩ 0 2 1 (show hashIdx 2 0 = 2 by decide) (by decide) (by decide)
  have t1_3 : iinsert (.cNode 2 [.sNode ⟨k1, 1, v1⟩]) ⟨k3, 3, v3⟩ 0 =
      some (.cNode 10 [.sNode ⟨k1, 1, v1⟩, .sNode ⟨k3, 3, v3⟩]) :=
    @iinsert_fresh 2 [.sNode ⟨k1, 1, v1⟩] ⟨by norm_num, show popBelow 2 32 = 1 by decide⟩
      ⟨k3, 3, v3⟩ 0 3 1 (show hashIdx 3 0 = 3 by decide) (by decide) (by decide)
  have t2_1 : iinsert (.cNode 4 [.sNode ⟨k2, 2, v2⟩]) ⟨k1, 1, v1⟩ 0 =
      some (.cNode 6 [.sNode ⟨k1, 1, v1⟩, .sNode ⟨k2, 2, v2⟩]) :=
    @iinsert_fresh 4 [.sNode ⟨k2, 2, v2⟩] ⟨by norm_num, show popBelow 4 32 = 1 by decide⟩
      ⟨k1, 1, v1⟩ 0 1 0 (show hashIdx 1 0 = 1 by decide) (by decide) (by decide)
  have t2_3 : iinsert (.cNode 4 [.sNode ⟨k2, 2, v2⟩]) ⟨k3, 3, v3⟩ 0 =
      some (.cNode 12 [.sNode ⟨k2, 2, v2⟩, .sNode ⟨k3, 3, v3⟩]) :=
    @iinsert_fresh 4 [.sNode ⟨k2, 2, v2⟩] ⟨by norm_num, show popBelow 4 32 = 1 by decide⟩
      ⟨k3, 3, v3⟩ 0 3 1 (show hashIdx 3 0 = 3 by decide) (by decide) (by decide)
  have t3_1 : iinsert (.cNode 8 [.sNode ⟨k3, 3, v3⟩]) ⟨k1, 1, v1⟩ 0 =
      some (.cNode 10 [.sNode ⟨k1, 1, v1⟩, .sNode ⟨k3, 3, v3⟩]) :=
    @iinsert_fresh 8 [.sNode ⟨k3, 3, v3⟩] ⟨by norm_num, show popBelow 8 32 = 1 by decide⟩
      ⟨k1, 1, v1⟩ 0 1 0 (show hashIdx 1 0 = 1 by decide) (by decide) (by decide)
  have t3_2 : iinsert (.cNode 8 [.sNode ⟨k3, 3, v3⟩]) ⟨k2, 2, v2⟩ 0 =
      some (.cNode 12 [.sNode ⟨k2, 2, v2⟩, .sNode ⟨k3, 3, v3⟩]) :=
    @iinsert_fresh 8 [.sNode ⟨k3, 3, v3⟩] ⟨by norm_num, show popBelow 8 32 = 1 by decide⟩
      ⟨k2, 2, v2⟩ 0 2 0 (show hashIdx 2 0 = 2 by decide) (by decide) (by decide)
  have t12_3 : iinsert (.cNode 6 [.sNode ⟨k1, 1, v1⟩, .sNode ⟨k2, 2, v2⟩]) ⟨k3, 3, v3⟩ 0 =
      some (.cNode 14 [.sNode ⟨k1, 1, v1⟩, .sNode ⟨k2, 2, v2⟩, .sNode ⟨k3, 3, v3⟩]) :=
    @iinsert_fresh 6 [.sNode ⟨k1, 1, v1⟩, .sNode ⟨k2, 2, v2⟩] ⟨by norm_num, show popBelow 6 32 = 2 by decide⟩
      ⟨k3, 3, v3⟩ 0 3 2 (show hashIdx 3 0 = 3 by decide) (by decide) (by decide)
  have t13_2 : iinsert (.cNode 10 [.sNode ⟨k1, 1, v1⟩, .sNode ⟨k3, 3, v3⟩]) ⟨k2, 2, v2⟩ 0 =
      some (.cNode 14 [.sNode ⟨k1, 1, v1⟩, .sNode ⟨k2, 2, v2⟩, .sNode ⟨k3, 3, v3⟩]) :=
    @iinsert_fresh 10 [.sNode ⟨k1, 1, v1⟩, .sNode ⟨k3, 3, v3⟩] ⟨by norm_num, show popBelow 10 32 = 2 by decide⟩
      ⟨k2, 2, v2⟩ 0 2 1 (show hashIdx 2 0 = 2 by decide) (by decide) (by decide)
  have t23_1 : iinsert (.cNode 12 [.sNode ⟨k2, 2, v2⟩, .sNode ⟨k3, 3, v3⟩]) ⟨k1, 1, v1⟩ 0 =
      some (.cNode 14 [.sNode ⟨k1, 1, v1⟩, .sNode ⟨k2, 2, v2⟩, .sNode ⟨k3, 3, v3⟩]) :=
    @iinsert_fresh 12 [.sNode ⟨k2, 2, v2⟩, .sNode ⟨k3, 3, v3⟩] ⟨by norm_num, show popBelow 12 32 = 2 by decide⟩
      ⟨k1, 1, v1⟩ 0 1 0 (show hashIdx 1 0 = 1 by decide) (by decide) (by decide)
  intro ops hops
  simp only [List.mem_cons, List.mem_singleton, List.not_mem_nil, or_false] at hops
  rcases hops with h | h | h | h | h | h <;> subst h
  · exact run_three (s1 _ _ t_1) (s2 _ _ t1_2) (s3 _ _ t12_3)
  · exact run_three (s1 _ _ t_1) (s3 _ _ t1_3) (s2 _ _ t13_2)
  · exact run_three (s2 _ _ t_2) (s1 _ _ t2_1) (s3 _ _ t12_3)
  · exact run_three (s2 _ _ t_2) (s3 _ _ t2_3) (s1 _ _ t23_1)
  · exact run_three (s3 _ _ t_3) (s1 _ _ t3_1) (s2 _ _ t13_2)
  · exact run_three (s3 _ _ t_3) (s2 _ _ t3_2) (s1 _ _ t23_1)

theorem scenario_1_2_3_witness :
    (New.SetHash byteHash).hash [1] = 0b00001 ∧ (New.SetHash byteHash).hash [2] = 0b00010 ∧
    (New.SetHash byteHash).hash [3] = 0b00011 ∧
    ∀ ops, ops ∈ [[Op.insert [1] (.obj 1), Op.insert [2] (.obj 2), Op.insert [3] (.obj 3)],
        [Op.insert [1] (.obj 1), Op.insert [3] (.obj 3), Op.insert [2] (.obj 2)],
        [Op.insert [2] (.obj 2), Op.insert [1] (.obj 1), Op.insert [3] (.obj 3)],
        [Op.insert [2] (.obj 2), Op.insert [3] (.obj 3), Op.insert [1] (.obj 1)],
        [Op.insert [3] (.obj 3), Op.insert [1] (.obj 1), Op.insert [2] (.obj 2)],
        [Op.insert [3] (.obj 3), Op.insert [2] (.obj 2), Op.insert [1] (.obj 1)]] →
      (New.SetHash byteHash).run ops =
        some ⟨.cNode 0b1110 [.sNode ⟨[1], 1, .obj 1⟩, .sNode ⟨[2], 2, .obj 2⟩,
          .sNode ⟨[3], 3, .obj 3⟩], byteHash⟩ :=
  ⟨by decide, by decide, by decide,
    scenario_1_2_3 byteHash [1] [2] [3] (.obj 1) (.obj 2) (.obj 3) (by decide) (by decide)
      (by decide)⟩

/-- Claim C13: for every hash function, every trie reachable from `New()` by `Insert` /
`Remove`, distinct keys `k1`, `k2` and values `v1`, `v2`, both `Insert(k1, v1)` then
`Insert(k2, v2)` and `Insert(k2, v2)` then `Insert(k1, v1)` return, and the two resulting
tries return the same `(value, found)` pair for `Lookup` of every key. -/
theorem inserts_commute (H : Key → Nat) (c : Ctrie) (hc : Reachable H c) (k1 k2 : Key)
    (hk : k1 ≠ k2) (v1 v2 : Value) :
    ∃ c12 c21, ((c.Insert k1 v1).bind fun t => t.Insert k2 v2) = some c12 ∧
      ((c.Insert k2 v2).bind fun t => t.Insert k1 v1) = some c21 ∧
      ∀ k, c12.Lookup k = c21.Lookup k := by
  have hci := hc.inv
  obtain ⟨a, ha, hai, _⟩ := Insert_spec hci k1 v1
  obtain ⟨ab, hab, _⟩ := Insert_spec hai k2 v2
  obtain ⟨b, hb, hbi, _⟩ := Insert_spec hci k2 v2
  obtain ⟨ba, hba, _⟩ := Insert_spec hbi k1 v1
  refine ⟨ab, ba, by rw [ha]; exact hab, by rw [hb]; exact hba, ?_⟩
  simp only [Ctrie.Insert, Ctrie.insert, Option.map_eq_some'] at ha hb
  obtain ⟨ma, ga, rfl⟩ := ha
  obtain ⟨mb, gb, rfl⟩ := hb
  simp only [Ctrie.Insert, Ctrie.insert, Option.map_eq_some'] at hab hba
  obtain ⟨mab, gab, rfl⟩ := hab
  obtain ⟨mba, gba, rfl⟩ := hba
  intro k
  exact iinsert_comm H ⟨k1, c.hash k1, v1⟩ ⟨k2, c.hash k2, v2⟩ (hashOK_entry hci.1 k1 v1)
    (hashOK_entry hci.1 k2 v2) hk 7 0 _ c.root (by norm_num) hci.2 ma mab mb mba ga gab gb gba
    ⟨k, c.hash k, Value.nil⟩

theorem inserts_commute_witness :
    Reachable stressHash stressTrie2 ∧ ([1] : Key) ≠ [34] ∧
    ∃ c12 c21,
      ((stressTrie2.Insert [1] (.obj 7)).bind fun t => t.Insert [34] (.obj 8)) = some c12 ∧
      ((stressTrie2.Insert [34] (.obj 8)).bind fun t => t.Insert [1] (.obj 7)) = some c21 ∧
      ∀ k, c12.Lookup k = c21.Lookup k :=
  ⟨stressTrie2_reachable, by decide,
    inserts_commute stressHash stressTrie2 stressTrie2_reachable [1] [34] (by decide)
      (.obj 7) (.obj 8)⟩

/-- Claim C14: in every trie reachable from `New()` by `Insert` / `Remove`, when `Lookup(k)`
reports that `k` is not found, `Remove(k)` returns `(nil, false)` and the trie after the call
is the trie before it: the root main node, hence every main node below it, is unchanged. -/
theorem remove_absent_noop (H : Key → Nat) (c : Ctrie) (hc : Reachable H c) (k : Key)
    (hl : c.Lookup k = some (Value.nil, false)) :
    c.Remove k = some (c, (Value.nil, false)) := by
  have h := iremove_absent H ⟨k, c.hash k, Value.nil⟩ 7 0 _ c.root false hc.inv.2 Value.nil hl
  simp only [Ctrie.Remove, Ctrie.remove, h, Option.map]

theorem remove_absent_noop_witness :
    Reachable stressHash stressTrie2 ∧ stressTrie2.Lookup [3] = some (Value.nil, false) ∧
    stressTrie2.Remove [3] = some (stressTrie2, (Value.nil, false)) :=
  ⟨stressTrie2_reachable, by decide,
    remove_absent_noop stressHash stressTrie2 stressTrie2_reachable [3] (by decide)⟩

/-- Claim C15: the root of `New()` is a `cNode` with bitmap 0 and no branches, and for every
key both `Lookup` and `Remove` return `(nil, false)`; the same holds with any hash function
installed. -/
theorem new_is_empty (H : Key → Nat) (k : Key) :
    New.root = .cNode 0 [] ∧ New.Lookup k = some (Value.nil, false) ∧
    New.Remove k = some (New, (Value.nil, false)) ∧
    (New.SetHash H).root = .cNode 0 [] ∧ (New.SetHash H).Lookup k = some (Value.nil, false) ∧
    (New.SetHash H).Remove k = some (New.SetHash H, (Value.nil, false)) := by
  have hl : ∀ (G : Key → Nat), (New.SetHash G).Lookup k = some (Value.nil, false) := by
    intro G
    simp only [Ctrie.Lookup, Ctrie.lookup, New, Ctrie.SetHash]
    rw [ilookup_cNode_branch CInv_empty, slot_empty]
    rfl
  have hr : ∀ (G : Key → Nat), (New.SetHash G).Remove k =
      some (New.SetHash G, (Value.nil, false)) := by
    intro G
    simp only [Ctrie.Remove, Ctrie.remove, New, Ctrie.SetHash]
    rw [iremove_cNode CInv_empty, slot_empty]
    rfl
  exact ⟨rfl, hl fnv64a, hr fnv64a, rfl, hl H, hr H⟩

/-- Claim C16 fails on the code: `cleanParent` runs only in the call that removes the leaf,
one level up.  After `Insert("key109")`, `Insert("key202")` and a completed `Remove("key109")`
the `iNode` under the root holds the tombed leaf of `"key202"` as its main node. -/
theorem remove_leaves_tombed_inode :
    (((New.Insert key109 (.obj 1)).bind fun c0 => c0.Insert key202 (.obj 2)).bind fun c =>
        (c.Remove key109).map fun r => r.1.root) =
      some (.cNode (2 ^ 4) [.iNode (.tNode ⟨key202, fnv64a key202, .obj 2⟩)]) := by
  rfl

/-- Claim C17: in every trie reachable from `New()` by `Insert` / `Remove`, no `cNode` held
by an `iNode` below the root has exactly one branch that is a leaf; such a `cNode` is not
empty either. -/
theorem contraction_invariant (H : Key → Nat) (c : Ctrie) (hc : Reachable H c)
    (bmp0 : Nat) (array0 : List Branch) (hroot : c.root = .cNode bmp0 array0)
    (im : MainNode) (hmem : Branch.iNode im ∈ array0)
    (bmp : Nat) (array : List Branch) (lev : Nat) (hs : Sub im w (.cNode bmp array) lev) :
    array ≠ [] ∧ ∀ sn, array ≠ [.sNode sn] := by
  have hs2 : Sub c.root 0 (.cNode bmp array) lev := by
    rw [hroot]
    exact Sub.step hmem hs
  have hl := hs.le
  exact Contr_sub hs2 7 _ hc.inv.2 hc.contr (by simp only [w] at hl; omega) bmp array rfl

theorem contraction_invariant_witness :
    Reachable stressHash stressTrie2 ∧
    stressTrie2.root = .cNode 8 [.iNode (.cNode 8 [.iNode (.cNode 6
      [.sNode ⟨[1], 1123, .obj 1⟩, .sNode ⟨[2], 2147, .obj 2⟩])])] ∧
    ([.sNode ⟨[1], 1123, .obj 1⟩, .sNode ⟨[2], 2147, .obj 2⟩] ≠ ([] : List Branch) ∧
      ∀ sn, [.sNode ⟨[1], 1123, .obj 1⟩, .sNode ⟨[2], 2147, .obj 2⟩] ≠ [Branch.sNode sn]) :=
  ⟨stressTrie2_reachable, rfl,
    contraction_invariant stressHash stressTrie2 stressTrie2_reachable 8 _ rfl
      (.cNode 8 [.iNode (.cNode 6 [.sNode ⟨[1], 1123, .obj 1⟩, .sNode ⟨[2], 2147, .obj 2⟩])])
      (List.mem_singleton.2 rfl) 6 _ 10
      (Sub.step (List.mem_singleton.2 rfl) (Sub.here _ _))⟩

/-- Claim C18: in every trie reachable from `New()` by `Insert` / `Remove`, every `cNode` has
a 32-bit bitmap whose population count, as `bitCount` computes it, is the length of its
array.  The same holds for the `cNode` of `New` and for every `cNode` of a subtree built by
`newMainNode`, and `inserted` (with the flag of an index not in the bitmap), `updated` and
`removed` (with the flag of an index in the bitmap) return a `cNode` for which it holds
again. -/
theorem bitmap_matches_array (H : Key → Nat) :
    (∀ (c : Ctrie) (bmp : Nat) (array : List Branch) (lev : Nat), Reachable H c →
      Sub c.root 0 (.cNode bmp array) lev →
        bmp < 2 ^ 32 ∧ bitCount bmp = array.length ∧ popBelow bmp 32 = array.length) ∧
    (New.root = .cNode 0 [] ∧ bitCount 0 = ([] : List Branch).length) ∧
    (∀ (x : Entry) (xhc : Nat) (y : Entry) (yhc lev l0 bmp : Nat) (array : List Branch)
      (l2 : Nat), Sub (newMainNode x xhc y yhc lev) l0 (.cNode bmp array) l2 →
        bmp < 2 ^ 32 ∧ bitCount bmp = array.length) ∧
    (∀ (bmp : Nat) (array : List Branch) (hc lev : Nat) (br : Branch), bmp < 2 ^ 32 →
      bitCount bmp = array.length → bmp &&& (flagPos hc lev bmp).1 = 0 →
        ∃ c2, CNode.inserted ⟨bmp, array⟩ (flagPos hc lev bmp).2 (flagPos hc lev bmp).1 br =
            some c2 ∧
          c2.bmp < 2 ^ 32 ∧ bitCount c2.bmp = c2.array.length ∧
          c2.array.length = array.length + 1) ∧
    (∀ (bmp : Nat) (array : List Branch) (pos : Nat) (br : Branch), bmp < 2 ^ 32 →
      bitCount bmp = array.length → pos < array.length →
        ∃ c2, CNode.updated ⟨bmp, array⟩ pos br = some c2 ∧
          c2.bmp < 2 ^ 32 ∧ bitCount c2.bmp = c2.array.length) ∧
    (∀ (bmp : Nat) (array : List Branch) (hc lev : Nat), bmp < 2 ^ 32 →
      bitCount bmp = array.length → bmp &&& (flagPos hc lev bmp).1 ≠ 0 →
        ∃ c2, CNode.removed ⟨bmp, array⟩ (flagPos hc lev bmp).2 (flagPos hc lev bmp).1 =
            some c2 ∧
          c2.bmp < 2 ^ 32 ∧ bitCount c2.bmp = c2.array.length ∧
          c2.array.length + 1 = array.length) := by
  have cinv : ∀ (bmp : Nat) (array : List Branch), bmp < 2 ^ 32 →
      bitCount bmp = array.length → CInv bmp array :=
    fun bmp array h1 h2 => ⟨h1, by rw [← bitCount_eq_popBelow _ h1, h2]⟩
  refine ⟨?_, ⟨rfl, by decide⟩, ?_, ?_, ?_, ?_⟩
  · intro c bmp array lev hc hs
    have h := CInv_sub hc.inv.2 hs
    exact ⟨h.1, bitCount_of_CInv h, h.2⟩
  · intro x xhc y yhc lev l0 bmp array l2 hs
    have h := CInv_newMainNode x xhc y yhc 7 lev (by omega) l0 bmp array l2 hs
    exact ⟨h.1, bitCount_of_CInv h⟩
  · intro bmp array hc lev br h1 h2 h3
    have h := cinv bmp array h1 h2
    have hi := hashIdx_lt hc lev
    have hb := (flag_unset_iff hc lev bmp).1 h3
    have hl := length_le_of_CInv h
    rw [flagPos_snd hc lev bmp h1, flagPos_fst,
      CNode.inserted_eq _ _ _ _ (popBelow_le_length h hi) (by simp; omega)]
    have h4 := CInv_inserted h hi hb br
    refine ⟨_, rfl, h4.1, bitCount_of_CInv h4, ?_⟩
    have hp := popBelow_le_length h hi
    simp
    omega
  · intro bmp array pos br h1 h2 h3
    have h := cinv bmp array h1 h2
    refine ⟨⟨bmp, array.set pos br⟩, by simp [CNode.updated, h3], h1, ?_⟩
    exact bitCount_of_CInv (CInv_updated h pos br)
  · intro bmp array hc lev h1 h2 h3
    have h := cinv bmp array h1 h2
    have hi := hashIdx_lt hc lev
    have hb : bmp.testBit (hashIdx hc lev) = true := by
      by_contra hn
      exact h3 ((flag_unset_iff hc lev bmp).2 (by simpa using hn))
    have hp := popBelow_lt_length h hi hb
    have hl := length_le_of_CInv h
    rw [flagPos_snd hc lev bmp h1, flagPos_fst, CNode.removed_eq _ _ _ hp (by simp; omega)]
    have h4 := CInv_removed h hi hb
    refine ⟨_, rfl, h4.1, bitCount_of_CInv h4, ?_⟩
    simp only [List.length_eraseIdx, if_pos hp]
    omega


theorem bitmap_matches_array_witness :
    (Reachable stressHash stressTrie2 ∧
      6 < 2 ^ 32 ∧ bitCount 6 = [Branch.sNode ⟨[1], 1123, .obj 1⟩,
        Branch.sNode ⟨[2], 2147, .obj 2⟩].length) ∧
    (2 < 2 ^ 32 ∧ bitCount 2 =
      [Branch.iNode (newMainNode ⟨[1], 1, .obj 1⟩ 1 ⟨[2], 33, .obj 2⟩ 33 5)].length) ∧
    (∃ c2, CNode.inserted ⟨6, [.sNode ⟨[1], 1, .obj 1⟩, .sNode ⟨[2], 2, .obj 2⟩]⟩
        (flagPos 3 0 6).2 (flagPos 3 0 6).1 (.sNode ⟨[3], 3, .obj 3⟩) = some c2 ∧
      c2.bmp < 2 ^ 32 ∧ bitCount c2.bmp = c2.array.length ∧ c2.array.length = 2 + 1) ∧
    (∃ c2, CNode.updated ⟨6, [.sNode ⟨[1], 1, .obj 1⟩, .sNode ⟨[2], 2, .obj 2⟩]⟩ 1
        (.sNode ⟨[2], 2, .obj 5⟩) = some c2 ∧
      c2.bmp < 2 ^ 32 ∧ bitCount c2.bmp = c2.array.length) ∧
    (∃ c2, CNode.removed ⟨6, [.sNode ⟨[1], 1, .obj 1⟩, .sNode ⟨[2], 2, .obj 2⟩]⟩
        (flagPos 2 0 6).2 (flagPos 2 0 6).1 = some c2 ∧
      c2.bmp < 2 ^ 32 ∧ bitCount c2.bmp = c2.array.length ∧ c2.array.length + 1 = 2) :=
  ⟨⟨stressTrie2_reachable,
      ((bitmap_matches_array stressHash).1 stressTrie2 6 _ 10 stressTrie2_reachable
        (Sub.step (List.mem_singleton.2 rfl)
          (Sub.step (List.mem_singleton.2 rfl) (Sub.here _ _)))).1,
      ((bitmap_matches_array stressHash).1 stressTrie2 6 _ 10 stressTrie2_reachable
        (Sub.step (List.mem_singleton.2 rfl)
          (Sub.step (List.mem_singleton.2 rfl) (Sub.here _ _)))).2.1⟩,
    (bitmap_matches_array stressHash).2.2.1 ⟨[1], 1, .obj 1⟩ 1 ⟨[2], 33, .obj 2⟩ 33 0 0 2 _ 0
      (by rw [newMainNode_same _ _ _ _ _ (by norm_num) (by decide)]; exact Sub.here _ _),
    (bitmap_matches_array stressHash).2.2.2.1 6 _ 3 0 _ (by norm_num) (by decide) (by decide),
    (bitmap_matches_array stressHash).2.2.2.2.1 6 _ 1 _ (by norm_num) (by decide) (by decide),
    (bitmap_matches_array stressHash).2.2.2.2.2 6 _ 2 0 (by norm_num) (by decide) (by decide)⟩

/-- Claim C19: in every trie reachable from `New()` by `Insert` / `Remove`, for every `cNode`
at level `lev` and every bit `idx` set in its bitmap, the branch at position
`bitCount (bmp & ((1 << idx) - 1))` is a leaf whose hash has index `idx` at level `lev`, or an
`iNode` all of whose leaves have index `idx` at level `lev`.  The position is strictly
increasing in the set bit, and every array position is the position of exactly one set bit. -/
theorem hash_path_invariant (H : Key → Nat) (c : Ctrie) (hc : Reachable H c) (bmp : Nat)
    (array : List Branch) (lev : Nat) (hs : Sub c.root 0 (.cNode bmp array) lev) :
    (∀ idx, bmp.testBit idx = true →
      ∃ b, array[bitCount (bmp &&& ((1 <<< idx) - 1))]? = some b ∧
        match b with
        | .sNode sn => (sn.hash >>> lev) &&& 0x1f = idx
        | .iNode im => ∀ sn, Leaf im sn → (sn.hash >>> lev) &&& 0x1f = idx) ∧
    (∀ i j, bmp.testBit i = true → bmp.testBit j = true → i < j →
      bitCount (bmp &&& ((1 <<< i) - 1)) < bitCount (bmp &&& ((1 <<< j) - 1))) ∧
    (∀ p, p < array.length →
      ∃ idx, (bmp.testBit idx = true ∧ bitCount (bmp &&& ((1 <<< idx) - 1)) = p) ∧
        ∀ idx2, bmp.testBit idx2 = true → bitCount (bmp &&& ((1 <<< idx2) - 1)) = p →
          idx2 = idx) := by
  obtain ⟨n2, P2, h2, _, _⟩ := Inv_sub hs 7 _ hc.inv.2
  cases n2 with
  | zero => exact absurd h2 (by simp [Inv])
  | succ n2 =>
    rw [Inv_cNode_iff] at h2
    obtain ⟨hcinv, hslots⟩ := h2
    have hlt : ∀ idx, bmp.testBit idx = true → idx < 32 := by
      intro idx hb
      by_contra hn
      rw [testBit_false_of_ge hcinv.1 (by omega)] at hb
      cases hb
    have hpos : ∀ idx, bmp.testBit idx = true →
        bitCount (bmp &&& ((1 <<< idx) - 1)) = popBelow bmp idx := by
      intro idx hb
      rw [bitCount_mask hcinv.1, Nat.min_eq_left (Nat.le_of_lt (hlt idx hb))]
    have hmono : ∀ i j, bmp.testBit i = true → bmp.testBit j = true → i < j →
        bitCount (bmp &&& ((1 <<< i) - 1)) < bitCount (bmp &&& ((1 <<< j) - 1)) := by
      intro i j hi hj hij
      rw [hpos i hi, hpos j hj]
      exact popBelow_lt_of_testBit bmp hi hij
    refine ⟨?_, hmono, ?_⟩
    · intro idx hb
      have hp := popBelow_lt_length hcinv (hlt idx hb) hb
      rw [hpos idx hb]
      refine ⟨array[popBelow bmp idx], List.getElem?_eq_getElem hp, ?_⟩
      have hsl : slot bmp array idx = some array[popBelow bmp idx] := by
        simp only [slot, hb, if_true]
        exact List.getElem?_eq_getElem hp
      have hb2 := hslots idx _ hsl
      cases hbr : array[popBelow bmp idx] with
      | sNode sn =>
        rw [hbr] at hb2
        exact hb2.2.2
      | iNode im =>
        rw [hbr] at hb2
        intro sn hl
        exact (Inv_leaf hl _ _ _ hb2).2.2
    · intro p hp
      obtain ⟨idx, _, hb, hr⟩ := exists_rank bmp p 32 (by rw [hcinv.2]; exact hp)
      refine ⟨idx, ⟨hb, by rw [hpos idx hb, hr]⟩, ?_⟩
      intro idx2 hb2 hr2
      rcases Nat.lt_trichotomy idx2 idx with h | h | h
      · have := hmono idx2 idx hb2 hb h
        rw [hr2, hpos idx hb, hr] at this
        omega
      · exact h
      · have := hmono idx idx2 hb hb2 h
        rw [hr2, hpos idx hb, hr] at this
        omega


theorem hash_path_invariant_witness :
    Reachable stressHash stressTrie2 ∧
    Sub stressTrie2.root 0
      (.cNode 6 [.sNode ⟨[1], 1123, .obj 1⟩, .sNode ⟨[2], 2147, .obj 2⟩]) 10 ∧
    (∃ b, [Branch.sNode ⟨[1], 1123, .obj 1⟩,
        Branch.sNode ⟨[2], 2147, .obj 2⟩][bitCount (6 &&& ((1 <<< 2) - 1))]? = some b ∧
      match b with
      | .sNode sn => (sn.hash >>> 10) &&& 0x1f = 2
      | .iNode im => ∀ sn, Leaf im sn → (sn.hash >>> 10) &&& 0x1f = 2) ∧
    bitCount (6 &&& ((1 <<< 1) - 1)) < bitCount (6 &&& ((1 <<< 2) - 1)) :=
  ⟨stressTrie2_reachable,
    Sub.step (List.mem_singleton.2 rfl) (Sub.step (List.mem_singleton.2 rfl) (Sub.here _ _)),
    (hash_path_invariant stressHash stressTrie2 stressTrie2_reachable 6 _ 10
      (Sub.step (List.mem_singleton.2 rfl)
        (Sub.step (List.mem_singleton.2 rfl) (Sub.here _ _)))).1 2 (by decide),
    (hash_path_invariant stressHash stressTrie2 stressTrie2_reachable 6 _ 10
      (Sub.step (List.mem_singleton.2 rfl)
        (Sub.step (List.mem_singleton.2 rfl) (Sub.here _ _)))).2.1 1 2 (by decide) (by decide)
      (by decide)⟩

/-- Claim C20 fails as stated: the hashes `0` and `2 ^ 35` differ at level 35, which is at
most 60, yet `newMainNode` at level 0 ends in a collision list below seven single-branch
`cNode`s, not in a `cNode` that holds the two leaves. -/
theorem newMainNode_ignores_level_35 :
    (0 % 5 = 0 ∧ 0 ≤ 35 ∧ 35 ≤ 60 ∧ 35 % 5 = 0) ∧
    ((0 >>> 35) &&& 0x1f ≠ (2 ^ 35 >>> 35) &&& 0x1f) ∧
    newMainNode ⟨[1], 0, .obj 1⟩ 0 ⟨[2], 2 ^ 35, .obj 2⟩ (2 ^ 35) 0 =
      .cNode 1 [.iNode (.cNode 1 [.iNode (.cNode 1 [.iNode (.cNode 1 [.iNode (.cNode 1
        [.iNode (.cNode 1 [.iNode (.cNode 1 [.iNode
          (.lNode [⟨[1], 0, .obj 1⟩, ⟨[2], 2 ^ 35, .obj 2⟩])])])])])])])] :=
  ⟨by decide, by decide, by
    rw [newMainNode_specCollision _ _ _ _ 7 0 (by norm_num) (by norm_num)
      (fun j hj => by interval_cases j <;> decide)]
    rfl⟩

/-- Claim C20, amended: `newMainNode` reads the levels below 35 only.  When the hashes agree
at the `k` levels `lev`, `lev + 5`, ... and first differ at level `lev + 5 * k < 35`, the
result is a chain of `k` single-branch `cNode`s, one `iNode` each, ending in a `cNode` that
holds exactly the two leaves in ascending index order under the bitmap of their two index
bits.  When they agree at every such level below 35, the result is the chain of single-branch
`cNode`s down to level 35 with the collision list of the two leaves there. -/
theorem newMainNode_chain (x : Entry) (xhc : Nat) (y : Entry) (yhc lev : Nat) :
    (∀ k, lev + 5 * k < 35 →
      (∀ j, j < k → hashIdx xhc (lev + 5 * j) = hashIdx yhc (lev + 5 * j)) →
      hashIdx xhc (lev + 5 * k) ≠ hashIdx yhc (lev + 5 * k) →
        newMainNode x xhc y yhc lev = specChain x xhc y yhc k lev) ∧
    (∀ k, 35 ≤ lev + 5 * k → lev + 5 * k < 40 →
      (∀ j, j < k → hashIdx xhc (lev + 5 * j) = hashIdx yhc (lev + 5 * j)) →
        newMainNode x xhc y yhc lev = specCollision x xhc y k lev) :=
  ⟨fun k => newMainNode_specChain x xhc y yhc k lev,
    fun k => newMainNode_specCollision x xhc y yhc k lev⟩

theorem newMainNode_chain_witness :
    newMainNode ⟨[1], 5, .obj 1⟩ 5 ⟨[2], 37, .obj 2⟩ 37 0 =
      .cNode (2 ^ 5) [.iNode (.cNode (2 ^ 0 ||| 2 ^ 1)
        [.sNode ⟨[1], 5, .obj 1⟩, .sNode ⟨[2], 37, .obj 2⟩])] ∧
    newMainNode ⟨[1], 7, .obj 1⟩ 7 ⟨[2], 7 + 2 ^ 35, .obj 2⟩ (7 + 2 ^ 35) 30 =
      .cNode (2 ^ 0) [.iNode (.lNode [⟨[1], 7, .obj 1⟩, ⟨[2], 7 + 2 ^ 35, .obj 2⟩])] :=
  ⟨(newMainNode_chain ⟨[1], 5, .obj 1⟩ 5 ⟨[2], 37, .obj 2⟩ 37 0).1 1 (by norm_num)
      (fun j hj => by interval_cases j; decide) (by decide),
    (newMainNode_chain ⟨[1], 7, .obj 1⟩ 7 ⟨[2], 7 + 2 ^ 35, .obj 2⟩ (7 + 2 ^ 35) 30).2 1
      (by norm_num) (by norm_num) (fun j hj => by interval_cases j; decide)⟩


/-! ## Single steps of the descents, read from the code -/

/-- The number of set bits below a position, as a count over the bit positions. -/
theorem popBelow_eq_count (x : Nat) (n : Nat) :
    popBelow x n = ((List.range n).filter fun i => x.testBit i).length := by
  induction n with
  | zero => rfl
  | succ n ih =>
    rw [popBelow, ih, List.range_succ, List.filter_append, List.length_append]
    by_cases hb : x.testBit n = true
    · simp [hb]
    · simp [hb]

/-- The step of `ilookup` at a `cNode` whose bit is not set. -/
theorem ilookup_unset (bmp : Nat) (array : List Branch) (e : Entry) (lev : Nat)
    (hf : bmp &&& (flagPos e.hash lev bmp).1 = 0) :
    ilookup (.cNode bmp array) e lev = some (Value.nil, false) := by
  rw [ilookup, if_pos hf]

/-- The step of `ilookup` at a `cNode` whose branch is a leaf. -/
theorem ilookup_at_sNode (bmp : Nat) (array : List Branch) (e : Entry) (lev : Nat)
    (hf : bmp &&& (flagPos e.hash lev bmp).1 ≠ 0) (sn : Entry)
    (ha : array[(flagPos e.hash lev bmp).2]? = some (.sNode sn)) :
    ilookup (.cNode bmp array) e lev =
      if sn.key = e.key then some (sn.value, true) else some (Value.nil, false) := by
  rw [ilookup, if_neg hf]
  split
  · rename_i heq
    rw [ha] at heq
    cases heq
  · rename_i im heq
    rw [ha] at heq
    cases heq
  · rename_i sn2 heq
    rw [ha] at heq
    cases heq
    rfl

/-- The step of `ilookup` at a `cNode` whose branch is an `iNode`. -/
theorem ilookup_at_iNode (bmp : Nat) (array : List Branch) (e : Entry) (lev : Nat)
    (hf : bmp &&& (flagPos e.hash lev bmp).1 ≠ 0) (im : MainNode)
    (ha : array[(flagPos e.hash lev bmp).2]? = some (.iNode im)) :
    ilookup (.cNode bmp array) e lev = ilookup im e (lev + w) := by
  rw [ilookup, if_neg hf]
  split
  · rename_i heq
    rw [ha] at heq
    cases heq
  · rename_i im2 heq
    rw [ha] at heq
    cases heq
    rfl
  · rename_i sn2 heq
    rw [ha] at heq
    cases heq

/-- The step of `iremove` at a `cNode` whose branch is an `iNode`. -/
theorem iremove_at_iNode (bmp : Nat) (array : List Branch) (e : Entry) (lev : Nat)
    (parent : Bool) (hf : bmp &&& (flagPos e.hash lev bmp).1 ≠ 0) (im : MainNode)
    (ha : array[(flagPos e.hash lev bmp).2]? = some (.iNode im)) :
    iremove (.cNode bmp array) e lev parent =
      match iremove im e (lev + w) true with
      | none => none
      | some r =>
        match r.clean with
        | none =>
          some ⟨.cNode bmp (array.set (flagPos e.hash lev bmp).2 (.iNode r.main)),
            r.value, r.found, none⟩
        | some (hc, plev) =>
          match cleanParent
            (.cNode bmp (array.set (flagPos e.hash lev bmp).2 (.iNode r.main))) hc plev with
          | none => none
          | some pm => some ⟨pm, r.value, r.found, none⟩ := by
  rw [iremove, if_neg hf]
  split
  · rename_i heq
    rw [ha] at heq
    cases heq
  · rename_i im2 heq
    rw [ha] at heq
    cases heq
    rfl
  · rename_i sn2 heq
    rw [ha] at heq
    cases heq

/-- The step of `iremove` at a `cNode` whose branch is the leaf of the key. -/
theorem iremove_at_sNode (bmp : Nat) (array : List Branch) (e : Entry) (lev : Nat)
    (parent : Bool) (hf : bmp &&& (flagPos e.hash lev bmp).1 ≠ 0) (sn : Entry)
    (ha : array[(flagPos e.hash lev bmp).2]? = some (.sNode sn)) (hk : sn.key = e.key) :
    iremove (.cNode bmp array) e lev parent =
      match CNode.removed ⟨bmp, array⟩ (flagPos e.hash lev bmp).2
          (flagPos e.hash lev bmp).1 with
      | none => none
      | some ncn =>
        if parent && (toContracted ncn lev).isTNode then
          some ⟨toContracted ncn lev, sn.value, true, some (e.hash, lev - w)⟩
        else
          some ⟨toContracted ncn lev, sn.value, true, none⟩ := by
  rw [iremove, if_neg hf]
  split
  · rename_i heq
    rw [ha] at heq
    cases heq
  · rename_i im2 heq
    rw [ha] at heq
    cases heq
  · rename_i sn2 heq
    rw [ha] at heq
    cases heq
    rw [if_neg (not_not.2 hk)]

/-- The call `cleanParent` at a `cNode` whose branch of the hash is an `iNode` with a tombed
main node: the wrapped leaf takes the place of the `iNode`, and the result is contracted. -/
theorem cleanParent_at_tomb (bmp : Nat) (array : List Branch) (hc lev : Nat)
    (hf : bmp &&& (flagPos hc lev bmp).1 ≠ 0) (s : Entry)
    (ha : array[(flagPos hc lev bmp).2]? = some (.iNode (.tNode s))) :
    cleanParent (.cNode bmp array) hc lev =
      some (toContracted ⟨bmp, array.set (flagPos hc lev bmp).2
        (.sNode ⟨s.key, s.hash, s.value⟩)⟩ lev) := by
  have hp : (flagPos hc lev bmp).2 < array.length := (List.getElem?_eq_some.1 ha).1
  simp only [cleanParent, hf, ne_eq, not_false_eq_true, if_true, ha, MainNode.isTNode,
    CNode.updated, hp, resurrect, untombed]

/-- Following a hash down reaches a node whose removal result is installed in its place when
no clean-up is requested from above. -/
theorem iremove_lift (e : Entry) (v : Value) (f : Bool) (p p2 : MainNode) :
    ∀ (d : Nat) (m : MainNode) (lev : Nat) (parent : Bool),
      nodeAt m e.hash lev d = some p →
      (∀ par, iremove p e (lev + 5 * d) par = some ⟨p2, v, f, none⟩) →
      ∃ m2, iremove m e lev parent = some ⟨m2, v, f, none⟩ ∧
        nodeAt m2 e.hash lev d = some p2 := by
  intro d
  induction d with
  | zero =>
    intro m lev parent hn hr
    simp only [nodeAt, Option.some.injEq] at hn
    subst hn
    exact ⟨p2, hr parent, rfl⟩
  | succ d ih =>
    intro m lev parent hn hr
    cases m with
    | tNode sn => simp [nodeAt] at hn
    | lNode sns => simp [nodeAt] at hn
    | cNode bmp array =>
      simp only [nodeAt] at hn
      by_cases hf : bmp &&& (flagPos e.hash lev bmp).1 = 0
      · rw [if_pos hf] at hn
        cases hn
      · rw [if_neg hf] at hn
        cases ha : array[(flagPos e.hash lev bmp).2]? with
        | none =>
          rw [ha] at hn
          cases hn
        | some b =>
          rw [ha] at hn
          cases b with
          | sNode sn => cases hn
          | iNode im =>
            dsimp only at hn
            have hlev : lev + w + 5 * d = lev + 5 * (d + 1) := by simp only [w]; omega
            obtain ⟨im2, h1, h2⟩ := ih im (lev + w) true hn (by rw [hlev]; exact hr)
            have hp : (flagPos e.hash lev bmp).2 < array.length :=
              (List.getElem?_eq_some.1 ha).1
            refine ⟨.cNode bmp (array.set (flagPos e.hash lev bmp).2 (.iNode im2)), ?_, ?_⟩
            · rw [iremove_at_iNode bmp array e lev parent hf im ha, h1]
            · simp only [nodeAt, hf, if_false, List.getElem?_set_eq_of_lt _ hp]
              exact h2

/-- The root of a trie stays a `cNode` under `iinsert` and under `iremove` without parent. -/
theorem root_step (H : Key → Nat) (e : Entry) (he : hashOK H e) (bmp : Nat)
    (array : List Branch) (hm : Inv H 7 0 (fun _ => True) (.cNode bmp array)) :
    (∀ m2, iinsert (.cNode bmp array) e 0 = some m2 → ∃ b2 a2, m2 = .cNode b2 a2) ∧
    (∀ r, iremove (.cNode bmp array) e 0 false = some r → ∃ b2 a2, r.main = .cNode b2 a2) := by
  have hm2 := hm
  rw [show (7 : Nat) = 6 + 1 from rfl, Inv_cNode_iff] at hm2
  obtain ⟨hc, hslots⟩ := hm2
  have hi := hashIdx_lt e.hash 0
  have tc : ∀ cn : CNode, toContracted cn 0 = .cNode cn.bmp cn.array := by
    intro cn
    simp [toContracted, CNode.toMain]
  constructor
  · intro m2 h2
    obtain ⟨b2, a2, _, rfl, _⟩ := iinsert_view hc e 0 m2 h2
    exact ⟨b2, a2, rfl⟩
  · intro r hr
    rw [iremove_cNode hc] at hr
    cases hs : slot bmp array (hashIdx e.hash 0) with
    | none =>
      rw [hs] at hr
      cases hr
      exact ⟨_, _, rfl⟩
    | some b =>
      rw [hs] at hr
      have hb := (slot_some_lt hc hs).2
      cases b with
      | sNode sn =>
        dsimp only at hr
        split at hr
        · cases hr
          exact ⟨_, _, rfl⟩
        · rw [tc] at hr
          simp only [MainNode.isTNode, Bool.and_false, Bool.false_eq_true, if_false,
            Option.some.injEq] at hr
          subst hr
          exact ⟨_, _, rfl⟩
      | iNode im =>
        obtain ⟨r1, hr1, _, _, _, _, hsome⟩ :=
          iremove_spec H e he 6 (0 + w) _ im true (by simp only [w]) (hslots _ _ hs)
        dsimp only at hr
        rw [hr1] at hr
        dsimp only at hr
        cases hcl : r1.clean with
        | none =>
          rw [hcl] at hr
          cases hr
          exact ⟨_, _, rfl⟩
        | some c =>
          obtain ⟨hceq, s, hmain, _, _⟩ := hsome c hcl
          have hceq2 : c = (e.hash, 0) := by
            rw [hceq]
            simp
          subst hceq2
          rw [hcl] at hr
          dsimp only at hr
          rw [hmain, cleanParent_tomb hc e.hash 0 hb s, tc] at hr
          cases hr
          exact ⟨_, _, rfl⟩

/-- The removal that leaves one leaf in a `cNode` below `p` resurrects that leaf into `p`. -/
theorem iremove_resurrects (bmp : Nat) (array : List Branch) (e : Entry) (lev : Nat)
    (hf : bmp &&& (flagPos e.hash lev bmp).1 ≠ 0) (bi : Nat) (ai : List Branch)
    (ha : array[(flagPos e.hash lev bmp).2]? = some (.iNode (.cNode bi ai)))
    (hf2 : bi &&& (flagPos e.hash (lev + w) bi).1 ≠ 0) (sn : Entry)
    (ha2 : ai[(flagPos e.hash (lev + w) bi).2]? = some (.sNode sn)) (hk : sn.key = e.key)
    (s : Entry) (hrest : ai.eraseIdx (flagPos e.hash (lev + w) bi).2 = [.sNode s])
    (parent : Bool) :
    iremove (.cNode bmp array) e lev parent =
      some ⟨toContracted ⟨bmp, array.set (flagPos e.hash lev bmp).2
        (.sNode ⟨s.key, s.hash, s.value⟩)⟩ lev, sn.value, true, none⟩ := by
  have hp : (flagPos e.hash lev bmp).2 < array.length := (List.getElem?_eq_some.1 ha).1
  have hp2 : (flagPos e.hash (lev + w) bi).2 < ai.length := (List.getElem?_eq_some.1 ha2).1
  have hlen : ai.length = 2 := by
    have := congrArg List.length hrest
    rw [List.length_eraseIdx, if_pos hp2] at this
    simp at this
    omega
  have hrem : CNode.removed ⟨bi, ai⟩ (flagPos e.hash (lev + w) bi).2
      (flagPos e.hash (lev + w) bi).1 =
      some ⟨bi ^^^ (flagPos e.hash (lev + w) bi).1, [.sNode s]⟩ := by
    rw [CNode.removed_eq _ _ _ hp2 (by simp only [hlen]; norm_num)]
    simp only [hrest]
  have htc : toContracted ⟨bi ^^^ (flagPos e.hash (lev + w) bi).1, [.sNode s]⟩ (lev + w) =
      .tNode s := toContracted_lone _ s (by simp only [w]; omega)
  have hinner : iremove (.cNode bi ai) e (lev + w) true =
      some ⟨.tNode s, sn.value, true, some (e.hash, lev + w - w)⟩ := by
    rw [iremove_at_sNode bi ai e (lev + w) true hf2 sn ha2 hk, hrem]
    simp only [htc, MainNode.isTNode, Bool.and_self, if_true]
  rw [iremove_at_iNode bmp array e lev parent hf _ ha, hinner]
  simp only [Nat.add_sub_cancel]
  rw [cleanParent_at_tomb bmp _ e.hash lev hf s (List.getElem?_set_eq_of_lt _ hp)]
  simp only [List.set_set]

/-- The `uint32` length of an array of `2 ^ 32 - 1` branches makes `inserted` build an empty
array, and the write at position 0 is out of range. -/
theorem inserted_none_of_wrap (c : CNode) (pos flag : Nat) (br : Branch)
    (hl : c.array.length = 2 ^ 32 - 1) (hpos : pos = 0) : c.inserted pos flag br = none := by
  have h1 : (c.array.length % 2 ^ 32 + 1) % 2 ^ 32 = 0 := by rw [hl]; norm_num
  have h0 : ∀ arr : List (Option Branch), copyLoop c.array 0 0 pos 0 arr = some arr := by
    intro arr
    rw [hpos]
    rfl
  have h2 : ¬ pos < 0 := Nat.not_lt_zero _
  simp only [CNode.inserted, h1, h0, List.replicate_zero, List.length_nil, h2, if_false]


/-! ## The typed embedding inside the raw one -/

theorem rawList_eq_map (l : List Branch) : Branch.rawList l = l.map Branch.raw := by
  induction l with
  | nil => rfl
  | cons b bs ih => simp [Branch.rawList, ih]

theorem getElem?_rawList (l : List Branch) (i : Nat) :
    (Branch.rawList l)[i]? = (l[i]?).map Branch.raw := by
  rw [rawList_eq_map, List.getElem?_map]

theorem length_rawList (l : List Branch) : (Branch.rawList l).length = l.length := by
  rw [rawList_eq_map, List.length_map]

theorem rawList_set (l : List Branch) (i : Nat) (b : Branch) :
    (Branch.rawList l).set i b.raw = Branch.rawList (l.set i b) := by
  rw [rawList_eq_map, rawList_eq_map, List.map_set]

theorem MainNode.raw_cNode (bmp : Nat) (array : List Branch) :
    (MainNode.cNode bmp array).raw = .mk (some (.mk bmp (Branch.rawList array))) none none := by
  rw [MainNode.raw]

theorem MainNode.raw_tNode (sn : Entry) : (MainNode.tNode sn).raw = .mk none (some sn) none := by
  rw [MainNode.raw]

theorem MainNode.raw_lNode (sns : List Entry) :
    (MainNode.lNode sns).raw = .mk none none (some sns) := by
  rw [MainNode.raw]

theorem Branch.raw_iNode (m : MainNode) : (Branch.iNode m).raw = .iNode m.raw := by
  rw [Branch.raw]

theorem Branch.raw_sNode (sn : Entry) : (Branch.sNode sn).raw = .sNode sn := by
  rw [Branch.raw]

/-- The copy loops of the two embeddings do the same. -/
theorem rawCopyLoop_raw (src : List Branch) (s d : Nat) :
    ∀ (n i : Nat) (array : List (Option Branch)),
      rawCopyLoop (Branch.rawList src) s d n i (array.map (Option.map Branch.raw)) =
        (copyLoop src s d n i array).map (List.map (Option.map Branch.raw)) := by
  intro n
  induction n with
  | zero => intro i array; rfl
  | succ n ih =>
    intro i array
    rw [rawCopyLoop, copyLoop, getElem?_rawList]
    cases hs : src[(i + s) % 2 ^ 32]? with
    | none => rfl
    | some b =>
      simp only [Option.map_some', List.length_map]
      by_cases hlt : (i + d) % 2 ^ 32 < array.length
      · rw [if_pos hlt, if_pos hlt, ← ih]
        congr 1
        rw [List.map_set]
        rfl
      · rw [if_neg hlt, if_neg hlt]
        rfl

theorem rawUnslot_raw : ∀ (l : List (Option Branch)),
    rawUnslot (l.map (Option.map Branch.raw)) = (unslot l).map Branch.rawList := by
  intro l
  induction l with
  | nil => rfl
  | cons a rest ih =>
    cases a with
    | none => rfl
    | some b =>
      simp only [List.map_cons, Option.map_some', rawUnslot, unslot, ih, Option.map_map]
      cases unslot rest with
      | none => rfl
      | some r => simp [Branch.rawList]


theorem replicate_none_raw (n : Nat) :
    (List.replicate n (none : Option RawBranch)) =
      (List.replicate n (none : Option Branch)).map (Option.map Branch.raw) := by
  simp

/-- The method `inserted` of the two embeddings does the same. -/
theorem inserted_raw (c : CNode) (pos flag : Nat) (br : Branch) :
    RawCNode.inserted c.raw pos flag br.raw = (c.inserted pos flag br).map CNode.raw := by
  unfold RawCNode.inserted CNode.inserted
  simp only [CNode.raw, RawCNode.array, RawCNode.bmp, length_rawList]
  rw [replicate_none_raw, rawCopyLoop_raw]
  cases h1 : copyLoop c.array 0 0 pos 0
      (List.replicate ((c.array.length % 2 ^ 32 + 1) % 2 ^ 32) none) with
  | none => rfl
  | some a1 =>
    simp only [Option.map_some', List.length_map]
    by_cases hlt : pos < a1.length
    · rw [if_pos hlt, if_pos hlt]
      have hset : (List.map (Option.map Branch.raw) a1).set pos (some br.raw) =
          (a1.set pos (some br)).map (Option.map Branch.raw) := by
        rw [List.map_set]
        rfl
      rw [hset, rawCopyLoop_raw]
      cases h2 : copyLoop c.array 0 1 ((c.array.length % 2 ^ 32 + 2 ^ 32 - pos) % 2 ^ 32) pos
          (a1.set pos (some br)) with
      | none => rfl
      | some a2 =>
        simp only [Option.map_some', rawUnslot_raw, Option.map_map]
        rfl
    · rw [if_neg hlt, if_neg hlt]
      rfl

/-- The method `updated` of the two embeddings does the same. -/
theorem updated_raw (c : CNode) (pos : Nat) (br : Branch) :
    RawCNode.updated c.raw pos br.raw = (c.updated pos br).map CNode.raw := by
  unfold RawCNode.updated CNode.updated
  simp only [CNode.raw, RawCNode.array, RawCNode.bmp, length_rawList]
  by_cases hlt : pos < c.array.length
  · rw [if_pos hlt, if_pos hlt, rawList_set]
    rfl
  · rw [if_neg hlt, if_neg hlt]
    rfl

/-- The method `removed` of the two embeddings does the same. -/
theorem removed_raw (c : CNode) (pos flag : Nat) :
    RawCNode.removed c.raw pos flag = (c.removed pos flag).map CNode.raw := by
  unfold RawCNode.removed CNode.removed
  simp only [CNode.raw, RawCNode.array, RawCNode.bmp, length_rawList]
  rw [replicate_none_raw, rawCopyLoop_raw]
  cases h1 : copyLoop c.array 0 0 pos 0
      (List.replicate ((c.array.length % 2 ^ 32 + 2 ^ 32 - 1) % 2 ^ 32) none) with
  | none => rfl
  | some a1 =>
    simp only [Option.map_some']
    rw [rawCopyLoop_raw]
    cases h2 : copyLoop c.array 1 0
        ((c.array.length % 2 ^ 32 + 2 * 2 ^ 32 - pos - 1) % 2 ^ 32) pos a1 with
    | none => rfl
    | some a2 =>
      simp only [Option.map_some', rawUnslot_raw, Option.map_map]
      rfl

/-- The function `newMainNode` of the two embeddings does the same. -/
theorem newMainNode_raw (x : Entry) (xhc : Nat) (y : Entry) (yhc : Nat) :
    ∀ (k lev : Nat), 35 ≤ lev + 5 * k →
      rawNewMainNode x xhc y yhc lev = (newMainNode x xhc y yhc lev).raw := by
  intro k
  induction k with
  | zero =>
    intro lev hl
    rw [rawNewMainNode, newMainNode, if_neg (by omega), if_neg (by omega), MainNode.raw_lNode]
  | succ k ih =>
    intro lev hl
    rw [rawNewMainNode, newMainNode]
    by_cases h35 : lev < 35
    · rw [if_pos h35, if_pos h35]
      dsimp only
      by_cases he : xhc >>> lev &&& 31 = yhc >>> lev &&& 31
      · rw [if_pos he, if_pos he, ih (lev + w) (by simp only [w]; omega), MainNode.raw_cNode]
        simp only [Branch.rawList, Branch.raw_iNode]
      · rw [if_neg he, if_neg he]
        by_cases hlt : xhc >>> lev &&& 31 < yhc >>> lev &&& 31
        · rw [if_pos hlt, if_pos hlt, MainNode.raw_cNode]
          simp only [Branch.rawList, Branch.raw_sNode]
        · rw [if_neg hlt, if_neg hlt, MainNode.raw_cNode]
          simp only [Branch.rawList, Branch.raw_sNode]
    · rw [if_neg h35, if_neg h35, MainNode.raw_lNode]

theorem newMainNode_raw_eq (x : Entry) (xhc : Nat) (y : Entry) (yhc lev : Nat) :
    rawNewMainNode x xhc y yhc lev = (newMainNode x xhc y yhc lev).raw :=
  newMainNode_raw x xhc y yhc 7 lev (by omega)

theorem CNode.raw_toMain (c : CNode) : c.raw.toMain = c.toMain.raw := by
  simp only [CNode.raw, RawCNode.toMain, CNode.toMain, MainNode.raw_cNode]

/-- The function `toContracted` of the two embeddings does the same. -/
theorem toContracted_raw (c : CNode) (lev : Nat) :
    rawToContracted c.raw lev = (toContracted c lev).raw := by
  unfold rawToContracted toContracted
  have hlen : c.raw.array.length = c.array.length := by
    simp only [CNode.raw, RawCNode.array, length_rawList]
  have hget : c.raw.array[0]? = (c.array[0]?).map Branch.raw := by
    simp only [CNode.raw, RawCNode.array, getElem?_rawList]
  rw [hlen, hget]
  by_cases h : lev > 0 ∧ c.array.length = 1
  · rw [if_pos h, if_pos h]
    cases h0 : c.array[0]? with
    | none => exact CNode.raw_toMain c
    | some b =>
      cases b with
      | iNode im =>
        simp only [Option.map_some', Branch.raw_iNode]
        exact CNode.raw_toMain c
      | sNode sn =>
        simp only [Option.map_some', Branch.raw_sNode, MainNode.raw_tNode]
  · rw [if_neg h, if_neg h]
    exact CNode.raw_toMain c

theorem MainNode.raw_tNode_isSome (m : MainNode) : m.raw.tNode.isSome = m.isTNode := by
  cases m <;> simp [MainNode.raw, RawMain.tNode, MainNode.isTNode]

/-- The function `resurrect` of the two embeddings does the same. -/
theorem resurrect_raw (m : MainNode) :
    rawResurrect (.iNode m.raw) m.raw = (resurrect (.iNode m) m).raw := by
  cases m with
  | cNode bmp array =>
    simp only [rawResurrect, resurrect, MainNode.raw_cNode, RawMain.tNode, Branch.raw_iNode]
  | tNode sn =>
    simp only [rawResurrect, resurrect, MainNode.raw_tNode, RawMain.tNode, Branch.raw_sNode]
  | lNode sns =>
    simp only [rawResurrect, resurrect, MainNode.raw_lNode, RawMain.tNode, Branch.raw_iNode]

/-- The function `cleanParent` of the two embeddings does the same. -/
theorem cleanParent_raw (m : MainNode) (hc lev : Nat) :
    rawCleanParent m.raw hc lev = (cleanParent m hc lev).map MainNode.raw := by
  cases m with
  | tNode sn => simp only [rawCleanParent, cleanParent, MainNode.raw_tNode, RawMain.cNode,
      Option.map_some']
  | lNode sns => simp only [rawCleanParent, cleanParent, MainNode.raw_lNode, RawMain.cNode,
      Option.map_some']
  | cNode bmp array =>
    simp only [rawCleanParent, cleanParent, MainNode.raw_cNode, RawMain.cNode,
      getElem?_rawList]
    by_cases hf : bmp &&& (flagPos hc lev bmp).1 = 0
    · simp only [hf, ne_eq, not_true_eq_false, if_false, Option.map_some', MainNode.raw_cNode]
    · simp only [hf, ne_eq, not_false_eq_true, if_true]
      cases ha : array[(flagPos hc lev bmp).2]? with
      | none => rfl
      | some b =>
        cases b with
        | sNode sn => simp only [Option.map_some', Branch.raw_sNode, MainNode.raw_cNode]
        | iNode im =>
          simp only [Option.map_some', Branch.raw_iNode, MainNode.raw_tNode_isSome]
          by_cases ht : im.isTNode = true
          · simp only [ht, if_true]
            have hu := updated_raw ⟨bmp, array⟩ (flagPos hc lev bmp).2
              (resurrect (.iNode im) im)
            rw [← resurrect_raw] at hu
            have hcr : (CNode.raw ⟨bmp, array⟩) = RawCNode.mk bmp (Branch.rawList array) := rfl
            rw [hcr] at hu
            rw [hu]
            cases CNode.updated ⟨bmp, array⟩ (flagPos hc lev bmp).2
                (resurrect (.iNode im) im) with
            | none => rfl
            | some ncn => simp only [Option.map_some', toContracted_raw]
          · simp only [ht, Bool.false_eq_true, if_false, Option.map_some', MainNode.raw_cNode]


/-! ## The descents of the two embeddings -/

theorem ilookup_cNode_eq (bmp : Nat) (array : List Branch) (e : Entry) (lev : Nat) :
    ilookup (.cNode bmp array) e lev =
      if bmp &&& (flagPos e.hash lev bmp).1 = 0 then some (Value.nil, false)
      else
        match array[(flagPos e.hash lev bmp).2]? with
        | none => none
        | some (.iNode im) => ilookup im e (lev + w)
        | some (.sNode sn) =>
          if sn.key = e.key then some (sn.value, true) else some (Value.nil, false) := by
  rw [ilookup]
  by_cases hf : bmp &&& (flagPos e.hash lev bmp).1 = 0
  · rw [if_pos hf, if_pos hf]
  · rw [if_neg hf, if_neg hf]
    split <;> rename_i heq <;> simp only [heq]

theorem rawIlookup_cNode_eq (bmp : Nat) (array : List RawBranch) (t : Option Entry)
    (l : Option (List Entry)) (e : Entry) (lev : Nat) :
    rawIlookup (.mk (some (.mk bmp array)) t l) e lev =
      if bmp &&& (flagPos e.hash lev bmp).1 = 0 then .ok (Value.nil, false)
      else
        match array[(flagPos e.hash lev bmp).2]? with
        | none => .error .indexOutOfRange
        | some (.iNode im) => rawIlookup im e (lev + w)
        | some (.sNode sn) =>
          if sn.key = e.key then .ok (sn.value, true) else .ok (Value.nil, false)
        | some .other => .error .invalidState := by
  rw [rawIlookup]
  by_cases hf : bmp &&& (flagPos e.hash lev bmp).1 = 0
  · rw [if_pos hf, if_pos hf]
  · rw [if_neg hf, if_neg hf]
    split <;> rename_i heq <;> simp only [heq]

theorem depth_child {bmp : Nat} {array : List Branch} {pos : Nat} {im : MainNode} {n : Nat}
    (hd : (MainNode.cNode bmp array).depth ≤ n + 1) (ha : array[pos]? = some (.iNode im)) :
    im.depth ≤ n := by
  have := Branch.depth_le_of_getElem? ha
  simp only [Branch.depth, MainNode.depth] at this hd
  omega

/-- The function `ilookup` of the two embeddings does the same. -/
theorem ilookup_raw (e : Entry) (n : Nat) : ∀ (m : MainNode) (lev : Nat), m.depth ≤ n →
    rawIlookup m.raw e lev = liftRun (ilookup m e lev) := by
  induction n with
  | zero =>
    intro m lev hd
    cases m with
    | cNode bmp array => simp [MainNode.depth] at hd
    | tNode sn => rw [MainNode.raw_tNode, rawIlookup, ilookup_tNode]; rfl
    | lNode sns => rw [MainNode.raw_lNode, rawIlookup, ilookup_lNode]; rfl
  | succ n ih =>
    intro m lev hd
    cases m with
    | tNode sn => rw [MainNode.raw_tNode, rawIlookup, ilookup_tNode]; rfl
    | lNode sns => rw [MainNode.raw_lNode, rawIlookup, ilookup_lNode]; rfl
    | cNode bmp array =>
      rw [MainNode.raw_cNode, rawIlookup_cNode_eq, ilookup_cNode_eq, getElem?_rawList]
      by_cases hf : bmp &&& (flagPos e.hash lev bmp).1 = 0
      · rw [if_pos hf, if_pos hf]
        rfl
      · rw [if_neg hf, if_neg hf]
        cases ha : array[(flagPos e.hash lev bmp).2]? with
        | none => rfl
        | some b =>
          cases b with
          | iNode im =>
            simp only [Option.map_some', Branch.raw_iNode]
            exact ih im (lev + w) (depth_child hd ha)
          | sNode sn =>
            simp only [Option.map_some', Branch.raw_sNode]
            by_cases hk : sn.key = e.key
            · rw [if_pos hk, if_pos hk]
              rfl
            · rw [if_neg hk, if_neg hk]
              rfl


theorem iinsert_cNode_eq (bmp : Nat) (array : List Branch) (e : Entry) (lev : Nat) :
    iinsert (.cNode bmp array) e lev =
      if bmp &&& (flagPos e.hash lev bmp).1 = 0 then
        (CNode.inserted ⟨bmp, array⟩ (flagPos e.hash lev bmp).2 (flagPos e.hash lev bmp).1
          (.sNode e)).map CNode.toMain
      else
        match array[(flagPos e.hash lev bmp).2]? with
        | none => none
        | some (.iNode im) =>
          match iinsert im e (lev + w) with
          | none => none
          | some im2 => some (.cNode bmp (array.set (flagPos e.hash lev bmp).2 (.iNode im2)))
        | some (.sNode sn) =>
          if sn.key ≠ e.key then
            (CNode.updated ⟨bmp, array⟩ (flagPos e.hash lev bmp).2
              (.iNode (newMainNode sn sn.hash e e.hash (lev + w)))).map CNode.toMain
          else
            (CNode.updated ⟨bmp, array⟩ (flagPos e.hash lev bmp).2 (.sNode e)).map
              CNode.toMain := by
  rw [iinsert]
  by_cases hf : bmp &&& (flagPos e.hash lev bmp).1 = 0
  · rw [if_pos hf, if_pos hf]
  · rw [if_neg hf, if_neg hf]
    split
    · rename_i heq
      simp only [heq]
    · rename_i im heq
      simp only [heq]
    · rename_i sn heq
      simp only [heq]

theorem rawIinsert_cNode_eq (bmp : Nat) (array : List RawBranch) (t : Option Entry)
    (l : Option (List Entry)) (e : Entry) (lev : Nat) :
    rawIinsert (.mk (some (.mk bmp array)) t l) e lev =
      if bmp &&& (flagPos e.hash lev bmp).1 = 0 then
        liftRun ((RawCNode.inserted (.mk bmp array) (flagPos e.hash lev bmp).2
          (flagPos e.hash lev bmp).1 (.sNode e)).map RawCNode.toMain)
      else
        match array[(flagPos e.hash lev bmp).2]? with
        | none => .error .indexOutOfRange
        | some (.iNode im) =>
          match rawIinsert im e (lev + w) with
          | .error p => .error p
          | .ok im2 =>
            .ok (.mk (some (.mk bmp (array.set (flagPos e.hash lev bmp).2 (.iNode im2)))) t l)
        | some (.sNode sn) =>
          if sn.key ≠ e.key then
            liftRun ((RawCNode.updated (.mk bmp array) (flagPos e.hash lev bmp).2
              (.iNode (rawNewMainNode sn sn.hash e e.hash (lev + w)))).map RawCNode.toMain)
          else
            liftRun ((RawCNode.updated (.mk bmp array) (flagPos e.hash lev bmp).2
              (.sNode e)).map RawCNode.toMain)
        | some .other => .error .invalidState := by
  rw [rawIinsert]
  by_cases hf : bmp &&& (flagPos e.hash lev bmp).1 = 0
  · rw [if_pos hf, if_pos hf]
  · rw [if_neg hf, if_neg hf]
    split
    · rename_i heq
      simp only [heq]
    · rename_i im heq
      simp only [heq]
      cases rawIinsert im e (lev + w) <;> rfl
    · rename_i sn heq
      simp only [heq]
    · rename_i heq
      simp only [heq]

theorem liftRun_map_toMain (o : Option CNode) :
    liftRun ((o.map CNode.raw).map RawCNode.toMain) =
      liftRun ((o.map CNode.toMain).map MainNode.raw) := by
  cases o with
  | none => rfl
  | some c => simp only [Option.map_some', CNode.raw_toMain]

/-- The function `iinsert` of the two embeddings does the same. -/
theorem iinsert_raw (e : Entry) (n : Nat) : ∀ (m : MainNode) (lev : Nat), m.depth ≤ n →
    rawIinsert m.raw e lev = liftRun ((iinsert m e lev).map MainNode.raw) := by
  induction n with
  | zero =>
    intro m lev hd
    cases m with
    | cNode bmp array => simp [MainNode.depth] at hd
    | tNode sn => rw [MainNode.raw_tNode, rawIinsert, iinsert_tNode]; rfl
    | lNode sns => rw [MainNode.raw_lNode, rawIinsert, iinsert_lNode]; rfl
  | succ n ih =>
    intro m lev hd
    cases m with
    | tNode sn => rw [MainNode.raw_tNode, rawIinsert, iinsert_tNode]; rfl
    | lNode sns => rw [MainNode.raw_lNode, rawIinsert, iinsert_lNode]; rfl
    | cNode bmp array =>
      have hcr : ∀ a : List Branch, RawCNode.mk bmp (Branch.rawList a) = CNode.raw ⟨bmp, a⟩ :=
        fun _ => rfl
      rw [MainNode.raw_cNode, rawIinsert_cNode_eq, iinsert_cNode_eq, getElem?_rawList]
      by_cases hf : bmp &&& (flagPos e.hash lev bmp).1 = 0
      · rw [if_pos hf, if_pos hf, hcr, ← Branch.raw_sNode, inserted_raw]
        exact liftRun_map_toMain _
      · rw [if_neg hf, if_neg hf]
        cases ha : array[(flagPos e.hash lev bmp).2]? with
        | none => rfl
        | some b =>
          cases b with
          | iNode im =>
            simp only [Option.map_some', Branch.raw_iNode]
            rw [ih im (lev + w) (depth_child hd ha)]
            cases iinsert im e (lev + w) with
            | none => rfl
            | some im2 =>
              simp only [Option.map_some', liftRun, MainNode.raw_cNode, ← Branch.raw_iNode,
                rawList_set]
          | sNode sn =>
            simp only [Option.map_some', Branch.raw_sNode]
            by_cases hk : sn.key = e.key
            · rw [if_neg (not_not.2 hk), if_neg (not_not.2 hk), hcr, ← Branch.raw_sNode,
                updated_raw]
              exact liftRun_map_toMain _
            · rw [if_pos hk, if_pos hk, hcr, newMainNode_raw_eq, ← Branch.raw_iNode,
                updated_raw]
              exact liftRun_map_toMain _


theorem iremove_cNode_eq (bmp : Nat) (array : List Branch) (e : Entry) (lev : Nat)
    (parent : Bool) :
    iremove (.cNode bmp array) e lev parent =
      if bmp &&& (flagPos e.hash lev bmp).1 = 0 then
        some ⟨.cNode bmp array, Value.nil, false, none⟩
      else
        match array[(flagPos e.hash lev bmp).2]? with
        | none => none
        | some (.iNode im) =>
          match iremove im e (lev + w) true with
          | none => none
          | some r =>
            match r.clean with
            | none =>
              some ⟨.cNode bmp (array.set (flagPos e.hash lev bmp).2 (.iNode r.main)),
                r.value, r.found, none⟩
            | some (hc, plev) =>
              match cleanParent
                (.cNode bmp (array.set (flagPos e.hash lev bmp).2 (.iNode r.main))) hc plev with
              | none => none
              | some pm => some ⟨pm, r.value, r.found, none⟩
        | some (.sNode sn) =>
          if sn.key ≠ e.key then some ⟨.cNode bmp array, Value.nil, false, none⟩
          else
            match CNode.removed ⟨bmp, array⟩ (flagPos e.hash lev bmp).2
                (flagPos e.hash lev bmp).1 with
            | none => none
            | some ncn =>
              if parent && (toContracted ncn lev).isTNode then
                some ⟨toContracted ncn lev, sn.value, true, some (e.hash, lev - w)⟩
              else
                some ⟨toContracted ncn lev, sn.value, true, none⟩ := by
  rw [iremove]
  by_cases hf : bmp &&& (flagPos e.hash lev bmp).1 = 0
  · rw [if_pos hf, if_pos hf]
  · rw [if_neg hf, if_neg hf]
    split
    · rename_i heq
      simp only [heq]
    · rename_i im heq
      simp only [heq]
    · rename_i sn heq
      simp only [heq]

theorem rawIremove_cNode_eq (bmp : Nat) (array : List RawBranch) (t : Option Entry)
    (l : Option (List Entry)) (e : Entry) (lev : Nat) (parent : Bool) :
    rawIremove (.mk (some (.mk bmp array)) t l) e lev parent =
      if bmp &&& (flagPos e.hash lev bmp).1 = 0 then
        .ok ⟨.mk (some (.mk bmp array)) t l, Value.nil, false, none⟩
      else
        match array[(flagPos e.hash lev bmp).2]? with
        | none => .error .indexOutOfRange
        | some (.iNode im) =>
          match rawIremove im e (lev + w) true with
          | .error p => .error p
          | .ok r =>
            match r.clean with
            | none =>
              .ok ⟨.mk (some (.mk bmp (array.set (flagPos e.hash lev bmp).2 (.iNode r.main))))
                t l, r.value, r.found, none⟩
            | some (hc, plev) =>
              match rawCleanParent
                (.mk (some (.mk bmp (array.set (flagPos e.hash lev bmp).2 (.iNode r.main))))
                  t l) hc plev with
              | none => .error .indexOutOfRange
              | some pm => .ok ⟨pm, r.value, r.found, none⟩
        | some (.sNode sn) =>
          if sn.key ≠ e.key then .ok ⟨.mk (some (.mk bmp array)) t l, Value.nil, false, none⟩
          else
            match RawCNode.removed (.mk bmp array) (flagPos e.hash lev bmp).2
                (flagPos e.hash lev bmp).1 with
            | none => .error .indexOutOfRange
            | some ncn =>
              if parent && (rawToContracted ncn lev).tNode.isSome then
                .ok ⟨rawToContracted ncn lev, sn.value, true, some (e.hash, lev - w)⟩
              else
                .ok ⟨rawToContracted ncn lev, sn.value, true, none⟩
        | some .other => .error .invalidState := by
  rw [rawIremove]
  by_cases hf : bmp &&& (flagPos e.hash lev bmp).1 = 0
  · rw [if_pos hf, if_pos hf]
  · rw [if_neg hf, if_neg hf]
    split
    · rename_i heq
      simp only [heq]
    · rename_i im heq
      simp only [heq]
      rfl
    · rename_i sn heq
      simp only [heq]
    · rename_i heq
      simp only [heq]

/-- The function `iremove` of the two embeddings does the same. -/
theorem iremove_raw (e : Entry) (n : Nat) : ∀ (m : MainNode) (lev : Nat) (parent : Bool),
    m.depth ≤ n →
      rawIremove m.raw e lev parent = liftRun ((iremove m e lev parent).map Removal.raw) := by
  induction n with
  | zero =>
    intro m lev parent hd
    cases m with
    | cNode bmp array => simp [MainNode.depth] at hd
    | tNode sn => rw [MainNode.raw_tNode, rawIremove, iremove_tNode]; rfl
    | lNode sns => rw [MainNode.raw_lNode, rawIremove, iremove_lNode]; rfl
  | succ n ih =>
    intro m lev parent hd
    cases m with
    | tNode sn => rw [MainNode.raw_tNode, rawIremove, iremove_tNode]; rfl
    | lNode sns => rw [MainNode.raw_lNode, rawIremove, iremove_lNode]; rfl
    | cNode bmp array =>
      have hcr : ∀ a : List Branch, RawCNode.mk bmp (Branch.rawList a) = CNode.raw ⟨bmp, a⟩ :=
        fun _ => rfl
      rw [MainNode.raw_cNode, rawIremove_cNode_eq, iremove_cNode_eq, getElem?_rawList]
      by_cases hf : bmp &&& (flagPos e.hash lev bmp).1 = 0
      · rw [if_pos hf, if_pos hf]
        simp only [Option.map_some', liftRun, Removal.raw, MainNode.raw_cNode]
      · rw [if_neg hf, if_neg hf]
        cases ha : array[(flagPos e.hash lev bmp).2]? with
        | none => rfl
        | some b =>
          cases b with
          | iNode im =>
            simp only [Option.map_some', Branch.raw_iNode]
            rw [ih im (lev + w) true (depth_child hd ha)]
            cases iremove im e (lev + w) true with
            | none => rfl
            | some r =>
              simp only [Option.map_some', liftRun, Removal.raw]
              cases r.clean with
              | none =>
                simp only [Option.map_some', liftRun, Removal.raw, MainNode.raw_cNode,
                  ← Branch.raw_iNode, rawList_set]
              | some c =>
                obtain ⟨hc, plev⟩ := c
                simp only [← Branch.raw_iNode, rawList_set, ← MainNode.raw_cNode,
                  cleanParent_raw]
                cases cleanParent
                    (.cNode bmp (array.set (flagPos e.hash lev bmp).2 (.iNode r.main)))
                    hc plev with
                | none => rfl
                | some pm => simp only [Option.map_some', liftRun, Removal.raw]
          | sNode sn =>
            simp only [Option.map_some', Branch.raw_sNode]
            by_cases hk : sn.key = e.key
            · rw [if_neg (not_not.2 hk), if_neg (not_not.2 hk), hcr, removed_raw]
              cases CNode.removed ⟨bmp, array⟩ (flagPos e.hash lev bmp).2
                  (flagPos e.hash lev bmp).1 with
              | none => rfl
              | some ncn =>
                simp only [Option.map_some', toContracted_raw, MainNode.raw_tNode_isSome]
                by_cases hp : (parent && (toContracted ncn lev).isTNode) = true
                · rw [if_pos hp, if_pos hp]
                  rfl
                · rw [if_neg hp, if_neg hp]
                  rfl
            · rw [if_pos hk, if_pos hk]
              simp only [Option.map_some', liftRun, Removal.raw, MainNode.raw_cNode]


/-! ## Reachable raw tries -/

theorem Insert_raw (c : Ctrie) (k : Key) (v : Value) :
    c.raw.Insert k v = liftRun ((c.Insert k v).map Ctrie.raw) := by
  have h := iinsert_raw ⟨k, c.hash k, v⟩ c.root.depth c.root 0 (Nat.le_refl _)
  simp only [RawCtrie.Insert, Ctrie.Insert, Ctrie.insert]
  show (match rawIinsert c.root.raw ⟨k, c.hash k, v⟩ 0 with
    | Except.error p => (Except.error p : Except Panic RawCtrie)
    | Except.ok m => Except.ok { c.raw with root := m }) = _
  rw [h]
  cases iinsert c.root ⟨k, c.hash k, v⟩ 0 with
  | none => rfl
  | some m => rfl

theorem Lookup_raw (c : Ctrie) (k : Key) : c.raw.Lookup k = liftRun (c.Lookup k) :=
  ilookup_raw ⟨k, c.hash k, Value.nil⟩ c.root.depth c.root 0 (Nat.le_refl _)

theorem Remove_raw (c : Ctrie) (k : Key) :
    c.raw.Remove k = liftRun ((c.Remove k).map fun p => (p.1.raw, p.2)) := by
  have h := iremove_raw ⟨k, c.hash k, Value.nil⟩ c.root.depth c.root 0 false (Nat.le_refl _)
  simp only [RawCtrie.Remove, Ctrie.Remove, Ctrie.remove]
  show (match rawIremove c.root.raw ⟨k, c.hash k, Value.nil⟩ 0 false with
    | Except.error p => (Except.error p : Except Panic (RawCtrie × (Value × Bool)))
    | Except.ok r => Except.ok ({ c.raw with root := r.main }, (r.value, r.found))) = _
  rw [h]
  cases iremove c.root ⟨k, c.hash k, Value.nil⟩ 0 false with
  | none => rfl
  | some r => rfl

/-- Every reachable raw trie represents a reachable trie. -/
theorem RawReachable.typed {H : Key → Nat} {r : RawCtrie} (h : RawReachable H r) :
    ∃ c, Reachable H c ∧ r = c.raw := by
  induction h with
  | init => exact ⟨New.SetHash H, Reachable.init, rfl⟩
  | @insert r1 r2 key value _ hi ih =>
    obtain ⟨c, hc, rfl⟩ := ih
    rw [Insert_raw] at hi
    cases h2 : c.Insert key value with
    | none =>
      rw [h2] at hi
      cases hi
    | some c2 =>
      rw [h2] at hi
      simp only [Option.map_some', liftRun, Except.ok.injEq] at hi
      exact ⟨c2, Reachable.insert hc h2, hi.symm⟩
  | @remove r1 r2 key res _ hi ih =>
    obtain ⟨c, hc, rfl⟩ := ih
    rw [Remove_raw] at hi
    cases h2 : c.Remove key with
    | none =>
      rw [h2] at hi
      cases hi
    | some p =>
      obtain ⟨c2, res2⟩ := p
      rw [h2] at hi
      simp only [Option.map_some', liftRun, Except.ok.injEq, Prod.mk.injEq] at hi
      exact ⟨c2, @Reachable.remove H c c2 key res2 hc h2, hi.1.symm⟩

theorem raw_exactlyOne (m : MainNode) : m.raw.exactlyOne := by
  cases m <;> simp [MainNode.raw, RawMain.exactlyOne]

theorem raw_branchesTyped (m : MainNode) : m.raw.branchesTyped := by
  intro c hc b hb
  cases m with
  | tNode sn => simp [MainNode.raw, RawMain.cNode] at hc
  | lNode sns => simp [MainNode.raw, RawMain.cNode] at hc
  | cNode bmp array =>
    simp only [MainNode.raw_cNode, RawMain.cNode, Option.some.injEq] at hc
    subst hc
    simp only [RawCNode.array, rawList_eq_map, List.mem_map] at hb
    obtain ⟨b0, _, rfl⟩ := hb
    cases b0 <;> simp [Branch.raw]

/-- Every raw main node below the representation of a main node represents a main node. -/
theorem RawSub.preimage {m : MainNode} {x : RawMain} (h : RawSub m.raw x) :
    ∃ m2 : MainNode, x = m2.raw := by
  induction h with
  | here => exact ⟨m, rfl⟩
  | step _ hc hmem ih =>
    obtain ⟨m2, rfl⟩ := ih
    cases m2 with
    | tNode sn => simp [MainNode.raw, RawMain.cNode] at hc
    | lNode sns => simp [MainNode.raw, RawMain.cNode] at hc
    | cNode bmp array =>
      simp only [MainNode.raw_cNode, RawMain.cNode, Option.some.injEq] at hc
      subst hc
      simp only [RawCNode.array, rawList_eq_map, List.mem_map] at hmem
      obtain ⟨b0, _, hb0⟩ := hmem
      cases b0 with
      | sNode sn => simp [Branch.raw] at hb0
      | iNode im0 =>
        simp only [Branch.raw_iNode, RawBranch.iNode.injEq] at hb0
        exact ⟨im0, hb0.symm⟩

/-- The loop of `toCompressed` over the representation of an array does not panic. -/
theorem rawCompressLoop_typed (l : List Branch) :
    ∃ tmp, rawCompressLoop (Branch.rawList l) = .ok tmp := by
  induction l with
  | nil => exact ⟨[], rfl⟩
  | cons b bs ih =>
    obtain ⟨tmp, ht⟩ := ih
    cases b with
    | iNode im =>
      exact ⟨rawResurrect (.iNode im.raw) im.raw :: tmp,
        by simp only [Branch.rawList, Branch.raw_iNode, rawCompressLoop, ht]⟩
    | sNode sn =>
      exact ⟨.sNode sn :: tmp,
        by simp only [Branch.rawList, Branch.raw_sNode, rawCompressLoop, ht]⟩

/-! ## Single steps, positions and bit counts -/

/-- Claim C21: in every raw trie reachable from `New()` by `Insert` / `Remove`, every main
node at or below the root has exactly one of its three fields `cNode`, `tNode`, `lNode` set,
and every branch of its `cNode` is an `iNode` or an `sNode`.  On such a trie `Insert`,
`Lookup` and `Remove` return for every key without a panic, so none of their
`panic("Ctrie is in an invalid state")` branches is taken, and `toCompressed` on any `cNode`
of the trie returns as well. -/
theorem one_variant_no_panic (H : Key → Nat) (r : RawCtrie) (hr : RawReachable H r) :
    (∀ m, RawSub r.root m → m.exactlyOne ∧ m.branchesTyped) ∧
    (∀ k v, ∃ r2, r.Insert k v = .ok r2) ∧
    (∀ k, ∃ res, r.Lookup k = .ok res) ∧
    (∀ k, ∃ res, r.Remove k = .ok res) ∧
    (∀ m c lev, RawSub r.root m → m.cNode = some c →
      ∃ m2, rawToCompressed c lev = .ok m2) := by
  obtain ⟨c, hc, rfl⟩ := hr.typed
  have hinv := hc.inv
  refine ⟨?_, ?_, ?_, ?_, ?_⟩
  · intro m hm
    obtain ⟨m2, rfl⟩ := RawSub.preimage hm
    exact ⟨raw_exactlyOne m2, raw_branchesTyped m2⟩
  · intro k v
    obtain ⟨c2, h2, _⟩ := Insert_spec hinv k v
    exact ⟨c2.raw, by rw [Insert_raw, h2]; rfl⟩
  · intro k
    obtain ⟨res, h2, _⟩ := Lookup_total hinv k
    exact ⟨res, by rw [Lookup_raw, h2]; rfl⟩
  · intro k
    obtain ⟨c2, res, h2, _⟩ := Remove_spec hinv k
    exact ⟨(c2.raw, res), by rw [Remove_raw, h2]; rfl⟩
  · intro m cn lev hm hcn
    obtain ⟨m2, rfl⟩ := RawSub.preimage hm
    cases m2 with
    | tNode sn => simp [MainNode.raw, RawMain.cNode] at hcn
    | lNode sns => simp [MainNode.raw, RawMain.cNode] at hcn
    | cNode bmp array =>
      simp only [MainNode.raw_cNode, RawMain.cNode, Option.some.injEq] at hcn
      subst hcn
      obtain ⟨tmp, ht⟩ := rawCompressLoop_typed array
      exact ⟨rawToContracted (.mk bmp tmp) lev,
        by simp only [rawToCompressed, RawCNode.array, RawCNode.bmp, ht]⟩

theorem one_variant_no_panic_witness :
    RawReachable byteHash
      ⟨.mk (some (.mk 2 [.iNode (.mk (some (.mk 3 [.sNode ⟨[1], 1, .obj 1⟩,
        .sNode ⟨[33], 33, .obj 2⟩])) none none)])) none none, byteHash⟩ ∧
    ((RawMain.mk (some (.mk 3 [.sNode ⟨[1], 1, .obj 1⟩,
        .sNode ⟨[33], 33, .obj 2⟩])) none none).exactlyOne ∧
      (RawMain.mk (some (.mk 3 [.sNode ⟨[1], 1, .obj 1⟩,
        .sNode ⟨[33], 33, .obj 2⟩])) none none).branchesTyped) ∧
    ∃ res, RawCtrie.Remove
      ⟨.mk (some (.mk 2 [.iNode (.mk (some (.mk 3 [.sNode ⟨[1], 1, .obj 1⟩,
        .sNode ⟨[33], 33, .obj 2⟩])) none none)])) none none, byteHash⟩ [1] = .ok res :=
  have h1 : RawReachable byteHash
      ⟨.mk (some (.mk 2 [.iNode (.mk (some (.mk 3 [.sNode ⟨[1], 1, .obj 1⟩,
        .sNode ⟨[33], 33, .obj 2⟩])) none none)])) none none, byteHash⟩ :=
    @RawReachable.insert byteHash
      ⟨.mk (some (.mk 2 [.sNode ⟨[1], 1, .obj 1⟩])) none none, byteHash⟩ _ [33] (.obj 2)
      (@RawReachable.insert byteHash (rawNew.SetHash byteHash) _ [1] (.obj 1)
        RawReachable.init rfl) rfl
  ⟨h1,
    (one_variant_no_panic byteHash _ h1).1 _
      (RawSub.step (RawSub.here _) rfl (List.mem_singleton.2 rfl)),
    (one_variant_no_panic byteHash _ h1).2.2.2.1 [1]⟩

/-- Claim C22: in every trie reachable from `New()` by `Insert` / `Remove`, the main node of
the root `iNode` is a `cNode`, never a tombed leaf or a collision list. -/
theorem root_never_contracted (H : Key → Nat) (c : Ctrie) (hc : Reachable H c) :
    ∃ bmp array, c.root = .cNode bmp array := by
  induction hc with
  | init => exact ⟨0, [], rfl⟩
  | @insert c c2 key value hr hi ih =>
    obtain ⟨bmp, array, hroot⟩ := ih
    have hinv := hr.inv
    simp only [Ctrie.Insert, Ctrie.insert, Option.map_eq_some'] at hi
    obtain ⟨m2, h2, rfl⟩ := hi
    have h3 := hinv.2
    rw [hroot] at h2 h3
    exact (root_step H _ (hashOK_entry hinv.1 key value) bmp array h3).1 m2 h2
  | @remove c c2 key r hr hi ih =>
    obtain ⟨bmp, array, hroot⟩ := ih
    have hinv := hr.inv
    simp only [Ctrie.Remove, Ctrie.remove, Option.map_eq_some', Prod.mk.injEq] at hi
    obtain ⟨r2, h2, rfl, _⟩ := hi
    have h3 := hinv.2
    rw [hroot] at h2 h3
    exact (root_step H _ (hashOK_entry hinv.1 key _) bmp array h3).2 r2 h2

theorem root_never_contracted_witness :
    Reachable byteHash ⟨.cNode 2 [.sNode ⟨[1], 1, .obj 1⟩], byteHash⟩ ∧
    Reachable byteHash ⟨.cNode 0 [], byteHash⟩ ∧
    (∃ bmp array, (⟨.cNode 2 [.sNode ⟨[1], 1, .obj 1⟩], byteHash⟩ : Ctrie).root =
      .cNode bmp array) ∧
    ∃ bmp array, (⟨.cNode 0 [], byteHash⟩ : Ctrie).root = .cNode bmp array :=
  have h1 : Reachable byteHash ⟨.cNode 2 [.sNode ⟨[1], 1, .obj 1⟩], byteHash⟩ :=
    @Reachable.remove byteHash
      ⟨.cNode 6 [.sNode ⟨[1], 1, .obj 1⟩, .sNode ⟨[2], 2, .obj 2⟩], byteHash⟩ _ [2]
      (.obj 2, true)
      (@Reachable.insert byteHash ⟨.cNode 2 [.sNode ⟨[1], 1, .obj 1⟩], byteHash⟩ _ [2] (.obj 2)
        (@Reachable.insert byteHash (New.SetHash byteHash) _ [1] (.obj 1) Reachable.init rfl)
        rfl) rfl
  have h2 : Reachable byteHash ⟨.cNode 0 [], byteHash⟩ :=
    @Reachable.remove byteHash _ _ [1] (.obj 1, true) h1 rfl
  ⟨h1, h2, root_never_contracted byteHash _ h1, root_never_contracted byteHash _ h2⟩

/-- Claim C23: `Remove(k)` follows the hash of `k` from the root down to an `iNode` `p` whose
`cNode` holds, at the position of the hash, an `iNode` `i`, and removes the leaf of `k` from
the `cNode` of `i`, where exactly one leaf `s` remains.  When `Remove` has returned, the main
node of `p` is the contraction at the level of `p` of its old `cNode` with the same bitmap
and the same branches, except that the position of `i` holds a leaf with the key, hash and
value of `s`. -/
theorem resurrection_into_parent (c : Ctrie) (k : Key) (d : Nat) (bmp : Nat)
    (array : List Branch)
    (hp : nodeAt c.root (c.hash k) 0 d = some (.cNode bmp array))
    (hf : bmp &&& (flagPos (c.hash k) (5 * d) bmp).1 ≠ 0) (bi : Nat) (ai : List Branch)
    (ha : array[(flagPos (c.hash k) (5 * d) bmp).2]? = some (.iNode (.cNode bi ai)))
    (hf2 : bi &&& (flagPos (c.hash k) (5 * d + 5) bi).1 ≠ 0) (sn : Entry)
    (ha2 : ai[(flagPos (c.hash k) (5 * d + 5) bi).2]? = some (.sNode sn)) (hk : sn.key = k)
    (s : Entry) (hrest : ai.eraseIdx (flagPos (c.hash k) (5 * d + 5) bi).2 = [.sNode s]) :
    ∃ c2, c.Remove k = some (c2, (sn.value, true)) ∧
      nodeAt c2.root (c.hash k) 0 d =
        some (toContracted ⟨bmp, array.set (flagPos (c.hash k) (5 * d) bmp).2
          (.sNode ⟨s.key, s.hash, s.value⟩)⟩ (5 * d)) := by
  have hstep := iremove_resurrects bmp array ⟨k, c.hash k, Value.nil⟩ (5 * d) hf bi ai ha
    hf2 sn ha2 hk s hrest
  obtain ⟨m2, h1, h2⟩ := iremove_lift ⟨k, c.hash k, Value.nil⟩ sn.value true (.cNode bmp array)
    _ d c.root 0 false hp (by rw [Nat.zero_add]; exact hstep)
  refine ⟨{ c with root := m2 }, ?_, h2⟩
  simp only [Ctrie.Remove, Ctrie.remove, h1, Option.map]

theorem resurrection_into_parent_witness :
    ∃ c2, stressTrie2.Remove [1] = some (c2, (Value.obj 1, true)) ∧
      nodeAt c2.root (stressTrie2.hash [1]) 0 1 =
        some (toContracted ⟨8, [Branch.sNode ⟨[2], 2147, .obj 2⟩]⟩ 5) :=
  resurrection_into_parent stressTrie2 [1] 1 8
    [.iNode (.cNode 6 [.sNode ⟨[1], 1123, .obj 1⟩, .sNode ⟨[2], 2147, .obj 2⟩])] rfl
    (by decide) 6 [.sNode ⟨[1], 1123, .obj 1⟩, .sNode ⟨[2], 2147, .obj 2⟩] rfl (by decide)
    ⟨[1], 1123, .obj 1⟩ rfl rfl ⟨[2], 2147, .obj 2⟩ rfl

/-- Claim C24: `toContracted(cn, lev)` returns the tombed leaf of `sn` exactly when
`lev > 0` and the array of `cn` is the single leaf `sn`; in every other case (`lev = 0`, no
branch or at least two branches, or a single branch that is an `iNode`) it returns the main
node whose `cNode` is `cn`, with its bitmap and its array. -/
theorem toContracted_spec (cn : CNode) (lev : Nat) :
    (∀ sn, toContracted cn lev = .tNode sn ↔ (0 < lev ∧ cn.array = [.sNode sn])) ∧
    ((lev = 0 ∨ cn.array.length ≠ 1 ∨ ∃ im, cn.array = [.iNode im]) →
      toContracted cn lev = .cNode cn.bmp cn.array) ∧
    ((∀ sn, toContracted cn lev ≠ .tNode sn) → toContracted cn lev = .cNode cn.bmp cn.array) := by
  have hlone : ∀ sn, 0 < lev → cn.array = [.sNode sn] → toContracted cn lev = .tNode sn := by
    intro sn hl ha
    simp [toContracted, hl, ha]
  refine ⟨?_, ?_, ?_⟩
  · intro sn
    constructor
    · intro h
      rcases toContracted_cases cn lev with h1 | ⟨hl, s, ha, h2⟩
      · rw [h1] at h
        cases h
      · rw [h2] at h
        cases h
        exact ⟨hl, ha⟩
    · rintro ⟨hl, ha⟩
      exact hlone sn hl ha
  · intro h
    rcases toContracted_cases cn lev with h1 | ⟨hl, s, ha, _⟩
    · exact h1
    · rcases h with h | h | ⟨im, h⟩
      · omega
      · rw [ha] at h
        simp at h
      · rw [ha] at h
        cases h
  · intro h
    rcases toContracted_cases cn lev with h1 | ⟨_, s, _, h2⟩
    · exact h1
    · exact absurd h2 (h s)

theorem toContracted_spec_witness :
    toContracted ⟨2, [.sNode ⟨[1], 1, .obj 1⟩]⟩ 5 = .tNode ⟨[1], 1, .obj 1⟩ ∧
    toContracted ⟨2, [.sNode ⟨[1], 1, .obj 1⟩]⟩ 0 = .cNode 2 [.sNode ⟨[1], 1, .obj 1⟩] ∧
    toContracted ⟨2, [.iNode (.tNode ⟨[1], 1, .obj 1⟩)]⟩ 5 =
      .cNode 2 [.iNode (.tNode ⟨[1], 1, .obj 1⟩)] ∧
    toContracted ⟨0, []⟩ 5 = .cNode 0 [] :=
  ⟨((toContracted_spec ⟨2, [.sNode ⟨[1], 1, .obj 1⟩]⟩ 5).1 ⟨[1], 1, .obj 1⟩).2
      ⟨by decide, rfl⟩,
    (toContracted_spec ⟨2, [.sNode ⟨[1], 1, .obj 1⟩]⟩ 0).2.1 (Or.inl rfl),
    (toContracted_spec ⟨2, [.iNode (.tNode ⟨[1], 1, .obj 1⟩)]⟩ 5).2.1
      (Or.inr (Or.inr ⟨_, rfl⟩)),
    (toContracted_spec ⟨0, []⟩ 5).2.1 (Or.inr (Or.inl (by decide)))⟩

/-- Claim C25: at a `cNode` whose bitmap is a 32-bit word with as many set bits as the array
has branches, with `(flag, pos) = flagPos(hash, lev, bmp)`: `ilookup` returns not-found when
`bmp & flag == 0`; otherwise the array has a branch at `pos`, and `ilookup` returns
`(value, true)` of a leaf there when its key equals the key of the entry and not-found when it
differs, whatever the hashes are, and the result of `ilookup` at level `lev + 5` on the main
node of an `iNode` there. -/
theorem lookup_step (bmp : Nat) (array : List Branch) (hb : bmp < 2 ^ 32)
    (hl : bitCount bmp = array.length) (e : Entry) (lev : Nat) :
    (bmp &&& (flagPos e.hash lev bmp).1 = 0 →
      ilookup (.cNode bmp array) e lev = some (Value.nil, false)) ∧
    (bmp &&& (flagPos e.hash lev bmp).1 ≠ 0 →
      ∃ b, array[(flagPos e.hash lev bmp).2]? = some b ∧
        (∀ sn, b = .sNode sn →
          (sn.key = e.key → ilookup (.cNode bmp array) e lev = some (sn.value, true)) ∧
          (sn.key ≠ e.key → ilookup (.cNode bmp array) e lev = some (Value.nil, false))) ∧
        (∀ im, b = .iNode im →
          ilookup (.cNode bmp array) e lev = ilookup im e (lev + 5))) := by
  have hc : CInv bmp array := ⟨hb, by rw [← bitCount_eq_popBelow _ hb, hl]⟩
  have hi := hashIdx_lt e.hash lev
  refine ⟨ilookup_unset bmp array e lev, ?_⟩
  intro hf
  have hbit : bmp.testBit (hashIdx e.hash lev) = true := by
    by_contra hn
    exact hf ((flag_unset_iff e.hash lev bmp).2 (by simpa using hn))
  have hp := popBelow_lt_length hc hi hbit
  rw [← flagPos_snd e.hash lev bmp hb] at hp
  refine ⟨array[(flagPos e.hash lev bmp).2], List.getElem?_eq_getElem hp, ?_, ?_⟩
  · intro sn hsn
    have ha : array[(flagPos e.hash lev bmp).2]? = some (.sNode sn) := by
      rw [List.getElem?_eq_getElem hp, hsn]
    rw [ilookup_at_sNode bmp array e lev hf sn ha]
    exact ⟨fun h => by rw [if_pos h], fun h => by rw [if_neg h]⟩
  · intro im him
    have ha : array[(flagPos e.hash lev bmp).2]? = some (.iNode im) := by
      rw [List.getElem?_eq_getElem hp, him]
    exact ilookup_at_iNode bmp array e lev hf im ha

theorem lookup_step_witness :
    ilookup (.cNode 6 [.sNode ⟨[1], 1, .obj 1⟩, .iNode (.tNode ⟨[2], 2, .obj 2⟩)])
      ⟨[3], 3, .nil⟩ 0 = some (Value.nil, false) ∧
    ∃ b, [Branch.sNode ⟨[1], 1, .obj 1⟩,
        Branch.iNode (.tNode ⟨[2], 2, .obj 2⟩)][(flagPos 33 0 6).2]? = some b ∧
      (∀ sn, b = .sNode sn →
        (sn.key = [1] → ilookup (.cNode 6 [.sNode ⟨[1], 1, .obj 1⟩,
          .iNode (.tNode ⟨[2], 2, .obj 2⟩)]) ⟨[1], 33, .nil⟩ 0 = some (sn.value, true)) ∧
        (sn.key ≠ [1] → ilookup (.cNode 6 [.sNode ⟨[1], 1, .obj 1⟩,
          .iNode (.tNode ⟨[2], 2, .obj 2⟩)]) ⟨[1], 33, .nil⟩ 0 = some (Value.nil, false))) ∧
      (∀ im, b = .iNode im →
        ilookup (.cNode 6 [.sNode ⟨[1], 1, .obj 1⟩, .iNode (.tNode ⟨[2], 2, .obj 2⟩)])
          ⟨[1], 33, .nil⟩ 0 = ilookup im ⟨[1], 33, .nil⟩ (0 + 5)) :=
  ⟨(lookup_step 6 [.sNode ⟨[1], 1, .obj 1⟩, .iNode (.tNode ⟨[2], 2, .obj 2⟩)] (by norm_num)
      (by decide) ⟨[3], 3, .nil⟩ 0).1 (by decide),
    (lookup_step 6 [.sNode ⟨[1], 1, .obj 1⟩, .iNode (.tNode ⟨[2], 2, .obj 2⟩)] (by norm_num)
      (by decide) ⟨[1], 33, .nil⟩ 0).2 (by decide)⟩

/-- Claim C26 fails on the code: the `tNode` case of `ilookup` is the placeholder
`// TODO` that returns not-found.  For a tombed leaf of any key and value, `ilookup` with an
entry of the same key and hash returns `(nil, false)`, not the value of the leaf. -/
theorem tombed_leaf_lookup_misses (sn : Entry) (lev : Nat) :
    ilookup (.tNode sn) ⟨sn.key, sn.hash, Value.nil⟩ lev = some (Value.nil, false) ∧
    ilookup (.tNode ⟨[1], 1, .obj 7⟩) ⟨[1], 1, Value.nil⟩ 5 ≠ some (Value.obj 7, true) := by
  refine ⟨ilookup_tNode _ _ _, ?_⟩
  rw [ilookup_tNode]
  simp

/-- Claim C27: for a `cNode` whose bitmap is a 32-bit word with as many set bits as the array
has branches, every hash and every level, with `(flag, pos) = flagPos(hash, lev, bmp)`:
`pos <= len(array)`, and `pos < len(array)` when `bmp & flag != 0`.  So the read
`array[pos]` made when the bit is set finds a branch, `updated` and `removed` at `pos` return
a `cNode`, and `inserted` at `pos`, called when the bit is not set, returns a `cNode`. -/
theorem index_safety (bmp : Nat) (array : List Branch) (hb : bmp < 2 ^ 32)
    (hl : bitCount bmp = array.length) (hash lev : Nat) :
    (flagPos hash lev bmp).2 ≤ array.length ∧
    (bmp &&& (flagPos hash lev bmp).1 ≠ 0 →
      (flagPos hash lev bmp).2 < array.length ∧
      (∃ b, array[(flagPos hash lev bmp).2]? = some b) ∧
      (∀ br, ∃ c2, CNode.updated ⟨bmp, array⟩ (flagPos hash lev bmp).2 br = some c2) ∧
      ∃ c2, CNode.removed ⟨bmp, array⟩ (flagPos hash lev bmp).2 (flagPos hash lev bmp).1 =
        some c2) ∧
    (bmp &&& (flagPos hash lev bmp).1 = 0 →
      ∀ br, ∃ c2, CNode.inserted ⟨bmp, array⟩ (flagPos hash lev bmp).2
        (flagPos hash lev bmp).1 br = some c2) := by
  have hc : CInv bmp array := ⟨hb, by rw [← bitCount_eq_popBelow _ hb, hl]⟩
  have hi := hashIdx_lt hash lev
  have hlen := length_le_of_CInv hc
  have hle : (flagPos hash lev bmp).2 ≤ array.length := by
    rw [flagPos_snd hash lev bmp hb]
    exact popBelow_le_length hc hi
  refine ⟨hle, ?_, ?_⟩
  · intro hf
    have hbit : bmp.testBit (hashIdx hash lev) = true := by
      by_contra hn
      exact hf ((flag_unset_iff hash lev bmp).2 (by simpa using hn))
    have hp : (flagPos hash lev bmp).2 < array.length := by
      rw [flagPos_snd hash lev bmp hb]
      exact popBelow_lt_length hc hi hbit
    refine ⟨hp, ⟨_, List.getElem?_eq_getElem hp⟩, ?_, ?_⟩
    · intro br
      exact ⟨⟨bmp, array.set (flagPos hash lev bmp).2 br⟩,
        by simp only [CNode.updated, hp, if_true]⟩
    · exact ⟨_, CNode.removed_eq _ _ _ hp (by simp only; omega)⟩
  · intro _ br
    exact ⟨_, CNode.inserted_eq _ _ _ _ hle (by simp only; omega)⟩

theorem index_safety_witness :
    (flagPos 33 0 6).2 ≤ [Branch.sNode ⟨[1], 1, .obj 1⟩, Branch.sNode ⟨[2], 2, .obj 2⟩].length ∧
    ((flagPos 33 0 6).2 < [Branch.sNode ⟨[1], 1, .obj 1⟩,
        Branch.sNode ⟨[2], 2, .obj 2⟩].length ∧
      (∃ b, [Branch.sNode ⟨[1], 1, .obj 1⟩,
        Branch.sNode ⟨[2], 2, .obj 2⟩][(flagPos 33 0 6).2]? = some b) ∧
      (∀ br, ∃ c2, CNode.updated ⟨6, [.sNode ⟨[1], 1, .obj 1⟩, .sNode ⟨[2], 2, .obj 2⟩]⟩
        (flagPos 33 0 6).2 br = some c2) ∧
      ∃ c2, CNode.removed ⟨6, [.sNode ⟨[1], 1, .obj 1⟩, .sNode ⟨[2], 2, .obj 2⟩]⟩
        (flagPos 33 0 6).2 (flagPos 33 0 6).1 = some c2) ∧
    ∀ br, ∃ c2, CNode.inserted ⟨6, [.sNode ⟨[1], 1, .obj 1⟩, .sNode ⟨[2], 2, .obj 2⟩]⟩
      (flagPos 3 0 6).2 (flagPos 3 0 6).1 br = some c2 :=
  ⟨(index_safety 6 [.sNode ⟨[1], 1, .obj 1⟩, .sNode ⟨[2], 2, .obj 2⟩] (by norm_num)
      (by decide) 33 0).1,
    (index_safety 6 [.sNode ⟨[1], 1, .obj 1⟩, .sNode ⟨[2], 2, .obj 2⟩] (by norm_num)
      (by decide) 33 0).2.1 (by decide),
    (index_safety 6 [.sNode ⟨[1], 1, .obj 1⟩, .sNode ⟨[2], 2, .obj 2⟩] (by norm_num)
      (by decide) 3 0).2.2 (by decide)⟩

/-- Claim C28: for every hash, every level and every 32-bit bitmap, `flagPos` returns the
flag `2 ^ idx` with `idx = (hash >> lev) & 0x1F`, which is below 32, so the flag has exactly
the bit `idx` set; and it returns as position the number of set bits of the bitmap at the
positions strictly below `idx`, which is 0 for `idx = 0`. -/
theorem flagPos_spec (hash lev bmp : Nat) (hb : bmp < 2 ^ 32) :
    (hash >>> lev) &&& 0x1f < 32 ∧
    (flagPos hash lev bmp).1 = 2 ^ ((hash >>> lev) &&& 0x1f) ∧
    (∀ j, ((flagPos hash lev bmp).1).testBit j = decide ((hash >>> lev) &&& 0x1f = j)) ∧
    (flagPos hash lev bmp).2 =
      ((List.range ((hash >>> lev) &&& 0x1f)).filter fun i => bmp.testBit i).length ∧
    ((hash >>> lev) &&& 0x1f = 0 → (flagPos hash lev bmp).2 = 0) := by
  have hi : (hash >>> lev) &&& 0x1f < 32 := hashIdx_lt hash lev
  have h1 : (flagPos hash lev bmp).1 = 2 ^ ((hash >>> lev) &&& 0x1f) := flagPos_fst hash lev bmp
  have h2 : (flagPos hash lev bmp).2 = popBelow bmp ((hash >>> lev) &&& 0x1f) :=
    flagPos_snd hash lev bmp hb
  refine ⟨hi, h1, ?_, ?_, ?_⟩
  · intro j
    rw [h1, Nat.testBit_two_pow]
  · rw [h2, popBelow_eq_count]
  · intro h0
    rw [h2, h0]
    rfl

theorem flagPos_spec_witness :
    (2147 >>> 10) &&& 0x1f < 32 ∧
    (flagPos 2147 10 6).1 = 2 ^ ((2147 >>> 10) &&& 0x1f) ∧
    (∀ j, ((flagPos 2147 10 6).1).testBit j = decide ((2147 >>> 10) &&& 0x1f = j)) ∧
    (flagPos 2147 10 6).2 =
      ((List.range ((2147 >>> 10) &&& 0x1f)).filter fun i => (6 : Nat).testBit i).length ∧
    ((2147 >>> 10) &&& 0x1f = 0 → (flagPos 2147 10 6).2 = 0) :=
  flagPos_spec 2147 10 6 (by norm_num)

/-- Claim C29: for every 32-bit `x`, `bitCount(x)`, computed with every intermediate result
reduced modulo `2 ^ 32`, is the number of bit positions below 32 at which `x` has a 1, a value
between 0 and 32. -/
theorem bitCount_is_popcount (x : Nat) (hx : x < 2 ^ 32) :
    bitCount x = ((List.range 32).filter fun i => x.testBit i).length ∧ bitCount x ≤ 32 := by
  rw [bitCount_eq_popBelow x hx]
  exact ⟨popBelow_eq_count x 32, popBelow_le x 32⟩

theorem bitCount_is_popcount_witness :
    bitCount 3735928559 =
      ((List.range 32).filter fun i => (3735928559 : Nat).testBit i).length ∧
    bitCount 3735928559 ≤ 32 :=
  bitCount_is_popcount 3735928559 (by norm_num)

/-- Claim C30 fails as stated: the length of the array is read as a `uint32`.  For an array
of `2 ^ 32 - 1` branches and `pos = 0`, which is at most the length, the new array is made
with length `(2 ^ 32 - 1 + 1) mod 2 ^ 32 = 0`, and the write `array[pos] = br` is out of
range: `inserted` returns no `cNode`. -/
theorem inserted_wraps_length :
    0 ≤ (List.replicate (2 ^ 32 - 1) (Branch.sNode ⟨[], 0, Value.nil⟩)).length ∧
    CNode.inserted ⟨0, List.replicate (2 ^ 32 - 1) (.sNode ⟨[], 0, Value.nil⟩)⟩ 0 1
      (.sNode ⟨[], 0, Value.nil⟩) = none :=
  ⟨Nat.zero_le _, inserted_none_of_wrap _ 0 1 _ (List.length_replicate _ _) rfl⟩

/-- Claim C30, amended: for `pos <= len(c.array)` and `len(c.array) + 1 < 2 ^ 32`,
`inserted(pos, flag, br)` returns a new `cNode` whose array is `c.array[0..pos)` followed by
`br` followed by `c.array[pos..]`, of length `len(c.array) + 1`, and whose bitmap is
`c.bmp | flag`. -/
theorem inserted_spec (c : CNode) (pos flag : Nat) (br : Branch) (hpos : pos ≤ c.array.length)
    (hlen : c.array.length + 1 < 2 ^ 32) :
    ∃ c2, c.inserted pos flag br = some c2 ∧
      c2.array = c.array.take pos ++ br :: c.array.drop pos ∧
      c2.array.length = c.array.length + 1 ∧ c2.bmp = c.bmp ||| flag ∧
      (∀ i, i < pos → c2.array[i]? = c.array[i]?) ∧ c2.array[pos]? = some br ∧
      (∀ i, pos ≤ i → c2.array[i + 1]? = c.array[i]?) := by
  refine ⟨_, CNode.inserted_eq c pos flag br hpos hlen, rfl, ?_, rfl, ?_, ?_, ?_⟩
  · simp only [List.length_append, List.length_take, List.length_cons, List.length_drop]
    omega
  · intro i hi
    simp only
    rw [List.getElem?_append_left (by simp; omega), List.getElem?_take_of_lt hi]
  · simp only
    rw [List.getElem?_append_right (by simp)]
    simp [Nat.min_eq_left hpos]
  · intro i hi
    simp only
    rw [List.getElem?_append_right (by simp; omega)]
    simp only [List.length_take, Nat.min_eq_left hpos]
    rw [show i + 1 - pos = (i - pos) + 1 by omega, List.getElem?_cons_succ, List.getElem?_drop]
    congr 1
    omega

theorem inserted_spec_witness :
    ∃ c2, CNode.inserted ⟨2, [.sNode ⟨[1], 1, .obj 1⟩]⟩ 1 4 (.sNode ⟨[2], 2, .obj 2⟩) =
        some c2 ∧
      c2.array = [Branch.sNode ⟨[1], 1, .obj 1⟩].take 1 ++
        .sNode ⟨[2], 2, .obj 2⟩ :: [Branch.sNode ⟨[1], 1, .obj 1⟩].drop 1 ∧
      c2.array.length = 1 + 1 ∧ c2.bmp = 2 ||| 4 ∧
      (∀ i, i < 1 → c2.array[i]? = [Branch.sNode ⟨[1], 1, .obj 1⟩][i]?) ∧
      c2.array[1]? = some (.sNode ⟨[2], 2, .obj 2⟩) ∧
      (∀ i, 1 ≤ i → c2.array[i + 1]? = [Branch.sNode ⟨[1], 1, .obj 1⟩][i]?) :=
  inserted_spec ⟨2, [.sNode ⟨[1], 1, .obj 1⟩]⟩ 1 4 (.sNode ⟨[2], 2, .obj 2⟩) (by decide)
    (by norm_num)

/-! ## `removed`, `toCompressed` and the recursion of `newMainNode` -/

theorem copyLoop_zero (src : List Branch) (s d i : Nat) (array : List (Option Branch)) :
    copyLoop src s d 0 i array = some array := rfl

/-- The `uint32` length of an array of `2 ^ 32 + 1` branches makes `removed` build an empty
array, and both loops run zero times for position 0. -/
theorem removed_of_wrap (c : CNode) (pos flag : Nat) (hl : c.array.length = 2 ^ 32 + 1)
    (hpos : pos = 0) : c.removed pos flag = some ⟨c.bmp ^^^ flag, []⟩ := by
  have h1 : (c.array.length % 2 ^ 32 + 2 ^ 32 - 1) % 2 ^ 32 = 0 := by rw [hl]; norm_num
  have h2 : (c.array.length % 2 ^ 32 + 2 * 2 ^ 32 - pos - 1) % 2 ^ 32 = 0 := by
    rw [hl, hpos]; norm_num
  have h0 : ∀ arr : List (Option Branch), copyLoop c.array 0 0 pos 0 arr = some arr := by
    intro arr
    rw [hpos]
    rfl
  simp only [CNode.removed, h1, h2, h0, copyLoop_zero, List.replicate_zero, unslot, Option.map]

theorem resurrect_eq_spec (b : Branch) :
    (match b with
      | .iNode main => resurrect (.iNode main) main
      | .sNode sn => .sNode sn) = specResurrected b := by
  cases b with
  | sNode sn => rfl
  | iNode main => cases main <;> rfl

theorem compressLoop_spec (arr : List Branch) :
    ∀ (n i : Nat) (tmp : List (Option Branch)), i + n = arr.length → tmp.length = arr.length →
      ∃ r, compressLoop arr n i tmp = some r ∧ r.length = arr.length ∧
        ∀ q, r[q]? = if i ≤ q ∧ q < arr.length then (arr[q]?).map (fun b => some (specResurrected b))
          else tmp[q]? := by
  intro n
  induction n with
  | zero =>
    intro i tmp hi ht
    refine ⟨tmp, rfl, ht, ?_⟩
    intro q
    rw [if_neg (by omega)]
  | succ n ih =>
    intro i tmp hi ht
    have hlt : i < arr.length := by omega
    have hget : arr[i]? = some arr[i] := List.getElem?_eq_getElem hlt
    have key : ∀ v : Branch, v = specResurrected arr[i] →
        ∃ r, compressLoop arr n (i + 1) (tmp.set i (some v)) = some r ∧ r.length = arr.length ∧
        ∀ q, r[q]? = if i ≤ q ∧ q < arr.length then
            (arr[q]?).map (fun b => some (specResurrected b)) else tmp[q]? := by
      intro v hv
      obtain ⟨r, hr, hl, hq⟩ := ih (i + 1) (tmp.set i (some v)) (by omega)
        (by rw [List.length_set]; exact ht)
      refine ⟨r, hr, hl, ?_⟩
      intro q
      rw [hq q]
      by_cases h1 : i + 1 ≤ q ∧ q < arr.length
      · rw [if_pos h1, if_pos ⟨by omega, h1.2⟩]
      · rw [if_neg h1]
        by_cases h2 : q = i
        · subst h2
          rw [if_pos ⟨le_refl _, hlt⟩, List.getElem?_set_self (by omega), hget, hv]
          rfl
        · rw [if_neg (by omega), List.getElem?_set_ne (fun h => h2 h.symm)]
    rw [compressLoop, hget]
    have hs := resurrect_eq_spec arr[i]
    cases hb : arr[i] with
    | iNode main =>
      rw [hb] at hs
      simp only [if_pos (ht ▸ hlt)]
      exact key _ (by rw [hb]; exact hs)
    | sNode sn =>
      rw [hb] at hs
      simp only [if_pos (ht ▸ hlt)]
      exact key _ (by rw [hb]; exact hs)

theorem toCompressed_eq (cn : CNode) (lev : Nat) :
    toCompressed cn lev =
      some (toContracted ⟨cn.bmp, cn.array.map specResurrected⟩ lev) := by
  obtain ⟨r, hr, hl, hq⟩ := compressLoop_spec cn.array cn.array.length 0
    (List.replicate cn.array.length none) (by omega) (List.length_replicate _ _)
  have hre : r = (cn.array.map specResurrected).map some := by
    apply List.ext_getElem?
    intro q
    rw [hq q]
    by_cases h : q < cn.array.length
    · rw [if_pos ⟨Nat.zero_le _, h⟩, List.getElem?_map, List.getElem?_map,
        List.getElem?_eq_getElem h]
      rfl
    · rw [if_neg (by omega), List.getElem?_map, List.getElem?_map,
        List.getElem?_eq_none (Nat.not_lt.1 h), List.getElem?_eq_none]
      · rfl
      · rw [List.length_replicate]; exact Nat.not_lt.1 h
  simp only [toCompressed, hr, hre, unslot_map_some, Option.map]

theorem newMainNodeFuel_eq (x : Entry) (xhc : Nat) (y : Entry) (yhc : Nat) :
    ∀ (fuel lev : Nat), (35 - lev + 4) / 5 ≤ fuel →
      newMainNodeFuel fuel x xhc y yhc lev = some (newMainNode x xhc y yhc lev) := by
  intro fuel
  induction fuel with
  | zero =>
    intro lev h
    have hl : ¬ lev < 35 := by omega
    rw [newMainNodeFuel, newMainNode, if_neg hl, if_neg hl]
  | succ fuel ih =>
    intro lev h
    rw [newMainNodeFuel, newMainNode]
    by_cases hl : lev < 35
    · rw [if_pos hl, if_pos hl]
      by_cases he : xhc >>> lev &&& 31 = yhc >>> lev &&& 31
      · simp only [he, if_true]
        rw [ih (lev + w) (by simp only [w]; omega)]
      · simp only [he, if_false]
        split <;> rfl
    · rw [if_neg hl, if_neg hl]

theorem newMainNodeFuel_zero (x : Entry) (xhc : Nat) (y : Entry) (yhc lev : Nat)
    (h : ¬ (lev < 35 ∧ hashIdx xhc lev = hashIdx yhc lev)) :
    newMainNodeFuel 0 x xhc y yhc lev = some (newMainNode x xhc y yhc lev) := by
  rw [newMainNodeFuel, newMainNode]
  by_cases hl : lev < 35
  · have he : ¬ xhc >>> lev &&& 31 = yhc >>> lev &&& 31 := fun e => h ⟨hl, e⟩
    rw [if_pos hl, if_pos hl]
    simp only [he, if_false]
    split <;> rfl
  · rw [if_neg hl, if_neg hl]

theorem newMainNodeFuel_none (x : Entry) (xhc : Nat) (y : Entry) (yhc lev : Nat)
    (hl : lev < 35) (he : hashIdx xhc lev = hashIdx yhc lev) :
    newMainNodeFuel 0 x xhc y yhc lev = none := by
  have he2 : xhc >>> lev &&& 31 = yhc >>> lev &&& 31 := he
  rw [newMainNodeFuel, if_pos hl]
  simp only [he2, if_true]

theorem newMainNodeFuel_succ (x : Entry) (xhc : Nat) (y : Entry) (yhc lev : Nat)
    (hl : lev < 35) (he : hashIdx xhc lev = hashIdx yhc lev) (fuel : Nat) :
    newMainNodeFuel (fuel + 1) x xhc y yhc lev =
      (newMainNodeFuel fuel x xhc y yhc (lev + 5)).map fun main =>
        .cNode (2 ^ hashIdx xhc lev) [.iNode main] := by
  have hi := hashIdx_lt xhc lev
  have hp : 2 ^ hashIdx xhc lev < 2 ^ 32 := Nat.pow_lt_pow_right (by norm_num) hi
  have he2 : xhc >>> lev &&& 31 = yhc >>> lev &&& 31 := he
  rw [newMainNodeFuel, if_pos hl]
  simp only [he2, if_true, Nat.or_self, Nat.one_shiftLeft, w]
  have : yhc >>> lev &&& 31 = hashIdx xhc lev := he2.symm
  rw [this, Nat.mod_eq_of_lt hp]
  cases newMainNodeFuel fuel x xhc y yhc (lev + 5) <;> rfl

/-! ## Key uniqueness -/

theorem LOK_cNode_iff (n bmp : Nat) (array : List Branch) :
    LOK (n + 1) (.cNode bmp array) ↔
      ∀ j im, slot bmp array j = some (.iNode im) → LOK n im := by
  rw [LOK]

theorem LOK_lNode_iff (n : Nat) (sns : List Entry) :
    LOK n (.lNode sns) ↔ (sns.map Entry.key).Nodup := by
  cases n <;> rw [LOK]

theorem LOK_tNode (n : Nat) (s : Entry) : LOK n (.tNode s) := by
  cases n <;> simp [LOK]

theorem LOK_zero_cNode (bmp : Nat) (array : List Branch) : LOK 0 (.cNode bmp array) := by
  simp [LOK]

theorem LOK_toContracted {n lev bmp : Nat} {array : List Branch}
    (hsub : ∀ j im, slot bmp array j = some (.iNode im) → LOK n im) :
    LOK (n + 1) (toContracted ⟨bmp, array⟩ lev) := by
  rcases toContracted_cases ⟨bmp, array⟩ lev with h | ⟨_, s, _, h⟩
  · rw [h]
    show LOK (n + 1) (.cNode bmp array)
    rw [LOK_cNode_iff]
    exact hsub
  · rw [h]
    exact LOK_tNode _ _

theorem LOK_newMainNode (x : Entry) (xhc : Nat) (y : Entry) (yhc : Nat) (hk : x.key ≠ y.key) :
    ∀ (n lev : Nat), LOK n (newMainNode x xhc y yhc lev) := by
  intro n
  induction n with
  | zero =>
    intro lev
    by_cases h35 : lev < 35
    · by_cases he : hashIdx xhc lev = hashIdx yhc lev
      · rw [newMainNode_same _ _ _ _ _ h35 he]
        exact LOK_zero_cNode _ _
      · rw [newMainNode_split _ _ _ _ _ h35 he]
        exact LOK_zero_cNode _ _
    · rw [newMainNode_bottom _ _ _ _ _ h35, LOK_lNode_iff]
      simp [hk]
  | succ n ih =>
    intro lev
    by_cases h35 : lev < 35
    · by_cases he : hashIdx xhc lev = hashIdx yhc lev
      · rw [newMainNode_same _ _ _ _ _ h35 he, LOK_cNode_iff]
        intro j im hj
        rw [(oneBranch _ (hashIdx_lt _ _) _).2] at hj
        split at hj
        · cases hj
          exact ih _
        · cases hj
      · rw [newMainNode_split _ _ _ _ _ h35 he, LOK_cNode_iff]
        intro j im hj
        rw [(twoBranch _ _ (hashIdx_lt _ _) (hashIdx_lt _ _) he _ _).2] at hj
        split at hj
        · cases hj
        · split at hj
          · cases hj
          · cases hj
    · rw [newMainNode_bottom _ _ _ _ _ h35, LOK_lNode_iff]
      simp [hk]

/-- Distinct keys in the collision lists are preserved by `iinsert`. -/
theorem LOK_iinsert (H : Key → Nat) (e : Entry) (n : Nat) :
    ∀ (lev : Nat) (P : Nat → Prop) (m : MainNode), Inv H n lev P m → LOK n m →
      ∀ m2, iinsert m e lev = some m2 → LOK n m2 := by
  induction n with
  | zero =>
    intro lev P m hm hct m2 h2
    cases m with
    | cNode bmp array => exact absurd hm (by simp [Inv])
    | tNode sn => exact absurd hm (by simp [Inv])
    | lNode sns =>
      rw [iinsert_lNode] at h2
      cases h2
      exact hct
  | succ n ih =>
    intro lev P m hm hct m2 h2
    cases m with
    | lNode sns => exact absurd hm (by simp [Inv])
    | tNode sn =>
      rw [iinsert_tNode] at h2
      cases h2
      exact hct
    | cNode bmp array =>
      rw [Inv_cNode_iff] at hm
      obtain ⟨hc, hslots⟩ := hm
      rw [LOK_cNode_iff] at hct
      have hsub := hct
      have hi := hashIdx_lt e.hash lev
      rw [iinsert_cNode hc] at h2
      cases hs : slot bmp array (hashIdx e.hash lev) with
      | none =>
        rw [hs] at h2
        cases h2
        have hb := (slot_eq_none_iff hc hi).1 hs
        rw [LOK_cNode_iff]
        intro j im hj
        rw [slot_inserted hc hi hb] at hj
        split at hj
        · cases hj
        · exact hsub j im hj
      | some b =>
        rw [hs] at h2
        have hb := (slot_some_lt hc hs).2
        have hset : ∀ (br : Branch) (j : Nat) (im : MainNode),
            slot bmp (array.set (popBelow bmp (hashIdx e.hash lev)) br) j = some (.iNode im) →
            (∀ im2, br = .iNode im2 → LOK n im2) → LOK n im := by
          intro br j im hj hbr
          rw [slot_updated hc hi hb] at hj
          split at hj
          · cases hj
            exact hbr _ rfl
          · exact hsub j im hj
        cases b with
        | iNode im =>
          dsimp only at h2
          cases h3 : iinsert im e (lev + w) with
          | none =>
            rw [h3] at h2
            cases h2
          | some im2 =>
            rw [h3] at h2
            cases h2
            have c2 := ih (lev + w) _ im (hslots _ _ hs) (hsub _ _ hs) im2 h3
            rw [LOK_cNode_iff]
            intro j im3 hj
            exact hset _ j im3 hj (fun _ h => by cases h; exact c2)
        | sNode sn =>
          dsimp only at h2
          by_cases hk : sn.key = e.key
          · rw [if_neg (not_not.2 hk)] at h2
            cases h2
            rw [LOK_cNode_iff]
            intro j im3 hj
            exact hset _ j im3 hj (fun _ h => by cases h)
          · rw [if_pos hk] at h2
            cases h2
            rw [LOK_cNode_iff]
            intro j im3 hj
            exact hset _ j im3 hj (fun _ h => by
              cases h
              exact LOK_newMainNode _ _ _ _ hk _ _)

/-- Distinct keys in the collision lists are preserved by `iremove`. -/
theorem LOK_iremove (H : Key → Nat) (e : Entry) (he : hashOK H e) (n : Nat) :
    ∀ (lev : Nat) (P : Nat → Prop) (m : MainNode) (parent : Bool), lev + 5 * n = 35 →
      Inv H n lev P m → LOK n m →
      ∀ r, iremove m e lev parent = some r → LOK n r.main := by
  induction n with
  | zero =>
    intro lev P m parent hl hm hct r hr
    cases m with
    | cNode bmp array => exact absurd hm (by simp [Inv])
    | tNode sn => exact absurd hm (by simp [Inv])
    | lNode sns =>
      rw [iremove_lNode] at hr
      cases hr
      exact hct
  | succ n ih =>
    intro lev P m parent hl hm hct r hr
    cases m with
    | lNode sns => exact absurd hm (by simp [Inv])
    | tNode sn =>
      rw [iremove_tNode] at hr
      cases hr
      exact hct
    | cNode bmp array =>
      have hm0 := hm
      rw [Inv_cNode_iff] at hm
      obtain ⟨hc, hslots⟩ := hm
      have hct0 := hct
      rw [LOK_cNode_iff] at hct
      have hsub := hct
      have hi := hashIdx_lt e.hash lev
      rw [iremove_cNode hc] at hr
      cases hs : slot bmp array (hashIdx e.hash lev) with
      | none =>
        rw [hs] at hr
        cases hr
        exact hct0
      | some b =>
        rw [hs] at hr
        have hb := (slot_some_lt hc hs).2
        have hset : ∀ (br : Branch) (j : Nat) (im : MainNode),
            slot bmp (array.set (popBelow bmp (hashIdx e.hash lev)) br) j = some (.iNode im) →
            (∀ im2, br = .iNode im2 → LOK n im2) → LOK n im := by
          intro br j im hj hbr
          rw [slot_updated hc hi hb] at hj
          split at hj
          · cases hj
            exact hbr _ rfl
          · exact hsub j im hj
        cases b with
        | iNode im =>
          obtain ⟨r1, hr1, _, _, _, _, hsome⟩ :=
            iremove_spec H e he n (lev + w) _ im true (by simp only [w]; omega) (hslots _ _ hs)
          have c2 := ih (lev + w) _ im true (by simp only [w]; omega) (hslots _ _ hs)
            (hsub _ _ hs) r1 hr1
          dsimp only at hr
          rw [hr1] at hr
          dsimp only at hr
          cases hcl : r1.clean with
          | none =>
            rw [hcl] at hr
            cases hr
            dsimp only
            rw [LOK_cNode_iff]
            intro j im3 hj
            exact hset _ j im3 hj (fun _ h => by cases h; exact c2)
          | some c =>
            obtain ⟨hceq, s, hmain, _, _⟩ := hsome c hcl
            have hceq2 : c = (e.hash, lev) := by
              rw [hceq]
              simp
            subst hceq2
            rw [hcl] at hr
            dsimp only at hr
            rw [hmain, cleanParent_tomb hc e.hash lev hb s] at hr
            cases hr
            dsimp only
            refine LOK_toContracted ?_
            intro j im3 hj
            exact hset _ j im3 hj (fun _ h => by cases h)
        | sNode sn =>
          dsimp only at hr
          by_cases hk : sn.key = e.key
          · rw [if_neg (not_not.2 hk)] at hr
            have hres : LOK (n + 1) (toContracted ⟨bmp ^^^ 2 ^ hashIdx e.hash lev,
                array.eraseIdx (popBelow bmp (hashIdx e.hash lev))⟩ lev) := by
              refine LOK_toContracted ?_
              intro j im3 hj
              rw [slot_removed hc hi hb] at hj
              split at hj
              · cases hj
              · exact hsub j im3 hj
            split at hr <;> cases hr <;> exact hres
          · rw [if_pos hk] at hr
            cases hr
            exact hct0

/-- Every reachable trie has pairwise different keys in each of its collision lists. -/
theorem Reachable.lok {H : Key → Nat} {c : Ctrie} (h : Reachable H c) : LOK 7 c.root := by
  induction h with
  | init =>
    show LOK (6 + 1) (.cNode 0 [])
    rw [LOK_cNode_iff]
    intro j im hj
    rw [slot_empty] at hj
    cases hj
  | @insert c c2 key value hr hi ih =>
    simp only [Ctrie.Insert, Ctrie.insert] at hi
    cases h2 : iinsert c.root ⟨key, c.hash key, value⟩ 0 with
    | none =>
      rw [h2] at hi
      cases hi
    | some m2 =>
      rw [h2] at hi
      cases hi
      exact LOK_iinsert H _ 7 0 _ c.root hr.inv.2 ih m2 h2
  | @remove c c2 key r hr hi ih =>
    simp only [Ctrie.Remove, Ctrie.remove] at hi
    cases h2 : iremove c.root ⟨key, c.hash key, Value.nil⟩ 0 false with
    | none =>
      rw [h2] at hi
      cases hi
    | some r2 =>
      rw [h2] at hi
      cases hi
      exact LOK_iremove H _ (hashOK_entry hr.inv.1 key _) 7 0 _ c.root false (by norm_num)
        hr.inv.2 ih r2 h2

theorem leavesList_eq (array : List Branch) :
    Branch.leavesList array = array.flatMap Branch.leaves := by
  induction array with
  | nil => rfl
  | cons b bs ih => rw [Branch.leavesList, ih, List.flatMap_cons]

theorem mem_leaves_cNode {bmp : Nat} {array : List Branch} {sn : Entry} :
    sn ∈ MainNode.leaves (.cNode bmp array) ↔ ∃ b, b ∈ array ∧ sn ∈ b.leaves := by
  rw [MainNode.leaves, leavesList_eq, List.mem_flatMap]

/-- Every leaf below a node that satisfies the invariant carries the hash of its key, and its
hash satisfies what is known of the hashes below the node. -/
theorem Inv_leaves (H : Key → Nat) (n : Nat) : ∀ (lev : Nat) (P : Nat → Prop) (m : MainNode),
    Inv H n lev P m → ∀ sn, sn ∈ m.leaves → hashOK H sn ∧ P sn.hash := by
  induction n with
  | zero =>
    intro lev P m hm sn hsn
    cases m with
    | cNode bmp array => exact absurd hm (by simp [Inv])
    | tNode s => exact absurd hm (by simp [Inv])
    | lNode sns => exact hm sn hsn
  | succ n ih =>
    intro lev P m hm sn hsn
    cases m with
    | lNode sns => exact absurd hm (by simp [Inv])
    | tNode s =>
      rw [MainNode.leaves, List.mem_singleton] at hsn
      subst hsn
      exact hm
    | cNode bmp array =>
      rw [Inv_cNode_iff] at hm
      obtain ⟨b, hb, hsb⟩ := mem_leaves_cNode.1 hsn
      obtain ⟨j, _, hj⟩ := mem_slot hm.1 hb
      have hbi := hm.2 j b hj
      cases b with
      | sNode s =>
        rw [Branch.leaves, List.mem_singleton] at hsb
        subst hsb
        exact ⟨hbi.1, hbi.2.1⟩
      | iNode im =>
        rw [Branch.leaves] at hsb
        have := ih (lev + w) _ im hbi sn hsb
        exact ⟨this.1, this.2.1⟩

/-- The leaves below the branch in slot `j` of a `cNode` at level `lev` have index `j` at that
level. -/
theorem BInv_leaves {H : Key → Nat} {n lev : Nat} {P : Nat → Prop} {j : Nat} {b : Branch}
    (h : BInv H n lev P j b) : ∀ sn, sn ∈ b.leaves → hashOK H sn ∧ hashIdx sn.hash lev = j := by
  intro sn hsn
  cases b with
  | sNode s =>
    rw [Branch.leaves, List.mem_singleton] at hsn
    subst hsn
    exact ⟨h.1, h.2.2⟩
  | iNode im =>
    rw [Branch.leaves] at hsn
    have := Inv_leaves H n (lev + w) _ im h sn hsn
    exact ⟨this.1, this.2.2⟩

/-- Under the invariants the leaves below a node carry pairwise different keys. -/
theorem leaves_pairwise (H : Key → Nat) (n : Nat) : ∀ (lev : Nat) (P : Nat → Prop) (m : MainNode),
    Inv H n lev P m → LOK n m → m.leaves.Pairwise (fun a b => a.key ≠ b.key) := by
  induction n with
  | zero =>
    intro lev P m hm hl
    cases m with
    | cNode bmp array => exact absurd hm (by simp [Inv])
    | tNode s => exact absurd hm (by simp [Inv])
    | lNode sns =>
      rw [LOK_lNode_iff, List.Nodup, List.pairwise_map] at hl
      exact hl
  | succ n ih =>
    intro lev P m hm hl
    cases m with
    | lNode sns => exact absurd hm (by simp [Inv])
    | tNode s =>
      rw [MainNode.leaves]
      exact List.pairwise_singleton _ _
    | cNode bmp array =>
      rw [Inv_cNode_iff] at hm
      obtain ⟨hc, hslots⟩ := hm
      rw [LOK_cNode_iff] at hl
      rw [MainNode.leaves, leavesList_eq, List.pairwise_flatMap]
      constructor
      · intro b hb
        obtain ⟨j, _, hj⟩ := mem_slot hc hb
        cases b with
        | sNode s =>
          rw [Branch.leaves]
          exact List.pairwise_singleton _ _
        | iNode im =>
          rw [Branch.leaves]
          exact ih (lev + w) _ im (hslots j _ hj) (hl j im hj)
      · rw [List.pairwise_iff_getElem]
        intro p q hp hq hpq x hx y hy hxy
        obtain ⟨j1, _, hb1, hr1⟩ := exists_rank bmp p 32 (by rw [hc.2]; exact hp)
        obtain ⟨j2, _, hb2, hr2⟩ := exists_rank bmp q 32 (by rw [hc.2]; exact hq)
        have s1 : slot bmp array j1 = some array[p] := by
          simp only [slot, hb1, if_true, hr1]
          exact List.getElem?_eq_getElem hp
        have s2 : slot bmp array j2 = some array[q] := by
          simp only [slot, hb2, if_true, hr2]
          exact List.getElem?_eq_getElem hq
        have l1 := BInv_leaves (hslots j1 _ s1) x hx
        have l2 := BInv_leaves (hslots j2 _ s2) y hy
        have hh : x.hash = y.hash := by
          rw [l1.1, l2.1, hxy]
        have : j1 = j2 := by rw [← l1.2, ← l2.2, hh]
        subst this
        omega


end ctrie

namespace yfast

/-! ## Binary search -/

/-- The loop of `sort.Search` over a predicate that is monotone on `[0, n)` keeps its
invariant and ends at the boundary of the predicate. -/
theorem searchLoop_spec (p : Nat → Bool) (f : Nat → Option Bool) (n : Nat)
    (hf : ∀ q, q < n → f q = some (p q))
    (hmono : ∀ a b, a ≤ b → b < n → p a = true → p b = true) :
    ∀ (d i j : Nat), j - i ≤ d → i ≤ j → j ≤ n → (∀ q, q < i → p q = false) →
      (∀ q, j ≤ q → q < n → p q = true) →
      ∃ r, searchLoop f i j = some r ∧ i ≤ r ∧ r ≤ j ∧ (∀ q, q < r → p q = false) ∧
        (∀ q, r ≤ q → q < n → p q = true) := by
  intro d
  induction d with
  | zero =>
    intro i j hd hij hjn hlo hhi
    have : i = j := by omega
    subst this
    rw [searchLoop, if_neg (lt_irrefl _)]
    exact ⟨i, rfl, le_refl _, le_refl _, hlo, hhi⟩
  | succ d ih =>
    intro i j hd hij hjn hlo hhi
    by_cases hlt : i < j
    · have hh : (i + j) / 2 < j := by omega
      have hh2 : i ≤ (i + j) / 2 := by omega
      rw [searchLoop, if_pos hlt]
      simp only [hf _ (lt_of_lt_of_le hh hjn)]
      cases hp : p ((i + j) / 2) with
      | false =>
        obtain ⟨r, hr, h1, h2, h3, h4⟩ := ih ((i + j) / 2 + 1) j (by omega) (by omega) hjn
          (by
            intro q hq
            cases hq2 : p q with
            | false => rfl
            | true =>
              have := hmono q ((i + j) / 2) (by omega) (lt_of_lt_of_le hh hjn) hq2
              rw [hp] at this
              cases this)
          hhi
        exact ⟨r, hr, by omega, h2, h3, h4⟩
      | true =>
        obtain ⟨r, hr, h1, h2, h3, h4⟩ := ih i ((i + j) / 2) (by omega) hh2 (by omega) hlo
          (by
            intro q hq hqn
            exact hmono _ q hq hqn hp)
        exact ⟨r, hr, h1, by omega, h3, h4⟩
    · have : i = j := by omega
      subst this
      rw [searchLoop, if_neg (lt_irrefl _)]
      exact ⟨i, rfl, le_refl _, le_refl _, hlo, hhi⟩

theorem length_ofList {E : Type} (es : List E) : (ofList es).length = es.length := by
  simp [ofList]

theorem getElem?_ofList {E : Type} (es : List E) (i : Nat) :
    (ofList es)[i]? = (es[i]?).map some := by
  simp [ofList]

theorem keyAt_ofList {E : Type} (key : E → Nat) (es : List E) (i : Nat) (hi : i < es.length) :
    keyAt key (ofList es) i = some (key es[i]) := by
  simp only [keyAt]
  rw [getElem?_ofList, List.getElem?_eq_getElem hi]
  rfl

theorem asc_lt {E : Type} {key : E → Nat} {es : List E} (h : Ascending key es)
    {a b : Nat} (hb : b < es.length) (hab : a < b) :
    key (es[a]) < key es[b] :=
  (List.pairwise_iff_getElem.1 h) a b (by omega) hb hab

theorem asc_le {E : Type} {key : E → Nat} {es : List E} (h : Ascending key es)
    {a b : Nat} (hb : b < es.length) (hab : a ≤ b) :
    key (es[a]) ≤ key es[b] := by
  rcases Nat.eq_or_lt_of_le hab with h1 | h1
  · subst h1
    exact le_refl _
  · exact le_of_lt (asc_lt h hb h1)

/-- On an ascending list `search` returns the boundary index: the keys before it are smaller
than the key looked for, the keys from it on are not. -/
theorem search_spec {E : Type} (key : E → Nat) (es : List E) (hs : Ascending key es) (k : Nat) :
    ∃ r, entries.search key (ofList es) k = some r ∧ r ≤ es.length ∧
      (∀ q (hq : q < es.length), q < r → key es[q] < k) ∧
      (∀ q (hq : q < es.length), r ≤ q → k ≤ key es[q]) := by
  let p : Nat → Bool := fun q => match es[q]? with
    | some e => decide (key e ≥ k)
    | none => true
  have hp : ∀ q (hq : q < es.length), p q = decide (key es[q] ≥ k) := by
    intro q hq
    show (match es[q]? with
      | some e => decide (key e ≥ k)
      | none => true) = _
    rw [List.getElem?_eq_getElem hq]
  obtain ⟨r, hr, _, h2, h3, h4⟩ := searchLoop_spec p
    (fun i => (keyAt key (ofList es) i).map fun ki => decide (ki ≥ k)) es.length
    (by
      intro q hq
      show Option.map _ (keyAt key (ofList es) q) = _
      rw [keyAt_ofList key es q hq, hp q hq]
      rfl)
    (by
      intro a b hab hb ha
      rw [hp a (by omega)] at ha
      rw [hp b hb]
      have h1 := of_decide_eq_true ha
      have h2 := asc_le hs hb hab
      exact decide_eq_true (le_trans h1 h2))
    es.length 0 es.length (by omega) (Nat.zero_le _) (le_refl _)
    (by intro q hq; omega) (by intro q h1 h2; omega)
  refine ⟨r, ?_, h2, ?_, ?_⟩
  · simp only [entries.search, sortSearch, length_ofList]
    exact hr
  · intro q hq hqr
    have := h3 q hqr
    rw [hp q hq] at this
    exact Nat.lt_of_not_le (of_decide_eq_false this)
  · intro q hq hqr
    have := h4 q hqr hq
    rw [hp q hq] at this
    exact of_decide_eq_true this

/-! ## The slice operations of `insert` and `delete` -/

/-- Appending a nil, shifting the tail by one and storing at `r` inserts at `r`. -/
theorem sliceCopy_insert {α : Type} (s : List α) (z x : α) (r : Nat) (hr : r < s.length) :
    ∃ t, sliceCopy (s ++ [z]) (r + 1) r = some t ∧ r < t.length ∧
      t.set r x = s.take r ++ x :: s.drop r := by
  have hl : (s ++ [z]).length = s.length + 1 := by simp
  have hn : min ((s ++ [z]).length - (r + 1)) ((s ++ [z]).length - r) = s.length - r := by
    rw [hl]; omega
  refine ⟨_, by rw [sliceCopy, if_pos (by rw [hl]; omega)], ?_, ?_⟩
  · simp only [List.length_append, List.length_take, List.length_drop, hn, hl]
    omega
  · simp only [hn]
    have e1 : (s ++ [z]).take (r + 1) = s.take r ++ [s[r]] := by
      rw [List.take_append_of_le_length (by omega), List.take_succ,
        List.getElem?_eq_getElem hr]
      rfl
    have e2 : ((s ++ [z]).drop r).take (s.length - r) = s.drop r := by
      rw [List.drop_append_of_le_length (by omega), List.take_append_of_le_length (by simp)]
      exact List.take_of_length_le (by simp)
    have e3 : (s ++ [z]).drop (r + 1 + (s.length - r)) = [] :=
      List.drop_of_length_le (by rw [hl]; omega)
    have hm : r - min r s.length = 0 := by omega
    rw [e1, e2, e3, List.append_nil, List.append_assoc, List.set_append_right _ _ (by simp),
      List.length_take, hm]
    rfl

/-- Shifting the tail down by one, clearing the last element and cutting it off erases the
element at `r`. -/
theorem sliceCopy_delete {α : Type} (s : List α) (z : α) (r : Nat) (hr : r < s.length) :
    ∃ t, sliceCopy s r (r + 1) = some t ∧ 0 < t.length ∧
      (t.set (t.length - 1) z).take (t.length - 1) = s.eraseIdx r := by
  have hn : min (s.length - r) (s.length - (r + 1)) = s.length - (r + 1) := by omega
  have e2 : (s.drop (r + 1)).take (s.length - (r + 1)) = s.drop (r + 1) :=
    List.take_of_length_le (by simp)
  have hlen : (s.take r ++ s.drop (r + 1) ++ s.drop (r + (s.length - (r + 1)))).length =
      s.length := by
    simp only [List.length_append, List.length_take, List.length_drop]
    omega
  refine ⟨_, by rw [sliceCopy, if_pos (by omega)], ?_, ?_⟩
  · simp only [hn, e2]
    rw [hlen]
    omega
  · simp only [hn, e2]
    rw [hlen]
    apply List.ext_getElem?
    intro q
    rw [List.getElem?_eraseIdx]
    by_cases hq : q < s.length - 1
    · rw [List.getElem?_take_of_lt hq, List.getElem?_set_ne (by omega),
        List.getElem?_append_left (by simp; omega)]
      by_cases hqr : q < r
      · rw [if_pos hqr, List.getElem?_append_left (by simp; omega), List.getElem?_take_of_lt hqr]
      · rw [if_neg hqr, List.getElem?_append_right (by simp; omega), List.getElem?_drop]
        congr 1
        simp only [List.length_take]
        omega
    · rw [List.getElem?_eq_none (by simp; omega)]
      by_cases hqr : q < r
      · omega
      · rw [if_neg hqr, List.getElem?_eq_none (by omega)]
/-! ## Ascending lists -/

theorem asc_append {E : Type} {key : E → Nat} {es : List E} (h : Ascending key es)
    (e : E) (hlt : ∀ q (hq : q < es.length), key es[q] < key e) :
    Ascending key (es ++ [e]) := by
  unfold Ascending
  rw [List.pairwise_append]
  refine ⟨h, List.pairwise_singleton _ _, ?_⟩
  intro a ha b hb
  rw [List.mem_singleton] at hb
  subst hb
  obtain ⟨q, hq, rfl⟩ := List.getElem_of_mem ha
  exact hlt q hq

theorem asc_set {E : Type} {key : E → Nat} {es : List E} (h : Ascending key es)
    (e : E) (r : Nat) (hr : r < es.length) (hk : key es[r] = key e) :
    Ascending key (es.set r e) := by
  unfold Ascending at h ⊢
  rw [← List.pairwise_map] at h ⊢
  have : (es.set r e).map key = es.map key := by
    apply List.ext_getElem?
    intro q
    rw [List.getElem?_map, List.getElem?_map, List.getElem?_set]
    by_cases hq : r = q
    · subst hq
      rw [if_pos rfl, if_pos hr, List.getElem?_eq_getElem hr]
      simp only [Option.map, hk]
    · rw [if_neg hq]
  rw [this]
  exact h

theorem asc_insertAt {E : Type} {key : E → Nat} {es : List E} (h : Ascending key es)
    (e : E) (r : Nat) (hlo : ∀ q (hq : q < es.length), q < r → key es[q] < key e)
    (hhi : ∀ q (hq : q < es.length), r ≤ q → key e < key es[q]) :
    Ascending key (es.take r ++ e :: es.drop r) := by
  unfold Ascending
  rw [List.pairwise_append, List.pairwise_cons]
  have hdrop : ∀ b, b ∈ es.drop r → key e < key b := by
    intro b hb
    obtain ⟨q, hq, rfl⟩ := List.getElem_of_mem hb
    rw [List.getElem_drop]
    exact hhi _ (by simp at hq; omega) (by omega)
  have htake : ∀ a, a ∈ es.take r → key a < key e := by
    intro a ha
    obtain ⟨q, hq, rfl⟩ := List.getElem_of_mem ha
    rw [List.getElem_take]
    exact hlo _ (by simp at hq; omega) (by simp at hq; omega)
  refine ⟨List.Pairwise.sublist (List.take_sublist _ _) h,
    ⟨hdrop, List.Pairwise.sublist (List.drop_sublist _ _) h⟩, ?_⟩
  intro a ha b hb
  rw [List.mem_cons] at hb
  rcases hb with rfl | hb
  · exact htake a ha
  · exact lt_trans (htake a ha) (hdrop b hb)

theorem asc_eraseIdx {E : Type} {key : E → Nat} {es : List E} (h : Ascending key es)
    (r : Nat) : Ascending key (es.eraseIdx r) :=
  List.Pairwise.sublist (List.eraseIdx_sublist _ _) h

/-- In an ascending list the index of a key is unique. -/
theorem asc_index_unique {E : Type} {key : E → Nat} {es : List E} (h : Ascending key es)
    {a b : Nat} (ha : a < es.length) (hb : b < es.length) (hk : key es[a] = key es[b]) :
    a = b := by
  rcases Nat.lt_trichotomy a b with h1 | h1 | h1
  · have := asc_lt h hb h1
    omega
  · exact h1
  · have := asc_lt h ha h1
    omega

/-! ## Results of the methods on ascending lists -/

/-- The result of `insert` on an ascending list, by the boundary index `r` of the key. -/
theorem insert_result {E : Type} (key : E → Nat) (es : List E) (hs : Ascending key es)
    (e : E) :
    ∃ r, r ≤ es.length ∧ (∀ q (hq : q < es.length), q < r → key es[q] < key e) ∧
      (∀ q (hq : q < es.length), r ≤ q → key e ≤ key es[q]) ∧
      entries.insert key (ofList es) e = some
        (if h : r < es.length then
          (if key es[r] = key e then (ofList (es.set r e), some es[r])
            else (ofList (es.take r ++ e :: es.drop r), none))
          else (ofList (es ++ [e]), none)) := by
  obtain ⟨r, hr, hle, hlo, hhi⟩ := search_spec key es hs (key e)
  refine ⟨r, hle, hlo, hhi, ?_⟩
  simp only [entries.insert, hr, length_ofList]
  by_cases h : r < es.length
  · rw [dif_pos h, if_neg (by omega), keyAt_ofList key es r h]
    simp only
    by_cases hk : key es[r] = key e
    · rw [if_pos hk, if_pos hk, getElem?_ofList, List.getElem?_eq_getElem h]
      simp [ofList, List.map_set]
    · rw [if_neg hk, if_neg hk]
      obtain ⟨t, ht, hlt, hset⟩ := sliceCopy_insert (ofList es) none (some e) r
        (by rw [length_ofList]; exact h)
      rw [ht]
      simp only [if_pos hlt, hset]
      simp [ofList, List.map_take, List.map_drop]
  · have : r = es.length := by omega
    rw [dif_neg h, if_pos this]
    simp [ofList]

/-- The result of `delete` on an ascending list, by the boundary index `r` of the key. -/
theorem delete_result {E : Type} (key : E → Nat) (es : List E) (hs : Ascending key es)
    (k : Nat) :
    ∃ r, r ≤ es.length ∧ (∀ q (hq : q < es.length), q < r → key es[q] < k) ∧
      (∀ q (hq : q < es.length), r ≤ q → k ≤ key es[q]) ∧
      entries.delete key (ofList es) k = some
        (if h : r < es.length then
          (if key es[r] = k then (ofList (es.eraseIdx r), some es[r]) else (ofList es, none))
          else (ofList es, none)) := by
  obtain ⟨r, hr, hle, hlo, hhi⟩ := search_spec key es hs k
  refine ⟨r, hle, hlo, hhi, ?_⟩
  simp only [entries.delete, hr, length_ofList]
  by_cases h : r < es.length
  · rw [dif_pos h, if_neg (by omega), keyAt_ofList key es r h]
    simp only
    by_cases hk : key es[r] = k
    · rw [if_neg (not_not.2 hk), if_pos hk, getElem?_ofList, List.getElem?_eq_getElem h]
      obtain ⟨t, ht, hlt, hset⟩ := sliceCopy_delete (ofList es) none r
        (by rw [length_ofList]; exact h)
      simp only [Option.map, ht, if_pos hlt, hset]
      simp [ofList, List.eraseIdx_eq_take_drop_succ, List.map_take, List.map_drop]
    · rw [if_pos hk, if_neg hk]
  · have : r = es.length := by omega
    rw [dif_neg h, if_pos this]

/-- The result of `get` on an ascending list, by the boundary index `r` of the key. -/
theorem get_result {E : Type} (key : E → Nat) (es : List E) (hs : Ascending key es)
    (k : Nat) :
    ∃ r, r ≤ es.length ∧ (∀ q (hq : q < es.length), q < r → key es[q] < k) ∧
      (∀ q (hq : q < es.length), r ≤ q → k ≤ key es[q]) ∧
      entries.get key (ofList es) k = some
        (if h : r < es.length then (if key es[r] = k then some es[r] else none) else none) := by
  obtain ⟨r, hr, hle, hlo, hhi⟩ := search_spec key es hs k
  refine ⟨r, hle, hlo, hhi, ?_⟩
  simp only [entries.get, hr, length_ofList]
  by_cases h : r < es.length
  · rw [dif_pos h, if_neg (by omega), keyAt_ofList key es r h]
    simp only
    by_cases hk : key es[r] = k
    · rw [if_pos hk, if_pos hk, getElem?_ofList, List.getElem?_eq_getElem h]
      rfl
    · rw [if_neg hk, if_neg hk]
  · have : r = es.length := by omega
    rw [dif_neg h, if_pos this]

/-- On an ascending list `get` finds every entry under its key. -/
theorem get_of_mem {E : Type} (key : E → Nat) (es : List E) (hs : Ascending key es)
    (e : E) (he : e ∈ es) : entries.get key (ofList es) (key e) = some (some e) := by
  obtain ⟨r, hle, hlo, hhi, hg⟩ := get_result key es hs (key e)
  obtain ⟨q, hq, rfl⟩ := List.getElem_of_mem he
  have hrq : r ≤ q := by
    by_contra hc
    have := hlo q hq (by omega)
    omega
  have hr : r < es.length := by omega
  have hk : key es[r] = key es[q] := le_antisymm (asc_le hs hq hrq) (hhi r hr (le_refl _))
  have : r = q := asc_index_unique hs hr hq hk
  subst this
  rw [hg, dif_pos hr, if_pos rfl]

/-- On an ascending list `get` returns nil for a key that no entry has. -/
theorem get_of_not_mem {E : Type} (key : E → Nat) (es : List E) (hs : Ascending key es)
    (k : Nat) (hk : ∀ x, x ∈ es → key x ≠ k) : entries.get key (ofList es) k = some none := by
  obtain ⟨r, hle, hlo, hhi, hg⟩ := get_result key es hs k
  rw [hg]
  by_cases h : r < es.length
  · rw [dif_pos h, if_neg (hk _ (List.getElem_mem h))]
  · rw [dif_neg h]

/-- The result of `predecessor` on an ascending list, by the boundary index `r` of the key:
the entry at `r` when it has the key, else the entry before `r`, else nil and -1. -/
theorem predecessor_result {E : Type} (key : E → Nat) (es : List E) (hs : Ascending key es)
    (k : Nat) :
    ∃ r, r ≤ es.length ∧ (∀ q (hq : q < es.length), q < r → key es[q] < k) ∧
      (∀ q (hq : q < es.length), r ≤ q → k ≤ key es[q]) ∧
      ((∃ h : r < es.length, key es[r] = k ∧
          entries.predecessor key (ofList es) k = some (some es[r], (r : Int))) ∨
        ((∀ h : r < es.length, key es[r] ≠ k) ∧
          ((∃ h : r - 1 < es.length, 0 < r ∧
              entries.predecessor key (ofList es) k = some (some es[r - 1], (r : Int) - 1)) ∨
            (r = 0 ∧ entries.predecessor key (ofList es) k = some (none, -1))))) := by
  obtain ⟨r, hr, hle, hlo, hhi⟩ := search_spec key es hs k
  refine ⟨r, hle, hlo, hhi, ?_⟩
  by_cases h0 : es.length = 0
  · right
    have hr0 : r = 0 := by omega
    refine ⟨fun h => by omega, Or.inr ⟨hr0, ?_⟩⟩
    simp only [entries.predecessor, length_ofList, if_pos h0]
  · by_cases h : r < es.length
    · by_cases hk : key es[r] = k
      · left
        refine ⟨h, hk, ?_⟩
        simp only [entries.predecessor, length_ofList, if_neg h0, hr]
        rw [if_neg (by omega), keyAt_ofList key es r h]
        simp only [if_pos hk]
        rw [getElem?_ofList, List.getElem?_eq_getElem h]
        rfl
      · right
        refine ⟨fun _ => hk, ?_⟩
        by_cases hz : r = 0
        · right
          refine ⟨hz, ?_⟩
          simp only [entries.predecessor, length_ofList, if_neg h0, hr]
          rw [if_neg (by omega), keyAt_ofList key es r h]
          simp only [if_neg hk]
          rw [if_pos (by omega)]
        · left
          have h1 : r - 1 < es.length := by omega
          refine ⟨h1, by omega, ?_⟩
          simp only [entries.predecessor, length_ofList, if_neg h0, hr]
          rw [if_neg (by omega), keyAt_ofList key es r h]
          simp only [if_neg hk]
          have ht : ((r : Int) - 1).toNat = r - 1 := by omega
          rw [if_neg (by omega), ht, getElem?_ofList, List.getElem?_eq_getElem h1]
          rfl
    · right
      have hre : r = es.length := by omega
      refine ⟨fun h2 => absurd h2 h, Or.inl ⟨by omega, by omega, ?_⟩⟩
      simp only [entries.predecessor, length_ofList, if_neg h0, hr]
      rw [if_pos hre, if_neg (by omega), getElem?_ofList,
        List.getElem?_eq_getElem (show r - 1 < es.length by omega)]
      rfl

end yfast

namespace ctrie

/-! ## Claims on `removed`, `toCompressed`, key uniqueness and `newMainNode` -/

/-- Claim C31 fails without a bound on the length: on an array of `2 ^ 32 + 1` branches with
bit 0 set in the bitmap, `removed(0, 1)` does not return the array with the element at position
0 deleted, of length `2 ^ 32`; the `uint32` length is 1 and the array returned is empty. -/
theorem removed_wraps_length :
    0 < (List.replicate (2 ^ 32 + 1) (Branch.sNode ⟨[], 0, Value.nil⟩)).length ∧
    (1 : Nat).testBit 0 = true ∧
    CNode.removed ⟨1, List.replicate (2 ^ 32 + 1) (.sNode ⟨[], 0, Value.nil⟩)⟩ 0 1 =
      some ⟨1 ^^^ 1, []⟩ ∧
    ¬ ∃ c2, CNode.removed ⟨1, List.replicate (2 ^ 32 + 1) (.sNode ⟨[], 0, Value.nil⟩)⟩ 0 1 =
        some c2 ∧
      c2.array.length + 1 =
        (List.replicate (2 ^ 32 + 1) (Branch.sNode ⟨[], 0, Value.nil⟩)).length := by
  have h := removed_of_wrap
    ⟨1, List.replicate (2 ^ 32 + 1) (.sNode ⟨[], 0, Value.nil⟩)⟩ 0 1
    (List.length_replicate _ _) rfl
  refine ⟨by rw [List.length_replicate]; exact Nat.succ_pos _, by decide, h, ?_⟩
  rintro ⟨c2, h2, h3⟩
  rw [h] at h2
  cases h2
  rw [List.length_replicate] at h3
  exact absurd h3 (by norm_num)

/-- Claim C31, amended: for `pos < len(c.array)`, `len(c.array) < 2 ^ 32` and `flag` a single
bit set in `c.bmp`, `removed(pos, flag)` returns a new `cNode` whose array is `c.array` with the
element at `pos` deleted and the order of the others kept, of length `len(c.array) - 1`, and
whose bitmap is `c.bmp` with the flag bit cleared. -/
theorem removed_spec (c : CNode) (pos flag j : Nat) (hpos : pos < c.array.length)
    (hlen : c.array.length < 2 ^ 32) (hflag : flag = 2 ^ j) (hbit : c.bmp.testBit j = true) :
    ∃ c2, c.removed pos flag = some c2 ∧
      c2.array = c.array.eraseIdx pos ∧
      c2.array.length = c.array.length - 1 ∧
      (∀ i, i < pos → c2.array[i]? = c.array[i]?) ∧
      (∀ i, pos ≤ i → c2.array[i]? = c.array[i + 1]?) ∧
      c2.bmp = c.bmp ^^^ flag ∧ c2.bmp.testBit j = false ∧
      (∀ q, q ≠ j → c2.bmp.testBit q = c.bmp.testBit q) := by
  refine ⟨_, CNode.removed_eq c pos flag hpos hlen, rfl, ?_, ?_, ?_, rfl, ?_, ?_⟩
  · simp only [List.length_eraseIdx, if_pos hpos]
  · intro i hi
    simp only [List.getElem?_eraseIdx, if_pos hi]
  · intro i hi
    simp only [List.getElem?_eraseIdx, if_neg (Nat.not_lt.2 hi)]
  · subst hflag
    simp only [Nat.testBit_xor, Nat.testBit_two_pow]
    simp [hbit]
  · intro q hq
    subst hflag
    have : ¬ j = q := fun h => hq h.symm
    simp only [Nat.testBit_xor, Nat.testBit_two_pow]
    simp [this]

theorem removed_spec_witness :
    ∃ c2, CNode.removed ⟨6, [.sNode ⟨[1], 1, .obj 1⟩, .sNode ⟨[2], 2, .obj 2⟩]⟩ 0 2 = some c2 ∧
      c2.array = [Branch.sNode ⟨[1], 1, .obj 1⟩, .sNode ⟨[2], 2, .obj 2⟩].eraseIdx 0 ∧
      c2.array.length = 2 - 1 ∧
      (∀ i, i < 0 → c2.array[i]? =
        [Branch.sNode ⟨[1], 1, .obj 1⟩, .sNode ⟨[2], 2, .obj 2⟩][i]?) ∧
      (∀ i, 0 ≤ i → c2.array[i]? =
        [Branch.sNode ⟨[1], 1, .obj 1⟩, .sNode ⟨[2], 2, .obj 2⟩][i + 1]?) ∧
      c2.bmp = 6 ^^^ 2 ∧ c2.bmp.testBit 1 = false ∧
      (∀ q, q ≠ 1 → c2.bmp.testBit q = (6 : Nat).testBit q) :=
  removed_spec ⟨6, [.sNode ⟨[1], 1, .obj 1⟩, .sNode ⟨[2], 2, .obj 2⟩]⟩ 0 2 1 (by decide)
    (by norm_num) (by norm_num) (by decide)

/-- Claim C32: `toCompressed(cn, lev)` returns `toContracted` at level `lev` of the `cNode` with
the bitmap of `cn` and an array of the same length in which every `iNode` whose main node is a
tombed leaf is replaced by a leaf with the same key, hash and value, and every other branch is
kept at its position. -/
theorem toCompressed_spec (cn : CNode) (lev : Nat) :
    toCompressed cn lev = some (toContracted ⟨cn.bmp, cn.array.map specResurrected⟩ lev) ∧
      (cn.array.map specResurrected).length = cn.array.length ∧
      ∀ i : Nat, (cn.array.map specResurrected)[i]? = (cn.array[i]?).map specResurrected :=
  ⟨toCompressed_eq cn lev, List.length_map _ _, fun _ => List.getElem?_map _ _ _⟩

/-- Claim C33: in every trie reachable from `New()` by `Insert` / `Remove` under a fixed hash
function `H`, the leaves reachable from the root (leaf branches, tombed leaves, entries of
collision lists) carry pairwise different keys, and the stored hash of every leaf is the 64-bit
hash `H` of its key. -/
theorem reachable_keys_unique {H : Key → Nat} {c : Ctrie} (h : Reachable H c) :
    (c.root.leaves.map Entry.key).Nodup ∧
      ∀ sn, sn ∈ c.root.leaves → sn.hash = H sn.key % 2 ^ 64 := by
  refine ⟨?_, fun sn hsn => (Inv_leaves H 7 0 _ c.root h.inv.2 sn hsn).1⟩
  rw [List.Nodup, List.pairwise_map]
  exact leaves_pairwise H 7 0 _ c.root h.inv.2 h.lok

theorem reachable_keys_unique_witness :
    Reachable stressHash stressTrie2 ∧
    (stressTrie2.root.leaves.map Entry.key).Nodup ∧
      ∀ sn, sn ∈ stressTrie2.root.leaves → sn.hash = stressHash sn.key % 2 ^ 64 :=
  ⟨stressTrie2_reachable, reachable_keys_unique stressTrie2_reachable⟩

/-- Claim C34: `newMainNode` is total, and its recursion is bounded: a recursive call is made
exactly when `lev < 35` and the two 5-bit indices are equal, it is a call at level `lev + 5`,
and a budget of `ceil((35 - lev) / 5)` nested recursive calls, 7 from level 0, is enough for
the result; at `lev >= 35` the collision list is returned without any recursive call. -/
theorem newMainNode_terminates (x : Entry) (xhc : Nat) (y : Entry) (yhc lev : Nat) :
    (∀ fuel, (35 - lev + 4) / 5 ≤ fuel →
      newMainNodeFuel fuel x xhc y yhc lev = some (newMainNode x xhc y yhc lev)) ∧
    newMainNodeFuel 7 x xhc y yhc 0 = some (newMainNode x xhc y yhc 0) ∧
    (35 ≤ lev → newMainNodeFuel 0 x xhc y yhc lev = some (.lNode [x, y]) ∧
      newMainNode x xhc y yhc lev = .lNode [x, y]) ∧
    (newMainNodeFuel 0 x xhc y yhc lev = none ↔
      lev < 35 ∧ hashIdx xhc lev = hashIdx yhc lev) ∧
    (lev < 35 → hashIdx xhc lev = hashIdx yhc lev → ∀ fuel,
      newMainNodeFuel (fuel + 1) x xhc y yhc lev =
        (newMainNodeFuel fuel x xhc y yhc (lev + 5)).map fun main =>
          .cNode (2 ^ hashIdx xhc lev) [.iNode main]) := by
  refine ⟨fun fuel => newMainNodeFuel_eq x xhc y yhc fuel lev,
    newMainNodeFuel_eq x xhc y yhc 7 0 (by norm_num), ?_, ?_, ?_⟩
  · intro h
    have hb := newMainNode_bottom x xhc y yhc lev (by omega)
    refine ⟨?_, hb⟩
    rw [newMainNodeFuel_zero x xhc y yhc lev (fun hc => by omega), hb]
  · constructor
    · intro hn
      by_contra hc
      rw [newMainNodeFuel_zero x xhc y yhc lev hc] at hn
      cases hn
    · rintro ⟨h1, h2⟩
      exact newMainNodeFuel_none x xhc y yhc lev h1 h2
  · intro h1 h2 fuel
    exact newMainNodeFuel_succ x xhc y yhc lev h1 h2 fuel

theorem newMainNode_terminates_witness :
    newMainNodeFuel 7 ⟨[1], 0, .obj 1⟩ 0 ⟨[2], 0, .obj 2⟩ 0 0 =
      some (newMainNode ⟨[1], 0, .obj 1⟩ 0 ⟨[2], 0, .obj 2⟩ 0 0) ∧
    newMainNodeFuel 6 ⟨[1], 0, .obj 1⟩ 0 ⟨[2], 0, .obj 2⟩ 0 0 = none :=
  ⟨(newMainNode_terminates ⟨[1], 0, .obj 1⟩ 0 ⟨[2], 0, .obj 2⟩ 0 0).2.1, rfl⟩

end ctrie

namespace yfast

/-! ## Claims on the sorted entry slices of the y-fast trie -/

/-- Claim C35: if an entries list is strictly ascending by `Key()`, then `insert(e)` for any
entry `e` and `delete(key)` for any key return, and the list afterwards is again strictly
ascending by `Key()`. -/
theorem entries_stay_ascending {E : Type} (key : E → Nat) (es : List E)
    (hs : Ascending key es) :
    (∀ e : E, ∃ es2 old, entries.insert key (ofList es) e = some (ofList es2, old) ∧
      Ascending key es2) ∧
    (∀ k : Nat, ∃ es2 old, entries.delete key (ofList es) k = some (ofList es2, old) ∧
      Ascending key es2) := by
  constructor
  · intro e
    obtain ⟨r, hle, hlo, hhi, hi⟩ := insert_result key es hs e
    by_cases h : r < es.length
    · by_cases hk : key es[r] = key e
      · rw [dif_pos h, if_pos hk] at hi
        exact ⟨_, _, hi, asc_set hs e r h hk⟩
      · rw [dif_pos h, if_neg hk] at hi
        refine ⟨_, _, hi, asc_insertAt hs e r hlo ?_⟩
        intro q hq hrq
        have h1 := hhi r h (le_refl _)
        have h2 := asc_le hs hq hrq
        omega
    · rw [dif_neg h] at hi
      exact ⟨_, _, hi, asc_append hs e (fun q hq => hlo q hq (by omega))⟩
  · intro k
    obtain ⟨r, hle, hlo, hhi, hd⟩ := delete_result key es hs k
    by_cases h : r < es.length
    · by_cases hk : key es[r] = k
      · rw [dif_pos h, if_pos hk] at hd
        exact ⟨_, _, hd, asc_eraseIdx hs r⟩
      · rw [dif_pos h, if_neg hk] at hd
        exact ⟨_, _, hd, hs⟩
    · rw [dif_neg h] at hd
      exact ⟨_, _, hd, hs⟩

theorem entries_stay_ascending_witness :
    Ascending (fun n : Nat => n) [1, 3, 5] ∧
    (∀ e : Nat, ∃ es2 old,
      entries.insert (fun n : Nat => n) (ofList [1, 3, 5]) e = some (ofList es2, old) ∧
      Ascending (fun n : Nat => n) es2) ∧
    (∀ k : Nat, ∃ es2 old,
      entries.delete (fun n : Nat => n) (ofList [1, 3, 5]) k = some (ofList es2, old) ∧
      Ascending (fun n : Nat => n) es2) :=
  ⟨by simp [Ascending], entries_stay_ascending (fun n : Nat => n) [1, 3, 5] (by simp [Ascending])⟩

/-- Claim C36: for an entries list strictly ascending by `Key()` and any entry `e`, `insert(e)`
returns the entry stored under `e.Key()` when there is one, and then the length is unchanged and
that entry is replaced by `e`; it returns nil otherwise, and then the length grows by one and
all previous entries are kept in order around `e`; in both cases `get(e.Key())` afterwards
returns `e`. -/
theorem entries_insert_spec {E : Type} (key : E → Nat) (es : List E) (hs : Ascending key es)
    (e : E) :
    ∃ es2 old, entries.insert key (ofList es) e = some (ofList es2, old) ∧
      (∀ i (hi : i < es.length), key es[i] = key e →
        old = some es[i] ∧ es2.length = es.length ∧ es2 = es.set i e) ∧
      ((∀ x, x ∈ es → key x ≠ key e) →
        old = none ∧ es2.length = es.length + 1 ∧
          ∃ i, i ≤ es.length ∧ es2 = es.take i ++ e :: es.drop i) ∧
      entries.get key (ofList es2) (key e) = some (some e) := by
  obtain ⟨r, hle, hlo, hhi, hi⟩ := insert_result key es hs e
  have hfind : ∀ i (hi : i < es.length), key es[i] = key e →
      ∃ h : r < es.length, key es[r] = key e ∧ i = r := by
    intro i hi hk
    have hri : r ≤ i := by
      by_contra hc
      have := hlo i hi (by omega)
      omega
    have hr : r < es.length := by omega
    have hkr : key es[r] = key e := by
      have h1 := hhi r hr (le_refl _)
      have h2 := asc_le hs hi hri
      omega
    exact ⟨hr, hkr, asc_index_unique hs hi hr (by rw [hk, hkr])⟩
  by_cases h : r < es.length
  · by_cases hk : key es[r] = key e
    · rw [dif_pos h, if_pos hk] at hi
      refine ⟨_, _, hi, ?_, ?_, ?_⟩
      · intro i hi2 hk2
        obtain ⟨_, _, rfl⟩ := hfind i hi2 hk2
        exact ⟨rfl, List.length_set _ _ _, rfl⟩
      · intro hno
        exact absurd hk (hno _ (List.getElem_mem h))
      · refine get_of_mem key _ (asc_set hs e r h hk) e ?_
        have hl : r < (es.set r e).length := by rw [List.length_set]; exact h
        have := List.getElem_mem hl
        rwa [List.getElem_set_self] at this
    · rw [dif_pos h, if_neg hk] at hi
      have hasc : Ascending key (es.take r ++ e :: es.drop r) := by
        refine asc_insertAt hs e r hlo ?_
        intro q hq hrq
        have h1 := hhi r h (le_refl _)
        have h2 := asc_le hs hq hrq
        omega
      refine ⟨_, _, hi, ?_, ?_, ?_⟩
      · intro i hi2 hk2
        obtain ⟨_, hkr, _⟩ := hfind i hi2 hk2
        exact absurd hkr hk
      · intro _
        refine ⟨rfl, ?_, r, hle, rfl⟩
        simp only [List.length_append, List.length_take, List.length_cons, List.length_drop]
        omega
      · exact get_of_mem key _ hasc e (by simp)
  · rw [dif_neg h] at hi
    have hre : r = es.length := by omega
    refine ⟨_, _, hi, ?_, ?_, ?_⟩
    · intro i hi2 hk2
      obtain ⟨hr, _, _⟩ := hfind i hi2 hk2
      exact absurd hr h
    · intro _
      refine ⟨rfl, by simp, es.length, le_refl _, ?_⟩
      simp
    · exact get_of_mem key _ (asc_append hs e (fun q hq => hlo q hq (by omega))) e (by simp)

theorem entries_insert_spec_witness :
    Ascending (fun p : Nat × Nat => p.1) [(1, 10), (3, 30)] ∧
    ∃ es2 old, entries.insert (fun p : Nat × Nat => p.1) (ofList [(1, 10), (3, 30)]) (3, 31) =
        some (ofList es2, old) ∧
      (∀ i (hi : i < [(1, 10), (3, 30)].length), ([(1, 10), (3, 30)][i]).1 = 3 →
        old = some [(1, 10), (3, 30)][i] ∧ es2.length = [(1, 10), (3, 30)].length ∧
          es2 = [(1, 10), (3, 30)].set i (3, 31)) ∧
      ((∀ x : Nat × Nat, x ∈ [(1, 10), (3, 30)] → x.1 ≠ 3) →
        old = none ∧ es2.length = [(1, 10), (3, 30)].length + 1 ∧
          ∃ i, i ≤ [(1, 10), (3, 30)].length ∧
            es2 = [(1, 10), (3, 30)].take i ++ (3, 31) :: [(1, 10), (3, 30)].drop i) ∧
      entries.get (fun p : Nat × Nat => p.1) (ofList es2) 3 = some (some (3, 31)) :=
  ⟨by simp [Ascending],
    entries_insert_spec (fun p : Nat × Nat => p.1) [(1, 10), (3, 30)] (by simp [Ascending])
      (3, 31)⟩

/-- Claim C37: for an entries list strictly ascending by `Key()` and any key, `delete(key)`
returns the entry stored under the key and removes exactly that entry (the length shrinks by
one, all other entries are kept in order) when the key is present, and returns nil and leaves
the list unchanged when it is not; afterwards `get(key)` returns nil. -/
theorem entries_delete_spec {E : Type} (key : E → Nat) (es : List E) (hs : Ascending key es)
    (k : Nat) :
    ∃ es2 old, entries.delete key (ofList es) k = some (ofList es2, old) ∧
      (∀ i (hi : i < es.length), key es[i] = k →
        old = some es[i] ∧ es2.length + 1 = es.length ∧ es2 = es.eraseIdx i) ∧
      ((∀ x, x ∈ es → key x ≠ k) → old = none ∧ es2 = es) ∧
      entries.get key (ofList es2) k = some none := by
  obtain ⟨r, hle, hlo, hhi, hd⟩ := delete_result key es hs k
  have hfind : ∀ i (hi : i < es.length), key es[i] = k →
      ∃ h : r < es.length, key es[r] = k ∧ i = r := by
    intro i hi hk
    have hri : r ≤ i := by
      by_contra hc
      have := hlo i hi (by omega)
      omega
    have hr : r < es.length := by omega
    have hkr : key es[r] = k := by
      have h1 := hhi r hr (le_refl _)
      have h2 := asc_le hs hi hri
      omega
    exact ⟨hr, hkr, asc_index_unique hs hi hr (by rw [hk, hkr])⟩
  have habs : (∀ i (hi : i < es.length), key es[i] ≠ k) →
      entries.get key (ofList es) k = some none := by
    intro hno
    refine get_of_not_mem key es hs k ?_
    intro x hx
    obtain ⟨q, hq, rfl⟩ := List.getElem_of_mem hx
    exact hno q hq
  by_cases h : r < es.length
  · by_cases hk : key es[r] = k
    · rw [dif_pos h, if_pos hk] at hd
      refine ⟨_, _, hd, ?_, ?_, ?_⟩
      · intro i hi2 hk2
        obtain ⟨_, _, rfl⟩ := hfind i hi2 hk2
        refine ⟨rfl, ?_, rfl⟩
        rw [List.length_eraseIdx, if_pos h]
        omega
      · intro hno
        exact absurd hk (hno _ (List.getElem_mem h))
      · refine get_of_not_mem key _ (asc_eraseIdx hs r) k ?_
        intro x hx hxk
        obtain ⟨q, hq, hqx⟩ := List.getElem_of_mem hx
        have hget : (es.eraseIdx r)[q]? = some x := by
          rw [List.getElem?_eq_getElem hq, hqx]
        rw [List.getElem?_eraseIdx] at hget
        by_cases hqr : q < r
        · rw [if_pos hqr] at hget
          obtain ⟨hq2, he⟩ := List.getElem?_eq_some.1 hget
          subst he
          obtain ⟨_, _, hqr2⟩ := hfind q hq2 hxk
          omega
        · rw [if_neg hqr] at hget
          obtain ⟨hq2, he⟩ := List.getElem?_eq_some.1 hget
          subst he
          obtain ⟨_, _, hqr2⟩ := hfind (q + 1) hq2 hxk
          omega
    · rw [dif_pos h, if_neg hk] at hd
      refine ⟨_, _, hd, ?_, fun _ => ⟨rfl, rfl⟩, ?_⟩
      · intro i hi2 hk2
        obtain ⟨_, hkr, _⟩ := hfind i hi2 hk2
        exact absurd hkr hk
      · refine habs ?_
        intro i hi2 hk2
        obtain ⟨_, hkr, _⟩ := hfind i hi2 hk2
        exact absurd hkr hk
  · rw [dif_neg h] at hd
    refine ⟨_, _, hd, ?_, fun _ => ⟨rfl, rfl⟩, ?_⟩
    · intro i hi2 hk2
      obtain ⟨hr, _, _⟩ := hfind i hi2 hk2
      exact absurd hr h
    · refine habs ?_
      intro i hi2 hk2
      obtain ⟨hr, _, _⟩ := hfind i hi2 hk2
      exact absurd hr h

theorem entries_delete_spec_witness :
    Ascending (fun n : Nat => n) [1, 3, 5] ∧
    ∃ es2 old, entries.delete (fun n : Nat => n) (ofList [1, 3, 5]) 3 =
        some (ofList es2, old) ∧
      (∀ i (hi : i < [1, 3, 5].length), [1, 3, 5][i] = 3 →
        old = some [1, 3, 5][i] ∧ es2.length + 1 = [1, 3, 5].length ∧
          es2 = [1, 3, 5].eraseIdx i) ∧
      ((∀ x, x ∈ [1, 3, 5] → x ≠ 3) → old = none ∧ es2 = [1, 3, 5]) ∧
      entries.get (fun n : Nat => n) (ofList es2) 3 = some none :=
  ⟨by simp [Ascending],
    entries_delete_spec (fun n : Nat => n) [1, 3, 5] (by simp [Ascending]) 3⟩

/-- Claim C38: for an entries list strictly ascending by `Key()` and any key,
`predecessor(key)` returns without indexing out of bounds; it returns `(entries[i], i)` for the
index `i` of the entry with the greatest key less than or equal to the key, and it returns
`(nil, -1)` exactly when no entry has a key less than or equal to the key, the empty list
included. -/
theorem entries_predecessor_spec {E : Type} (key : E → Nat) (es : List E)
    (hs : Ascending key es) (k : Nat) :
    ∃ res, entries.predecessor key (ofList es) k = some res ∧
      (∀ i (hi : i < es.length), key es[i] ≤ k →
        (∀ j (hj : j < es.length), key es[j] ≤ k → key es[j] ≤ key es[i]) →
        res = (some es[i], (i : Int))) ∧
      (res = (none, -1) ↔ ∀ x, x ∈ es → k < key x) := by
  obtain ⟨r, hle, hlo, hhi, hp⟩ := predecessor_result key es hs k
  rcases hp with ⟨h, hk, hp⟩ | ⟨hne, ⟨h1, hr0, hp⟩ | ⟨hr0, hp⟩⟩
  · refine ⟨_, hp, ?_, ?_⟩
    · intro i hi hik hmax
      have h2 := hmax r h (le_of_eq hk)
      have : i = r := asc_index_unique hs hi h (by omega)
      subst this
      rfl
    · constructor
      · intro he
        cases he
      · intro hall
        have := hall _ (List.getElem_mem h)
        omega
  · have hlt : key es[r - 1] < k := hlo (r - 1) h1 (by omega)
    refine ⟨_, hp, ?_, ?_⟩
    · intro i hi hik hmax
      have h2 := hmax (r - 1) h1 (le_of_lt hlt)
      have hir : i < r := by
        by_contra hc
        have hr : r < es.length := by omega
        have h3 := hhi r hr (le_refl _)
        have h4 := asc_le hs hi (show r ≤ i by omega)
        have h5 := hne hr
        omega
      have h6 := asc_le hs h1 (show i ≤ r - 1 by omega)
      have : i = r - 1 := asc_index_unique hs hi h1 (by omega)
      subst this
      have hc : ((r - 1 : Nat) : Int) = (r : Int) - 1 := by omega
      rw [hc]
    · constructor
      · intro he
        cases he
      · intro hall
        have := hall _ (List.getElem_mem h1)
        omega
  · subst hr0
    refine ⟨_, hp, ?_, ?_⟩
    · intro i hi hik _
      have h3 := hhi 0 (by omega) (le_refl _)
      have h4 := asc_le hs hi (Nat.zero_le i)
      have h5 := hne (by omega)
      omega
    · refine ⟨fun _ => ?_, fun _ => rfl⟩
      intro x hx
      obtain ⟨q, hq, rfl⟩ := List.getElem_of_mem hx
      have h3 := hhi 0 (by omega) (le_refl _)
      have h4 := asc_le hs hq (Nat.zero_le q)
      have h5 := hne (by omega)
      omega

theorem entries_predecessor_spec_witness :
    Ascending (fun n : Nat => n) [1, 3, 5] ∧
    ∃ res, entries.predecessor (fun n : Nat => n) (ofList [1, 3, 5]) 4 = some res ∧
      (∀ i (hi : i < [1, 3, 5].length), [1, 3, 5][i] ≤ 4 →
        (∀ j (hj : j < [1, 3, 5].length), [1, 3, 5][j] ≤ 4 → [1, 3, 5][j] ≤ [1, 3, 5][i]) →
        res = (some [1, 3, 5][i], (i : Int))) ∧
      (res = (none, -1) ↔ ∀ x, x ∈ [1, 3, 5] → 4 < x) :=
  ⟨by simp [Ascending],
    entries_predecessor_spec (fun n : Nat => n) [1, 3, 5] (by simp [Ascending]) 4⟩

end yfast

namespace ctrie


end ctrie
